import Mathlib

/-!
# A verification development for `posfix_calculator`

The development embeds the three layers of the repository:

* `LList.hpp`  : a doubly-linked list whose nodes live on a heap; the list object
  itself is the triple `head`, `tail`, `count`;
* `Stack.hpp`  : the LIFO adaptor forwarding to the back end of the list;
* `postfix_calc.cpp` : `precedence`, `infix2postfix` and `eval_postfix`, both
  running on a `Stack`.

Pointers are `Option Nat` (`none` is `nullptr`), the heap is a finite table of
cells, `new` takes the lowest free cell and throws `bad_alloc` when the address
space is exhausted, dereferencing a null or dangling pointer is the error
`undefined`.  `size_t` arithmetic is done modulo `2 ^ 64`, `int` arithmetic is
checked against the 32-bit range.
-/

set_option autoImplicit false

/-! ## Failures -/

/-- The ways in which an operation can fail: the two standard exceptions thrown by the
list, an allocation failure of `new`, the exceptions of `std::stoi`, and undefined
behaviour (null or dangling dereference, signed overflow, division by zero). -/
inductive Err where
  | out_of_range
  | invalid_argument
  | bad_alloc
  | undefined
deriving DecidableEq, Repr

/-! ## Heap of nodes -/

/-- A node pointer; `none` is `nullptr`. -/
abbrev Ptr := Option Nat

/-- The struct `Node<T>` of `LList.hpp`. -/
structure Node (T : Type) where
  data : T
  prev : Ptr
  next : Ptr
deriving DecidableEq, Repr

/-- The free store holding the nodes: cell `a` is `some n` when a live node sits at
address `a`, and `none` when the address is free. -/
structure Heap (T : Type) where
  cells : List (Option (Node T))
deriving DecidableEq, Repr

/-- Number of distinct node addresses of the machine. -/
def maxNodes : Nat := 2 ^ 64 - 1

/-- Increment of a `size_t`. -/
def size_t_inc (n : Nat) : Nat := (n + 1) % 2 ^ 64

/-- Decrement of a `size_t`. -/
def size_t_dec (n : Nat) : Nat := (n + 2 ^ 64 - 1) % 2 ^ 64

namespace Heap

variable {T : Type}

/-- The heap without any node. -/
def init : Heap T := ⟨[]⟩

/-- The live node at address `a`, if any. -/
def get (h : Heap T) (a : Nat) : Option (Node T) :=
  match h.cells[a]? with
  | some (some n) => some n
  | _ => none

/-- Dereference of a pointer. -/
def read (h : Heap T) : Ptr → Except Err (Node T)
  | none => .error .undefined
  | some a =>
    match h.get a with
    | some n => .ok n
    | none => .error .undefined

/-- Overwrite the cell at address `a`. -/
def write (h : Heap T) (a : Nat) (n : Node T) : Heap T :=
  ⟨h.cells.set a (some n)⟩

/-- The assignment `p->prev = v`. -/
def setPrev (h : Heap T) (p : Ptr) (v : Ptr) : Except Err (Heap T) :=
  match p with
  | none => .error .undefined
  | some a =>
    match h.get a with
    | some n => .ok (h.write a { n with prev := v })
    | none => .error .undefined

/-- The assignment `p->next = v`. -/
def setNext (h : Heap T) (p : Ptr) (v : Ptr) : Except Err (Heap T) :=
  match p with
  | none => .error .undefined
  | some a =>
    match h.get a with
    | some n => .ok (h.write a { n with next := v })
    | none => .error .undefined

/-- Lowest free address inside the table. -/
def firstFree : List (Option (Node T)) → Option Nat
  | [] => none
  | none :: _ => some 0
  | some _ :: cs => (firstFree cs).map (· + 1)

/-- The expression `new Node<T>(...)`: the lowest free cell is taken, the table grows when
it has no free cell, and `bad_alloc` is thrown when it cannot grow. -/
def alloc (h : Heap T) (n : Node T) : Except Err (Heap T × Nat) :=
  match firstFree h.cells with
  | some a => .ok (⟨h.cells.set a (some n)⟩, a)
  | none =>
    if h.cells.length < maxNodes then .ok (⟨h.cells ++ [some n]⟩, h.cells.length)
    else .error .bad_alloc

/-- The statement `delete p`: a no-op on `nullptr`, undefined on a dangling pointer. -/
def delete (h : Heap T) : Ptr → Except Err (Heap T)
  | none => .ok h
  | some a =>
    match h.get a with
    | some _ => .ok ⟨h.cells.set a none⟩
    | none => .error .undefined

/-- Number of nodes that can still be allocated. -/
def room (h : Heap T) : Nat :=
  (h.cells.filter Option.isNone).length + (maxNodes - h.cells.length)

end Heap

/-! ## The list `LList<T>` -/

/-- The data members of `LList<T>`. -/
structure LList (T : Type) where
  head : Ptr
  tail : Ptr
  count : Nat
deriving DecidableEq, Repr

/-- The struct `LList<T>::BiDirectionalIterator`. -/
structure BiDirectionalIterator where
  current : Ptr
deriving DecidableEq, Repr

namespace BiDirectionalIterator

variable {T : Type}

/-- Dereference `*it`. -/
def deref (h : Heap T) (it : BiDirectionalIterator) : Except Err T := do
  let n ← h.read it.current
  pure n.data

/-- Pre-increment `++it`. -/
def incr (h : Heap T) (it : BiDirectionalIterator) : Except Err BiDirectionalIterator := do
  let n ← h.read it.current
  pure ⟨n.next⟩

/-- Pre-decrement `--it`. -/
def decr (h : Heap T) (it : BiDirectionalIterator) : Except Err BiDirectionalIterator := do
  let n ← h.read it.current
  pure ⟨n.prev⟩

/-- The iterator obtained from `it` by `k` increments. -/
def advance (h : Heap T) : Nat → BiDirectionalIterator → Except Err BiDirectionalIterator
  | 0, it => pure it
  | k + 1, it => do
    let it1 ← incr h it
    advance h k it1

end BiDirectionalIterator

namespace LList

variable {T : Type}

/-- The default constructor `LList()`. -/
def mk0 : LList T := ⟨none, none, 0⟩

/-- The member `begin()`. -/
def begin_ (l : LList T) : BiDirectionalIterator := ⟨l.head⟩

/-- The member `end()`. -/
def end_ (_l : LList T) : BiDirectionalIterator := ⟨none⟩

/-- The member `empty()`: `begin() == end()`. -/
def empty (l : LList T) : Bool := decide (l.begin_.current = l.end_.current)

/-- The member `size()`. -/
def size (l : LList T) : Nat := l.count

/-- The member `front()`. -/
def front (h : Heap T) (l : LList T) : Except Err T :=
  if l.head = none then .error .out_of_range
  else do
    let n ← h.read l.head
    pure n.data

/-- The member `back()`. -/
def back (h : Heap T) (l : LList T) : Except Err T :=
  if l.empty then .error .out_of_range
  else do
    let n ← h.read l.tail
    pure n.data

/-- The member `push_front(value)`. -/
def push_front (h : Heap T) (l : LList T) (value : T) : Except Err (Heap T × LList T) := do
  let (h1, a) ← h.alloc ⟨value, none, l.head⟩
  let new_node : Ptr := some a
  if l.empty then
    pure (h1, ⟨new_node, new_node, size_t_inc l.count⟩)
  else do
    let h2 ← h1.setPrev l.head new_node
    pure (h2, ⟨new_node, l.tail, size_t_inc l.count⟩)

/-- The member `pop_front()`. -/
def pop_front (h : Heap T) (l : LList T) : Except Err (Heap T × LList T) :=
  if !l.empty then do
    let temp := l.head
    let n ← h.read l.head
    let head := n.next
    if head ≠ none then do
      let h1 ← h.setPrev head none
      let h2 ← h1.delete temp
      pure (h2, ⟨head, l.tail, size_t_dec l.count⟩)
    else do
      let h2 ← h.delete temp
      pure (h2, ⟨head, none, size_t_dec l.count⟩)
  else pure (h, l)

/-- The member `push_back(value)`. -/
def push_back (h : Heap T) (l : LList T) (value : T) : Except Err (Heap T × LList T) := do
  let (h1, a) ← h.alloc ⟨value, l.tail, none⟩
  let new_node : Ptr := some a
  if l.empty then
    pure (h1, ⟨new_node, new_node, size_t_inc l.count⟩)
  else do
    let h2 ← h1.setNext l.tail new_node
    pure (h2, ⟨l.head, new_node, size_t_inc l.count⟩)

/-- The member `pop_back()`. -/
def pop_back (h : Heap T) (l : LList T) : Except Err (Heap T × LList T) :=
  if !l.empty then do
    let temp := l.tail
    let n ← h.read l.tail
    let tail := n.prev
    if tail ≠ none then do
      let h1 ← h.setNext tail none
      let h2 ← h1.delete temp
      pure (h2, ⟨l.head, tail, size_t_dec l.count⟩)
    else do
      let h2 ← h.delete temp
      pure (h2, ⟨none, tail, size_t_dec l.count⟩)
  else pure (h, l)

/-- The member `insert(position, value)`; the result carries the returned iterator. -/
def insert (h : Heap T) (l : LList T) (position : BiDirectionalIterator) (value : T) :
    Except Err (Heap T × LList T × BiDirectionalIterator) :=
  if position = l.end_ then do
    let (h1, l1) ← push_back h l value
    pure (h1, l1, ⟨l1.tail⟩)
  else do
    let current := position.current
    let c ← h.read current
    let (h1, a) ← h.alloc ⟨value, c.prev, current⟩
    let new_node : Ptr := some a
    let c1 ← h1.read current
    let (h2, head) ←
      (if c1.prev ≠ none then do
        let h2 ← h1.setNext c1.prev new_node
        pure (h2, l.head)
      else pure (h1, new_node) : Except Err (Heap T × Ptr))
    let h3 ← h2.setPrev current new_node
    let nn ← h3.read new_node
    let tail := if current = l.tail then nn.next else l.tail
    pure (h3, ⟨head, tail, size_t_inc l.count⟩, ⟨new_node⟩)

/-- The member `erase(position)`; the result carries the returned iterator. -/
def erase (h : Heap T) (l : LList T) (position : BiDirectionalIterator) :
    Except Err (Heap T × LList T × BiDirectionalIterator) :=
  if position = l.end_ then .error .invalid_argument
  else do
    let current := position.current
    let c ← h.read current
    let (h1, head) ←
      (if c.prev ≠ none then do
        let h1 ← h.setNext c.prev c.next
        pure (h1, l.head)
      else pure (h, c.next) : Except Err (Heap T × Ptr))
    let c1 ← h1.read current
    let (h2, tail) ←
      (if c1.next ≠ none then do
        let h2 ← h1.setPrev c1.next c1.prev
        pure (h2, l.tail)
      else pure (h1, c1.prev) : Except Err (Heap T × Ptr))
    let c2 ← h2.read current
    let next_node : BiDirectionalIterator := ⟨c2.next⟩
    let h3 ← h2.delete current
    pure (h3, ⟨head, tail, size_t_dec l.count⟩, next_node)

/-- The member `swap(other)`: the pair is the receiver and `other` afterwards. -/
def swap (l other : LList T) : LList T × LList T :=
  (⟨other.head, other.tail, other.count⟩, ⟨l.head, l.tail, l.count⟩)

/-- The loop of `clear()`, bounded by a number of iterations. -/
def clearLoop : Nat → Heap T → LList T → Except Err (Heap T × LList T)
  | 0, h, l => if l.empty then pure (h, l) else .error .undefined
  | k + 1, h, l =>
    if l.empty then pure (h, l)
    else do
      let (h1, l1) ← pop_front h l
      clearLoop k h1 l1

/-- The member `clear()`.  Every iteration of its loop deletes a live node, so the size of
the heap table bounds the number of iterations. -/
def clear (h : Heap T) (l : LList T) : Except Err (Heap T × LList T) :=
  clearLoop h.cells.length h l

end LList

/-! ## The adaptor `Stack<T>` -/

/-- The class `Stack<T>`: a list seen through its back end (protected inheritance). -/
abbrev Stack (T : Type) := LList T

namespace Stack

variable {T : Type}

/-- The default constructor `Stack()`. -/
def mk0 : Stack T := LList.mk0

/-- The member `Stack::empty()`. -/
def empty (s : Stack T) : Bool := LList.empty s

/-- The member `Stack::size()`. -/
def size (s : Stack T) : Nat := LList.size s

/-- The member `Stack::top()`. -/
def top (h : Heap T) (s : Stack T) : Except Err T := LList.back h s

/-- The member `Stack::push(value)`. -/
def push (h : Heap T) (s : Stack T) (value : T) : Except Err (Heap T × Stack T) :=
  LList.push_back h s value

/-- The member `Stack::pop()`. -/
def pop (h : Heap T) (s : Stack T) : Except Err (Heap T × Stack T) :=
  LList.pop_back h s

/-- The member `Stack::swap(other)`. -/
def swap (s other : Stack T) : Stack T × Stack T := LList.swap s other

end Stack

/-! ## Representation of a list by a chain of nodes -/

section Representation

variable {T : Type}

/-- Address of the first node of a chain, or `q` when the chain is empty. -/
def nextPtr (ns : List (Nat × T)) (q : Ptr) : Ptr :=
  match ns with
  | [] => q
  | (b, _) :: _ => some b

/-- Address of the last node of a chain, or `p` when the chain is empty. -/
def lastPtr (p : Ptr) : List (Nat × T) → Ptr
  | [] => p
  | (a, _) :: rest => lastPtr (some a) rest

/-- The nodes `ns` (address and element, in order) form a doubly-linked segment of the heap:
every node holds its element, its `prev` is the address of its predecessor (`p` for the
first) and its `next` the address of its successor (`q` for the last). -/
def Seg (h : Heap T) : Ptr → List (Nat × T) → Ptr → Prop
  | _, [], _ => True
  | p, (a, x) :: rest, q => h.get a = some ⟨x, p, nextPtr rest q⟩ ∧ Seg h (some a) rest q

/-- The list object `l` owns exactly the chain `ns` in the heap `h`. -/
structure ListRep (h : Heap T) (l : LList T) (ns : List (Nat × T)) : Prop where
  seg : Seg h none ns none
  nodup : (ns.map Prod.fst).Nodup
  head_eq : l.head = nextPtr ns none
  tail_eq : l.tail = lastPtr none ns
  count_eq : l.count = ns.length

/-- The heap table fits in the address space. -/
def Heap.Sized (h : Heap T) : Prop := h.cells.length ≤ maxNodes

/-- The heap `h1` agrees with `h` on every live node outside the addresses `as`. -/
def Frame (h h1 : Heap T) (as : List Nat) : Prop :=
  ∀ b, b ∉ as → h.get b ≠ none → h1.get b = h.get b

end Representation

/-! ## Traversals and the structural invariant -/

section Traversal

variable {T : Type}

/-- The addresses met when following `next` links from `p`, at most `k` of them; the walk
stops at `nullptr` and at a dangling pointer. -/
def walkNext (h : Heap T) : Nat → Ptr → List Nat
  | 0, _ => []
  | _ + 1, none => []
  | k + 1, some a =>
    match h.get a with
    | some n => a :: walkNext h k n.next
    | none => [a]

/-- The addresses met when following `prev` links from `p`, at most `k` of them. -/
def walkPrev (h : Heap T) : Nat → Ptr → List Nat
  | 0, _ => []
  | _ + 1, none => []
  | k + 1, some a =>
    match h.get a with
    | some n => a :: walkPrev h k n.prev
    | none => [a]

/-- The nodes met from `head` along `next`, with one step more than `count` allowed. -/
def LList.nodes (h : Heap T) (l : LList T) : List Nat := walkNext h (l.count + 1) l.head

/-- The nodes met from `tail` along `prev`, with one step more than `count` allowed. -/
def LList.nodesRev (h : Heap T) (l : LList T) : List Nat := walkPrev h (l.count + 1) l.tail

/-- The elements in `begin()`-to-`end()` order: the loop
`for (it = begin(); it != end(); ++it) *it`, which on an acyclic chain makes no more steps than
the heap table has cells. -/
def LList.elements (h : Heap T) (l : LList T) : List T :=
  (walkNext h h.cells.length l.head).filterMap (fun a => (h.get a).map Node.data)

/-- The structural invariant of the data model. -/
structure LList.Invariant (h : Heap T) (l : LList T) : Prop where
  count_head : l.count = 0 ↔ l.head = none
  head_tail : l.head = none ↔ l.tail = none
  empty_size : l.empty = true ↔ l.size = 0
  head_prev : 0 < l.count → ∃ a n, l.head = some a ∧ h.get a = some n ∧ n.prev = none
  tail_next : 0 < l.count → ∃ a n, l.tail = some a ∧ h.get a = some n ∧ n.next = none
  fwd_length : (l.nodes h).length = l.count
  fwd_nodup : (l.nodes h).Nodup
  fwd_live : ∀ a ∈ l.nodes h, h.get a ≠ none
  fwd_last : (l.nodes h).getLast? = l.tail
  bwd_rev : l.nodesRev h = (l.nodes h).reverse
  bwd_last : (l.nodesRev h).getLast? = l.head

end Traversal

/-! ## Programs over several lists -/

/-- One statement of a client program; lists are named by their creation rank, and a position
of a list is the iterator `begin()` advanced `k` times. -/
inductive Op (T : Type) where
  | create
  | push_front (i : Nat) (v : T)
  | push_back (i : Nat) (v : T)
  | pop_front (i : Nat)
  | pop_back (i : Nat)
  | insert (i : Nat) (k : Nat) (v : T)
  | erase (i : Nat) (k : Nat)
  | clear (i : Nat)
  | swap (i j : Nat)

/-- The store of a program: the heap and the list objects created so far. -/
structure World (T : Type) where
  heap : Heap T
  lists : List (LList T)

namespace World

variable {T : Type}

/-- The store at program start. -/
def init : World T := ⟨Heap.init, []⟩

/-- Apply a modifier to the list of rank `i`. -/
def onList (w : World T) (i : Nat)
    (f : Heap T → LList T → Except Err (Heap T × LList T)) : Except Err (World T) :=
  match w.lists[i]? with
  | none => .error .undefined
  | some l => do
    let (h1, l1) ← f w.heap l
    pure ⟨h1, w.lists.set i l1⟩

/-- Execute one statement. -/
def step (w : World T) : Op T → Except Err (World T)
  | .create => pure ⟨w.heap, w.lists ++ [LList.mk0]⟩
  | .push_front i v => w.onList i (fun h l => LList.push_front h l v)
  | .push_back i v => w.onList i (fun h l => LList.push_back h l v)
  | .pop_front i => w.onList i LList.pop_front
  | .pop_back i => w.onList i LList.pop_back
  | .insert i k v => w.onList i (fun h l => do
      let pos ← BiDirectionalIterator.advance h k l.begin_
      let (h1, l1, _) ← LList.insert h l pos v
      pure (h1, l1))
  | .erase i k => w.onList i (fun h l => do
      let pos ← BiDirectionalIterator.advance h k l.begin_
      let (h1, l1, _) ← LList.erase h l pos
      pure (h1, l1))
  | .clear i => w.onList i LList.clear
  | .swap i j =>
    match w.lists[i]?, w.lists[j]? with
    | some a, some b =>
      let r := LList.swap a b
      pure ⟨w.heap, (w.lists.set i r.1).set j r.2⟩
    | _, _ => .error .undefined

/-- Execute a sequence of statements; a failing statement ends the program. -/
def run (w : World T) : List (Op T) → Except Err (World T)
  | [] => pure w
  | op :: ops => do
    let w1 ← w.step op
    run w1 ops

end World

/-- The store is consistent for the chains `g`: the heap table fits in the address space,
the list of rank `i` owns the chain `g i`, the chains are made of live nodes, and no node
belongs to two chains. -/
structure World.GoodWith {T : Type} (w : World T) (g : Nat → List (Nat × T)) : Prop where
  sized : w.heap.Sized
  rep : ∀ i l, w.lists[i]? = some l → ListRep w.heap l (g i)
  live : ∀ i b, b ∈ (g i).map Prod.fst → w.heap.get b ≠ none
  disjoint : ∀ i j, i ≠ j → ∀ b, b ∈ (g i).map Prod.fst → b ∉ (g j).map Prod.fst

/-- The store is consistent. -/
def World.Good {T : Type} (w : World T) : Prop := ∃ g, w.GoodWith g

/-! ## Link facts read off the traversals -/

section Links

variable {T : Type}

/-- The pointer `p` leads to the first node of `as`, and the `next` of every node of `as`
leads to the one after it. -/
def NextLinked (h : Heap T) : Ptr → List Nat → Prop
  | _, [] => True
  | p, a :: as => p = some a ∧ ∃ n, h.get a = some n ∧ NextLinked h n.next as

/-- The pointer `p` leads to the first node of `as`, and the `prev` of every node of `as`
leads to the one after it. -/
def PrevLinked (h : Heap T) : Ptr → List Nat → Prop
  | _, [] => True
  | p, a :: as => p = some a ∧ ∃ n, h.get a = some n ∧ PrevLinked h n.prev as

/-- The `prev` of the first node of `as` is `p`, and the `prev` of every other node is the
node before it. -/
def PrevOK (h : Heap T) : Ptr → List Nat → Prop
  | _, [] => True
  | p, a :: as => (∃ n, h.get a = some n ∧ n.prev = p) ∧ PrevOK h (some a) as

end Links

/-! ## Client loops used to state the laws of the containers -/

section Clients

variable {T : Type}

/-- Push the values `v1, ..., vn` in that order. -/
def Stack.pushAll (h : Heap T) (s : Stack T) : List T → Except Err (Heap T × Stack T)
  | [] => pure (h, s)
  | v :: vs => do
    let (h1, s1) ← Stack.push h s v
    Stack.pushAll h1 s1 vs

/-- Make `n` rounds of `top()` followed by `pop()` and collect the observed values. -/
def Stack.drain (h : Heap T) (s : Stack T) : Nat → Except Err (List T × Heap T × Stack T)
  | 0 => pure ([], h, s)
  | n + 1 => do
    let x ← Stack.top h s
    let (h1, s1) ← Stack.pop h s
    let (xs, h2, s2) ← Stack.drain h1 s1 n
    pure (x :: xs, h2, s2)

/-- The four end operations of the list. -/
inductive EndOp (T : Type) where
  | push_front (v : T)
  | push_back (v : T)
  | pop_front
  | pop_back
deriving DecidableEq, Repr

/-- Whether the operation is a push. -/
def EndOp.isPush : EndOp T → Bool
  | .push_front _ => true
  | .push_back _ => true
  | _ => false

/-- Execute one end operation. -/
def EndOp.exec (h : Heap T) (l : LList T) : EndOp T → Except Err (Heap T × LList T)
  | .push_front v => LList.push_front h l v
  | .push_back v => LList.push_back h l v
  | .pop_front => LList.pop_front h l
  | .pop_back => LList.pop_back h l

/-- Execute a sequence of end operations. -/
def EndOp.run (h : Heap T) (l : LList T) : List (EndOp T) → Except Err (Heap T × LList T)
  | [] => pure (h, l)
  | op :: ops => do
    let (h1, l1) ← EndOp.exec h l op
    EndOp.run h1 l1 ops

/-- Number of push operations of a sequence. -/
def EndOp.pushes (ops : List (EndOp T)) : Nat := (ops.filter EndOp.isPush).length

/-- Number of pop operations of a sequence. -/
def EndOp.pops (ops : List (EndOp T)) : Nat := (ops.filter (fun op => !op.isPush)).length

/-- Number of pop operations of a sequence that meet a non-empty list, when the sequence is
applied to a list of `n` elements. -/
def EndOp.effectivePops : Nat → List (EndOp T) → Nat
  | _, [] => 0
  | n, op :: ops =>
    if op.isPush then EndOp.effectivePops (n + 1) ops
    else if n = 0 then EndOp.effectivePops 0 ops
    else EndOp.effectivePops (n - 1) ops + 1

end Clients

/-- The accessors agree with the element sequence: whenever the sequence is non-empty,
`front()` returns its first element and `back()` its last. -/
def LList.AccessAgrees {T : Type} (h : Heap T) (l : LList T) : Prop :=
  (∀ x, (l.elements h).head? = some x → LList.front h l = .ok x) ∧
  (∀ x, (l.elements h).getLast? = some x → LList.back h l = .ok x)

/-! ## The calculator: character classes and the input stream -/

/-- The function `std::isdigit` on the characters of the C locale. -/
def isdigit (c : Char) : Bool := decide (48 ≤ c.toNat ∧ c.toNat ≤ 57)

/-- The function `std::isspace` of the C locale: space, `\t`, `\n`, `\v`, `\f`, `\r`. -/
def isspace (c : Char) : Bool := decide (c.toNat = 32 ∨ (9 ≤ c.toNat ∧ c.toNat ≤ 13))

/-- A `std::istringstream`: the characters already extracted (most recent first), the
characters still to read, and the state flags (`failbit` stands for `failbit | badbit`). -/
structure IStream where
  consumed : List Char
  rest : List Char
  failbit : Bool
  eofbit : Bool
deriving DecidableEq, Repr

namespace IStream

/-- The stream constructed on a string. -/
def ofString (str : List Char) : IStream := ⟨[], str, false, false⟩

/-- The member `good()`. -/
def good (s : IStream) : Bool := !s.failbit && !s.eofbit

/-- Skip leading whitespace (the `std::ws` step of a formatted extraction). -/
def skipws : List Char → List Char → List Char × List Char
  | cons, [] => (cons, [])
  | cons, c :: cs => if isspace c then skipws (c :: cons) cs else (cons, c :: cs)

/-- The extraction `iss >> token` of a `char`: `none` when it fails. -/
def getChar (s : IStream) : IStream × Option Char :=
  if !s.good then ({ s with failbit := true }, none)
  else
    match skipws s.consumed s.rest with
    | (cons, []) => (⟨cons, [], true, true⟩, none)
    | (cons, c :: cs) => (⟨c :: cons, cs, false, false⟩, some c)

/-- The member `peek()`: `none` is `EOF`. -/
def peek (s : IStream) : IStream × Option Char :=
  if !s.good then (s, none)
  else
    match s.rest with
    | [] => ({ s with eofbit := true }, none)
    | c :: _ => (s, some c)

/-- The member `putback(c)`: `eofbit` is cleared first; nothing else happens on a failed
stream; the character must be the one extracted last. -/
def putback (s : IStream) (c : Char) : IStream :=
  if s.failbit then { s with eofbit := false }
  else
    match s.consumed with
    | c1 :: cons =>
      if c1 = c then ⟨cons, c :: s.rest, false, false⟩
      else { s with failbit := true, eofbit := false }
    | [] => { s with failbit := true, eofbit := false }

/-- The extraction `iss >> token` of a `std::string`: the next run of non-space characters. -/
def getWord (s : IStream) : IStream × Option (List Char) :=
  if !s.good then ({ s with failbit := true }, none)
  else
    match skipws s.consumed s.rest with
    | (cons, []) => (⟨cons, [], true, true⟩, none)
    | (cons, c :: cs) =>
      let w := c :: cs.takeWhile (fun x => !isspace x)
      let r := cs.dropWhile (fun x => !isspace x)
      (⟨w.reverse ++ cons, r, false, r.isEmpty⟩, some w)

end IStream

/-! ## The calculator: the stack interface -/

/-- The five members of `Stack<T>` used by the calculator, on a store of type `S`; `bound`
is a number of `pop()` calls after which the stack is certainly empty. -/
structure StackOps (S T : Type) where
  empty : S → Bool
  top : S → Except Err T
  push : S → T → Except Err S
  pop : S → Except Err S
  bound : S → Nat

/-- The class `Stack<T>` of `Stack.hpp`, on a heap. -/
def heapStack (T : Type) : StackOps (Heap T × Stack T) T where
  empty s := Stack.empty s.2
  top s := Stack.top s.1 s.2
  push s v := Stack.push s.1 s.2 v
  pop s := Stack.pop s.1 s.2
  bound s := s.1.cells.length

/-- The sequence model of a stack: the top is the head of the list. -/
def listStack (T : Type) : StackOps (List T) T where
  empty s := s.isEmpty
  top s :=
    match s with
    | [] => .error .out_of_range
    | x :: _ => .ok x
  push s v := .ok (v :: s)
  pop s := .ok s.tail
  bound s := s.length

/-! ## The calculator: `infix2postfix` -/

/-- The function `precedence`. -/
def precedence (op : Char) : Nat :=
  if op = '+' ∨ op = '-' then 1
  else if op = '*' ∨ op = '/' ∨ op = '%' then 2
  else 0

/-- The function `containsOnlyValidChars`. -/
def containsOnlyValidChars (str : List Char) : Bool :=
  str.all (fun c => " 1234567890()+-/*%".toList.contains c)

section Machines

variable {S : Type}

/-- The loop `while (!stack.empty() && cond(stack.top())) { postfix += stack.top();
postfix += ' '; stack.pop(); }`, with a bound on its iterations. -/
def popWhile (I : StackOps S Char) (cond : Char → Bool) :
    Nat → S → List Char → Except Err (S × List Char)
  | 0, st, out =>
    if I.empty st then pure (st, out)
    else do
      let t ← I.top st
      if cond t then .error .undefined else pure (st, out)
  | k + 1, st, out =>
    if I.empty st then pure (st, out)
    else do
      let t ← I.top st
      if cond t then do
        let t1 ← I.top st
        let st1 ← I.pop st
        popWhile I cond k st1 (out ++ [t1] ++ [' '])
      else pure (st, out)

/-- The loop `while (std::isdigit(token)) { number += token; if (!(iss >> token)) break; }`,
with a bound on its iterations. -/
def readDigits : Nat → IStream → Char → List Char → IStream × Char × List Char
  | 0, iss, token, number => (iss, token, number)
  | k + 1, iss, token, number =>
    if isdigit token then
      match iss.getChar with
      | (iss1, none) => (iss1, token, number ++ [token])
      | (iss1, some t) => readDigits k iss1 t (number ++ [token])
    else (iss, token, number)

/-- The test `std::isdigit(token) || (token == '-' && isdigit(iss.peek()))`; `peek` is only
called when the first two tests leave the decision to it. -/
def startsNumber (iss : IStream) (token : Char) : IStream × Bool :=
  if isdigit token then (iss, true)
  else if token = '-' then
    match iss.peek with
    | (iss1, some c) => (iss1, isdigit c)
    | (iss1, none) => (iss1, false)
  else (iss, false)

/-- The body of the main loop of `infix2postfix` for the character `token`. -/
def infixStep (I : StackOps S Char) (st : S) (iss : IStream) (token : Char)
    (out : List Char) : Except Err (S × IStream × List Char) :=
  match startsNumber iss token with
  | (iss1, true) =>
    let signed : IStream × Char × List Char :=
      if token = '-' then
        match iss1.getChar with
        | (iss2, some t) => (iss2, t, [token])
        | (iss2, none) => (iss2, token, [token])
      else (iss1, token, [])
    let r := readDigits (signed.1.rest.length + 1) signed.1 signed.2.1 signed.2.2
    let iss3 := r.1.putback r.2.1
    pure (st, iss3, out ++ (r.2.2 ++ [' ']))
  | (iss1, false) =>
    if token = '(' then do
      let st1 ← I.push st token
      pure (st1, iss1, out)
    else if token = ')' then do
      let (st1, out1) ← popWhile I (fun t => t ≠ '(') (I.bound st) st out
      let st2 ← I.pop st1
      pure (st2, iss1, out1)
    else do
      let (st1, out1) ←
        popWhile I (fun t => precedence token ≤ precedence t) (I.bound st) st out
      let st2 ← I.push st1 token
      pure (st2, iss1, out1)

/-- The loop `while (iss >> token) { ... }` of `infix2postfix`, with a bound on its
iterations. -/
def infixLoop (I : StackOps S Char) :
    Nat → S → IStream → List Char → Except Err (S × List Char)
  | 0, _, _, _ => .error .undefined
  | k + 1, st, iss, out =>
    match iss.getChar with
    | (_, none) => pure (st, out)
    | (iss1, some token) => do
      let (st1, iss2, out1) ← infixStep I st iss1 token out
      infixLoop I k st1 iss2 out1

/-- The function `infix2postfix` on a stack implementation.  Every iteration of the main loop
extracts a character, so the length of the input bounds the iterations. -/
def infix2postfixOn (I : StackOps S Char) (st0 : S) (src : List Char) :
    Except Err (List Char) := do
  let (st, out) ← infixLoop I (src.length + 1) st0 (IStream.ofString src) []
  let (_, out1) ← popWhile I (fun _ => true) (I.bound st) st out
  pure out1

end Machines

/-- The function `infix2postfix` of `postfix_calc.cpp`, its `Stack<char>` living on the
heap `h`. -/
def infix2postfix (h : Heap Char) (src : List Char) : Except Err (List Char) :=
  infix2postfixOn (heapStack Char) (h, Stack.mk0) src

/-! ## The calculator: `eval_postfix` -/

/-- The constant `INT_MIN` of a 32-bit `int`. -/
def INT_MIN : Int := -2147483648

/-- The constant `INT_MAX` of a 32-bit `int`. -/
def INT_MAX : Int := 2147483647

/-- The result of an `int` operation whose mathematical value is `r`; signed overflow is
undefined behaviour. -/
def intResult (r : Int) : Except Err Int :=
  if INT_MIN ≤ r ∧ r ≤ INT_MAX then .ok r else .error .undefined

/-- The operation `a / b` on `int`: truncating, undefined for a zero divisor and on
overflow. -/
def intDiv (a b : Int) : Except Err Int :=
  if b = 0 then .error .undefined else intResult (Int.tdiv a b)

/-- The operation `a % b` on `int`: undefined whenever `a / b` is. -/
def intMod (a b : Int) : Except Err Int :=
  if b = 0 then .error .undefined
  else if INT_MIN ≤ Int.tdiv a b ∧ Int.tdiv a b ≤ INT_MAX then .ok (Int.tmod a b)
  else .error .undefined

/-- The value of a run of decimal digits. -/
def digitsValue (ds : List Char) : Nat :=
  ds.foldl (fun acc d => acc * 10 + (d.toNat - 48)) 0

/-- The optional sign read by `std::stoi` (through `strtol`) before the digits. -/
def stoiSign : List Char → Bool × List Char
  | '-' :: r => (true, r)
  | '+' :: r => (false, r)
  | s => (false, s)

/-- The function `std::stoi`: leading whitespace, an optional sign, then the longest run of
digits; `invalid_argument` without a digit, `out_of_range` outside of `int`. -/
def stoi (token : List Char) : Except Err Int :=
  let signed := stoiSign (token.dropWhile isspace)
  let ds := signed.2.takeWhile isdigit
  if ds.isEmpty then .error .invalid_argument
  else
    let n : Int := (digitsValue ds : Nat)
    let v : Int := if signed.1 then -n else n
    if INT_MIN ≤ v ∧ v ≤ INT_MAX then .ok v else .error .out_of_range

section EvalMachine

variable {S : Type}

/-- The body of the loop of `eval_postfix` for the word `token`. -/
def evalStep (I : StackOps S Int) (st : S) (token : List Char) : Except Err S :=
  let c0 := token.headD (Char.ofNat 0)
  if isdigit c0 ∨ (c0 = '-' ∧ token.length > 1) then do
    let v ← stoi token
    I.push st v
  else do
    let operand1 ← I.top st
    let st1 ← I.pop st
    let operand2 ← I.top st1
    let st2 ← I.pop st1
    if c0 = '+' then do
      let r ← intResult (operand2 + operand1)
      I.push st2 r
    else if c0 = '-' then do
      let r ← intResult (operand2 - operand1)
      I.push st2 r
    else if c0 = '*' then do
      let r ← intResult (operand2 * operand1)
      I.push st2 r
    else if c0 = '/' then do
      let r ← intDiv operand2 operand1
      I.push st2 r
    else if c0 = '%' then do
      let r ← intMod operand2 operand1
      I.push st2 r
    else pure st2

/-- The loop `while (iss >> token) { ... }` of `eval_postfix`, with a bound on its
iterations. -/
def evalLoop (I : StackOps S Int) : Nat → S → IStream → Except Err S
  | 0, _, _ => .error .undefined
  | k + 1, st, iss =>
    match iss.getWord with
    | (_, none) => pure st
    | (iss1, some token) => do
      let st1 ← evalStep I st token
      evalLoop I k st1 iss1

/-- The function `eval_postfix` on a stack implementation. -/
def eval_postfixOn (I : StackOps S Int) (st0 : S) (expr : List Char) : Except Err Int := do
  let st ← evalLoop I (expr.length + 1) st0 (IStream.ofString expr)
  I.top st

end EvalMachine

/-- The function `eval_postfix` of `postfix_calc.cpp`, its `Stack<int>` living on the
heap `h`. -/
def eval_postfix (h : Heap Int) (expr : List Char) : Except Err Int :=
  eval_postfixOn (heapStack Int) (h, Stack.mk0) expr

/-! ## Relating the heap stack to the sequence model -/

/-- The heap stack `s` holds the values `xs` (top first) and its heap has room for `k` more
nodes. -/
def StackRel {T : Type} (k : Nat) (s : Heap T × Stack T) (xs : List T) : Prop :=
  ∃ ns, ListRep s.1 s.2 ns ∧ (ns.map Prod.snd).reverse = xs ∧ s.1.Sized ∧ k ≤ s.1.room

/-- Two results agree: the same failure, or the same output next to related stacks. -/
def ResRel {T α : Type} (k : Nat) (r1 : Except Err ((Heap T × Stack T) × α))
    (r2 : Except Err (List T × α)) : Prop :=
  match r1, r2 with
  | .ok (s, a), .ok (xs, b) => StackRel k s xs ∧ a = b
  | .error e1, .error e2 => e1 = e2
  | _, _ => False

/-- Two stack results agree: the same failure, or related stacks. -/
def StRel {T : Type} (k : Nat) (r1 : Except Err (Heap T × Stack T))
    (r2 : Except Err (List T)) : Prop :=
  match r1, r2 with
  | .ok s, .ok xs => StackRel k s xs
  | .error e1, .error e2 => e1 = e2
  | _, _ => False

/-! ## Expressions, their infix token sequences and their postfix rendering -/

/-- The five binary operators of the calculator. -/
inductive BinOp where
  | add
  | sub
  | mul
  | div
  | mod
deriving DecidableEq, Repr

/-- The character of an operator. -/
def BinOp.char : BinOp → Char
  | .add => '+'
  | .sub => '-'
  | .mul => '*'
  | .div => '/'
  | .mod => '%'

/-- Whether the operator is one of `* / %`, which bind tighter than `+ -`. -/
def BinOp.tight : BinOp → Bool
  | .add => false
  | .sub => false
  | _ => true

/-- An integer literal as it is written: an optional `-` adjacent to a run of digits. -/
structure Literal where
  neg : Bool
  digits : List Char
deriving DecidableEq, Repr

/-- The characters of a literal. -/
def Literal.chars (l : Literal) : List Char := (if l.neg then ['-'] else []) ++ l.digits

/-- A literal has at least one digit and only digits after its sign. -/
def Literal.WF (l : Literal) : Prop := l.digits ≠ [] ∧ ∀ c ∈ l.digits, isdigit c = true

/-- The integer a literal denotes, in base ten. -/
def Literal.value (l : Literal) : Int :=
  let n : Int := (Nat.ofDigits 10 (l.digits.reverse.map (fun d => d.toNat - 48)) : Nat)
  if l.neg then -n else n

/-- The tokens of an infix expression. -/
inductive Token where
  | lit (l : Literal)
  | op (o : BinOp)
  | lparen
  | rparen
deriving DecidableEq, Repr

/-- The characters of a token. -/
def Token.chars : Token → List Char
  | .lit l => l.chars
  | .op o => [o.char]
  | .lparen => ['(']
  | .rparen => [')']

/-- Whether a token is a literal. -/
def Token.isLit : Token → Bool
  | .lit _ => true
  | _ => false

/-- An expression tree. -/
inductive Expr where
  | lit (l : Literal)
  | bin (o : BinOp) (lhs rhs : Expr)
deriving DecidableEq, Repr

/-- The post-order (reverse Polish) rendering of a tree: every token followed by exactly one
space. -/
def Expr.rpn : Expr → List Char
  | .lit l => l.chars ++ [' ']
  | .bin o lhs rhs => lhs.rpn ++ rhs.rpn ++ [o.char, ' ']

/-- Number of tokens of the post-order rendering. -/
def Expr.size : Expr → Nat
  | .lit _ => 1
  | .bin _ lhs rhs => lhs.size + rhs.size + 1

/-- The grammar of infix expressions, by level: `Parse 0` is an expression (a left-associated
chain of terms joined by `+ -`), `Parse 1` a term (a left-associated chain of factors joined by
`* / %`) and `Parse 2` a factor (a literal or a parenthesised expression).  `Parse n ts e` says
that the token sequence `ts` is parsed at level `n` as the tree `e`. -/
inductive Parse : Nat → List Token → Expr → Prop where
  | lit (l : Literal) : l.WF → Parse 2 [.lit l] (.lit l)
  | paren (ts : List Token) (e : Expr) :
      Parse 0 ts e → Parse 2 (Token.lparen :: (ts ++ [Token.rparen])) e
  | factor (ts : List Token) (e : Expr) : Parse 2 ts e → Parse 1 ts e
  | term (ts : List Token) (e : Expr) : Parse 1 ts e → Parse 0 ts e
  | mul (ts1 ts2 : List Token) (e1 e2 : Expr) (o : BinOp) :
      o.tight = true → Parse 1 ts1 e1 → Parse 2 ts2 e2 →
      Parse 1 (ts1 ++ Token.op o :: ts2) (.bin o e1 e2)
  | add (ts1 ts2 : List Token) (e1 e2 : Expr) (o : BinOp) :
      o.tight = false → Parse 0 ts1 e1 → Parse 1 ts2 e2 →
      Parse 0 (ts1 ++ Token.op o :: ts2) (.bin o e1 e2)

/-- The string `s` writes the tokens `ts` separated by whitespace: optional whitespace, then
each token, each one followed by the end of the string or by at least one whitespace
character. -/
def Spaced : List Token → List Char → Prop
  | [], s => ∀ c ∈ s, isspace c = true
  | t :: ts, s =>
    ∃ ws rest, (∀ c ∈ ws, isspace c = true) ∧ s = ws ++ (t.chars ++ rest) ∧
      (∀ c ∈ rest.head?, isspace c = true) ∧ Spaced ts rest

/-- The value of a tree over the integers, with truncating division and remainder. -/
def Expr.value : Expr → Int
  | .lit l => l.value
  | .bin .add lhs rhs => lhs.value + rhs.value
  | .bin .sub lhs rhs => lhs.value - rhs.value
  | .bin .mul lhs rhs => lhs.value * rhs.value
  | .bin .div lhs rhs => Int.tdiv lhs.value rhs.value
  | .bin .mod lhs rhs => Int.tmod lhs.value rhs.value

/-- The integer fits a 32-bit `int`. -/
def FitsInt (v : Int) : Prop := INT_MIN ≤ v ∧ v ≤ INT_MAX

/-- The tree can be evaluated on `int`: its literals are well written and fit, no division
or remainder has a zero right operand, and no intermediate result overflows (for `/` and `%`
this is the quotient, which is what the machine division computes for both). -/
def Expr.Safe : Expr → Prop
  | .lit l => l.WF ∧ FitsInt l.value
  | .bin .add lhs rhs => lhs.Safe ∧ rhs.Safe ∧ FitsInt (lhs.value + rhs.value)
  | .bin .sub lhs rhs => lhs.Safe ∧ rhs.Safe ∧ FitsInt (lhs.value - rhs.value)
  | .bin .mul lhs rhs => lhs.Safe ∧ rhs.Safe ∧ FitsInt (lhs.value * rhs.value)
  | .bin .div lhs rhs =>
    lhs.Safe ∧ rhs.Safe ∧ rhs.value ≠ 0 ∧ FitsInt (Int.tdiv lhs.value rhs.value)
  | .bin .mod lhs rhs =>
    lhs.Safe ∧ rhs.Safe ∧ rhs.value ≠ 0 ∧ FitsInt (Int.tdiv lhs.value rhs.value)

/-! ## The token view of `infix2postfix` -/

section TokenView

variable {S : Type}

/-- What the body of the main loop of `infix2postfix` does to the stack and to the output
when it meets the token `t`. -/
def tokenAct (I : StackOps S Char) (t : Token) (st : S) (out : List Char) :
    Except Err (S × List Char) :=
  match t with
  | .lit l => pure (st, out ++ (l.chars ++ [' ']))
  | .lparen => do
    let st1 ← I.push st '('
    pure (st1, out)
  | .rparen => do
    let (st1, out1) ← popWhile I (fun t => t ≠ '(') (I.bound st) st out
    let st2 ← I.pop st1
    pure (st2, out1)
  | .op o => do
    let (st1, out1) ←
      popWhile I (fun t => precedence o.char ≤ precedence t) (I.bound st) st out
    let st2 ← I.push st1 o.char
    pure (st2, out1)

/-- The token view of the main loop. -/
def runTokens (I : StackOps S Char) : List Token → S → List Char → Except Err (S × List Char)
  | [], st, out => pure (st, out)
  | t :: ts, st, out => do
    let (st1, out1) ← tokenAct I t st out
    runTokens I ts st1 out1

end TokenView

/-- A stream that reads like a fresh stream on `r`: it is in good state and what it has left
is `r` without some leading whitespace, or it is not in good state and `r` is only
whitespace. -/
def IStream.Reads (iss : IStream) (r : List Char) : Prop :=
  (iss.failbit = false ∧ iss.eofbit = false ∧
      ∃ ws, (∀ c ∈ ws, isspace c = true) ∧ r = ws ++ iss.rest) ∨
    (iss.good = false ∧ ∀ c ∈ r, isspace c = true)

/-- A token is well written. -/
def Token.WF : Token → Prop
  | .lit l => l.WF
  | _ => True

/-- No literal is directly followed by a token that starts with a digit. -/
def LitThenNoDigit (a b : Token) : Prop :=
  a.isLit = true → ∀ c ∈ b.chars.head?, isdigit c = false

/-- The output produced when the operators `p` are popped in turn: each one followed by a
space. -/
def emitOps : List Char → List Char
  | [] => []
  | c :: cs => c :: ' ' :: emitOps cs

/-! ## Copy, move, assignment and destruction -/

section CopyMove

variable {T : Type}

namespace LList

/-- The loop `for (const auto& item : other) push_back(item)` of the copy constructor: `it`
runs over `other` up to `stop`, the receiver is `l`; bounded by a number of iterations. -/
def copyLoop (stop : BiDirectionalIterator) :
    Nat → Heap T → BiDirectionalIterator → LList T → Except Err (Heap T × LList T)
  | 0, h, it, l => if it ≠ stop then .error .undefined else pure (h, l)
  | k + 1, h, it, l =>
    if it ≠ stop then do
      let item ← it.deref h
      let (h1, l1) ← push_back h l item
      let it1 ← it.incr h1
      copyLoop stop k h1 it1 l1
    else pure (h, l)

/-- The copy constructor `LList(const LList& other)`: the receiver starts as the empty list
and receives the items of `other` by `push_back`.  A chain of distinct nodes is not longer
than the heap table, which bounds the number of iterations. -/
def copy (h : Heap T) (other : LList T) : Except Err (Heap T × LList T) :=
  copyLoop other.end_ h.cells.length h other.begin_ mk0

/-- The move constructor `LList(LList&& other)`: the pair is the new list and `other`
afterwards (`std::exchange` leaves null pointers and a zero count behind). -/
def move (other : LList T) : LList T × LList T :=
  (⟨other.head, other.tail, other.count⟩, ⟨none, none, 0⟩)

/-- The loop of the destructor: delete the node at `head` and go on with its successor;
bounded by a number of iterations. -/
def destroyLoop : Nat → Heap T → Ptr → Except Err (Heap T)
  | 0, h, head => if head ≠ none then .error .undefined else pure h
  | k + 1, h, head =>
    if head ≠ none then do
      let temp := head
      let n ← h.read head
      let h1 ← h.delete temp
      destroyLoop k h1 n.next
    else pure h

/-- The destructor `~LList()`: every node of the chain is deleted; the object is gone
afterwards, so the heap is the whole result. -/
def destroy (h : Heap T) (l : LList T) : Except Err (Heap T) :=
  destroyLoop h.cells.length h l.head

/-- The copy assignment `operator=(const LList& other)`; `same` tells whether `other` is
the receiver itself (`this == &other`).  The temporary copy takes the old nodes of the
receiver in the swap and is destroyed at the end of the block. -/
def assign (h : Heap T) (l other : LList T) (same : Bool) : Except Err (Heap T × LList T) :=
  if !same then do
    let (h1, temp) ← copy h other
    let r := swap l temp
    let h2 ← destroy h1 r.2
    pure (h2, r.1)
  else pure (h, l)

/-- The statement `pop_front()` made `n` times. -/
def popFrontN : Nat → Heap T → LList T → Except Err (Heap T × LList T)
  | 0, h, l => pure (h, l)
  | n + 1, h, l => do
    let (h1, l1) ← pop_front h l
    popFrontN n h1 l1

end LList

namespace Stack

/-- The copy constructor `Stack(const Stack& other)`. -/
def copy (h : Heap T) (other : Stack T) : Except Err (Heap T × Stack T) := LList.copy h other

/-- The move constructor `Stack(Stack&& other)`: the list is moved, then `other.clear()`
runs; the result is the heap, the new stack and `other` afterwards. -/
def move (h : Heap T) (other : Stack T) : Except Err (Heap T × Stack T × Stack T) := do
  let r := LList.move other
  let (h1, other1) ← LList.clear h r.2
  pure (h1, r.1, other1)

end Stack

/-- Whether the statement modifies the list of rank `j`. -/
def Op.mutates : Op T → Nat → Bool
  | .create, _ => false
  | .push_front i _, j => decide (i = j)
  | .push_back i _, j => decide (i = j)
  | .pop_front i, j => decide (i = j)
  | .pop_back i, j => decide (i = j)
  | .insert i _ _, j => decide (i = j)
  | .erase i _, j => decide (i = j)
  | .clear i, j => decide (i = j)
  | .swap i k, j => decide (i = j) || decide (k = j)

/-- Whether the statement is a `clear()`. -/
def Op.isClear : Op T → Bool
  | .clear _ => true
  | _ => false

namespace World

/-- The declaration `LList<T> c(lists[i])`: a new list, copy-constructed from the list of
rank `i`, gets the next rank. -/
def copy_construct (w : World T) (i : Nat) : Except Err (World T) :=
  match w.lists[i]? with
  | none => .error .undefined
  | some other => do
    let (h1, c) ← LList.copy w.heap other
    pure ⟨h1, w.lists ++ [c]⟩

/-- The statement `lists[i] = lists[j]` (copy assignment). -/
def assign (w : World T) (i j : Nat) : Except Err (World T) :=
  match w.lists[i]?, w.lists[j]? with
  | some l, some other => do
    let (h1, l1) ← LList.assign w.heap l other (decide (i = j))
    pure ⟨h1, w.lists.set i l1⟩
  | _, _ => .error .undefined

/-- The node that the statement removes from its list, if any: the head for `pop_front`, the
tail for `pop_back`, the node at the position for `erase`. -/
def removed (w : World T) : Op T → Ptr
  | .pop_front i =>
    match w.lists[i]? with
    | some l => l.head
    | none => none
  | .pop_back i =>
    match w.lists[i]? with
    | some l => l.tail
    | none => none
  | .erase i k =>
    match w.lists[i]? with
    | some l =>
      match BiDirectionalIterator.advance w.heap k l.begin_ with
      | .ok pos => pos.current
      | .error _ => none
    | none => none
  | _ => none

end World

end CopyMove

/-! ## The calculator: `main` -/

/-- The two statements `postfix = infix2postfix(input); ans = eval_postfix(postfix);` of
`main`; the `Stack<char>` of the first call lives on `hc`, the `Stack<int>` of the second on
`hi`. -/
def evaluate (hc : Heap Char) (hi : Heap Int) (input : List Char) : Except Err Int := do
  let out ← infix2postfix hc input
  eval_postfix hi out

/-- What one round of the interactive loop of `main` does after reading a line: it prints
the rules, or the result, or the message about an invalid character, or nothing (`EXIT`). -/
inductive Round where
  | help
  | result (ans : Int)
  | invalid
  | quit
deriving DecidableEq, Repr

/-- One round of the interactive loop of `main` on the line `input`; a failure is an
exception that leaves `main`. -/
def interactiveRound (hc : Heap Char) (hi : Heap Int) (input : List Char) :
    Except Err Round :=
  if input = "HELP".toList ∨ input = "help".toList then pure .help
  else if containsOnlyValidChars input then do
    let ans ← evaluate hc hi input
    pure (.result ans)
  else if input ≠ "EXIT".toList ∧ input ≠ "exit".toList then pure .invalid
  else pure .quit

/-- The parentheses of the string are balanced: every prefix has at least as many `(` as
`)`, and the whole string has as many of each. -/
def BalancedParens (s : List Char) : Prop :=
  (∀ k, (s.take k).count ')' ≤ (s.take k).count '(') ∧ s.count '(' = s.count ')'

/-- A program over two lists of naturals. -/
def sampleProgram : List (Op Nat) :=
  [.create, .create, .push_back 0 1, .push_front 0 2, .insert 0 1 3, .push_back 1 7,
    .swap 0 1, .erase 1 0, .pop_back 1, .push_back 0 9]

/-- The store after `sampleProgram`. -/
def sampleWorld : World Nat :=
  ⟨⟨[some ⟨9, some 3, none⟩, none, some ⟨3, none, none⟩, some ⟨7, none, some 0⟩]⟩,
    [⟨some 3, some 0, 2⟩, ⟨some 2, some 2, 1⟩]⟩

/-- A heap holding the single node of the list `[5]`. -/
def sampleHeap : Heap Nat := ⟨[some ⟨5, none, none⟩]⟩

/-- The list `[5]` of `sampleHeap`. -/
def sampleList : LList Nat := ⟨some 0, some 0, 1⟩

/-- The literal `2`. -/
def lit2 : Literal := ⟨false, ['2']⟩

/-- The literal `3`. -/
def lit3 : Literal := ⟨false, ['3']⟩

/-- The literal `4`. -/
def lit4 : Literal := ⟨false, ['4']⟩

/-- The tokens of `2 + 3 * 4`. -/
def sampleTokens : List Token := [.lit lit2, .op .add, .lit lit3, .op .mul, .lit lit4]

/-- The tree of `2 + 3 * 4`. -/
def sampleExpr : Expr := .bin .add (.lit lit2) (.bin .mul (.lit lit3) (.lit lit4))

/-- The tree of `-500 + 400`. -/
def sampleSum : Expr := .bin .add (.lit ⟨true, ['5', '0', '0']⟩) (.lit ⟨false, ['4', '0', '0']⟩)

/-- The example formula shown by `main`. -/
def exampleFormula : List Char :=
  "( ( -500 + 400 ) * ( -300 - 200 ) / ( -100 / ( 0 + 100 ) ) )".toList

/-- The postfix form of the example formula. -/
def examplePostfix : List Char := "-500 400 + -300 200 - * -100 0 100 + / / ".toList

/-- A program building the lists `[1]` and `[2]`. -/
def twoListsProgram : List (Op Nat) := [.create, .create, .push_back 0 1, .push_back 1 2]

/-- The store after `twoListsProgram`: the list `[1]` on node `0`, the list `[2]` on node `1`. -/
def twoLists : World Nat :=
  ⟨⟨[some ⟨1, none, none⟩, some ⟨2, none, none⟩]⟩, [⟨some 0, some 0, 1⟩, ⟨some 1, some 1, 1⟩]⟩

/-- The store `twoLists` after the first list was copy-constructed. -/
def twoListsCopied : World Nat :=
  ⟨⟨[some ⟨1, none, none⟩, some ⟨2, none, none⟩, some ⟨1, none, none⟩]⟩,
    [⟨some 0, some 0, 1⟩, ⟨some 1, some 1, 1⟩, ⟨some 2, some 2, 1⟩]⟩

/-- The store `twoLists` after the second list was assigned to the first. -/
def twoListsAssigned : World Nat :=
  ⟨⟨[none, some ⟨2, none, none⟩, some ⟨2, none, none⟩]⟩,
    [⟨some 2, some 2, 1⟩, ⟨some 1, some 1, 1⟩]⟩

/-- The store `twoLists` after `pop_back()` on the second list. -/
def twoListsPopped : World Nat :=
  ⟨⟨[some ⟨1, none, none⟩, none]⟩, [⟨some 0, some 0, 1⟩, ⟨none, none, 0⟩]⟩

/-! # Part II : lemmas and theorems -/

/-! ## The heap -/

namespace Heap

variable {T : Type}

theorem get_lt {h : Heap T} {a : Nat} {n : Node T} (hg : h.get a = some n) :
    a < h.cells.length := by
  unfold get at hg
  by_contra hlt
  rw [List.getElem?_eq_none (by omega)] at hg
  simp at hg

theorem get_eq_some_iff {h : Heap T} {a : Nat} {n : Node T} :
    h.get a = some n ↔ h.cells[a]? = some (some n) := by
  unfold get
  split
  · next m heq => simp [heq]
  · next hne =>
    constructor
    · intro hx; cases hx
    · intro hx; exact absurd hx (hne n)

theorem get_set_some (h : Heap T) (a b : Nat) (n : Node T) (ha : a < h.cells.length) :
    (Heap.mk (h.cells.set a (some n))).get b = if b = a then some n else h.get b := by
  unfold get
  by_cases hb : b = a
  · subst hb
    simp [List.getElem?_set, ha]
  · simp [List.getElem?_set, hb, Ne.symm hb]

theorem get_set_none (h : Heap T) (a b : Nat) :
    (Heap.mk (h.cells.set a none)).get b = if b = a then none else h.get b := by
  unfold get
  by_cases hb : b = a
  · subst hb
    by_cases ha : b < h.cells.length
    · simp [List.getElem?_set, ha]
    · simp [List.getElem?_set, ha]
  · simp [List.getElem?_set, hb, Ne.symm hb]

theorem get_write {h : Heap T} {a : Nat} {m : Node T} (hg : h.get a = some m) (n : Node T)
    (b : Nat) : (h.write a n).get b = if b = a then some n else h.get b :=
  get_set_some h a b n (get_lt hg)

theorem read_some {h : Heap T} {a : Nat} {n : Node T} (hg : h.get a = some n) :
    h.read (some a) = .ok n := by
  simp [read, hg]

theorem setPrev_some {h : Heap T} {a : Nat} {n : Node T} (hg : h.get a = some n) (v : Ptr) :
    h.setPrev (some a) v = .ok (h.write a { n with prev := v }) := by
  simp [setPrev, hg]

theorem setNext_some {h : Heap T} {a : Nat} {n : Node T} (hg : h.get a = some n) (v : Ptr) :
    h.setNext (some a) v = .ok (h.write a { n with next := v }) := by
  simp [setNext, hg]

theorem delete_some {h : Heap T} {a : Nat} {n : Node T} (hg : h.get a = some n) :
    h.delete (some a) = .ok ⟨h.cells.set a none⟩ := by
  simp [delete, hg]

theorem firstFree_some {cs : List (Option (Node T))} {a : Nat} (hf : firstFree cs = some a) :
    cs[a]? = some none := by
  induction cs generalizing a with
  | nil => simp [firstFree] at hf
  | cons c cs ih =>
    cases c with
    | none => simp [firstFree] at hf; subst hf; simp
    | some n =>
      simp only [firstFree, Option.map_eq_some'] at hf
      obtain ⟨a0, h0, rfl⟩ := hf
      simpa using ih h0

theorem firstFree_none {cs : List (Option (Node T))} (hf : firstFree cs = none) :
    cs.filter Option.isNone = [] := by
  induction cs with
  | nil => rfl
  | cons c cs ih =>
    cases c with
    | none => simp [firstFree] at hf
    | some n =>
      simp only [firstFree, Option.map_eq_none'] at hf
      simp [ih hf]

theorem free_set {cs : List (Option (Node T))} {a : Nat} {old : Option (Node T)}
    (hc : cs[a]? = some old) (v : Option (Node T)) :
    ((cs.set a v).filter Option.isNone).length + (if old.isNone then 1 else 0) =
      (cs.filter Option.isNone).length + (if v.isNone then 1 else 0) := by
  induction cs generalizing a with
  | nil => simp at hc
  | cons c cs ih =>
    cases a with
    | zero =>
      simp only [List.getElem?_cons_zero, Option.some.injEq] at hc
      subst hc
      simp only [List.set_cons_zero, List.filter_cons]
      cases c <;> cases v <;> simp
    | succ a =>
      simp only [List.getElem?_cons_succ] at hc
      have := ih hc
      simp only [List.set_cons_succ, List.filter_cons]
      cases c <;> simp <;> omega

theorem alloc_spec {h h1 : Heap T} {n : Node T} {a : Nat} (ha : h.alloc n = .ok (h1, a)) :
    h.get a = none ∧ (∀ b, h1.get b = if b = a then some n else h.get b) ∧
      (h.Sized → h1.Sized) ∧ h1.room + 1 = h.room := by
  unfold alloc at ha
  split at ha
  · next a0 hf =>
    simp only [Except.ok.injEq, Prod.mk.injEq] at ha
    obtain ⟨rfl, rfl⟩ := ha
    have hc := firstFree_some hf
    have hlt : a0 < h.cells.length := by
      by_contra hlt
      rw [List.getElem?_eq_none (by omega)] at hc
      cases hc
    refine ⟨?_, fun b => get_set_some h a0 b n hlt, ?_, ?_⟩
    · simp [get, hc]
    · intro hs; simpa [Sized] using hs
    · have := free_set hc (some n)
      simp only [Option.isNone_none, if_true, Option.isNone_some] at this
      simp only [room, List.length_set]
      simp at this
      omega
  · next hf =>
    split at ha
    · next hlt =>
      simp only [Except.ok.injEq, Prod.mk.injEq] at ha
      obtain ⟨rfl, rfl⟩ := ha
      refine ⟨?_, ?_, ?_, ?_⟩
      · simp [get]
      · intro b
        unfold get
        by_cases hb : b = h.cells.length
        · subst hb; simp
        · by_cases hb2 : b < h.cells.length
          · simp [List.getElem?_append_left hb2, hb]
          · have : h.cells.length < b := by omega
            simp [hb, List.getElem?_eq_none, Nat.le_of_lt this, List.getElem?_append_right,
              Nat.le_of_lt this]
            rw [List.getElem?_eq_none (by simp; omega)]
      · intro _; simp only [Sized, List.length_append, List.length_singleton]; omega
      · simp only [room, List.filter_append, List.length_append, List.length_singleton]
        simp
        omega
    · cases ha

theorem alloc_ok (h : Heap T) (n : Node T) (hr : 0 < h.room) :
    ∃ h1 a, h.alloc n = .ok (h1, a) := by
  unfold alloc
  split
  · exact ⟨_, _, rfl⟩
  · next hf =>
    have := firstFree_none hf
    simp only [room, this, List.length_nil, Nat.zero_add] at hr
    rw [if_pos (by omega)]
    exact ⟨_, _, rfl⟩

theorem write_sized {h : Heap T} (a : Nat) (n : Node T) (hs : h.Sized) : (h.write a n).Sized := by
  simpa [Sized, write] using hs

theorem write_room {h : Heap T} {a : Nat} {m : Node T} (hg : h.get a = some m) (n : Node T) :
    (h.write a n).room = h.room := by
  have := free_set (get_eq_some_iff.mp hg) (some n)
  simp only [room, write, List.length_set]
  simp at this
  omega

theorem set_none_sized {h : Heap T} (a : Nat) (hs : h.Sized) :
    (Heap.mk (h.cells.set a none)).Sized := by
  simpa [Sized] using hs

theorem set_none_room {h : Heap T} {a : Nat} {m : Node T} (hg : h.get a = some m) :
    (Heap.mk (h.cells.set a none)).room = h.room + 1 := by
  have := free_set (get_eq_some_iff.mp hg) none
  simp only [room, List.length_set]
  simp at this
  omega

end Heap

/-! ## Chains of nodes -/

section Chains

variable {T : Type}

theorem nextPtr_append (ns1 ns2 : List (Nat × T)) (q : Ptr) :
    nextPtr (ns1 ++ ns2) q = nextPtr ns1 (nextPtr ns2 q) := by
  cases ns1 with
  | nil => rfl
  | cons n ns1 => rfl

theorem lastPtr_append (p : Ptr) (ns1 ns2 : List (Nat × T)) :
    lastPtr p (ns1 ++ ns2) = lastPtr (lastPtr p ns1) ns2 := by
  induction ns1 generalizing p with
  | nil => rfl
  | cons n ns1 ih => exact ih _

theorem lastPtr_snoc (p : Ptr) (ns : List (Nat × T)) (a : Nat) (x : T) :
    lastPtr p (ns ++ [(a, x)]) = some a := by
  rw [lastPtr_append]; rfl

theorem nextPtr_cons (a : Nat) (x : T) (ns : List (Nat × T)) (q : Ptr) :
    nextPtr ((a, x) :: ns) q = some a := rfl

theorem nextPtr_ne_nil {ns : List (Nat × T)} (hne : ns ≠ []) (q : Ptr) :
    nextPtr ns q = (ns.head?).map Prod.fst := by
  cases ns with
  | nil => exact absurd rfl hne
  | cons n ns => rfl

theorem seg_cons {h : Heap T} {p q : Ptr} {a : Nat} {x : T} {ns : List (Nat × T)} :
    Seg h p ((a, x) :: ns) q ↔ h.get a = some ⟨x, p, nextPtr ns q⟩ ∧ Seg h (some a) ns q :=
  Iff.rfl

theorem seg_append {h : Heap T} {p q : Ptr} {ns1 ns2 : List (Nat × T)} :
    Seg h p (ns1 ++ ns2) q ↔ Seg h p ns1 (nextPtr ns2 q) ∧ Seg h (lastPtr p ns1) ns2 q := by
  induction ns1 generalizing p with
  | nil => simp [Seg, lastPtr]
  | cons n ns1 ih =>
    obtain ⟨a, x⟩ := n
    rw [List.cons_append, seg_cons, seg_cons, ih, nextPtr_append, and_assoc]
    rfl

theorem seg_snoc {h : Heap T} {p q : Ptr} {a : Nat} {x : T} {ns : List (Nat × T)} :
    Seg h p (ns ++ [(a, x)]) q ↔
      Seg h p ns (some a) ∧ h.get a = some ⟨x, lastPtr p ns, q⟩ := by
  rw [seg_append]
  simp [Seg, nextPtr]

theorem seg_frame {h h1 : Heap T} {p q : Ptr} {ns : List (Nat × T)}
    (hf : ∀ a ∈ ns.map Prod.fst, h1.get a = h.get a) (hseg : Seg h p ns q) : Seg h1 p ns q := by
  induction ns generalizing p with
  | nil => trivial
  | cons n ns ih =>
    obtain ⟨a, x⟩ := n
    obtain ⟨h0, hrest⟩ := hseg
    refine ⟨?_, ih (fun b hb => hf b (by simp at hb ⊢; exact Or.inr hb)) hrest⟩
    rw [hf a (by simp)]; exact h0

theorem seg_live {h : Heap T} {p q : Ptr} {ns : List (Nat × T)} (hseg : Seg h p ns q)
    {a : Nat} (ha : a ∈ ns.map Prod.fst) : h.get a ≠ none := by
  induction ns generalizing p with
  | nil => simp at ha
  | cons n ns ih =>
    obtain ⟨b, x⟩ := n
    obtain ⟨h0, hrest⟩ := hseg
    simp only [List.map_cons, List.mem_cons] at ha
    rcases ha with rfl | ha
    · rw [h0]; simp
    · exact ih hrest ha

theorem seg_lt {h : Heap T} {p q : Ptr} {ns : List (Nat × T)} (hseg : Seg h p ns q)
    {a : Nat} (ha : a ∈ ns.map Prod.fst) : a < h.cells.length := by
  have := seg_live hseg ha
  cases hg : h.get a with
  | none => exact absurd hg this
  | some n => exact Heap.get_lt hg

/-- A chain of distinct live nodes is not longer than the heap table. -/
theorem seg_length_le {h : Heap T} {p q : Ptr} {ns : List (Nat × T)} (hseg : Seg h p ns q)
    (hnd : (ns.map Prod.fst).Nodup) : ns.length ≤ h.cells.length := by
  have hsub : ns.map Prod.fst ⊆ List.range h.cells.length := by
    intro a ha
    exact List.mem_range.mpr (seg_lt hseg ha)
  have := (List.Nodup.subperm hnd hsub).length_le
  simpa using this

theorem seg_length_lt {h : Heap T} {p q : Ptr} {ns : List (Nat × T)} (hseg : Seg h p ns q)
    (hnd : (ns.map Prod.fst).Nodup) (hs : h.Sized) : ns.length < 2 ^ 64 := by
  have h1 := seg_length_le hseg hnd
  have h2 : h.cells.length ≤ maxNodes := hs
  unfold maxNodes at h2
  omega

theorem size_t_inc_eq {n : Nat} (hn : n + 1 < 2 ^ 64) : size_t_inc n = n + 1 :=
  Nat.mod_eq_of_lt hn

theorem size_t_dec_eq {n : Nat} (hn : n + 1 < 2 ^ 64) : size_t_dec (n + 1) = n := by
  unfold size_t_dec
  have : n + 1 + 2 ^ 64 - 1 = n + 2 ^ 64 := by omega
  rw [this, Nat.add_mod_right]
  exact Nat.mod_eq_of_lt (by omega)

theorem frame_refl (h : Heap T) (as : List Nat) : Frame h h as := fun _ _ _ => rfl

namespace ListRep

theorem empty_iff {h : Heap T} {l : LList T} {ns : List (Nat × T)} (hr : ListRep h l ns) :
    l.empty = true ↔ ns = [] := by
  unfold LList.empty LList.begin_ LList.end_
  simp only [decide_eq_true_eq, hr.head_eq]
  cases ns with
  | nil => simp [nextPtr]
  | cons n ns => simp [nextPtr]

theorem length_lt {h : Heap T} {l : LList T} {ns : List (Nat × T)} (hr : ListRep h l ns)
    (hs : h.Sized) : ns.length < 2 ^ 64 :=
  seg_length_lt hr.seg hr.nodup hs

theorem mk0 (h : Heap T) : ListRep h LList.mk0 [] :=
  ⟨trivial, List.nodup_nil, rfl, rfl, rfl⟩

end ListRep

end Chains

/-! ## The modifiers of the list, one specification each -/

section Modifiers

variable {T : Type}

theorem eq_nil_or_snoc {α : Type} (l : List α) : l = [] ∨ ∃ l0 x, l = l0 ++ [x] := by
  rcases List.eq_nil_or_concat l with h | ⟨l0, x, h⟩
  · exact Or.inl h
  · exact Or.inr ⟨l0, x, by rw [h, List.concat_eq_append]⟩

theorem frame_alloc {h h1 : Heap T} {a : Nat} {n : Node T} {as : List Nat}
    (hfree : h.get a = none)
    (hget : ∀ b, h1.get b = if b = a then some n else h.get b) : Frame h h1 as := by
  intro b _ hb
  rw [hget]
  split
  · next hba => subst hba; exact absurd hfree hb
  · rfl

theorem push_back_spec {h : Heap T} {l : LList T} {ns : List (Nat × T)} (hrep : ListRep h l ns)
    (hs : h.Sized) (hroom : 0 < h.room) (v : T) :
    ∃ h1 l1 a, LList.push_back h l v = .ok (h1, l1) ∧ ListRep h1 l1 (ns ++ [(a, v)]) ∧
      h.get a = none ∧ Frame h h1 (ns.map Prod.fst) ∧ h1.Sized ∧ h1.room + 1 = h.room := by
  obtain ⟨h1, a, hal⟩ := Heap.alloc_ok h ⟨v, l.tail, none⟩ hroom
  obtain ⟨hfree, hget1, hsz1, hroom1⟩ := Heap.alloc_spec hal
  rcases eq_nil_or_snoc ns with rfl | ⟨ns0, ⟨t, y⟩, rfl⟩
  · have hemp : l.empty = true := hrep.empty_iff.mpr rfl
    have hseg : Seg h1 none [(a, v)] none := by
      simp [Seg, hget1, nextPtr, hrep.tail_eq, lastPtr]
    have hlen := seg_length_lt hseg (by simp) (hsz1 hs)
    refine ⟨h1, ⟨some a, some a, size_t_inc l.count⟩, a, ?_, ?_, hfree,
      frame_alloc hfree hget1, hsz1 hs, hroom1⟩
    · simp [LList.push_back, hal, hemp, bind, Except.bind, pure, Except.pure]
    · refine ⟨hseg, by simp, rfl, rfl, ?_⟩
      simp only [hrep.count_eq]
      exact size_t_inc_eq hlen
  · have hemp : l.empty = false := by
      rw [Bool.eq_false_iff]; intro hc; simpa using hrep.empty_iff.mp hc
    have htail : l.tail = some t := by rw [hrep.tail_eq, lastPtr_snoc]
    rw [htail] at hal hget1
    obtain ⟨hseg0, hgt⟩ := seg_snoc.mp hrep.seg
    have hnd := hrep.nodup
    simp only [List.map_append, List.map_cons, List.map_nil] at hnd
    have hta : t ≠ a := by rintro rfl; rw [hfree] at hgt; cases hgt
    have hgt1 : h1.get t = some ⟨y, lastPtr none ns0, none⟩ := by rw [hget1, if_neg hta, hgt]
    have hget2 := Heap.get_write hgt1 ⟨y, lastPtr none ns0, some a⟩
    have hseg : Seg (h1.write t ⟨y, lastPtr none ns0, some a⟩) none
        ((ns0 ++ [(t, y)]) ++ [(a, v)]) none := by
      rw [seg_snoc, seg_snoc]
      refine ⟨⟨seg_frame ?_ hseg0, ?_⟩, ?_⟩
      · intro b hb
        have hbt : b ≠ t := by
          rintro rfl
          exact (List.nodup_append.mp hnd).2.2 hb (by simp)
        have hba : b ≠ a := by
          rintro rfl
          exact seg_live hseg0 hb hfree
        rw [hget2, if_neg hbt, hget1, if_neg hba]
      · rw [hget2, if_pos rfl]
      · rw [hget2, if_neg (Ne.symm hta), hget1, if_pos rfl, lastPtr_snoc]
    have hnd2 : (((ns0 ++ [(t, y)]) ++ [(a, v)]).map Prod.fst).Nodup := by
      rw [List.map_append]
      refine List.Nodup.append (by simpa using hnd) (by simp) ?_
      intro b hb hb2
      simp only [List.map_cons, List.map_nil, List.mem_singleton] at hb2
      subst hb2
      exact seg_live hrep.seg hb hfree
    have hs2 : (h1.write t ⟨y, lastPtr none ns0, some a⟩).Sized := Heap.write_sized _ _ (hsz1 hs)
    have hlen := seg_length_lt hseg hnd2 hs2
    refine ⟨_, ⟨l.head, some a, size_t_inc l.count⟩, a, ?_, ?_, hfree, ?_, hs2, ?_⟩
    · simp [LList.push_back, hal, hemp, bind, Except.bind, pure, Except.pure, htail,
        Heap.setNext_some hgt1]
    · refine ⟨hseg, hnd2, ?_, ?_, ?_⟩
      · simp only [hrep.head_eq, nextPtr_append]
        rfl
      · simp only [lastPtr_snoc]
      · simp only [hrep.count_eq]
        rw [size_t_inc_eq (by simpa using hlen)]
        simp
    · intro b hb hlive
      have hbt : b ≠ t := by rintro rfl; exact hb (by simp)
      have hba : b ≠ a := by rintro rfl; exact hlive hfree
      rw [hget2, if_neg hbt, hget1, if_neg hba]
    · rw [Heap.write_room hgt1]; exact hroom1

theorem push_front_spec {h : Heap T} {l : LList T} {ns : List (Nat × T)} (hrep : ListRep h l ns)
    (hs : h.Sized) (hroom : 0 < h.room) (v : T) :
    ∃ h1 l1 a, LList.push_front h l v = .ok (h1, l1) ∧ ListRep h1 l1 ((a, v) :: ns) ∧
      h.get a = none ∧ Frame h h1 (ns.map Prod.fst) ∧ h1.Sized ∧ h1.room + 1 = h.room := by
  obtain ⟨h1, a, hal⟩ := Heap.alloc_ok h ⟨v, none, l.head⟩ hroom
  obtain ⟨hfree, hget1, hsz1, hroom1⟩ := Heap.alloc_spec hal
  cases ns with
  | nil =>
    have hemp : l.empty = true := hrep.empty_iff.mpr rfl
    have hseg : Seg h1 none [(a, v)] none := by
      simp [Seg, hget1, nextPtr, hrep.head_eq]
    have hlen := seg_length_lt hseg (by simp) (hsz1 hs)
    refine ⟨h1, ⟨some a, some a, size_t_inc l.count⟩, a, ?_, ?_, hfree,
      frame_alloc hfree hget1, hsz1 hs, hroom1⟩
    · simp [LList.push_front, hal, hemp, bind, Except.bind, pure, Except.pure]
    · refine ⟨hseg, by simp, rfl, rfl, ?_⟩
      simp only [hrep.count_eq]
      exact size_t_inc_eq hlen
  | cons n rest =>
    obtain ⟨t, y⟩ := n
    have hemp : l.empty = false := by
      rw [Bool.eq_false_iff]; intro hc; simpa using hrep.empty_iff.mp hc
    have hhead : l.head = some t := by rw [hrep.head_eq]; rfl
    rw [hhead] at hal hget1
    obtain ⟨hgt, hseg0⟩ := seg_cons.mp hrep.seg
    have hnd := hrep.nodup
    simp only [List.map_cons, List.nodup_cons] at hnd
    have hta : t ≠ a := by rintro rfl; rw [hfree] at hgt; cases hgt
    have hgt1 : h1.get t = some ⟨y, none, nextPtr rest none⟩ := by rw [hget1, if_neg hta, hgt]
    have hget2 := Heap.get_write hgt1 ⟨y, some a, nextPtr rest none⟩
    have hseg : Seg (h1.write t ⟨y, some a, nextPtr rest none⟩) none
        ((a, v) :: (t, y) :: rest) none := by
      rw [seg_cons, seg_cons]
      refine ⟨?_, ?_, seg_frame ?_ hseg0⟩
      · rw [hget2, if_neg (Ne.symm hta), hget1, if_pos rfl]; rfl
      · rw [hget2, if_pos rfl]
      · intro b hb
        have hbt : b ≠ t := by rintro rfl; exact hnd.1 hb
        have hba : b ≠ a := by rintro rfl; exact seg_live hseg0 hb hfree
        rw [hget2, if_neg hbt, hget1, if_neg hba]
    have hnd2 : (((a, v) :: (t, y) :: rest).map Prod.fst).Nodup := by
      rw [List.map_cons, List.nodup_cons]
      refine ⟨fun hb => seg_live hrep.seg hb hfree, hrep.nodup⟩
    have hs2 : (h1.write t ⟨y, some a, nextPtr rest none⟩).Sized := Heap.write_sized _ _ (hsz1 hs)
    have hlen := seg_length_lt hseg hnd2 hs2
    refine ⟨_, ⟨some a, l.tail, size_t_inc l.count⟩, a, ?_, ?_, hfree, ?_, hs2, ?_⟩
    · simp [LList.push_front, hal, hemp, bind, Except.bind, pure, Except.pure, hhead,
        Heap.setPrev_some hgt1]
    · refine ⟨hseg, hnd2, rfl, ?_, ?_⟩
      · simp only [hrep.tail_eq, lastPtr]
      · simp only [hrep.count_eq]
        rw [size_t_inc_eq (by simpa using hlen)]
        simp
    · intro b hb hlive
      have hbt : b ≠ t := by rintro rfl; exact hb (by simp)
      have hba : b ≠ a := by rintro rfl; exact hlive hfree
      rw [hget2, if_neg hbt, hget1, if_neg hba]
    · rw [Heap.write_room hgt1]; exact hroom1

theorem pop_front_spec {h : Heap T} {l : LList T} {ns : List (Nat × T)} (hrep : ListRep h l ns)
    (hs : h.Sized) :
    ∃ h1 l1, LList.pop_front h l = .ok (h1, l1) ∧ ListRep h1 l1 ns.tail ∧
      (∀ b, b ∉ ns.map Prod.fst → h1.get b = h.get b) ∧ h1.Sized ∧ h.room ≤ h1.room ∧
      (∀ n ∈ ns.head?, h1.get n.1 = none) := by
  have hlt := hrep.length_lt hs
  match ns, hrep, hlt with
  | [], hrep, _ =>
    have hemp : l.empty = true := hrep.empty_iff.mpr rfl
    refine ⟨h, l, ?_, hrep, fun _ _ => rfl, hs, le_refl _, by simp⟩
    simp [LList.pop_front, hemp, pure, Except.pure]
  | [(t, y)], hrep, hlt =>
    have hemp : l.empty = false := by
      rw [Bool.eq_false_iff]; intro hc; simpa using hrep.empty_iff.mp hc
    have hhead : l.head = some t := by rw [hrep.head_eq]; rfl
    obtain ⟨hgt, -⟩ := seg_cons.mp hrep.seg
    have hgetd := Heap.get_set_none h t
    refine ⟨⟨h.cells.set t none⟩, ⟨none, none, size_t_dec l.count⟩, ?_, ?_, ?_,
      Heap.set_none_sized t hs, ?_, ?_⟩
    · simp [LList.pop_front, hemp, hhead, bind, Except.bind, pure, Except.pure,
        Heap.read_some hgt, nextPtr, Heap.delete_some hgt]
    · refine ⟨trivial, by simp, rfl, rfl, ?_⟩
      simp only [hrep.count_eq]
      exact size_t_dec_eq (n := 0) (by norm_num)
    · intro b hb
      have hbt : b ≠ t := by rintro rfl; exact hb (by simp)
      rw [hgetd, if_neg hbt]
    · rw [Heap.set_none_room hgt]; omega
    · simp [hgetd]
  | (t, y) :: (u, z) :: rest, hrep, hlt =>
    have hemp : l.empty = false := by
      rw [Bool.eq_false_iff]; intro hc; simpa using hrep.empty_iff.mp hc
    have hhead : l.head = some t := by rw [hrep.head_eq]; rfl
    obtain ⟨hgt, hseg0⟩ := seg_cons.mp hrep.seg
    obtain ⟨hgu, hseg1⟩ := seg_cons.mp hseg0
    have hnd := hrep.nodup
    simp only [List.map_cons, List.nodup_cons, List.mem_cons, not_or] at hnd
    obtain ⟨⟨htu, htr⟩, hur, hndr⟩ := hnd
    have hget1 := Heap.get_write hgu ⟨z, none, nextPtr rest none⟩
    have hgt1 : (h.write u ⟨z, none, nextPtr rest none⟩).get t =
        some ⟨y, none, nextPtr ((u, z) :: rest) none⟩ := by
      rw [hget1, if_neg htu, hgt]
    have hget2 := Heap.get_set_none (h.write u ⟨z, none, nextPtr rest none⟩) t
    refine ⟨⟨(h.write u ⟨z, none, nextPtr rest none⟩).cells.set t none⟩,
      ⟨some u, l.tail, size_t_dec l.count⟩, ?_, ?_, ?_,
      Heap.set_none_sized t (Heap.write_sized _ _ hs), ?_, ?_⟩
    · simp [LList.pop_front, hemp, hhead, bind, Except.bind, pure, Except.pure,
        Heap.read_some hgt, nextPtr, Heap.setPrev_some hgu]
      have := Heap.delete_some hgt1
      simp only [nextPtr] at this
      simp [this]
    · refine ⟨?_, List.nodup_cons.mpr ⟨hur, hndr⟩, rfl, ?_, ?_⟩
      · rw [List.tail_cons, seg_cons]
        refine ⟨?_, seg_frame ?_ hseg1⟩
        · rw [hget2, if_neg (Ne.symm htu), hget1, if_pos rfl]
        · intro b hb
          have hbt : b ≠ t := by rintro rfl; exact htr hb
          have hbu : b ≠ u := by rintro rfl; exact hur hb
          rw [hget2, if_neg hbt, hget1, if_neg hbu]
      · simp only [hrep.tail_eq, lastPtr, List.tail_cons]
      · simp only [hrep.count_eq, List.length_cons, List.tail_cons]
        exact size_t_dec_eq (by simpa using hlt)
    · intro b hb
      have hbt : b ≠ t := by rintro rfl; exact hb (by simp)
      have hbu : b ≠ u := by rintro rfl; exact hb (by simp)
      rw [hget2, if_neg hbt, hget1, if_neg hbu]
    · rw [Heap.set_none_room hgt1, Heap.write_room hgu]; omega
    · simp [hget2]

theorem pop_back_spec {h : Heap T} {l : LList T} {ns : List (Nat × T)} (hrep : ListRep h l ns)
    (hs : h.Sized) :
    ∃ h1 l1, LList.pop_back h l = .ok (h1, l1) ∧ ListRep h1 l1 ns.dropLast ∧
      (∀ b, b ∉ ns.map Prod.fst → h1.get b = h.get b) ∧ h1.Sized ∧ h.room ≤ h1.room ∧
      (∀ n ∈ ns.getLast?, h1.get n.1 = none) := by
  have hlt := hrep.length_lt hs
  rcases eq_nil_or_snoc ns with rfl | ⟨ns1, ⟨t, y⟩, rfl⟩
  · have hemp : l.empty = true := hrep.empty_iff.mpr rfl
    refine ⟨h, l, ?_, hrep, fun _ _ => rfl, hs, le_refl _, by simp⟩
    simp [LList.pop_back, hemp, pure, Except.pure]
  have hemp : l.empty = false := by
    rw [Bool.eq_false_iff]; intro hc; simpa using hrep.empty_iff.mp hc
  have htail : l.tail = some t := by rw [hrep.tail_eq, lastPtr_snoc]
  obtain ⟨hseg0, hgt⟩ := seg_snoc.mp hrep.seg
  rcases eq_nil_or_snoc ns1 with rfl | ⟨ns0, ⟨u, z⟩, rfl⟩
  · have hgetd := Heap.get_set_none h t
    simp only [lastPtr] at hgt
    refine ⟨⟨h.cells.set t none⟩, ⟨none, none, size_t_dec l.count⟩, ?_, ?_, ?_,
      Heap.set_none_sized t hs, ?_, ?_⟩
    · simp [LList.pop_back, hemp, htail, bind, Except.bind, pure, Except.pure,
        Heap.read_some hgt, Heap.delete_some hgt]
    · refine ⟨trivial, by simp, rfl, rfl, ?_⟩
      simp only [hrep.count_eq]
      exact size_t_dec_eq (n := 0) (by norm_num)
    · intro b hb
      have hbt : b ≠ t := by rintro rfl; exact hb (by simp)
      rw [hgetd, if_neg hbt]
    · rw [Heap.set_none_room hgt]; omega
    · simp [hgetd]
  · obtain ⟨hseg1, hgu⟩ := seg_snoc.mp hseg0
    rw [lastPtr_snoc] at hgt
    have hnd := hrep.nodup
    simp only [List.map_append, List.map_cons, List.map_nil] at hnd
    have hnd1 := (List.nodup_append.mp hnd).1
    have htu : t ≠ u := by
      rintro rfl
      have hd := (List.nodup_append.mp hnd).2.2
      exact hd (show t ∈ List.map Prod.fst ns0 ++ [t] by simp) (by simp)
    have hget1 := Heap.get_write hgu ⟨z, lastPtr none ns0, none⟩
    have hgt1 : (h.write u ⟨z, lastPtr none ns0, none⟩).get t = some ⟨y, some u, none⟩ := by
      rw [hget1, if_neg htu, hgt]
    have hget2 := Heap.get_set_none (h.write u ⟨z, lastPtr none ns0, none⟩) t
    refine ⟨⟨(h.write u ⟨z, lastPtr none ns0, none⟩).cells.set t none⟩,
      ⟨l.head, some u, size_t_dec l.count⟩, ?_, ?_, ?_,
      Heap.set_none_sized t (Heap.write_sized _ _ hs), ?_, ?_⟩
    · simp [LList.pop_back, hemp, htail, bind, Except.bind, pure, Except.pure,
        Heap.read_some hgt, Heap.setNext_some hgu, Heap.delete_some hgt1]
    · rw [List.dropLast_concat]
      refine ⟨?_, by simpa using hnd1, ?_, ?_, ?_⟩
      · rw [seg_snoc]
        refine ⟨seg_frame ?_ hseg1, ?_⟩
        · intro b hb
          have hbt : b ≠ t := by
            rintro rfl
            have hd := (List.nodup_append.mp hnd).2.2
            exact hd (show b ∈ List.map Prod.fst ns0 ++ [u] by simp [hb]) (by simp)
          have hbu : b ≠ u := by
            rintro rfl
            exact (List.nodup_append.mp hnd1).2.2 hb (by simp)
          rw [hget2, if_neg hbt, hget1, if_neg hbu]
        · rw [hget2, if_neg (Ne.symm htu), hget1, if_pos rfl]
      · simp only [hrep.head_eq, nextPtr_append]; rfl
      · simp only [lastPtr_snoc]
      · simp only [hrep.count_eq, List.length_append, List.length_singleton]
        exact size_t_dec_eq (by simpa using hlt)
    · intro b hb
      have hbt : b ≠ t := by rintro rfl; exact hb (by simp)
      have hbu : b ≠ u := by rintro rfl; exact hb (by simp)
      rw [hget2, if_neg hbt, hget1, if_neg hbu]
    · rw [Heap.set_none_room hgt1, Heap.write_room hgu]; omega
    · simp [hget2]

theorem insert_spec {h : Heap T} {l : LList T} {pre post : List (Nat × T)}
    (hrep : ListRep h l (pre ++ post)) (hs : h.Sized) (hroom : 0 < h.room) (v : T)
    (pos : BiDirectionalIterator) (hpos : pos.current = nextPtr post none) :
    ∃ h1 l1 a, LList.insert h l pos v = .ok (h1, l1, ⟨some a⟩) ∧
      ListRep h1 l1 (pre ++ (a, v) :: post) ∧
      h.get a = none ∧ Frame h h1 ((pre ++ post).map Prod.fst) ∧ h1.Sized ∧
      h1.room + 1 = h.room := by
  obtain ⟨cur⟩ := pos
  simp only at hpos
  subst hpos
  cases post with
  | nil =>
    rw [List.append_nil] at hrep ⊢
    obtain ⟨h1, l1, a, hpb, hrep1, hfree, hfr, hs1, hr1⟩ := push_back_spec hrep hs hroom v
    refine ⟨h1, l1, a, ?_, hrep1, hfree, hfr, hs1, hr1⟩
    have htl : l1.tail = some a := by rw [hrep1.tail_eq, lastPtr_snoc]
    simp [LList.insert, LList.end_, nextPtr, hpb, bind, Except.bind, pure, Except.pure, htl]
  | cons n post1 =>
    obtain ⟨c, y⟩ := n
    obtain ⟨hsegpre, hsegpost⟩ := seg_append.mp hrep.seg
    obtain ⟨hgc, hsegpost1⟩ := seg_cons.mp hsegpost
    simp only [nextPtr_cons] at hsegpre
    obtain ⟨h1, a, hal⟩ := Heap.alloc_ok h ⟨v, lastPtr none pre, some c⟩ hroom
    obtain ⟨hfree, hget1, hsz1, hroom1⟩ := Heap.alloc_spec hal
    have hca : c ≠ a := by rintro rfl; rw [hfree] at hgc; cases hgc
    have hgc1 : h1.get c = some ⟨y, lastPtr none pre, nextPtr post1 none⟩ := by
      rw [hget1, if_neg hca, hgc]
    have hnd := hrep.nodup
    simp only [List.map_append, List.map_cons] at hnd
    obtain ⟨hndpre, hndpost, hdisj⟩ := List.nodup_append.mp hnd
    rw [List.nodup_cons] at hndpost
    have hcpre : c ∉ pre.map Prod.fst := fun hc => hdisj hc (by simp)
    have hnd2 : ((pre ++ (a, v) :: (c, y) :: post1).map Prod.fst).Nodup := by
      simp only [List.map_append, List.map_cons]
      refine List.Nodup.append hndpre (List.nodup_cons.mpr ⟨?_, List.nodup_cons.mpr hndpost⟩) ?_
      · intro hmem
        have : a ∈ (pre ++ (c, y) :: post1).map Prod.fst := by
          simp only [List.map_append, List.map_cons, List.mem_append]
          exact Or.inr hmem
        exact seg_live hrep.seg this hfree
      · intro b hb hb2
        rcases List.mem_cons.mp hb2 with rfl | hb3
        · exact seg_live hsegpre hb hfree
        · exact hdisj hb hb3
    have htaileq : l.tail = lastPtr (some c) post1 := by
      rw [hrep.tail_eq, lastPtr_append]; rfl
    rcases eq_nil_or_snoc pre with rfl | ⟨pre0, ⟨u, z⟩, rfl⟩
    · simp only [lastPtr] at hgc1 hal hget1 hgc
      have hget3 := Heap.get_write hgc1 ⟨y, some a, nextPtr post1 none⟩
      have hseg : Seg (h1.write c ⟨y, some a, nextPtr post1 none⟩) none
          ([] ++ (a, v) :: (c, y) :: post1) none := by
        rw [List.nil_append, seg_cons, seg_cons]
        refine ⟨?_, ?_, seg_frame ?_ hsegpost1⟩
        · rw [hget3, if_neg (Ne.symm hca), hget1, if_pos rfl]; rfl
        · rw [hget3, if_pos rfl]
        · intro b hb
          have hbc : b ≠ c := by rintro rfl; exact hndpost.1 hb
          have hba : b ≠ a := by rintro rfl; exact seg_live hsegpost1 hb hfree
          rw [hget3, if_neg hbc, hget1, if_neg hba]
      have hs3 : (h1.write c ⟨y, some a, nextPtr post1 none⟩).Sized :=
        Heap.write_sized _ _ (hsz1 hs)
      have hlen := seg_length_lt hseg hnd2 hs3
      have hga3 : (h1.write c ⟨y, some a, nextPtr post1 none⟩).get a =
          some ⟨v, none, some c⟩ := by
        rw [hget3, if_neg (Ne.symm hca), hget1, if_pos rfl]
      refine ⟨_, ⟨some a, l.tail, size_t_inc l.count⟩, a, ?_, ?_, hfree, ?_, hs3, ?_⟩
      · simp [LList.insert, LList.end_, nextPtr_cons, hal, bind, Except.bind, pure, Except.pure,
          Heap.read_some hgc, Heap.read_some hgc1, Heap.setPrev_some hgc1, Heap.read_some hga3]
      · refine ⟨hseg, hnd2, rfl, ?_, ?_⟩
        · rw [htaileq]; rfl
        · simp only [hrep.count_eq]
          rw [size_t_inc_eq (by simpa using hlen)]
          simp
      · intro b hb hlive
        have hbc : b ≠ c := by rintro rfl; exact hb (by simp)
        have hba : b ≠ a := by rintro rfl; exact hlive hfree
        rw [hget3, if_neg hbc, hget1, if_neg hba]
      · rw [Heap.write_room hgc1]; exact hroom1
    · rw [lastPtr_snoc] at hgc1 hal hget1 hgc
      obtain ⟨hsegpre0, hgu⟩ := seg_snoc.mp hsegpre
      have hua : u ≠ a := by rintro rfl; rw [hfree] at hgu; cases hgu
      have huc : u ≠ c := by rintro rfl; exact hcpre (by simp)
      have hgu1 : h1.get u = some ⟨z, lastPtr none pre0, some c⟩ := by
        rw [hget1, if_neg hua, hgu]
      have hget2 := Heap.get_write hgu1 ⟨z, lastPtr none pre0, some a⟩
      have hgc2 : (h1.write u ⟨z, lastPtr none pre0, some a⟩).get c =
          some ⟨y, some u, nextPtr post1 none⟩ := by
        rw [hget2, if_neg (Ne.symm huc), hgc1]
      have hget3 := Heap.get_write hgc2 ⟨y, some a, nextPtr post1 none⟩
      have hall : ∀ b, b ≠ a → b ≠ u → b ≠ c →
          ((h1.write u ⟨z, lastPtr none pre0, some a⟩).write c
            ⟨y, some a, nextPtr post1 none⟩).get b = h.get b := by
        intro b hba hbu hbc
        rw [hget3, if_neg hbc, hget2, if_neg hbu, hget1, if_neg hba]
      have hga3 : ((h1.write u ⟨z, lastPtr none pre0, some a⟩).write c
          ⟨y, some a, nextPtr post1 none⟩).get a = some ⟨v, some u, some c⟩ := by
        rw [hget3, if_neg (Ne.symm hca), hget2, if_neg (Ne.symm hua), hget1, if_pos rfl]
      have hseg : Seg ((h1.write u ⟨z, lastPtr none pre0, some a⟩).write c
          ⟨y, some a, nextPtr post1 none⟩) none
          ((pre0 ++ [(u, z)]) ++ (a, v) :: (c, y) :: post1) none := by
        rw [seg_append, seg_snoc, seg_cons, seg_cons, lastPtr_snoc]
        simp only [List.map_append, List.map_cons, List.map_nil] at hndpre
        have hd0 := (List.nodup_append.mp hndpre).2.2
        refine ⟨⟨seg_frame ?_ hsegpre0, ?_⟩, hga3, ?_, seg_frame ?_ hsegpost1⟩
        · intro b hb
          refine hall b ?_ ?_ ?_
          · rintro rfl; exact seg_live hsegpre0 hb hfree
          · rintro rfl; exact hd0 hb (by simp)
          · rintro rfl; exact hcpre (by simp [hb])
        · rw [hget3, if_neg huc, hget2, if_pos rfl]; rfl
        · rw [hget3, if_pos rfl]
        · intro b hb
          refine hall b ?_ ?_ ?_
          · rintro rfl; exact seg_live hsegpost1 hb hfree
          · rintro rfl
            exact hdisj (show b ∈ (pre0 ++ [(b, z)]).map Prod.fst by simp) (by simp [hb])
          · rintro rfl; exact hndpost.1 hb
      have hs3 : ((h1.write u ⟨z, lastPtr none pre0, some a⟩).write c
          ⟨y, some a, nextPtr post1 none⟩).Sized :=
        Heap.write_sized _ _ (Heap.write_sized _ _ (hsz1 hs))
      have hlen := seg_length_lt hseg hnd2 hs3
      refine ⟨_, ⟨l.head, l.tail, size_t_inc l.count⟩, a, ?_, ?_, hfree, ?_, hs3, ?_⟩
      · simp [LList.insert, LList.end_, nextPtr_cons, hal, bind, Except.bind, pure, Except.pure,
          Heap.read_some hgc, Heap.read_some hgc1, Heap.setNext_some hgu1,
          Heap.setPrev_some hgc2, Heap.read_some hga3]
      · refine ⟨hseg, hnd2, ?_, ?_, ?_⟩
        · simp only [hrep.head_eq, nextPtr_append]; rfl
        · rw [htaileq, lastPtr_append]; rfl
        · simp only [hrep.count_eq]
          rw [size_t_inc_eq (by simp at hlen ⊢; omega)]
          simp
          omega
      · intro b hb hlive
        refine hall b ?_ ?_ ?_
        · rintro rfl; exact hlive hfree
        · rintro rfl; exact hb (by simp)
        · rintro rfl; exact hb (by simp)
      · rw [Heap.write_room hgc2, Heap.write_room hgu1]; exact hroom1

/-- Redirecting the `next` link of the last node of a non-empty segment. -/
theorem seg_set_next {h : Heap T} {p q : Ptr} {pre : List (Nat × T)} (hseg : Seg h p pre q)
    (hnd : (pre.map Prod.fst).Nodup) (hne : pre ≠ []) (q1 : Ptr) :
    ∃ h1 u, lastPtr p pre = some u ∧ h.setNext (some u) q1 = .ok h1 ∧ Seg h1 p pre q1 ∧
      (∀ b, b ∉ pre.map Prod.fst → h1.get b = h.get b) ∧ (h.Sized → h1.Sized) ∧
      h1.room = h.room := by
  rcases eq_nil_or_snoc pre with rfl | ⟨pre0, ⟨u, z⟩, rfl⟩
  · exact absurd rfl hne
  obtain ⟨hseg0, hgu⟩ := seg_snoc.mp hseg
  have hget1 := Heap.get_write hgu ⟨z, lastPtr p pre0, q1⟩
  simp only [List.map_append, List.map_cons, List.map_nil] at hnd
  have hd0 := (List.nodup_append.mp hnd).2.2
  refine ⟨_, u, lastPtr_snoc _ _ _ _, Heap.setNext_some hgu q1, ?_, ?_,
    Heap.write_sized _ _, Heap.write_room hgu _⟩
  · rw [seg_snoc]
    refine ⟨seg_frame ?_ hseg0, ?_⟩
    · intro b hb
      have hbu : b ≠ u := by rintro rfl; exact hd0 hb (by simp)
      rw [hget1, if_neg hbu]
    · rw [hget1, if_pos rfl]
  · intro b hb
    have hbu : b ≠ u := by rintro rfl; exact hb (by simp)
    rw [hget1, if_neg hbu]

/-- Redirecting the `prev` link of the first node of a non-empty segment. -/
theorem seg_set_prev {h : Heap T} {p q : Ptr} {post : List (Nat × T)} (hseg : Seg h p post q)
    (hnd : (post.map Prod.fst).Nodup) (hne : post ≠ []) (p1 : Ptr) :
    ∃ h1 w, nextPtr post q = some w ∧ h.setPrev (some w) p1 = .ok h1 ∧ Seg h1 p1 post q ∧
      (∀ b, b ∉ post.map Prod.fst → h1.get b = h.get b) ∧ (h.Sized → h1.Sized) ∧
      h1.room = h.room := by
  cases post with
  | nil => exact absurd rfl hne
  | cons n post1 =>
    obtain ⟨w, x⟩ := n
    obtain ⟨hgw, hseg1⟩ := seg_cons.mp hseg
    have hget1 := Heap.get_write hgw ⟨x, p1, nextPtr post1 q⟩
    simp only [List.map_cons, List.nodup_cons] at hnd
    refine ⟨_, w, rfl, Heap.setPrev_some hgw p1, ?_, ?_,
      Heap.write_sized _ _, Heap.write_room hgw _⟩
    · rw [seg_cons]
      refine ⟨?_, seg_frame ?_ hseg1⟩
      · rw [hget1, if_pos rfl]
      · intro b hb
        have hbw : b ≠ w := by rintro rfl; exact hnd.1 hb
        rw [hget1, if_neg hbw]
    · intro b hb
      have hbw : b ≠ w := by rintro rfl; exact hb (by simp)
      rw [hget1, if_neg hbw]

theorem nextPtr_nil_iff {ns : List (Nat × T)} : nextPtr ns none = none ↔ ns = [] := by
  cases ns with
  | nil => simp [nextPtr]
  | cons n ns => simp [nextPtr]

theorem lastPtr_nil_iff {ns : List (Nat × T)} : lastPtr none ns = none ↔ ns = [] := by
  rcases eq_nil_or_snoc ns with rfl | ⟨ns0, ⟨u, z⟩, rfl⟩
  · simp [lastPtr]
  · simp [lastPtr_snoc]

theorem erase_spec {h : Heap T} {l : LList T} {pre post : List (Nat × T)} {c : Nat} {y : T}
    (hrep : ListRep h l (pre ++ (c, y) :: post)) (hs : h.Sized) :
    ∃ h1 l1, LList.erase h l ⟨some c⟩ = .ok (h1, l1, ⟨nextPtr post none⟩) ∧
      ListRep h1 l1 (pre ++ post) ∧
      (∀ b, b ∉ (pre ++ (c, y) :: post).map Prod.fst → h1.get b = h.get b) ∧ h1.Sized ∧
      h1.room = h.room + 1 ∧ h1.get c = none := by
  have hlt := hrep.length_lt hs
  obtain ⟨hsegpre, hsegpost⟩ := seg_append.mp hrep.seg
  obtain ⟨hgc, hsegpost1⟩ := seg_cons.mp hsegpost
  simp only [nextPtr_cons] at hsegpre
  have hnd := hrep.nodup
  simp only [List.map_append, List.map_cons] at hnd
  obtain ⟨hndpre, hndpost, hdisj⟩ := List.nodup_append.mp hnd
  rw [List.nodup_cons] at hndpost
  have hcpre : c ∉ pre.map Prod.fst := fun hc => hdisj hc (by simp)
  have hdisj1 : ∀ b, b ∈ pre.map Prod.fst → b ∉ post.map Prod.fst :=
    fun b hb hb2 => hdisj hb (List.mem_cons_of_mem _ hb2)
  have hnd2 : ((pre ++ post).map Prod.fst).Nodup := by
    rw [List.map_append]
    exact List.Nodup.append hndpre hndpost.2 (fun b hb hb2 => hdisj1 b hb hb2)
  have hcount : size_t_dec l.count = (pre ++ post).length := by
    rw [hrep.count_eq]
    have : (pre ++ (c, y) :: post).length = (pre ++ post).length + 1 := by simp; omega
    rw [this] at hlt ⊢
    exact size_t_dec_eq hlt
  have hheadeq : l.head = nextPtr pre (some c) := by
    rw [hrep.head_eq, nextPtr_append]; rfl
  have htaileq : l.tail = lastPtr (some c) post := by
    rw [hrep.tail_eq, lastPtr_append]; rfl
  -- first relinking: the predecessor, or the head
  have stepA : ∃ h1 head1,
      (∀ b, b ∉ pre.map Prod.fst → h1.get b = h.get b) ∧ h1.Sized ∧ h1.room = h.room ∧
      Seg h1 none pre (nextPtr post none) ∧ head1 = nextPtr (pre ++ post) none ∧
      (if lastPtr none pre ≠ none then
          (do let h1 ← h.setNext (lastPtr none pre) (nextPtr post none); pure (h1, l.head))
        else (pure (h, nextPtr post none) : Except Err (Heap T × Ptr))) = .ok (h1, head1) := by
    by_cases hpre : pre = []
    · subst hpre
      exact ⟨h, nextPtr post none, fun _ _ => rfl, hs, rfl, trivial, rfl, by simp [lastPtr, pure, Except.pure]⟩
    · obtain ⟨h1, u, hlast, hset, hseg1, hfr, hsz, hroom⟩ :=
        seg_set_next hsegpre hndpre hpre (nextPtr post none)
      refine ⟨h1, l.head, hfr, hsz hs, hroom, hseg1, ?_, ?_⟩
      · rw [hheadeq, nextPtr_append]
        cases pre with
        | nil => exact absurd rfl hpre
        | cons n pre1 => rfl
      · simp [hlast, hset, bind, Except.bind, pure, Except.pure]
  obtain ⟨h1, head1, hfr1, hs1, hroom1, hseg1pre, hhead1, hA⟩ := stepA
  have hgc1 : h1.get c = some ⟨y, lastPtr none pre, nextPtr post none⟩ := by
    rw [hfr1 c hcpre, hgc]
  have hseg1post : Seg h1 (some c) post none :=
    seg_frame (fun b hb => hfr1 b (fun hb2 => hdisj1 b hb2 hb)) hsegpost1
  -- second relinking: the successor, or the tail
  have stepB : ∃ h2 tail2,
      (∀ b, b ∉ post.map Prod.fst → h2.get b = h1.get b) ∧ h2.Sized ∧ h2.room = h1.room ∧
      Seg h2 (lastPtr none pre) post none ∧ tail2 = lastPtr none (pre ++ post) ∧
      (if nextPtr post none ≠ none then
          (do let h2 ← h1.setPrev (nextPtr post none) (lastPtr none pre); pure (h2, l.tail))
        else (pure (h1, lastPtr none pre) : Except Err (Heap T × Ptr))) = .ok (h2, tail2) := by
    by_cases hpost : post = []
    · subst hpost
      exact ⟨h1, lastPtr none pre, fun _ _ => rfl, hs1, rfl, trivial, by simp,
        by simp [nextPtr, pure, Except.pure]⟩
    · obtain ⟨h2, w, hnext, hset, hseg2, hfr, hsz, hroom⟩ :=
        seg_set_prev hseg1post hndpost.2 hpost (lastPtr none pre)
      refine ⟨h2, l.tail, hfr, hsz hs1, hroom, hseg2, ?_, ?_⟩
      · rw [htaileq, lastPtr_append]
        cases post with
        | nil => exact absurd rfl hpost
        | cons n post1 => rfl
      · simp [hnext, hset, bind, Except.bind, pure, Except.pure]
  obtain ⟨h2, tail2, hfr2, hs2, hroom2, hseg2post, htail2, hB⟩ := stepB
  have hgc2 : h2.get c = some ⟨y, lastPtr none pre, nextPtr post none⟩ := by
    rw [hfr2 c hndpost.1, hgc1]
  have hseg2pre : Seg h2 none pre (nextPtr post none) :=
    seg_frame (fun b hb => hfr2 b (hdisj1 b hb)) hseg1pre
  have hget3 := Heap.get_set_none h2 c
  refine ⟨⟨h2.cells.set c none⟩, ⟨head1, tail2, size_t_dec l.count⟩, ?_, ?_, ?_,
    Heap.set_none_sized c hs2, ?_, ?_⟩
  · simp only [LList.erase, LList.end_, BiDirectionalIterator.mk.injEq, reduceCtorEq, if_false,
      Heap.read_some hgc, bind, Except.bind]
    simp only [bind, Except.bind] at hA hB
    rw [hA]
    simp only [Heap.read_some hgc1]
    rw [hB]
    simp only [Heap.read_some hgc2, Heap.delete_some hgc2, pure, Except.pure]
  · refine ⟨?_, hnd2, hhead1, htail2, hcount⟩
    rw [seg_append]
    refine ⟨seg_frame ?_ hseg2pre, seg_frame ?_ hseg2post⟩
    · intro b hb
      have hbc : b ≠ c := by rintro rfl; exact hcpre hb
      rw [hget3, if_neg hbc]
    · intro b hb
      have hbc : b ≠ c := by rintro rfl; exact hndpost.1 hb
      rw [hget3, if_neg hbc]
  · intro b hb
    simp only [List.map_append, List.map_cons, List.mem_append, List.mem_cons, not_or] at hb
    rw [hget3, if_neg hb.2.1, hfr2 b hb.2.2, hfr1 b hb.1]
  · rw [Heap.set_none_room hgc2, hroom2, hroom1]
  · rw [hget3, if_pos rfl]

end Modifiers

/-! ## Traversals of a represented list -/

section Walks

variable {T : Type}

theorem walkNext_none (h : Heap T) (k : Nat) : walkNext h k none = [] := by
  cases k <;> rfl

theorem walkPrev_none (h : Heap T) (k : Nat) : walkPrev h k none = [] := by
  cases k <;> rfl

theorem walkNext_seg {h : Heap T} {p q : Ptr} {ns : List (Nat × T)} (hseg : Seg h p ns q)
    {k : Nat} (hk : ns.length ≤ k) :
    walkNext h k (nextPtr ns q) = ns.map Prod.fst ++ walkNext h (k - ns.length) q := by
  induction ns generalizing p k with
  | nil => simp [nextPtr]
  | cons n rest ih =>
    obtain ⟨a, x⟩ := n
    obtain ⟨hga, hrest⟩ := seg_cons.mp hseg
    obtain ⟨k1, rfl⟩ : ∃ k1, k = k1 + 1 := ⟨k - 1, by simp at hk; omega⟩
    simp only [List.length_cons, Nat.add_le_add_iff_right] at hk
    simp only [nextPtr_cons, walkNext, hga, List.map_cons, List.cons_append, List.length_cons,
      Nat.add_sub_add_right]
    rw [ih hrest hk]

theorem walkPrev_seg {h : Heap T} {p q : Ptr} {ns : List (Nat × T)} (hseg : Seg h p ns q)
    {k : Nat} (hk : ns.length ≤ k) :
    walkPrev h k (lastPtr p ns) =
      (ns.map Prod.fst).reverse ++ walkPrev h (k - ns.length) p := by
  induction ns using List.reverseRecOn generalizing q k with
  | nil => simp [lastPtr]
  | append_singleton ns0 n ih =>
    obtain ⟨t, y⟩ := n
    obtain ⟨hseg0, hgt⟩ := seg_snoc.mp hseg
    obtain ⟨k1, rfl⟩ : ∃ k1, k = k1 + 1 := ⟨k - 1, by simp at hk; omega⟩
    simp only [List.length_append, List.length_singleton, Nat.add_le_add_iff_right] at hk
    rw [lastPtr_snoc]
    simp only [walkPrev, hgt, List.map_append, List.map_cons, List.map_nil,
      List.reverse_append, List.reverse_cons, List.reverse_nil, List.nil_append,
      List.singleton_append, List.cons_append, List.length_append, List.length_singleton,
      Nat.add_sub_add_right]
    rw [ih hseg0 hk]

theorem seg_data {h : Heap T} {p q : Ptr} {ns : List (Nat × T)} (hseg : Seg h p ns q) :
    (ns.map Prod.fst).filterMap (fun a => (h.get a).map Node.data) = ns.map Prod.snd := by
  induction ns generalizing p with
  | nil => rfl
  | cons n rest ih =>
    obtain ⟨a, x⟩ := n
    obtain ⟨hga, hrest⟩ := seg_cons.mp hseg
    simp only [List.map_cons, List.filterMap_cons, hga, Option.map_some']
    rw [ih hrest]

theorem lastPtr_eq_getLast (ns : List (Nat × T)) :
    lastPtr none ns = (ns.map Prod.fst).getLast? := by
  rcases eq_nil_or_snoc ns with rfl | ⟨ns0, ⟨t, y⟩, rfl⟩
  · rfl
  · rw [lastPtr_snoc]; simp

theorem nextPtr_eq_head (ns : List (Nat × T)) :
    nextPtr ns none = (ns.map Prod.fst).head? := by
  cases ns with
  | nil => rfl
  | cons n ns => rfl

namespace ListRep

variable {h : Heap T} {l : LList T} {ns : List (Nat × T)}

theorem nodes_eq (hr : ListRep h l ns) : l.nodes h = ns.map Prod.fst := by
  unfold LList.nodes
  rw [hr.head_eq, walkNext_seg hr.seg (by rw [hr.count_eq]; omega), walkNext_none]
  simp

theorem nodesRev_eq (hr : ListRep h l ns) : l.nodesRev h = (ns.map Prod.fst).reverse := by
  unfold LList.nodesRev
  rw [hr.tail_eq, walkPrev_seg hr.seg (by rw [hr.count_eq]; omega), walkPrev_none]
  simp

theorem elements_eq (hr : ListRep h l ns) : l.elements h = ns.map Prod.snd := by
  unfold LList.elements
  rw [hr.head_eq, walkNext_seg hr.seg (seg_length_le hr.seg hr.nodup), walkNext_none,
    List.append_nil, seg_data hr.seg]

theorem eq_mk0 (hr : ListRep h l []) : l = LList.mk0 := by
  obtain ⟨hd, tl, c⟩ := l
  have h1 := hr.head_eq
  have h2 := hr.tail_eq
  have h3 := hr.count_eq
  simp only [nextPtr, lastPtr, List.length_nil] at h1 h2 h3
  subst h1 h2 h3
  rfl

theorem frame {h1 : Heap T} (hr : ListRep h l ns)
    (hf : ∀ a ∈ ns.map Prod.fst, h1.get a = h.get a) : ListRep h1 l ns :=
  ⟨seg_frame hf hr.seg, hr.nodup, hr.head_eq, hr.tail_eq, hr.count_eq⟩

/-- A represented list satisfies the structural invariant. -/
theorem invariant (hr : ListRep h l ns) : l.Invariant h := by
  have hnodes := hr.nodes_eq
  have hrev := hr.nodesRev_eq
  refine ⟨?_, ?_, ?_, ?_, ?_, ?_, ?_, ?_, ?_, ?_, ?_⟩
  · rw [hr.count_eq, hr.head_eq, nextPtr_nil_iff, List.length_eq_zero]
  · rw [hr.head_eq, hr.tail_eq, nextPtr_nil_iff, lastPtr_nil_iff]
  · rw [hr.empty_iff, LList.size, hr.count_eq, List.length_eq_zero]
  · intro hpos
    rw [hr.count_eq] at hpos
    cases ns with
    | nil => simp at hpos
    | cons n rest =>
      obtain ⟨a, x⟩ := n
      exact ⟨a, _, hr.head_eq, (seg_cons.mp hr.seg).1, rfl⟩
  · intro hpos
    rw [hr.count_eq] at hpos
    rcases eq_nil_or_snoc ns with rfl | ⟨ns0, ⟨t, y⟩, rfl⟩
    · simp at hpos
    · exact ⟨t, _, by rw [hr.tail_eq, lastPtr_snoc], (seg_snoc.mp hr.seg).2, rfl⟩
  · rw [hnodes, hr.count_eq, List.length_map]
  · rw [hnodes]; exact hr.nodup
  · intro a ha
    rw [hnodes] at ha
    exact seg_live hr.seg ha
  · rw [hnodes, hr.tail_eq, lastPtr_eq_getLast]
  · rw [hrev, hnodes]
  · rw [hrev, hr.head_eq, nextPtr_eq_head, List.getLast?_reverse]

end ListRep

end Walks

/-! ## `clear`, iterators, and programs -/

section ClearAndPrograms

variable {T : Type}

theorem frame_trans {h h1 h2 : Heap T} {as bs : List Nat} (hsub : ∀ b, b ∈ bs → b ∈ as)
    (h01 : Frame h h1 as) (h12 : Frame h1 h2 bs) : Frame h h2 as := by
  intro b hb hlive
  have e1 := h01 b hb hlive
  rw [h12 b (fun hbs => hb (hsub b hbs)) (by rw [e1]; exact hlive), e1]

theorem clearLoop_spec {h : Heap T} {l : LList T} {ns : List (Nat × T)} (hrep : ListRep h l ns)
    (hs : h.Sized) {k : Nat} (hk : ns.length ≤ k) :
    ∃ h1, LList.clearLoop k h l = .ok (h1, LList.mk0) ∧ ListRep h1 (LList.mk0 : LList T) [] ∧
      (∀ b, b ∉ ns.map Prod.fst → h1.get b = h.get b) ∧ h1.Sized ∧ h.room ≤ h1.room ∧
      (∀ a ∈ ns.map Prod.fst, h1.get a = none) := by
  induction ns generalizing h l k with
  | nil =>
    have hemp : l.empty = true := hrep.empty_iff.mpr rfl
    have hl := hrep.eq_mk0
    subst hl
    refine ⟨h, ?_, hrep, fun _ _ => rfl, hs, le_refl _, by simp⟩
    cases k <;> simp [LList.clearLoop, hemp, pure, Except.pure]
  | cons n rest ih =>
    have hemp : l.empty = false := by
      rw [Bool.eq_false_iff]; intro hc; simpa using hrep.empty_iff.mp hc
    obtain ⟨k1, rfl⟩ : ∃ k1, k = k1 + 1 := ⟨k - 1, by simp at hk; omega⟩
    simp only [List.length_cons, Nat.add_le_add_iff_right] at hk
    obtain ⟨h1, l1, hpop, hrep1, hfr1, hs1, hroom1, hdead⟩ := pop_front_spec hrep hs
    rw [List.tail_cons] at hrep1
    obtain ⟨h2, hloop, hrep2, hfr2, hs2, hroom2, hdead2⟩ := ih hrep1 hs1 hk
    refine ⟨h2, ?_, hrep2, ?_, hs2, le_trans hroom1 hroom2, ?_⟩
    · simp [LList.clearLoop, hemp, hpop, bind, Except.bind, hloop]
    · intro b hb
      simp only [List.map_cons, List.mem_cons, not_or] at hb
      rw [hfr2 b hb.2, hfr1 b (by simp only [List.map_cons, List.mem_cons, not_or]; exact hb)]
    · intro a ha
      simp only [List.map_cons, List.mem_cons] at ha
      by_cases har : a ∈ rest.map Prod.fst
      · exact hdead2 a har
      · rcases ha with rfl | ha
        · rw [hfr2 _ har]
          exact hdead n (by simp)
        · exact absurd ha har

theorem clear_spec {h : Heap T} {l : LList T} {ns : List (Nat × T)} (hrep : ListRep h l ns)
    (hs : h.Sized) :
    ∃ h1, LList.clear h l = .ok (h1, LList.mk0) ∧ ListRep h1 (LList.mk0 : LList T) [] ∧
      (∀ b, b ∉ ns.map Prod.fst → h1.get b = h.get b) ∧ h1.Sized ∧ h.room ≤ h1.room ∧
      (∀ a ∈ ns.map Prod.fst, h1.get a = none) :=
  clearLoop_spec hrep hs (seg_length_le hrep.seg hrep.nodup)

theorem advance_spec {h : Heap T} {p q : Ptr} {ns : List (Nat × T)} (hseg : Seg h p ns q)
    {k : Nat} (hk : k ≤ ns.length) :
    BiDirectionalIterator.advance h k ⟨nextPtr ns q⟩ = .ok ⟨nextPtr (ns.drop k) q⟩ := by
  induction ns generalizing p k with
  | nil =>
    simp only [List.length_nil, Nat.le_zero] at hk
    subst hk
    rfl
  | cons n rest ih =>
    obtain ⟨a, x⟩ := n
    obtain ⟨hga, hrest⟩ := seg_cons.mp hseg
    cases k with
    | zero => rfl
    | succ k =>
      simp only [List.length_cons, Nat.add_le_add_iff_right] at hk
      simp only [BiDirectionalIterator.advance, BiDirectionalIterator.incr, nextPtr_cons,
        Heap.read_some hga, bind, Except.bind, pure, Except.pure, List.drop_succ_cons]
      exact ih hrest hk

theorem advance_inv {h : Heap T} {p : Ptr} {ns : List (Nat × T)} (hseg : Seg h p ns none)
    {k : Nat} {pos : BiDirectionalIterator}
    (hadv : BiDirectionalIterator.advance h k ⟨nextPtr ns none⟩ = .ok pos) :
    k ≤ ns.length ∧ pos = ⟨nextPtr (ns.drop k) none⟩ := by
  induction ns generalizing p k with
  | nil =>
    cases k with
    | zero =>
      simp only [BiDirectionalIterator.advance, pure, Except.pure, Except.ok.injEq] at hadv
      exact ⟨le_refl _, hadv.symm⟩
    | succ k =>
      simp [BiDirectionalIterator.advance, BiDirectionalIterator.incr, nextPtr, Heap.read,
        bind, Except.bind] at hadv
  | cons n rest ih =>
    obtain ⟨a, x⟩ := n
    obtain ⟨hga, hrest⟩ := seg_cons.mp hseg
    cases k with
    | zero =>
      simp only [BiDirectionalIterator.advance, pure, Except.pure, Except.ok.injEq] at hadv
      exact ⟨Nat.zero_le _, hadv.symm⟩
    | succ k =>
      simp only [BiDirectionalIterator.advance, BiDirectionalIterator.incr, nextPtr_cons,
        Heap.read_some hga, bind, Except.bind, pure, Except.pure] at hadv
      obtain ⟨hk, hpos⟩ := ih hrest hadv
      exact ⟨by simpa using hk, by simpa using hpos⟩

theorem push_back_room {h : Heap T} {l : LList T} {v : T} {r : Heap T × LList T}
    (hop : LList.push_back h l v = .ok r) : 0 < h.room := by
  unfold LList.push_back at hop
  cases hal : h.alloc ⟨v, l.tail, none⟩ with
  | error e => simp [hal, bind, Except.bind] at hop
  | ok x =>
    obtain ⟨x1, x2⟩ := x
    have := (Heap.alloc_spec hal).2.2.2
    omega

theorem push_front_room {h : Heap T} {l : LList T} {v : T} {r : Heap T × LList T}
    (hop : LList.push_front h l v = .ok r) : 0 < h.room := by
  unfold LList.push_front at hop
  cases hal : h.alloc ⟨v, none, l.head⟩ with
  | error e => simp [hal, bind, Except.bind] at hop
  | ok x =>
    obtain ⟨x1, x2⟩ := x
    have := (Heap.alloc_spec hal).2.2.2
    omega

theorem insert_room {h : Heap T} {l : LList T} {pos : BiDirectionalIterator} {v : T}
    {r : Heap T × LList T × BiDirectionalIterator}
    (hop : LList.insert h l pos v = .ok r) : 0 < h.room := by
  unfold LList.insert at hop
  split at hop
  · cases hpb : LList.push_back h l v with
    | error e => simp [hpb, bind, Except.bind] at hop
    | ok x => exact push_back_room hpb
  · cases hrd : h.read pos.current with
    | error e => simp [hrd, bind, Except.bind] at hop
    | ok c =>
      cases hal : h.alloc ⟨v, c.prev, pos.current⟩ with
      | error e => simp [hrd, hal, bind, Except.bind] at hop
      | ok x =>
        obtain ⟨x1, x2⟩ := x
        have := (Heap.alloc_spec hal).2.2.2
        omega

namespace World

theorem init_good : (World.init : World T).Good :=
  ⟨fun _ => [], by simp [Heap.Sized, World.init, Heap.init, maxNodes],
    by intro i l hl; simp [World.init] at hl,
    by intro i b hb; simp at hb,
    by intro i j _ b hb; simp at hb⟩

/-- Replacing the list of rank `i` after a modifier that stayed inside its own chain and fresh
cells keeps the store consistent. -/
theorem GoodWith.update {w : World T} {g : Nat → List (Nat × T)} (hg : w.GoodWith g)
    {i : Nat} {l : LList T} (hl : w.lists[i]? = some l)
    {h1 : Heap T} {l1 : LList T} {ns1 : List (Nat × T)}
    (hrep : ListRep h1 l1 ns1) (hfr : Frame w.heap h1 ((g i).map Prod.fst)) (hs : h1.Sized)
    (hnew : ∀ b ∈ ns1.map Prod.fst, b ∈ (g i).map Prod.fst ∨ w.heap.get b = none) :
    (World.mk h1 (w.lists.set i l1)).GoodWith (Function.update g i ns1) := by
  have hi : i < w.lists.length := by
    by_contra hlt
    rw [List.getElem?_eq_none (by omega)] at hl
    cases hl
  have hkeep : ∀ j, j ≠ i → ∀ b ∈ (g j).map Prod.fst, h1.get b = w.heap.get b :=
    fun j hji b hb => hfr b (hg.disjoint j i hji b hb) (hg.live j b hb)
  refine ⟨hs, ?_, ?_, ?_⟩
  · intro j lj hj
    by_cases hji : j = i
    · subst hji
      simp only [List.getElem?_set_self hi, Option.some.injEq] at hj
      subst hj
      simpa using hrep
    · simp only [ne_eq, Ne.symm hji, not_false_eq_true, List.getElem?_set_ne] at hj
      rw [Function.update_noteq hji]
      exact (hg.rep j lj hj).frame (hkeep j hji)
  · intro j b hb
    by_cases hji : j = i
    · subst hji
      rw [Function.update_same] at hb
      exact seg_live hrep.seg hb
    · rw [Function.update_noteq hji] at hb
      rw [hkeep j hji b hb]
      exact hg.live j b hb
  · intro j k hjk b hb
    by_cases hji : j = i
    · subst hji
      have hkj : k ≠ j := Ne.symm hjk
      rw [Function.update_same] at hb
      rw [Function.update_noteq hkj]
      rcases hnew b hb with hold | hfree
      · exact hg.disjoint j k hjk b hold
      · exact fun hbk => hg.live k b hbk hfree
    · rw [Function.update_noteq hji] at hb
      by_cases hki : k = i
      · subst hki
        rw [Function.update_same]
        intro hb1
        rcases hnew b hb1 with hold | hfree
        · exact hg.disjoint j k hjk b hb hold
        · exact hg.live j b hb hfree
      · rw [Function.update_noteq hki]
        exact hg.disjoint j k hjk b hb

theorem onList_good {w w1 : World T} {i : Nat}
    {f : Heap T → LList T → Except Err (Heap T × LList T)} (hg : w.Good)
    (hstep : w.onList i f = .ok w1)
    (hf : ∀ l ns h1 l1, ListRep w.heap l ns → f w.heap l = .ok (h1, l1) →
      ∃ ns1, ListRep h1 l1 ns1 ∧ Frame w.heap h1 (ns.map Prod.fst) ∧ h1.Sized ∧
        ∀ b ∈ ns1.map Prod.fst, b ∈ ns.map Prod.fst ∨ w.heap.get b = none) : w1.Good := by
  obtain ⟨g, hgw⟩ := hg
  unfold onList at hstep
  cases hl : w.lists[i]? with
  | none => simp [hl] at hstep
  | some l =>
    cases hr : f w.heap l with
    | error e => simp [hl, hr, bind, Except.bind] at hstep
    | ok r =>
      obtain ⟨h1, l1⟩ := r
      simp only [hl, hr, bind, Except.bind, pure, Except.pure, Except.ok.injEq] at hstep
      subst hstep
      obtain ⟨ns1, hrep1, hfr, hs1, hnew⟩ := hf l (g i) h1 l1 (hgw.rep i l hl) hr
      exact ⟨_, hgw.update hl hrep1 hfr hs1 hnew⟩

theorem swap_good {w w1 : World T} {i j : Nat} (hg : w.Good)
    (hstep : w.step (.swap i j) = .ok w1) : w1.Good := by
  obtain ⟨g, hgw⟩ := hg
  simp only [step] at hstep
  cases hi : w.lists[i]? with
  | none => simp [hi] at hstep
  | some a =>
    cases hj : w.lists[j]? with
    | none => simp [hi, hj] at hstep
    | some b =>
      simp only [hi, hj, pure, Except.pure, Except.ok.injEq, LList.swap] at hstep
      subst hstep
      have hilt : i < w.lists.length := by
        by_contra hlt
        rw [List.getElem?_eq_none (by omega)] at hi
        cases hi
      have hjlt : j < w.lists.length := by
        by_contra hlt
        rw [List.getElem?_eq_none (by omega)] at hj
        cases hj
      let σ : Nat → Nat := fun k => if k = j then i else if k = i then j else k
      have hσ : ∀ k m, k ≠ m → σ k ≠ σ m := by
        intro k m hkm
        simp only [σ]
        split_ifs <;> omega
      refine ⟨fun k => g (σ k), hgw.sized, ?_, fun k b hb => hgw.live (σ k) b hb,
        fun k m hkm b hb => hgw.disjoint (σ k) (σ m) (hσ k m hkm) b hb⟩
      intro k lk hk
      simp only [σ]
      by_cases hkj : k = j
      · subst hkj
        rw [List.getElem?_set_self (by simpa using hjlt)] at hk
        simp only [Option.some.injEq] at hk
        subst hk
        simpa using hgw.rep i a hi
      · rw [List.getElem?_set_ne (Ne.symm hkj)] at hk
        by_cases hki : k = i
        · subst hki
          rw [List.getElem?_set_self hilt] at hk
          simp only [Option.some.injEq] at hk
          subst hk
          simpa [hkj] using hgw.rep j b hj
        · rw [List.getElem?_set_ne (Ne.symm hki)] at hk
          simpa [hkj, hki] using hgw.rep k lk hk

theorem create_good {w : World T} (hg : w.Good) :
    (World.mk w.heap (w.lists ++ [LList.mk0])).Good := by
  obtain ⟨g, hgw⟩ := hg
  have hfresh : ∀ j, j ≠ w.lists.length → ∀ b ∈ (g j).map Prod.fst,
      b ∉ (([] : List (Nat × T))).map Prod.fst := by
    intro j _ b _; simp
  refine ⟨Function.update g w.lists.length [], hgw.sized, ?_, ?_, ?_⟩
  · intro k lk hk
    by_cases hkn : k = w.lists.length
    · subst hkn
      simp only [List.getElem?_concat_length, Option.some.injEq] at hk
      subst hk
      rw [Function.update_same]
      exact ListRep.mk0 _
    · rw [Function.update_noteq hkn]
      by_cases hklt : k < w.lists.length
      · rw [List.getElem?_append_left hklt] at hk
        exact hgw.rep k lk hk
      · rw [List.getElem?_eq_none (by simp; omega)] at hk
        cases hk
  · intro k b hb
    by_cases hkn : k = w.lists.length
    · subst hkn
      rw [Function.update_same] at hb
      simp at hb
    · rw [Function.update_noteq hkn] at hb
      exact hgw.live k b hb
  · intro k m hkm b hb
    by_cases hkn : k = w.lists.length
    · subst hkn
      rw [Function.update_same] at hb
      simp at hb
    · rw [Function.update_noteq hkn] at hb
      by_cases hmn : m = w.lists.length
      · subst hmn
        rw [Function.update_same]
        simp
      · rw [Function.update_noteq hmn]
        exact hgw.disjoint k m hkm b hb

theorem frame_of_strong {h h1 : Heap T} {as : List Nat}
    (hf : ∀ b, b ∉ as → h1.get b = h.get b) : Frame h h1 as :=
  fun b hb _ => hf b hb

theorem step_good {w w1 : World T} {op : Op T} (hg : w.Good) (hstep : w.step op = .ok w1) :
    w1.Good := by
  have hsz : w.heap.Sized := by obtain ⟨g, hgw⟩ := hg; exact hgw.sized
  cases op with
  | create =>
    simp only [step, pure, Except.pure, Except.ok.injEq] at hstep
    subst hstep
    exact create_good hg
  | push_front i v =>
    simp only [step] at hstep
    refine onList_good hg hstep ?_
    intro l ns h1 l1 hrep hop
    obtain ⟨h2, l2, a, hop2, hrep2, hfree, hfr, hs2, -⟩ :=
      push_front_spec hrep hsz (push_front_room hop) v
    rw [hop2] at hop
    simp only [Except.ok.injEq, Prod.mk.injEq] at hop
    obtain ⟨rfl, rfl⟩ := hop
    refine ⟨_, hrep2, hfr, hs2, ?_⟩
    intro b hb
    simp only [List.map_cons, List.mem_cons] at hb
    rcases hb with rfl | hb
    · exact Or.inr hfree
    · exact Or.inl hb
  | push_back i v =>
    simp only [step] at hstep
    refine onList_good hg hstep ?_
    intro l ns h1 l1 hrep hop
    obtain ⟨h2, l2, a, hop2, hrep2, hfree, hfr, hs2, -⟩ :=
      push_back_spec hrep hsz (push_back_room hop) v
    rw [hop2] at hop
    simp only [Except.ok.injEq, Prod.mk.injEq] at hop
    obtain ⟨rfl, rfl⟩ := hop
    refine ⟨_, hrep2, hfr, hs2, ?_⟩
    intro b hb
    simp only [List.map_append, List.map_cons, List.map_nil, List.mem_append,
      List.mem_singleton] at hb
    rcases hb with hb | rfl
    · exact Or.inl hb
    · exact Or.inr hfree
  | pop_front i =>
    simp only [step] at hstep
    refine onList_good hg hstep ?_
    intro l ns h1 l1 hrep hop
    obtain ⟨h2, l2, hop2, hrep2, hfr, hs2, -, -⟩ := pop_front_spec hrep hsz
    rw [hop2] at hop
    simp only [Except.ok.injEq, Prod.mk.injEq] at hop
    obtain ⟨rfl, rfl⟩ := hop
    refine ⟨_, hrep2, frame_of_strong hfr, hs2, ?_⟩
    intro b hb
    obtain ⟨n, hn, rfl⟩ := List.mem_map.mp hb
    exact Or.inl (List.mem_map.mpr ⟨n, List.mem_of_mem_tail hn, rfl⟩)
  | pop_back i =>
    simp only [step] at hstep
    refine onList_good hg hstep ?_
    intro l ns h1 l1 hrep hop
    obtain ⟨h2, l2, hop2, hrep2, hfr, hs2, -, -⟩ := pop_back_spec hrep hsz
    rw [hop2] at hop
    simp only [Except.ok.injEq, Prod.mk.injEq] at hop
    obtain ⟨rfl, rfl⟩ := hop
    refine ⟨_, hrep2, frame_of_strong hfr, hs2, ?_⟩
    intro b hb
    obtain ⟨n, hn, rfl⟩ := List.mem_map.mp hb
    exact Or.inl (List.mem_map.mpr ⟨n, List.mem_of_mem_dropLast hn, rfl⟩)
  | insert i k v =>
    simp only [step] at hstep
    refine onList_good hg hstep ?_
    intro l ns h1 l1 hrep hop
    cases hadv : BiDirectionalIterator.advance w.heap k l.begin_ with
    | error e => simp [hadv, bind, Except.bind] at hop
    | ok pos =>
      cases hins : LList.insert w.heap l pos v with
      | error e => simp [hadv, hins, bind, Except.bind] at hop
      | ok r =>
        obtain ⟨h2, l2, it⟩ := r
        simp only [hadv, hins, bind, Except.bind, pure, Except.pure, Except.ok.injEq,
          Prod.mk.injEq] at hop
        obtain ⟨rfl, rfl⟩ := hop
        have hb0 : l.begin_ = ⟨nextPtr ns none⟩ := by simp [LList.begin_, hrep.head_eq]
        rw [hb0] at hadv
        obtain ⟨hk, hpos⟩ := advance_inv hrep.seg hadv
        have hsplit : ns.take k ++ ns.drop k = ns := List.take_append_drop k ns
        rw [← hsplit] at hrep
        obtain ⟨h3, l3, a, hop3, hrep3, hfree, hfr, hs3, -⟩ :=
          insert_spec hrep hsz (insert_room hins) v pos (by rw [hpos])
        rw [hop3] at hins
        simp only [Except.ok.injEq, Prod.mk.injEq] at hins
        obtain ⟨rfl, rfl, -⟩ := hins
        rw [hsplit] at hfr
        refine ⟨_, hrep3, hfr, hs3, ?_⟩
        intro b hb
        simp only [List.map_append, List.map_cons, List.mem_append, List.mem_cons] at hb
        rw [← hsplit, List.map_append, List.mem_append]
        rcases hb with hb | rfl | hb
        · exact Or.inl (Or.inl hb)
        · exact Or.inr hfree
        · exact Or.inl (Or.inr hb)
  | erase i k =>
    simp only [step] at hstep
    refine onList_good hg hstep ?_
    intro l ns h1 l1 hrep hop
    cases hadv : BiDirectionalIterator.advance w.heap k l.begin_ with
    | error e => simp [hadv, bind, Except.bind] at hop
    | ok pos =>
      cases hers : LList.erase w.heap l pos with
      | error e => simp [hadv, hers, bind, Except.bind] at hop
      | ok r =>
        obtain ⟨h2, l2, it⟩ := r
        simp only [hadv, hers, bind, Except.bind, pure, Except.pure, Except.ok.injEq,
          Prod.mk.injEq] at hop
        obtain ⟨rfl, rfl⟩ := hop
        have hb0 : l.begin_ = ⟨nextPtr ns none⟩ := by simp [LList.begin_, hrep.head_eq]
        rw [hb0] at hadv
        obtain ⟨hk, hpos⟩ := advance_inv hrep.seg hadv
        have hsplit : ns.take k ++ ns.drop k = ns := List.take_append_drop k ns
        cases hdrop : ns.drop k with
        | nil =>
          rw [hdrop] at hpos
          subst hpos
          simp [LList.erase, LList.end_, nextPtr] at hers
        | cons n post =>
          obtain ⟨c, y⟩ := n
          rw [hdrop] at hpos hsplit
          subst hpos
          rw [← hsplit] at hrep
          obtain ⟨h3, l3, hop3, hrep3, hfr, hs3, -, -⟩ := erase_spec hrep hsz
          rw [nextPtr_cons, hop3] at hers
          simp only [Except.ok.injEq, Prod.mk.injEq] at hers
          obtain ⟨rfl, rfl, -⟩ := hers
          rw [hsplit] at hfr
          refine ⟨_, hrep3, frame_of_strong hfr, hs3, ?_⟩
          intro b hb
          simp only [List.map_append, List.mem_append] at hb
          rw [← hsplit, List.map_append, List.mem_append, List.map_cons, List.mem_cons]
          rcases hb with hb | hb
          · exact Or.inl (Or.inl hb)
          · exact Or.inl (Or.inr (Or.inr hb))
  | clear i =>
    simp only [step] at hstep
    refine onList_good hg hstep ?_
    intro l ns h1 l1 hrep hop
    obtain ⟨h2, hop2, hrep2, hfr, hs2, -, -⟩ := clear_spec hrep hsz
    rw [hop2] at hop
    simp only [Except.ok.injEq, Prod.mk.injEq] at hop
    obtain ⟨rfl, rfl⟩ := hop
    exact ⟨[], hrep2, frame_of_strong hfr, hs2, by simp⟩
  | swap i j => exact swap_good hg hstep

theorem run_good {w w1 : World T} {ops : List (Op T)} (hg : w.Good)
    (hrun : w.run ops = .ok w1) : w1.Good := by
  induction ops generalizing w with
  | nil =>
    simp only [run, pure, Except.pure, Except.ok.injEq] at hrun
    subst hrun
    exact hg
  | cons op ops ih =>
    cases hstep : w.step op with
    | error e => simp [run, hstep, bind, Except.bind] at hrun
    | ok w2 =>
      simp only [run, hstep, bind, Except.bind] at hrun
      exact ih (step_good hg hstep) hrun

end World

end ClearAndPrograms

/-! ## Element access -/

section Access

variable {T : Type}

theorem front_spec {h : Heap T} {l : LList T} {ns : List (Nat × T)} (hrep : ListRep h l ns) :
    LList.front h l =
      match (ns.map Prod.snd).head? with
      | some x => .ok x
      | none => .error .out_of_range := by
  cases ns with
  | nil => simp [LList.front, hrep.head_eq, nextPtr]
  | cons n rest =>
    obtain ⟨a, x⟩ := n
    obtain ⟨hga, -⟩ := seg_cons.mp hrep.seg
    simp [LList.front, hrep.head_eq, nextPtr_cons, Heap.read_some hga, bind, Except.bind, pure,
      Except.pure]

theorem back_spec {h : Heap T} {l : LList T} {ns : List (Nat × T)} (hrep : ListRep h l ns) :
    LList.back h l =
      match (ns.map Prod.snd).getLast? with
      | some x => .ok x
      | none => .error .out_of_range := by
  rcases eq_nil_or_snoc ns with rfl | ⟨ns0, ⟨t, y⟩, rfl⟩
  · have hemp : l.empty = true := hrep.empty_iff.mpr rfl
    simp [LList.back, hemp]
  · have hemp : l.empty = false := by
      rw [Bool.eq_false_iff]; intro hc; simpa using hrep.empty_iff.mp hc
    obtain ⟨-, hgt⟩ := seg_snoc.mp hrep.seg
    have htail : l.tail = some t := by rw [hrep.tail_eq, lastPtr_snoc]
    simp [LList.back, hemp, htail, Heap.read_some hgt, bind, Except.bind, pure, Except.pure]

theorem nextPtr_drop (ns : List (Nat × T)) (i : Nat) :
    nextPtr (ns.drop i) none = (ns.map Prod.fst)[i]? := by
  induction ns generalizing i with
  | nil => simp [nextPtr]
  | cons n rest ih =>
    obtain ⟨a, x⟩ := n
    cases i with
    | zero => simp [nextPtr]
    | succ i => simpa using ih i

theorem ListRep.accessAgrees {h : Heap T} {l : LList T} {ns : List (Nat × T)}
    (hrep : ListRep h l ns) : l.AccessAgrees h := by
  unfold LList.AccessAgrees
  rw [hrep.elements_eq, front_spec hrep, back_spec hrep]
  constructor
  · intro x hx; rw [hx]
  · intro x hx; rw [hx]

end Access

/-! ## Client loops -/

section ClientLemmas

variable {T : Type}

theorem pushAll_spec {h : Heap T} {s : Stack T} {ns : List (Nat × T)} (hrep : ListRep h s ns)
    (hs : h.Sized) (vs : List T) (hroom : vs.length ≤ h.room) :
    ∃ h1 s1 ns1, Stack.pushAll h s vs = .ok (h1, s1) ∧ ListRep h1 s1 ns1 ∧
      ns1.map Prod.snd = ns.map Prod.snd ++ vs ∧ h1.Sized := by
  induction vs generalizing h s ns with
  | nil => exact ⟨h, s, ns, rfl, hrep, by simp, hs⟩
  | cons v vs ih =>
    simp only [List.length_cons] at hroom
    obtain ⟨h1, s1, a, hop, hrep1, -, -, hs1, hroom1⟩ := push_back_spec hrep hs (by omega) v
    obtain ⟨h2, s2, ns2, hop2, hrep2, hvals, hs2⟩ := ih hrep1 hs1 (by omega)
    refine ⟨h2, s2, ns2, ?_, hrep2, ?_, hs2⟩
    · simp only [Stack.pushAll, Stack.push, hop, bind, Except.bind]
      exact hop2
    · rw [hvals]; simp

theorem drain_spec {h : Heap T} {s : Stack T} {ns : List (Nat × T)} (hrep : ListRep h s ns)
    (hs : h.Sized) :
    ∃ h1 s1, Stack.drain h s ns.length = .ok ((ns.map Prod.snd).reverse, h1, s1) ∧
      ListRep h1 s1 [] := by
  induction ns using List.reverseRecOn generalizing h s with
  | nil => exact ⟨h, s, rfl, hrep⟩
  | append_singleton ns0 n ih =>
    obtain ⟨t, y⟩ := n
    have htop : Stack.top h s = .ok y := by
      unfold Stack.top
      rw [back_spec hrep]
      simp
    obtain ⟨h1, s1, hpop, hrep1, -, hs1, -, -⟩ := pop_back_spec hrep hs
    rw [List.dropLast_concat] at hrep1
    obtain ⟨h2, s2, hdr, hrep2⟩ := ih hrep1 hs1
    refine ⟨h2, s2, ?_, hrep2⟩
    simp only [List.length_append, List.length_singleton, Stack.drain, htop, Stack.pop, hpop,
      hdr, bind, Except.bind, pure, Except.pure]
    simp

theorem endOp_run_spec {h : Heap T} {l : LList T} {ns : List (Nat × T)} (hrep : ListRep h l ns)
    (hs : h.Sized) (ops : List (EndOp T)) (hroom : EndOp.pushes ops ≤ h.room) :
    ∃ h1 l1 ns1, EndOp.run h l ops = .ok (h1, l1) ∧ ListRep h1 l1 ns1 ∧
      ns1.length + EndOp.effectivePops ns.length ops = ns.length + EndOp.pushes ops := by
  induction ops generalizing h l ns with
  | nil => exact ⟨h, l, ns, rfl, hrep, by simp [EndOp.effectivePops, EndOp.pushes]⟩
  | cons op ops ih =>
    cases op with
    | push_front v =>
      have hp : EndOp.pushes (EndOp.push_front v :: ops) = EndOp.pushes ops + 1 := by
        simp [EndOp.pushes, EndOp.isPush]
      rw [hp] at hroom ⊢
      obtain ⟨h1, l1, a, hop, hrep1, -, -, hs1, hroom1⟩ := push_front_spec hrep hs (by omega) v
      obtain ⟨h2, l2, ns2, hrun, hrep2, hcnt⟩ := ih hrep1 hs1 (by omega)
      refine ⟨h2, l2, ns2, ?_, hrep2, ?_⟩
      · simp only [EndOp.run, EndOp.exec, hop, bind, Except.bind]; exact hrun
      · simp only [EndOp.effectivePops, EndOp.isPush, if_true]
        simp only [List.length_cons] at hcnt
        omega
    | push_back v =>
      have hp : EndOp.pushes (EndOp.push_back v :: ops) = EndOp.pushes ops + 1 := by
        simp [EndOp.pushes, EndOp.isPush]
      rw [hp] at hroom ⊢
      obtain ⟨h1, l1, a, hop, hrep1, -, -, hs1, hroom1⟩ := push_back_spec hrep hs (by omega) v
      obtain ⟨h2, l2, ns2, hrun, hrep2, hcnt⟩ := ih hrep1 hs1 (by omega)
      refine ⟨h2, l2, ns2, ?_, hrep2, ?_⟩
      · simp only [EndOp.run, EndOp.exec, hop, bind, Except.bind]; exact hrun
      · simp only [EndOp.effectivePops, EndOp.isPush, if_true]
        simp only [List.length_append, List.length_singleton] at hcnt
        omega
    | pop_front =>
      have hp : EndOp.pushes (EndOp.pop_front :: ops) = EndOp.pushes ops := by
        simp [EndOp.pushes, EndOp.isPush]
      rw [hp] at hroom ⊢
      obtain ⟨h1, l1, hop, hrep1, -, hs1, hroom1, -⟩ := pop_front_spec hrep hs
      obtain ⟨h2, l2, ns2, hrun, hrep2, hcnt⟩ := ih hrep1 hs1 (by omega)
      refine ⟨h2, l2, ns2, ?_, hrep2, ?_⟩
      · simp only [EndOp.run, EndOp.exec, hop, bind, Except.bind]; exact hrun
      · simp only [EndOp.effectivePops, EndOp.isPush, Bool.false_eq_true, if_false]
        simp only [List.length_tail] at hcnt
        split
        · next h0 => rw [h0] at hcnt ⊢; simpa using hcnt
        · omega
    | pop_back =>
      have hp : EndOp.pushes (EndOp.pop_back :: ops) = EndOp.pushes ops := by
        simp [EndOp.pushes, EndOp.isPush]
      rw [hp] at hroom ⊢
      obtain ⟨h1, l1, hop, hrep1, -, hs1, hroom1, -⟩ := pop_back_spec hrep hs
      obtain ⟨h2, l2, ns2, hrun, hrep2, hcnt⟩ := ih hrep1 hs1 (by omega)
      refine ⟨h2, l2, ns2, ?_, hrep2, ?_⟩
      · simp only [EndOp.run, EndOp.exec, hop, bind, Except.bind]; exact hrun
      · simp only [EndOp.effectivePops, EndOp.isPush, Bool.false_eq_true, if_false]
        simp only [List.length_dropLast] at hcnt
        split
        · next h0 => rw [h0] at hcnt ⊢; simpa using hcnt
        · omega

theorem effectivePops_le {n : Nat} (ops : List (EndOp T)) :
    EndOp.effectivePops n ops ≤ EndOp.pops ops := by
  induction ops generalizing n with
  | nil => simp [EndOp.effectivePops]
  | cons op ops ih =>
    cases hop : op.isPush
    · have hp : EndOp.pops (op :: ops) = EndOp.pops ops + 1 := by
        simp [EndOp.pops, hop]
      simp only [EndOp.effectivePops, hop, Bool.false_eq_true, if_false, hp]
      split
      · exact le_trans (ih) (Nat.le_succ _)
      · exact Nat.succ_le_succ ih
    · have hp : EndOp.pops (op :: ops) = EndOp.pops ops := by
        simp [EndOp.pops, hop]
      simp only [EndOp.effectivePops, hop, if_true, hp]
      exact ih

end ClientLemmas

/-! ## A list that satisfies the structural invariant owns a chain -/

section Converse

variable {T : Type}

theorem walkNext_linked (h : Heap T) (k : Nat) (p : Ptr) (as : List Nat)
    (hw : walkNext h k p = as) (hlive : ∀ a ∈ as, h.get a ≠ none) : NextLinked h p as := by
  induction k generalizing p as with
  | zero =>
    simp only [walkNext] at hw
    subst hw
    trivial
  | succ k ih =>
    cases p with
    | none =>
      simp only [walkNext] at hw
      subst hw
      trivial
    | some a =>
      simp only [walkNext] at hw
      cases hg : h.get a with
      | none =>
        rw [hg] at hw
        subst hw
        exact absurd hg (hlive a (by simp))
      | some n =>
        rw [hg] at hw
        subst hw
        exact ⟨rfl, n, hg, ih n.next _ rfl (fun b hb => hlive b (by simp [hb]))⟩

theorem walkPrev_linked (h : Heap T) (k : Nat) (p : Ptr) (as : List Nat)
    (hw : walkPrev h k p = as) (hlive : ∀ a ∈ as, h.get a ≠ none) : PrevLinked h p as := by
  induction k generalizing p as with
  | zero =>
    simp only [walkPrev] at hw
    subst hw
    trivial
  | succ k ih =>
    cases p with
    | none =>
      simp only [walkPrev] at hw
      subst hw
      trivial
    | some a =>
      simp only [walkPrev] at hw
      cases hg : h.get a with
      | none =>
        rw [hg] at hw
        subst hw
        exact absurd hg (hlive a (by simp))
      | some n =>
        rw [hg] at hw
        subst hw
        exact ⟨rfl, n, hg, ih n.prev _ rfl (fun b hb => hlive b (by simp [hb]))⟩

theorem getLast?_or_cons (a : Nat) (xs : List Nat) (p : Ptr) :
    (a :: xs).getLast?.or p = xs.getLast?.or (some a) := by
  cases xs with
  | nil => rfl
  | cons c xs =>
    rw [List.getLast?_cons_cons]
    cases hl : (c :: xs).getLast? with
    | none => simp at hl
    | some z => rfl

theorem prevOK_snoc (h : Heap T) (p : Ptr) (xs : List Nat) (b : Nat) :
    PrevOK h p (xs ++ [b]) ↔
      PrevOK h p xs ∧ ∃ n, h.get b = some n ∧ n.prev = (xs.getLast?.or p) := by
  induction xs generalizing p with
  | nil => simp [PrevOK]
  | cons a xs ih =>
    rw [List.cons_append, getLast?_or_cons]
    show (_ ∧ PrevOK h (some a) (xs ++ [b])) ↔ ((_ ∧ PrevOK h (some a) xs) ∧ _)
    rw [ih (some a), and_assoc]

/-- The backward walk, read in the forward direction. -/
theorem prevOK_of_linked (h : Heap T) (p0 : Ptr) (rs : List Nat) :
    ∀ q, PrevLinked h q rs →
      (∀ a ∈ rs.getLast?, ∃ n, h.get a = some n ∧ n.prev = p0) → PrevOK h p0 rs.reverse := by
  induction rs with
  | nil => intro q _ _; trivial
  | cons b rs ih =>
    intro q hl hend
    obtain ⟨-, n, hgb, hrest⟩ := hl
    rw [List.reverse_cons, prevOK_snoc]
    cases rs with
    | nil =>
      refine ⟨trivial, ?_⟩
      obtain ⟨n1, hg1, hp1⟩ := hend b (by simp)
      exact ⟨n1, hg1, by simpa using hp1⟩
    | cons c rs =>
      refine ⟨ih n.prev hrest (fun a ha => hend a (by
        simpa [List.getLast?_cons_cons] using ha)), n, hgb, ?_⟩
      obtain ⟨hc, -⟩ := hrest
      rw [hc]
      simp

/-- Forward links, backward links and the `next` of the last node make a segment. -/
theorem seg_of_links (h : Heap T) (q : Ptr) (as : List Nat) :
    ∀ p p0, NextLinked h p as → PrevOK h p0 as →
      (∀ a ∈ as.getLast?, ∃ n, h.get a = some n ∧ n.next = q) →
      ∃ ns : List (Nat × T), ns.map Prod.fst = as ∧ Seg h p0 ns q := by
  induction as with
  | nil => intro p p0 _ _ _; exact ⟨[], rfl, trivial⟩
  | cons a as ih =>
    intro p p0 hn hp hend
    obtain ⟨-, n, hga, hnrest⟩ := hn
    obtain ⟨⟨n1, hga1, hprev⟩, hprest⟩ := hp
    rw [hga] at hga1
    simp only [Option.some.injEq] at hga1
    subst hga1
    obtain ⟨ns, hns, hseg⟩ := ih n.next (some a) hnrest hprest (fun b hb => hend b (by
      cases as with
      | nil => simp at hb
      | cons c as => simpa [List.getLast?_cons_cons] using hb))
    refine ⟨(a, n.data) :: ns, by simp [hns], ?_, hseg⟩
    rw [hga]
    have hnext : n.next = nextPtr ns q := by
      cases as with
      | nil =>
        have hnil : ns = [] := by simpa using hns
        subst hnil
        obtain ⟨n2, hg2, hq⟩ := hend a (by simp)
        rw [hga] at hg2
        simp only [Option.some.injEq] at hg2
        subst hg2
        exact hq
      | cons c as =>
        obtain ⟨hc, -⟩ := hnrest
        cases ns with
        | nil => simp at hns
        | cons m ns =>
          obtain ⟨b, x⟩ := m
          simp only [List.map_cons, List.cons.injEq] at hns
          rw [hc, nextPtr_cons, hns.1]
    obtain ⟨d, pv, nx⟩ := n
    simp only at hprev hnext
    subst hprev hnext
    rfl

namespace LList.Invariant

variable {h : Heap T} {l : LList T}

theorem head_eq (hinv : l.Invariant h) : l.head = (l.nodes h).head? := by
  rw [← hinv.bwd_last, hinv.bwd_rev, List.getLast?_reverse]

/-- A list that satisfies the structural invariant owns the chain of its nodes. -/
theorem rep (hinv : l.Invariant h) :
    ∃ ns : List (Nat × T), ns.map Prod.fst = l.nodes h ∧ ListRep h l ns := by
  have hfwd := walkNext_linked h (l.count + 1) l.head (l.nodes h) rfl hinv.fwd_live
  have hbwd := walkPrev_linked h (l.count + 1) l.tail (l.nodesRev h) rfl (by
    intro a ha
    rw [hinv.bwd_rev] at ha
    exact hinv.fwd_live a (List.mem_reverse.mp ha))
  rw [hinv.bwd_rev] at hbwd
  have hhead := hinv.head_eq
  have hpos : ∀ a, a ∈ l.nodes h → 0 < l.count := by
    intro a ha
    rw [← hinv.fwd_length]
    exact List.length_pos_of_mem ha
  have hprev := prevOK_of_linked h none (l.nodes h).reverse l.tail hbwd (by
    intro a ha
    rw [List.getLast?_reverse, ← hhead] at ha
    have hmem : a ∈ l.nodes h := by
      rw [hhead] at ha
      exact List.mem_of_mem_head? ha
    obtain ⟨a1, n, h1, h2, h3⟩ := hinv.head_prev (hpos a hmem)
    rw [h1] at ha
    simp only [Option.mem_def, Option.some.injEq] at ha
    subst ha
    exact ⟨n, h2, h3⟩)
  rw [List.reverse_reverse] at hprev
  obtain ⟨ns, hns, hseg⟩ := seg_of_links h none (l.nodes h) l.head none hfwd hprev (by
    intro a ha
    rw [hinv.fwd_last] at ha
    have hmem : a ∈ l.nodes h := by
      rw [← hinv.fwd_last] at ha
      exact List.mem_of_mem_getLast? ha
    obtain ⟨a1, n, h1, h2, h3⟩ := hinv.tail_next (hpos a hmem)
    rw [h1] at ha
    simp only [Option.mem_def, Option.some.injEq] at ha
    subst ha
    exact ⟨n, h2, h3⟩)
  refine ⟨ns, hns, hseg, by rw [hns]; exact hinv.fwd_nodup, ?_, ?_, ?_⟩
  · rw [hhead, nextPtr_eq_head, hns]
  · rw [lastPtr_eq_getLast, hns, hinv.fwd_last]
  · rw [← hinv.fwd_length, ← hns, List.length_map]

end LList.Invariant

end Converse

/-! ## The heap stack simulates the sequence model -/

section Simulation

variable {T : Type}

theorem StackRel.mono {k j : Nat} {s : Heap T × Stack T} {xs : List T} (hr : StackRel k s xs)
    (hj : j ≤ k) : StackRel j s xs := by
  obtain ⟨ns, h1, h2, h3, h4⟩ := hr
  exact ⟨ns, h1, h2, h3, le_trans hj h4⟩

theorem StackRel.init (h : Heap T) (hs : h.Sized) : StackRel h.room (h, Stack.mk0) [] :=
  ⟨[], ListRep.mk0 h, rfl, hs, le_refl _⟩

theorem StackRel.empty_eq {k : Nat} {s : Heap T × Stack T} {xs : List T}
    (hr : StackRel k s xs) : (heapStack T).empty s = (listStack T).empty xs := by
  obtain ⟨ns, hrep, hvals, -, -⟩ := hr
  simp only [heapStack, listStack, Stack.empty]
  rw [Bool.eq_iff_iff, hrep.empty_iff, List.isEmpty_iff, ← hvals]
  simp

theorem StackRel.top_eq {k : Nat} {s : Heap T × Stack T} {xs : List T}
    (hr : StackRel k s xs) : (heapStack T).top s = (listStack T).top xs := by
  obtain ⟨ns, hrep, hvals, -, -⟩ := hr
  simp only [heapStack, listStack, Stack.top]
  rw [back_spec hrep, ← hvals]
  rcases eq_nil_or_snoc ns with rfl | ⟨ns0, ⟨t, y⟩, rfl⟩
  · simp
  · simp

theorem StackRel.bound_le {k : Nat} {s : Heap T × Stack T} {xs : List T}
    (hr : StackRel k s xs) : xs.length ≤ (heapStack T).bound s := by
  obtain ⟨ns, hrep, hvals, -, -⟩ := hr
  rw [← hvals]
  simpa [heapStack] using seg_length_le hrep.seg hrep.nodup

theorem StackRel.push {k : Nat} {s : Heap T × Stack T} {xs : List T}
    (hr : StackRel (k + 1) s xs) (v : T) :
    ∃ s1, (heapStack T).push s v = .ok s1 ∧ StackRel k s1 (v :: xs) := by
  obtain ⟨ns, hrep, hvals, hs, hroom⟩ := hr
  obtain ⟨h1, l1, a, hop, hrep1, -, -, hs1, hroom1⟩ := push_back_spec hrep hs (by omega) v
  refine ⟨(h1, l1), hop, ns ++ [(a, v)], hrep1, ?_, hs1, by simp only; omega⟩
  rw [← hvals]; simp

theorem StackRel.pop {k : Nat} {s : Heap T × Stack T} {xs : List T}
    (hr : StackRel k s xs) :
    ∃ s1, (heapStack T).pop s = .ok s1 ∧ StackRel k s1 xs.tail := by
  obtain ⟨ns, hrep, hvals, hs, hroom⟩ := hr
  obtain ⟨h1, l1, hop, hrep1, -, hs1, hroom1, -⟩ := pop_back_spec hrep hs
  refine ⟨(h1, l1), hop, ns.dropLast, hrep1, ?_, hs1, by simp only; omega⟩
  rw [← hvals]
  rcases eq_nil_or_snoc ns with rfl | ⟨ns0, n, rfl⟩
  · simp
  · simp [List.dropLast_concat]

theorem listStack_popWhile_fuel (cond : Char → Bool) (xs : List Char) (out : List Char)
    {k j : Nat} (hk : xs.length ≤ k) (hj : xs.length ≤ j) :
    popWhile (listStack Char) cond k xs out = popWhile (listStack Char) cond j xs out := by
  induction xs generalizing k j out with
  | nil => cases k <;> cases j <;> simp [popWhile, listStack]
  | cons x xs ih =>
    obtain ⟨k1, rfl⟩ : ∃ k1, k = k1 + 1 := ⟨k - 1, by simp at hk; omega⟩
    obtain ⟨j1, rfl⟩ : ∃ j1, j = j1 + 1 := ⟨j - 1, by simp at hj; omega⟩
    simp only [List.length_cons, Nat.add_le_add_iff_right] at hk hj
    simp only [popWhile, listStack, List.isEmpty_cons, Bool.false_eq_true, if_false, bind,
      Except.bind, List.tail_cons]
    split
    · exact ih _ hk hj
    · rfl

theorem popWhile_sim (cond : Char → Bool) {k : Nat} {s : Heap Char × Stack Char}
    {xs : List Char} (hr : StackRel k s xs) (out : List Char) {f1 f2 : Nat}
    (h1 : xs.length ≤ f1) (h2 : xs.length ≤ f2) :
    ResRel k (popWhile (heapStack Char) cond f1 s out)
      (popWhile (listStack Char) cond f2 xs out) := by
  induction xs generalizing s out f1 f2 with
  | nil =>
    have he := hr.empty_eq
    have he2 : (listStack Char).empty [] = true := rfl
    rw [he2] at he
    cases f1 <;> cases f2 <;> simp [popWhile, he, he2, pure, Except.pure, ResRel, hr]
  | cons x xs ih =>
    obtain ⟨k1, rfl⟩ : ∃ k1, f1 = k1 + 1 := ⟨f1 - 1, by simp at h1; omega⟩
    obtain ⟨j1, rfl⟩ : ∃ j1, f2 = j1 + 1 := ⟨f2 - 1, by simp at h2; omega⟩
    simp only [List.length_cons, Nat.add_le_add_iff_right] at h1 h2
    have he := hr.empty_eq
    have he2 : (listStack Char).empty (x :: xs) = false := rfl
    rw [he2] at he
    have ht := hr.top_eq
    have ht2 : (listStack Char).top (x :: xs) = .ok x := rfl
    rw [ht2] at ht
    obtain ⟨s1, hpop, hr1⟩ := hr.pop
    have hp2 : (listStack Char).pop (x :: xs) = .ok xs := rfl
    simp only [popWhile, he, he2, ht, ht2, hpop, hp2, Bool.false_eq_true, if_false, bind,
      Except.bind]
    split
    · exact ih hr1 _ h1 h2
    · simp [pure, Except.pure, ResRel, hr]

theorem ResRel.bind {α β : Type} {k j : Nat}
    {r1 : Except Err ((Heap T × Stack T) × α)} {r2 : Except Err (List T × α)}
    {f1 : (Heap T × Stack T) × α → Except Err ((Heap T × Stack T) × β)}
    {f2 : List T × α → Except Err (List T × β)}
    (hr : ResRel k r1 r2)
    (hf : ∀ s xs a, StackRel k s xs → ResRel j (f1 (s, a)) (f2 (xs, a))) :
    ResRel j (r1 >>= f1) (r2 >>= f2) := by
  cases r1 with
  | error e1 =>
    cases r2 with
    | error e2 => simpa [ResRel, bind, Except.bind] using hr
    | ok v2 => simp [ResRel] at hr
  | ok v1 =>
    cases r2 with
    | error e2 => simp [ResRel] at hr
    | ok v2 =>
      obtain ⟨s, a⟩ := v1
      obtain ⟨xs, b⟩ := v2
      simp only [ResRel] at hr
      obtain ⟨hrel, rfl⟩ := hr
      exact hf s xs a hrel

theorem StRel.bind_res {α : Type} {k j : Nat}
    {r1 : Except Err (Heap T × Stack T)} {r2 : Except Err (List T)}
    {f1 : Heap T × Stack T → Except Err ((Heap T × Stack T) × α)}
    {f2 : List T → Except Err (List T × α)}
    (hr : StRel k r1 r2)
    (hf : ∀ s xs, StackRel k s xs → ResRel j (f1 s) (f2 xs)) :
    ResRel j (r1 >>= f1) (r2 >>= f2) := by
  cases r1 with
  | error e1 =>
    cases r2 with
    | error e2 => simpa [ResRel, StRel, bind, Except.bind] using hr
    | ok v2 => simp [StRel] at hr
  | ok v1 =>
    cases r2 with
    | error e2 => simp [StRel] at hr
    | ok v2 => exact hf v1 v2 hr

theorem StRel.bind_st {k j : Nat}
    {r1 : Except Err (Heap T × Stack T)} {r2 : Except Err (List T)}
    {f1 : Heap T × Stack T → Except Err (Heap T × Stack T)}
    {f2 : List T → Except Err (List T)}
    (hr : StRel k r1 r2)
    (hf : ∀ s xs, StackRel k s xs → StRel j (f1 s) (f2 xs)) :
    StRel j (r1 >>= f1) (r2 >>= f2) := by
  cases r1 with
  | error e1 =>
    cases r2 with
    | error e2 => simpa [StRel, bind, Except.bind] using hr
    | ok v2 => simp [StRel] at hr
  | ok v1 =>
    cases r2 with
    | error e2 => simp [StRel] at hr
    | ok v2 => exact hf v1 v2 hr

theorem StRel.push_sim {k : Nat} {s : Heap T × Stack T} {xs : List T}
    (hr : StackRel (k + 1) s xs) (v : T) :
    StRel k ((heapStack T).push s v) ((listStack T).push xs v) := by
  obtain ⟨s1, hp, hr1⟩ := hr.push v
  rw [hp]
  exact hr1

theorem StRel.pop_sim {k : Nat} {s : Heap T × Stack T} {xs : List T}
    (hr : StackRel k s xs) : StRel k ((heapStack T).pop s) ((listStack T).pop xs) := by
  obtain ⟨s1, hp, hr1⟩ := hr.pop
  rw [hp]
  exact hr1

theorem ResRel.ok {α : Type} {k : Nat} {s : Heap T × Stack T} {xs : List T} (a : α)
    (hr : StackRel k s xs) :
    ResRel k (.ok (s, a) : Except Err ((Heap T × Stack T) × α)) (.ok (xs, a)) :=
  ⟨hr, rfl⟩

theorem ResRel.cases {α : Type} {k : Nat} {r1 : Except Err ((Heap T × Stack T) × α)}
    {r2 : Except Err (List T × α)} (hr : ResRel k r1 r2) :
    (∃ e, r1 = .error e ∧ r2 = .error e) ∨
      ∃ s xs a, r1 = .ok (s, a) ∧ r2 = .ok (xs, a) ∧ StackRel k s xs := by
  cases r1 with
  | error e1 =>
    cases r2 with
    | error e2 =>
      simp only [ResRel] at hr
      subst hr
      exact Or.inl ⟨e1, rfl, rfl⟩
    | ok v2 => simp [ResRel] at hr
  | ok v1 =>
    cases r2 with
    | error e2 => simp [ResRel] at hr
    | ok v2 =>
      obtain ⟨s, a⟩ := v1
      obtain ⟨xs, b⟩ := v2
      simp only [ResRel] at hr
      obtain ⟨hrel, rfl⟩ := hr
      exact Or.inr ⟨s, xs, a, rfl, rfl, hrel⟩

theorem StRel.cases_st {k : Nat} {r1 : Except Err (Heap T × Stack T)}
    {r2 : Except Err (List T)} (hr : StRel k r1 r2) :
    (∃ e, r1 = .error e ∧ r2 = .error e) ∨
      ∃ s xs, r1 = .ok s ∧ r2 = .ok xs ∧ StackRel k s xs := by
  cases r1 with
  | error e1 =>
    cases r2 with
    | error e2 =>
      simp only [StRel] at hr
      subst hr
      exact Or.inl ⟨e1, rfl, rfl⟩
    | ok v2 => simp [StRel] at hr
  | ok v1 =>
    cases r2 with
    | error e2 => simp [StRel] at hr
    | ok v2 => exact Or.inr ⟨v1, v2, rfl, rfl, hr⟩

theorem infixStep_sim {k : Nat} {s : Heap Char × Stack Char} {xs : List Char}
    (hr : StackRel (k + 1) s xs) (iss : IStream) (token : Char) (out : List Char) :
    ResRel k (infixStep (heapStack Char) s iss token out)
      (infixStep (listStack Char) xs iss token out) := by
  unfold infixStep
  split
  · exact ResRel.ok _ (hr.mono (Nat.le_succ k))
  · split
    · exact StRel.bind_res (StRel.push_sim hr token) (fun s1 xs1 h1 => ResRel.ok _ h1)
    · split
      · refine ResRel.bind (popWhile_sim _ (hr.mono (Nat.le_succ k)) out hr.bound_le
          (le_refl _)) ?_
        intro s1 xs1 out1 h1
        exact StRel.bind_res (StRel.pop_sim h1) (fun s2 xs2 h2 => ResRel.ok _ h2)
      · refine ResRel.bind (popWhile_sim _ hr out hr.bound_le (le_refl _)) ?_
        intro s1 xs1 out1 h1
        exact StRel.bind_res (StRel.push_sim h1 token) (fun s2 xs2 h2 => ResRel.ok _ h2)

theorem infixLoop_sim {k : Nat} {s : Heap Char × Stack Char} {xs : List Char}
    (hr : StackRel k s xs) (fuel : Nat) (hk : fuel ≤ k) (iss : IStream) (out : List Char) :
    ResRel 0 (infixLoop (heapStack Char) fuel s iss out)
      (infixLoop (listStack Char) fuel xs iss out) := by
  induction fuel generalizing k s xs iss out with
  | zero => simp [infixLoop, ResRel]
  | succ f ih =>
    obtain ⟨k1, rfl⟩ : ∃ k1, k = k1 + 1 := ⟨k - 1, by omega⟩
    simp only [infixLoop]
    split
    · exact ResRel.ok _ (hr.mono (Nat.zero_le _))
    · refine ResRel.bind (infixStep_sim hr _ _ _) ?_
      intro s1 xs1 a h1
      exact ih h1 (by omega) _ _

/-- On a heap with room for one node per input character and one more, `infix2postfix`
computes what its sequence model computes, failures included. -/
theorem infix2postfix_eq_model (h : Heap Char) (hs : h.Sized) (src : List Char)
    (hroom : src.length + 1 ≤ h.room) :
    infix2postfix h src = infix2postfixOn (listStack Char) [] src := by
  unfold infix2postfix infix2postfixOn
  rcases (infixLoop_sim ((StackRel.init h hs).mono hroom) (src.length + 1) (le_refl _)
    (IStream.ofString src) []).cases with ⟨e, h1, h2⟩ | ⟨s, xs, a, h1, h2, hrel⟩
  · rw [h1, h2]; rfl
  · rw [h1, h2]
    simp only [bind, Except.bind]
    rcases (popWhile_sim (fun _ => true) hrel a hrel.bound_le (le_refl xs.length)).cases with
      ⟨e, h3, h4⟩ | ⟨s1, xs1, a1, h3, h4, -⟩
    · have h5 : (listStack Char).bound xs = xs.length := rfl
      rw [h3, h5, h4]
    · have h5 : (listStack Char).bound xs = xs.length := rfl
      rw [h3, h5, h4]

theorem StRel.refl_error {k : Nat} (e : Err) :
    StRel k (.error e : Except Err (Heap T × Stack T)) (.error e) := rfl

theorem StRel.push_result {k : Nat} {s : Heap Int × Stack Int} {xs : List Int}
    (hr : StackRel (k + 1) s xs) (r : Except Err Int) :
    StRel k (r >>= fun v => (heapStack Int).push s v)
      (r >>= fun v => (listStack Int).push xs v) := by
  cases r with
  | error e => exact StRel.refl_error e
  | ok v => exact StRel.push_sim hr v

theorem evalStep_sim {k : Nat} {s : Heap Int × Stack Int} {xs : List Int}
    (hr : StackRel (k + 1) s xs) (token : List Char) :
    StRel k (evalStep (heapStack Int) s token) (evalStep (listStack Int) xs token) := by
  unfold evalStep
  simp only
  split
  · exact StRel.push_result hr _
  · rw [hr.top_eq]
    cases htop : (listStack Int).top xs with
    | error e => exact StRel.refl_error e
    | ok operand1 =>
      obtain ⟨s1, hp1, hr1⟩ := hr.pop
      have hl1 : (listStack Int).pop xs = .ok xs.tail := rfl
      simp only [bind, Except.bind, hp1, hl1]
      rw [hr1.top_eq]
      cases htop2 : (listStack Int).top xs.tail with
      | error e => exact StRel.refl_error e
      | ok operand2 =>
        obtain ⟨s2, hp2, hr2⟩ := hr1.pop
        have hl2 : (listStack Int).pop xs.tail = .ok xs.tail.tail := rfl
        simp only [hp2, hl2]
        split
        · exact StRel.push_result hr2 _
        · split
          · exact StRel.push_result hr2 _
          · split
            · exact StRel.push_result hr2 _
            · split
              · exact StRel.push_result hr2 _
              · split
                · exact StRel.push_result hr2 _
                · exact hr2.mono (Nat.le_succ k)

theorem evalLoop_sim {k : Nat} {s : Heap Int × Stack Int} {xs : List Int}
    (hr : StackRel k s xs) (fuel : Nat) (hk : fuel ≤ k) (iss : IStream) :
    StRel 0 (evalLoop (heapStack Int) fuel s iss) (evalLoop (listStack Int) fuel xs iss) := by
  induction fuel generalizing k s xs iss with
  | zero => simp [evalLoop, StRel]
  | succ f ih =>
    obtain ⟨k1, rfl⟩ : ∃ k1, k = k1 + 1 := ⟨k - 1, by omega⟩
    simp only [evalLoop]
    split
    · exact hr.mono (Nat.zero_le _)
    · exact StRel.bind_st (evalStep_sim hr _) (fun s1 xs1 h1 => ih h1 (by omega) _)

/-- On a heap with room for one node per input character and one more, `eval_postfix`
computes what its sequence model computes, failures included. -/
theorem eval_postfix_eq_model (h : Heap Int) (hs : h.Sized) (expr : List Char)
    (hroom : expr.length + 1 ≤ h.room) :
    eval_postfix h expr = eval_postfixOn (listStack Int) [] expr := by
  unfold eval_postfix eval_postfixOn
  rcases (evalLoop_sim ((StackRel.init h hs).mono hroom) (expr.length + 1) (le_refl _)
    (IStream.ofString expr)).cases_st with ⟨e, h1, h2⟩ | ⟨s, xs, h1, h2, hrel⟩
  · rw [h1, h2]; rfl
  · rw [h1, h2]
    simp only [bind, Except.bind]
    exact hrel.top_eq

end Simulation

/-! ## Reading characters -/

section Lexing

theorem skipws_spaces (cons ws rest : List Char) (hws : ∀ c ∈ ws, isspace c = true)
    (hrest : ∀ c ∈ rest.head?, isspace c = false) :
    IStream.skipws cons (ws ++ rest) = (ws.reverse ++ cons, rest) := by
  induction ws generalizing cons with
  | nil =>
    cases rest with
    | nil => rfl
    | cons c cs =>
      have hc : isspace c = false := hrest c (by simp)
      simp [IStream.skipws, hc]
  | cons w ws ih =>
    have hw : isspace w = true := hws w (by simp)
    have := ih (w :: cons) (fun c hc => hws c (by simp [hc]))
    simpa [IStream.skipws, hw] using this

theorem isdigit_not_space {c : Char} (h : isdigit c = true) : isspace c = false := by
  simp only [isdigit, decide_eq_true_eq] at h
  simp only [isspace, decide_eq_false_iff_not]
  omega

theorem isspace_not_digit {c : Char} (h : isspace c = true) : isdigit c = false := by
  cases hd : isdigit c with
  | false => rfl
  | true => rw [isdigit_not_space hd] at h; cases h

theorem IStream.reads_ofString (s : List Char) : (IStream.ofString s).Reads s :=
  Or.inl ⟨rfl, rfl, [], by simp, rfl⟩

/-- Extracting a character from a stream that still has one. -/
theorem getChar_reads {iss : IStream} {s ws r : List Char} {c : Char} (hr : iss.Reads s)
    (hs : s = ws ++ c :: r) (hws : ∀ x ∈ ws, isspace x = true) (hc : isspace c = false) :
    ∃ cons, iss.getChar = (⟨c :: cons, r, false, false⟩, some c) := by
  rcases hr with ⟨hf, he, ws0, hws0, hs0⟩ | ⟨-, hall⟩
  · have hrest : ∃ ws1, (∀ x ∈ ws1, isspace x = true) ∧ iss.rest = ws1 ++ c :: r := by
      rw [hs] at hs0
      rcases List.append_eq_append_iff.mp hs0 with ⟨a, h1, h2⟩ | ⟨b, h1, h2⟩
      · cases a with
        | nil => exact ⟨[], by simp, by simpa using h2.symm⟩
        | cons a0 a1 =>
          simp only [List.cons_append, List.cons.injEq] at h2
          have : isspace c = true := hws0 c (by rw [h1, h2.1]; simp)
          rw [hc] at this
          cases this
      · exact ⟨b, fun x hx => hws x (by rw [h1]; simp [hx]), h2⟩
    obtain ⟨ws1, hws1, hrest1⟩ := hrest
    refine ⟨ws1.reverse ++ iss.consumed, ?_⟩
    have hsk := skipws_spaces iss.consumed ws1 (c :: r) hws1 (by simp [hc])
    simp only [IStream.getChar, IStream.good, hf, he, hrest1, hsk]
    simp
  · have : isspace c = true := hall c (by rw [hs]; simp)
    rw [hc] at this
    cases this

/-- Extracting a character from a stream that has only whitespace left. -/
theorem getChar_none {iss : IStream} {s : List Char} (hr : iss.Reads s)
    (hs : ∀ x ∈ s, isspace x = true) : ∃ iss1, iss.getChar = (iss1, none) ∧ iss1.failbit = true := by
  rcases hr with ⟨hf, he, ws0, hws0, hs0⟩ | ⟨hbad, -⟩
  · have hsk := skipws_spaces iss.consumed iss.rest [] (fun x hx => hs x (by
      rw [hs0]; simp [hx])) (by simp)
    rw [List.append_nil] at hsk
    refine ⟨⟨iss.rest.reverse ++ iss.consumed, [], true, true⟩, ?_, rfl⟩
    simp only [IStream.getChar, IStream.good, hf, he, hsk]
    simp
  · refine ⟨{ iss with failbit := true }, ?_, rfl⟩
    simp only [IStream.getChar, hbad]
    simp

theorem spaces_or_split (s : List Char) :
    (∀ x ∈ s, isspace x = true) ∨
      ∃ ws c r, s = ws ++ c :: r ∧ (∀ x ∈ ws, isspace x = true) ∧ isspace c = false := by
  induction s with
  | nil => exact Or.inl (by simp)
  | cons a s ih =>
    cases ha : isspace a with
    | false => exact Or.inr ⟨[], a, s, rfl, by simp, ha⟩
    | true =>
      rcases ih with hall | ⟨ws, c, r, hs, hws, hc⟩
      · exact Or.inl (by
          intro x hx
          rcases List.mem_cons.mp hx with rfl | hx
          · exact ha
          · exact hall x hx)
      · refine Or.inr ⟨a :: ws, c, r, by rw [hs]; rfl, ?_, hc⟩
        intro x hx
        rcases List.mem_cons.mp hx with rfl | hx
        · exact ha
        · exact hws x hx

theorem dropWhile_spaces (ws : List Char) (c : Char) (r : List Char)
    (hws : ∀ x ∈ ws, isspace x = true) (hc : isspace c = false) :
    (ws ++ c :: r).dropWhile isspace = c :: r := by
  induction ws with
  | nil => simp [List.dropWhile, hc]
  | cons w ws ih =>
    have hw : isspace w = true := hws w (by simp)
    simp only [List.cons_append, List.dropWhile, hw]
    exact ih (fun x hx => hws x (by simp [hx]))

theorem dropWhile_all_spaces (s : List Char) (hs : ∀ x ∈ s, isspace x = true) :
    s.dropWhile isspace = [] := by
  induction s with
  | nil => rfl
  | cons w ws ih =>
    have hw : isspace w = true := hs w (by simp)
    simp only [List.dropWhile, hw]
    exact ih (fun x hx => hs x (by simp [hx]))

/-- The digit loop reads the rest of a literal and leaves the stream where the literal
ends. -/
theorem readDigits_spec (rest1 : List Char)
    (hnext : ∀ c ∈ (rest1.dropWhile isspace).head?, isdigit c = false) (ds : List Char) :
    ∀ (fuel : Nat) (cons : List Char) (d0 : Char) (number : List Char),
      (∀ c ∈ ds, isdigit c = true) → isdigit d0 = true → ds.length + 1 ≤ fuel →
      (readDigits fuel ⟨cons, ds ++ rest1, false, false⟩ d0 number).2.2 = number ++ d0 :: ds ∧
      ((readDigits fuel ⟨cons, ds ++ rest1, false, false⟩ d0 number).1.putback
        (readDigits fuel ⟨cons, ds ++ rest1, false, false⟩ d0 number).2.1).Reads rest1 := by
  induction ds with
  | nil =>
    intro fuel cons d0 number _ hd0 hfuel
    obtain ⟨k, rfl⟩ : ∃ k, fuel = k + 1 := ⟨fuel - 1, by simp at hfuel; omega⟩
    have hreads : (⟨cons, rest1, false, false⟩ : IStream).Reads rest1 :=
      Or.inl ⟨rfl, rfl, [], by simp, rfl⟩
    rcases spaces_or_split rest1 with hall | ⟨ws, c, r, hs, hws, hc⟩
    · obtain ⟨iss1, hget, hfail⟩ := getChar_none hreads hall
      simp only [List.nil_append, readDigits, hd0, if_true, hget]
      refine ⟨by simp, Or.inr ⟨?_, hall⟩⟩
      simp [IStream.putback, hfail, IStream.good]
    · obtain ⟨cons1, hget⟩ := getChar_reads hreads hs hws hc
      have hcd : isdigit c = false := hnext c (by rw [hs, dropWhile_spaces ws c r hws hc]; simp)
      have hrd : readDigits k ⟨c :: cons1, r, false, false⟩ c (number ++ [d0]) =
          (⟨c :: cons1, r, false, false⟩, c, number ++ [d0]) := by
        cases k with
        | zero => rfl
        | succ k => simp [readDigits, hcd]
      simp only [List.nil_append, readDigits, hd0, if_true, hget, hrd]
      refine ⟨by simp, Or.inl ⟨?_, ?_, ws, hws, ?_⟩⟩
      · simp [IStream.putback]
      · simp [IStream.putback]
      · simp [IStream.putback, hs]
  | cons d1 ds ih =>
    intro fuel cons d0 number hds hd0 hfuel
    obtain ⟨k, rfl⟩ : ∃ k, fuel = k + 1 := ⟨fuel - 1, by simp at hfuel; omega⟩
    simp only [List.length_cons, Nat.add_le_add_iff_right] at hfuel
    have hd1 : isdigit d1 = true := hds d1 (by simp)
    have hget : (⟨cons, (d1 :: ds) ++ rest1, false, false⟩ : IStream).getChar =
        (⟨d1 :: cons, ds ++ rest1, false, false⟩, some d1) := by
      simp [IStream.getChar, IStream.good, IStream.skipws, isdigit_not_space hd1]
    simp only [readDigits, hd0, if_true, hget]
    have := ih k (d1 :: cons) d1 (number ++ [d0]) (fun c hc => hds c (by simp [hc])) hd1 hfuel
    simpa using this

theorem isdigit_minus : isdigit '-' = false := by decide

theorem isspace_minus : isspace '-' = false := by decide

theorem digit_ne_minus {c : Char} (h : isdigit c = true) : c ≠ '-' := by
  rintro rfl
  rw [isdigit_minus] at h
  cases h

section TokenSteps

variable {S : Type}

/-- One iteration of the main loop on a literal. -/
theorem infixLoop_lit (I : StackOps S Char) (l : Literal) (hl : l.WF) {iss : IStream}
    {s ws rest1 : List Char} (hr : iss.Reads s) (hs : s = ws ++ (l.chars ++ rest1))
    (hws : ∀ x ∈ ws, isspace x = true)
    (hnext : ∀ c ∈ (rest1.dropWhile isspace).head?, isdigit c = false)
    (k : Nat) (st : S) (out : List Char) :
    ∃ iss1, iss1.Reads rest1 ∧
      infixLoop I (k + 1) st iss out = infixLoop I k st iss1 (out ++ (l.chars ++ [' '])) := by
  obtain ⟨neg, digits⟩ := l
  obtain ⟨hne, hdig⟩ := hl
  simp only at hne hdig
  cases digits with
  | nil => exact absurd rfl hne
  | cons d0 ds =>
    have hd0 : isdigit d0 = true := hdig d0 (by simp)
    have hds : ∀ c ∈ ds, isdigit c = true := fun c hc => hdig c (by simp [hc])
    cases neg with
    | false =>
      simp only [Literal.chars, Bool.false_eq_true, if_false, List.nil_append,
        List.cons_append] at hs ⊢
      obtain ⟨cons, hget⟩ := getChar_reads hr hs hws (isdigit_not_space hd0)
      have hstart : startsNumber ⟨d0 :: cons, ds ++ rest1, false, false⟩ d0 =
          (⟨d0 :: cons, ds ++ rest1, false, false⟩, true) := by
        simp [startsNumber, hd0]
      obtain ⟨hnum, hreads⟩ := readDigits_spec rest1 hnext ds ((ds ++ rest1).length + 1)
        (d0 :: cons) d0 [] hds hd0 (by simp)
      refine ⟨_, hreads, ?_⟩
      simp only [infixLoop, hget, infixStep, hstart, digit_ne_minus hd0, if_false, hnum,
        List.nil_append, bind, Except.bind, pure, Except.pure]
      rfl
    | true =>
      simp only [Literal.chars, if_true, List.cons_append, List.nil_append] at hs ⊢
      obtain ⟨cons, hget⟩ := getChar_reads hr hs hws isspace_minus
      have hstart : startsNumber ⟨'-' :: cons, d0 :: (ds ++ rest1), false, false⟩ '-' =
          (⟨'-' :: cons, d0 :: (ds ++ rest1), false, false⟩, true) := by
        simp [startsNumber, isdigit_minus, IStream.peek, IStream.good, hd0]
      have hget2 : (⟨'-' :: cons, d0 :: (ds ++ rest1), false, false⟩ : IStream).getChar =
          (⟨d0 :: '-' :: cons, ds ++ rest1, false, false⟩, some d0) := by
        simp [IStream.getChar, IStream.good, IStream.skipws, isdigit_not_space hd0]
      obtain ⟨hnum, hreads⟩ := readDigits_spec rest1 hnext ds ((ds ++ rest1).length + 1)
        (d0 :: '-' :: cons) d0 ['-'] hds hd0 (by simp)
      refine ⟨_, hreads, ?_⟩
      simp only [infixLoop, hget, infixStep, hstart, if_true, hget2, hnum,
        List.singleton_append, bind, Except.bind, pure, Except.pure]
      rfl

/-- The number test on a character that is not a digit and is followed by whitespace or by
the end of the input. -/
theorem startsNumber_other (cons rest1 : List Char) (c : Char) (hc : isdigit c = false)
    (hsep : ∀ x ∈ rest1.head?, isspace x = true) :
    ∃ iss1, startsNumber ⟨cons, rest1, false, false⟩ c = (iss1, false) ∧ iss1.Reads rest1 := by
  have hreads : (⟨cons, rest1, false, false⟩ : IStream).Reads rest1 :=
    Or.inl ⟨rfl, rfl, [], by simp, rfl⟩
  by_cases hm : c = '-'
  · subst hm
    cases rest1 with
    | nil =>
      refine ⟨⟨cons, [], false, true⟩, ?_, Or.inr ⟨rfl, by simp⟩⟩
      simp [startsNumber, isdigit_minus, IStream.peek, IStream.good]
    | cons w r =>
      have hw : isdigit w = false := isspace_not_digit (hsep w (by simp))
      refine ⟨_, ?_, hreads⟩
      simp [startsNumber, isdigit_minus, IStream.peek, IStream.good, hw]
  · exact ⟨_, by simp [startsNumber, hc, hm], hreads⟩

/-- One iteration of the main loop on an operator or a parenthesis. -/
theorem infixLoop_other (I : StackOps S Char) (t : Token) (ht : t.isLit = false)
    {iss : IStream} {s ws rest1 : List Char} (hr : iss.Reads s)
    (hs : s = ws ++ (t.chars ++ rest1)) (hws : ∀ x ∈ ws, isspace x = true)
    (hsep : ∀ x ∈ rest1.head?, isspace x = true) (k : Nat) (st : S) (out : List Char) :
    ∃ iss1, iss1.Reads rest1 ∧
      infixLoop I (k + 1) st iss out =
        (tokenAct I t st out >>= fun r => infixLoop I k r.1 iss1 r.2) := by
  have key : ∀ c : Char, t.chars = [c] → isdigit c = false → isspace c = false →
      (∀ (cons : List Char) (iss1 : IStream),
        startsNumber ⟨cons, rest1, false, false⟩ c = (iss1, false) →
        infixStep I st ⟨cons, rest1, false, false⟩ c out =
          (tokenAct I t st out >>= fun r => pure (r.1, iss1, r.2))) →
      ∃ iss1, iss1.Reads rest1 ∧
        infixLoop I (k + 1) st iss out =
          (tokenAct I t st out >>= fun r => infixLoop I k r.1 iss1 r.2) := by
    intro c hchars hcd hcs hstep
    rw [hchars, List.singleton_append] at hs
    obtain ⟨cons, hget⟩ := getChar_reads hr hs hws hcs
    obtain ⟨iss1, hstart, hreads⟩ := startsNumber_other (c :: cons) rest1 c hcd hsep
    refine ⟨iss1, hreads, ?_⟩
    simp only [infixLoop, hget]
    rw [hstep (c :: cons) iss1 hstart]
    cases tokenAct I t st out with
    | error e => rfl
    | ok r => rfl
  cases t with
  | lit l => simp [Token.isLit] at ht
  | lparen =>
    refine key '(' rfl (by decide) (by decide) ?_
    intro cons iss1 hst
    simp only [infixStep, hst, tokenAct, if_true, bind, Except.bind, pure, Except.pure]
    cases I.push st '(' <;> rfl
  | rparen =>
    refine key ')' rfl (by decide) (by decide) ?_
    intro cons iss1 hst
    have h1 : (')' : Char) ≠ '(' := by decide
    simp only [infixStep, hst, tokenAct, h1, if_false, if_true, bind, Except.bind, pure,
      Except.pure]
    cases popWhile I (fun t => t ≠ '(') (I.bound st) st out with
    | error e => rfl
    | ok r =>
      dsimp only
      cases I.pop r.1 <;> rfl
  | op o =>
    have hd : isdigit o.char = false := by cases o <;> decide
    have hsp : isspace o.char = false := by cases o <;> decide
    have h1 : o.char ≠ '(' := by cases o <;> decide
    have h2 : o.char ≠ ')' := by cases o <;> decide
    refine key o.char rfl hd hsp ?_
    intro cons iss1 hst
    simp only [infixStep, hst, tokenAct, h1, h2, if_false, bind, Except.bind, pure,
      Except.pure]
    cases popWhile I (fun t => precedence o.char ≤ precedence t) (I.bound st) st out with
    | error e => rfl
    | ok r =>
      dsimp only
      cases I.push r.1 o.char <;> rfl

theorem token_first_char {t : Token} (ht : t.WF) :
    ∃ c cs, t.chars = c :: cs ∧ isspace c = false := by
  cases t with
  | lit l =>
    obtain ⟨neg, digits⟩ := l
    obtain ⟨hne, hdig⟩ := ht
    simp only at hne hdig
    cases neg with
    | true => exact ⟨'-', digits, by simp [Token.chars, Literal.chars], isspace_minus⟩
    | false =>
      cases digits with
      | nil => exact absurd rfl hne
      | cons d0 ds =>
        exact ⟨d0, ds, by simp [Token.chars, Literal.chars],
          isdigit_not_space (hdig d0 (by simp))⟩
  | op o => exact ⟨o.char, [], rfl, by cases o <;> decide⟩
  | lparen => exact ⟨'(', [], rfl, by decide⟩
  | rparen => exact ⟨')', [], rfl, by decide⟩

theorem spaced_next {ts : List Token} {rest : List Char} (hsp : Spaced ts rest)
    (hwf : ∀ t ∈ ts, t.WF) :
    (rest.dropWhile isspace).head? = ts.head?.bind (fun t => t.chars.head?) := by
  cases ts with
  | nil =>
    rw [dropWhile_all_spaces rest hsp]
    rfl
  | cons t ts =>
    obtain ⟨ws, rest1, hws, hs, -, -⟩ := hsp
    obtain ⟨c, cs, hchars, hc⟩ := token_first_char (hwf t (by simp))
    rw [hs, hchars, List.cons_append, dropWhile_spaces ws c _ hws hc]
    simp [hchars]

/-- On a whitespace-separated token sequence the main loop of `infix2postfix` does what its
token view does. -/
theorem infixLoop_tokens (I : StackOps S Char) (toks : List Token) :
    ∀ (iss : IStream) (s : List Char) (st : S) (out : List Char) (k : Nat),
      iss.Reads s → Spaced toks s → (∀ t ∈ toks, t.WF) → toks.Chain' LitThenNoDigit →
      toks.length + 1 ≤ k → infixLoop I k st iss out = runTokens I toks st out := by
  induction toks with
  | nil =>
    intro iss s st out k hr hsp _ _ hk
    obtain ⟨k1, rfl⟩ : ∃ k1, k = k1 + 1 := ⟨k - 1, by simp at hk; omega⟩
    obtain ⟨iss1, hget, -⟩ := getChar_none hr hsp
    simp only [infixLoop, hget, runTokens]
  | cons t ts ih =>
    intro iss s st out k hr hsp hwf hchain hk
    obtain ⟨k1, rfl⟩ : ∃ k1, k = k1 + 1 := ⟨k - 1, by simp at hk; omega⟩
    simp only [List.length_cons, Nat.add_le_add_iff_right] at hk
    obtain ⟨ws, rest1, hws, hs, hsep, hsp1⟩ := hsp
    have hwf1 : ∀ t ∈ ts, t.WF := fun x hx => hwf x (by simp [hx])
    obtain ⟨hhead, hchain1⟩ := List.chain'_cons'.mp hchain
    cases hlit : t.isLit with
    | true =>
      cases t with
      | lit l =>
        have hnext : ∀ c ∈ (rest1.dropWhile isspace).head?, isdigit c = false := by
          rw [spaced_next hsp1 hwf1]
          intro c hc
          simp only [Option.mem_def, Option.bind_eq_some] at hc
          obtain ⟨t1, ht1, hc1⟩ := hc
          exact hhead t1 ht1 rfl c hc1
        obtain ⟨iss1, hreads, hloop⟩ :=
          infixLoop_lit I l (hwf (Token.lit l) (by simp)) hr hs hws hnext k1 st out
        rw [hloop, ih iss1 rest1 st _ k1 hreads hsp1 hwf1 hchain1 hk]
        simp [runTokens, tokenAct, bind, Except.bind, pure, Except.pure]
      | op o => simp [Token.isLit] at hlit
      | lparen => simp [Token.isLit] at hlit
      | rparen => simp [Token.isLit] at hlit
    | false =>
      obtain ⟨iss1, hreads, hloop⟩ := infixLoop_other I t hlit hr hs hws hsep k1 st out
      rw [hloop]
      simp only [runTokens]
      cases tokenAct I t st out with
      | error e => rfl
      | ok r =>
        simp only [bind, Except.bind]
        exact ih iss1 rest1 r.1 r.2 k1 hreads hsp1 hwf1 hchain1 hk

end TokenSteps

end Lexing

/-! ## The conversion on the sequence model -/

section Shunting

theorem emitOps_append (p q : List Char) : emitOps (p ++ q) = emitOps p ++ emitOps q := by
  induction p with
  | nil => rfl
  | cons c p ih => simp [emitOps, ih]

theorem popWhile_list (cond : Char → Bool) (p st : List Char)
    (hp : ∀ c ∈ p, cond c = true) (hst : ∀ c ∈ st.head?, cond c = false) :
    ∀ (out : List Char) (fuel : Nat), (p ++ st).length ≤ fuel →
      popWhile (listStack Char) cond fuel (p ++ st) out = .ok (st, out ++ emitOps p) := by
  induction p with
  | nil =>
    intro out fuel _
    cases st with
    | nil => cases fuel <;> simp [popWhile, listStack, pure, Except.pure, emitOps]
    | cons c st =>
      have hc : cond c = false := hst c (by simp)
      cases fuel <;>
        simp [popWhile, listStack, pure, Except.pure, emitOps, hc, bind, Except.bind]
  | cons c p ih =>
    intro out fuel hfuel
    obtain ⟨k, rfl⟩ : ∃ k, fuel = k + 1 := ⟨fuel - 1, by simp at hfuel; omega⟩
    have hc : cond c = true := hp c (by simp)
    have hk : (p ++ st).length ≤ k := by simp at hfuel ⊢; omega
    have := ih (fun x hx => hp x (by simp [hx])) (out ++ [c] ++ [' ']) k hk
    simp only [List.cons_append, popWhile, listStack, List.isEmpty_cons, Bool.false_eq_true,
      if_false, bind, Except.bind, hc, if_true, List.tail_cons]
    simp only [listStack] at this
    rw [this]
    simp [emitOps]

theorem runTokens_append {S : Type} (I : StackOps S Char) (ts1 ts2 : List Token) (st : S)
    (out : List Char) :
    runTokens I (ts1 ++ ts2) st out =
      (runTokens I ts1 st out >>= fun r => runTokens I ts2 r.1 r.2) := by
  induction ts1 generalizing st out with
  | nil => rfl
  | cons t ts1 ih =>
    simp only [List.cons_append, runTokens]
    cases tokenAct I t st out with
    | error e => rfl
    | ok r =>
      simp only [bind, Except.bind]
      exact ih r.1 r.2

theorem precedence_le_two (c : Char) : precedence c ≤ 2 := by
  unfold precedence
  split_ifs <;> omega

theorem precedence_lparen : precedence '(' = 0 := by decide

theorem precedence_tight {o : BinOp} (h : o.tight = true) : precedence o.char = 2 := by
  cases o <;> first | decide | (simp [BinOp.tight] at h)

theorem precedence_loose {o : BinOp} (h : o.tight = false) : precedence o.char = 1 := by
  cases o <;> first | decide | (simp [BinOp.tight] at h)

/-- The action of an operator token on a stack whose pending operators `p` all yield to
it. -/
theorem tokenAct_op (o : BinOp) (p st out : List Char)
    (hp : ∀ c ∈ p, precedence o.char ≤ precedence c)
    (hst : ∀ c ∈ st.head?, precedence c < precedence o.char) :
    tokenAct (listStack Char) (.op o) (p ++ st) out = .ok (o.char :: st, out ++ emitOps p) := by
  have := popWhile_list (fun t => decide (precedence o.char ≤ precedence t)) p st
    (fun c hc => by simpa using hp c hc) (fun c hc => by simpa using hst c hc) out
    (p ++ st).length (le_refl _)
  simp only [tokenAct, bind, Except.bind]
  have hb : (listStack Char).bound (p ++ st) = (p ++ st).length := rfl
  rw [hb, this]
  rfl

/-- The action of a closing parenthesis on a stack whose pending operators `p` sit on an
opening parenthesis. -/
theorem tokenAct_rparen (p st out : List Char) (hp : ∀ c ∈ p, c ≠ '(') :
    tokenAct (listStack Char) .rparen (p ++ '(' :: st) out = .ok (st, out ++ emitOps p) := by
  have := popWhile_list (fun t => decide (t ≠ '(')) p ('(' :: st)
    (fun c hc => by simpa using hp c hc) (fun c hc => by
      simp only [List.head?_cons, Option.mem_def, Option.some.injEq] at hc
      subst hc
      simp) out (p ++ '(' :: st).length (le_refl _)
  simp only [tokenAct, bind, Except.bind]
  have hb : (listStack Char).bound (p ++ '(' :: st) = (p ++ '(' :: st).length := rfl
  rw [hb, this]
  rfl

/-- The conversion of a parsed token sequence: the tokens of a tree at level `n` leave on the
stack only operators that bind at least as tightly as the level, and the output together with
these pending operators is the post-order rendering of the tree. -/
theorem parse_run {n : Nat} {ts : List Token} {e : Expr} (hp : Parse n ts e) :
    ∀ (st out : List Char), (∀ c ∈ st.head?, precedence c < n + 1) →
      ∃ p X, runTokens (listStack Char) ts st out = .ok (p ++ st, out ++ X) ∧
        X ++ emitOps p = e.rpn ∧ ∀ c ∈ p, n + 1 ≤ precedence c := by
  induction hp with
  | lit l hl =>
    intro st out _
    exact ⟨[], l.chars ++ [' '], rfl, by simp [emitOps, Expr.rpn], by simp⟩
  | paren ts e hp ih =>
    intro st out _
    obtain ⟨p, X, hrun, hX, hprec⟩ := ih ('(' :: st) out (by
      intro c hc
      simp only [List.head?_cons, Option.mem_def, Option.some.injEq] at hc
      subst hc
      rw [precedence_lparen]
      omega)
    refine ⟨[], X ++ emitOps p, ?_, by simp [emitOps, hX], by simp⟩
    have hpush : tokenAct (listStack Char) .lparen st out = .ok ('(' :: st, out) := rfl
    have hne : ∀ c ∈ p, c ≠ '(' := by
      intro c hc hceq
      have := hprec c hc
      rw [hceq, precedence_lparen] at this
      omega
    simp only [runTokens, hpush, bind, Except.bind, runTokens_append, hrun,
      tokenAct_rparen p st (out ++ X) hne, pure, Except.pure]
    simp
  | factor ts e hp ih =>
    intro st out _
    obtain ⟨p, X, hrun, hX, hprec⟩ := ih st out (fun c _ => by
      have := precedence_le_two c
      omega)
    exact ⟨p, X, hrun, hX, fun c hc => by have := hprec c hc; omega⟩
  | term ts e hp ih =>
    intro st out hst
    obtain ⟨p, X, hrun, hX, hprec⟩ := ih st out (fun c hc => by
      have := hst c hc
      omega)
    exact ⟨p, X, hrun, hX, fun c hc => by have := hprec c hc; omega⟩
  | mul ts1 ts2 e1 e2 o ho hp1 hp2 ih1 ih2 =>
    intro st out hst
    have hprec_o := precedence_tight ho
    obtain ⟨p1, X1, hrun1, hX1, hprec1⟩ := ih1 st out hst
    have hact := tokenAct_op o p1 st (out ++ X1)
      (fun c hc => by rw [hprec_o]; exact hprec1 c hc)
      (fun c hc => by rw [hprec_o]; have := hst c hc; omega)
    obtain ⟨p2, X2, hrun2, hX2, hprec2⟩ := ih2 (o.char :: st) (out ++ X1 ++ emitOps p1)
      (fun c _ => by have := precedence_le_two c; omega)
    have hp2nil : p2 = [] := by
      cases p2 with
      | nil => rfl
      | cons c p2 =>
        have h1 := hprec2 c (by simp)
        have h2 := precedence_le_two c
        omega
    subst hp2nil
    refine ⟨[o.char], X1 ++ emitOps p1 ++ X2, ?_, ?_, ?_⟩
    · simp only [runTokens_append, hrun1, bind, Except.bind, runTokens, hact, hrun2]
      simp
    · simp only [emitOps, List.append_nil] at hX2 ⊢
      simp [Expr.rpn, hX1, hX2]
    · intro c hc
      simp only [List.mem_singleton] at hc
      subst hc
      omega
  | add ts1 ts2 e1 e2 o ho hp1 hp2 ih1 ih2 =>
    intro st out hst
    have hprec_o := precedence_loose ho
    obtain ⟨p1, X1, hrun1, hX1, hprec1⟩ := ih1 st out hst
    have hact := tokenAct_op o p1 st (out ++ X1)
      (fun c hc => by rw [hprec_o]; exact hprec1 c hc)
      (fun c hc => by rw [hprec_o]; have := hst c hc; omega)
    obtain ⟨p2, X2, hrun2, hX2, hprec2⟩ := ih2 (o.char :: st) (out ++ X1 ++ emitOps p1)
      (fun c hc => by
        simp only [List.head?_cons, Option.mem_def, Option.some.injEq] at hc
        subst hc
        omega)
    refine ⟨p2 ++ [o.char], X1 ++ emitOps p1 ++ X2, ?_, ?_, ?_⟩
    · simp only [runTokens_append, hrun1, bind, Except.bind, runTokens, hact, hrun2]
      simp
    · rw [emitOps_append]
      simp only [Expr.rpn, ← hX1, ← hX2, emitOps]
      simp
    · intro c hc
      rcases List.mem_append.mp hc with hc | hc
      · have := hprec2 c hc; omega
      · simp only [List.mem_singleton] at hc
        subst hc
        omega

theorem parse_wf {n : Nat} {ts : List Token} {e : Expr} (hp : Parse n ts e) :
    ∀ t ∈ ts, t.WF := by
  induction hp with
  | lit l hl =>
    intro t ht
    simp only [List.mem_singleton] at ht
    subst ht
    exact hl
  | paren ts e hp ih =>
    intro t ht
    simp only [List.mem_cons, List.mem_append, List.mem_singleton, List.not_mem_nil,
      or_false] at ht
    rcases ht with rfl | ht | rfl
    · trivial
    · exact ih t ht
    · trivial
  | factor ts e hp ih => exact ih
  | term ts e hp ih => exact ih
  | mul ts1 ts2 e1 e2 o ho hp1 hp2 ih1 ih2 =>
    intro t ht
    simp only [List.mem_append, List.mem_cons] at ht
    rcases ht with ht | rfl | ht
    · exact ih1 t ht
    · trivial
    · exact ih2 t ht
  | add ts1 ts2 e1 e2 o ho hp1 hp2 ih1 ih2 =>
    intro t ht
    simp only [List.mem_append, List.mem_cons] at ht
    rcases ht with ht | rfl | ht
    · exact ih1 t ht
    · trivial
    · exact ih2 t ht

theorem litThenNoDigit_op (x : Token) (o : BinOp) : LitThenNoDigit x (.op o) := by
  intro _ c hc
  simp only [Token.chars, List.head?_cons, Option.mem_def, Option.some.injEq] at hc
  subst hc
  cases o <;> decide

theorem litThenNoDigit_rparen (x : Token) : LitThenNoDigit x .rparen := by
  intro _ c hc
  simp only [Token.chars, List.head?_cons, Option.mem_def, Option.some.injEq] at hc
  subst hc
  decide

theorem litThenNoDigit_of_not_lit {x : Token} (y : Token) (hx : x.isLit = false) :
    LitThenNoDigit x y := by
  intro h
  rw [hx] at h
  cases h

theorem chain_op (ts1 ts2 : List Token) (o : BinOp) (h1 : ts1.Chain' LitThenNoDigit)
    (h2 : ts2.Chain' LitThenNoDigit) : (ts1 ++ Token.op o :: ts2).Chain' LitThenNoDigit := by
  refine List.Chain'.append h1 (List.chain'_cons'.mpr ⟨?_, h2⟩) ?_
  · intro y _
    exact litThenNoDigit_of_not_lit y rfl
  · intro x _ y hy
    simp only [List.head?_cons, Option.mem_def, Option.some.injEq] at hy
    subst hy
    exact litThenNoDigit_op x o

theorem parse_chain {n : Nat} {ts : List Token} {e : Expr} (hp : Parse n ts e) :
    ts.Chain' LitThenNoDigit := by
  induction hp with
  | lit l hl => exact List.chain'_singleton _
  | paren ts e hp ih =>
    refine List.chain'_cons'.mpr ⟨fun y _ => litThenNoDigit_of_not_lit y rfl, ?_⟩
    refine List.Chain'.append ih (List.chain'_singleton _) ?_
    intro x _ y hy
    simp only [List.head?_cons, Option.mem_def, Option.some.injEq] at hy
    subst hy
    exact litThenNoDigit_rparen x
  | factor ts e hp ih => exact ih
  | term ts e hp ih => exact ih
  | mul ts1 ts2 e1 e2 o ho hp1 hp2 ih1 ih2 => exact chain_op ts1 ts2 o ih1 ih2
  | add ts1 ts2 e1 e2 o ho hp1 hp2 ih1 ih2 => exact chain_op ts1 ts2 o ih1 ih2

theorem spaced_length {ts : List Token} {s : List Char} (hsp : Spaced ts s)
    (hwf : ∀ t ∈ ts, t.WF) : ts.length ≤ s.length := by
  induction ts generalizing s with
  | nil => simp
  | cons t ts ih =>
    obtain ⟨ws, rest, -, hs, -, hsp1⟩ := hsp
    obtain ⟨c, cs, hchars, -⟩ := token_first_char (hwf t (by simp))
    have := ih hsp1 (fun x hx => hwf x (by simp [hx]))
    rw [hs, hchars]
    simp only [List.length_append, List.length_cons]
    omega

/-- The sequence model of `infix2postfix` maps a well-formed infix expression to the
post-order rendering of its tree. -/
theorem infix2postfix_model_correct {toks : List Token} {e : Expr} (hp : Parse 0 toks e)
    {src : List Char} (hsp : Spaced toks src) :
    infix2postfixOn (listStack Char) [] src = .ok e.rpn := by
  have hwf := parse_wf hp
  have hlen := spaced_length hsp hwf
  have hloop := infixLoop_tokens (listStack Char) toks (IStream.ofString src) src [] []
    (src.length + 1) (IStream.reads_ofString src) hsp hwf (parse_chain hp) (by omega)
  obtain ⟨p, X, hrun, hX, hprec⟩ := parse_run hp [] [] (by simp)
  have hflush := popWhile_list (fun _ => true) p [] (fun _ _ => rfl) (by simp) ([] ++ X)
    (p ++ []).length (le_refl _)
  have hb : (listStack Char).bound (p ++ []) = (p ++ []).length := rfl
  simp only [infix2postfixOn, hloop, hrun, bind, Except.bind, hb, hflush, pure, Except.pure]
  simp [hX]

end Shunting

/-! ## The evaluation on the sequence model -/

section Evaluation

theorem takeWhile_word (cs : List Char) (sp : Char) (more : List Char)
    (hcs : ∀ x ∈ cs, isspace x = false) (hsp : isspace sp = true) :
    (cs ++ sp :: more).takeWhile (fun x => !isspace x) = cs ∧
      (cs ++ sp :: more).dropWhile (fun x => !isspace x) = sp :: more := by
  induction cs with
  | nil => simp [List.takeWhile, List.dropWhile, hsp]
  | cons c cs ih =>
    have hc : isspace c = false := hcs c (by simp)
    obtain ⟨h1, h2⟩ := ih (fun x hx => hcs x (by simp [hx]))
    simp [List.takeWhile, List.dropWhile, hc, h1, h2]

/-- Extracting a word that is followed by a space. -/
theorem getWord_word (cons ws : List Char) (c : Char) (cs : List Char) (sp : Char)
    (more : List Char) (hws : ∀ x ∈ ws, isspace x = true) (hc : isspace c = false)
    (hcs : ∀ x ∈ cs, isspace x = false) (hsp : isspace sp = true) :
    ∃ cons1, (⟨cons, ws ++ (c :: cs ++ sp :: more), false, false⟩ : IStream).getWord =
      (⟨cons1, sp :: more, false, false⟩, some (c :: cs)) := by
  have hsk := skipws_spaces cons ws (c :: cs ++ sp :: more) hws (by simp [hc])
  obtain ⟨h1, h2⟩ := takeWhile_word cs sp more hcs hsp
  refine ⟨(c :: cs).reverse ++ (ws.reverse ++ cons), ?_⟩
  simp only [IStream.getWord, IStream.good, hsk, List.cons_append] at *
  simp [h1, h2]

theorem digitsValue_snoc (ds : List Char) (d : Char) :
    digitsValue (ds ++ [d]) = digitsValue ds * 10 + (d.toNat - 48) := by
  simp [digitsValue, List.foldl_append]

theorem digitsValue_eq (ds : List Char) :
    digitsValue ds = Nat.ofDigits 10 (ds.reverse.map (fun d => d.toNat - 48)) := by
  induction ds using List.reverseRecOn with
  | nil => rfl
  | append_singleton ds d ih =>
    rw [digitsValue_snoc, ih]
    simp [Nat.ofDigits_cons]
    ring

theorem takeWhile_all {α : Type} (p : α → Bool) (l : List α) (h : ∀ x ∈ l, p x = true) :
    l.takeWhile p = l := by
  induction l with
  | nil => rfl
  | cons a l ih =>
    simp [List.takeWhile, h a (by simp), ih (fun x hx => h x (by simp [hx]))]

theorem isdigit_plus : isdigit '+' = false := by decide

/-- The function `std::stoi` on a literal that fits. -/
theorem stoi_literal (l : Literal) (hl : l.WF) (hfit : FitsInt l.value) :
    stoi l.chars = .ok l.value := by
  obtain ⟨neg, digits⟩ := l
  obtain ⟨hne, hdig⟩ := hl
  simp only at hne hdig
  cases digits with
  | nil => exact absurd rfl hne
  | cons d0 ds =>
    have hd0 : isdigit d0 = true := hdig d0 (by simp)
    have htw : (d0 :: ds).takeWhile isdigit = d0 :: ds := takeWhile_all _ _ hdig
    have hval : ((digitsValue (d0 :: ds) : Nat) : Int) =
        ((Nat.ofDigits 10 ((d0 :: ds).reverse.map (fun d => d.toNat - 48)) : Nat) : Int) := by
      rw [digitsValue_eq]
    unfold FitsInt Literal.value at hfit
    cases neg with
    | true =>
      simp only [if_true] at hfit
      have hdw : (('-' :: d0 :: ds).dropWhile isspace) = '-' :: d0 :: ds := by
        simp [List.dropWhile, isspace_minus]
      have hsign : stoiSign ('-' :: d0 :: ds) = (true, d0 :: ds) := rfl
      simp only [stoi, Literal.chars, if_true, List.singleton_append, hdw, hsign, htw,
        List.isEmpty_cons, Bool.false_eq_true, if_false, Literal.value, hval]
      rw [if_pos hfit]
    | false =>
      simp only [Bool.false_eq_true, if_false] at hfit
      have hdw : ((d0 :: ds).dropWhile isspace) = d0 :: ds := by
        simp [List.dropWhile, isdigit_not_space hd0]
      have hm : d0 ≠ '-' := digit_ne_minus hd0
      have hp : d0 ≠ '+' := by
        rintro rfl
        rw [isdigit_plus] at hd0
        cases hd0
      have hmatch : stoiSign (d0 :: ds) = (false, d0 :: ds) := by
        unfold stoiSign
        split
        · next r heq => simp only [List.cons.injEq] at heq; exact absurd heq.1 hm
        · next r heq => simp only [List.cons.injEq] at heq; exact absurd heq.1 hp
        · rfl
      simp only [stoi, Literal.chars, Bool.false_eq_true, if_false, List.nil_append, hdw]
      rw [hmatch]
      simp only [htw, List.isEmpty_cons, Bool.false_eq_true, if_false, Literal.value, hval]
      rw [if_pos hfit]

/-- The loop body on the word of a literal. -/
theorem evalStep_literal (l : Literal) (hl : l.WF) (hfit : FitsInt l.value) (st : List Int) :
    evalStep (listStack Int) st l.chars = .ok (l.value :: st) := by
  have hstoi := stoi_literal l hl hfit
  obtain ⟨neg, digits⟩ := l
  obtain ⟨hne, hdig⟩ := hl
  simp only at hne hdig
  cases digits with
  | nil => exact absurd rfl hne
  | cons d0 ds =>
    have hd0 : isdigit d0 = true := hdig d0 (by simp)
    cases neg with
    | true =>
      have hcond : isdigit '-' = true ∨ ('-' = '-' ∧ ('-' :: d0 :: ds).length > 1) :=
        Or.inr ⟨rfl, by simp⟩
      simp only [Literal.chars, if_true, List.singleton_append] at hstoi ⊢
      have hstep : evalStep (listStack Int) st ('-' :: d0 :: ds) =
          (stoi ('-' :: d0 :: ds) >>= fun v => (listStack Int).push st v) := by
        unfold evalStep
        exact if_pos hcond
      rw [hstep, hstoi]
      rfl
    | false =>
      simp only [Literal.chars, Bool.false_eq_true, if_false, List.nil_append] at hstoi ⊢
      have hcond : isdigit d0 = true ∨ (d0 = '-' ∧ (d0 :: ds).length > 1) := Or.inl hd0
      have hstep : evalStep (listStack Int) st (d0 :: ds) =
          (stoi (d0 :: ds) >>= fun v => (listStack Int).push st v) := by
        unfold evalStep
        exact if_pos hcond
      rw [hstep, hstoi]
      rfl

theorem intResult_fits {v : Int} (h : FitsInt v) : intResult v = .ok v := by
  unfold intResult
  exact if_pos h

/-- The loop body on the word of an operator, with both operands on the stack. -/
theorem evalStep_op (o : BinOp) (lhs rhs : Expr) (hsafe : (Expr.bin o lhs rhs).Safe)
    (st : List Int) :
    evalStep (listStack Int) (rhs.value :: lhs.value :: st) [o.char] =
      .ok ((Expr.bin o lhs rhs).value :: st) := by
  cases o with
  | add =>
    obtain ⟨-, -, hfit⟩ := hsafe
    have hd : isdigit '+' = false := by decide
    simp [evalStep, BinOp.char, hd, listStack, bind, Except.bind, intResult_fits hfit,
      Expr.value]
  | sub =>
    obtain ⟨-, -, hfit⟩ := hsafe
    have hd : isdigit '-' = false := by decide
    simp [evalStep, BinOp.char, hd, listStack, bind, Except.bind, intResult_fits hfit,
      Expr.value]
  | mul =>
    obtain ⟨-, -, hfit⟩ := hsafe
    have hd : isdigit '*' = false := by decide
    simp [evalStep, BinOp.char, hd, listStack, bind, Except.bind, intResult_fits hfit,
      Expr.value]
  | div =>
    obtain ⟨-, -, hnz, hfit⟩ := hsafe
    have hd : isdigit '/' = false := by decide
    simp [evalStep, BinOp.char, hd, listStack, bind, Except.bind, intDiv, hnz,
      intResult_fits hfit, Expr.value]
  | mod =>
    obtain ⟨-, -, hnz, hfit⟩ := hsafe
    have hd : isdigit '%' = false := by decide
    unfold FitsInt at hfit
    simp [evalStep, BinOp.char, hd, listStack, bind, Except.bind, intMod, hnz, hfit,
      Expr.value]

theorem literal_chars_word {l : Literal} (hl : l.WF) :
    ∃ c cs, l.chars = c :: cs ∧ isspace c = false ∧ ∀ x ∈ cs, isspace x = false := by
  obtain ⟨neg, digits⟩ := l
  obtain ⟨hne, hdig⟩ := hl
  simp only at hne hdig
  cases neg with
  | true =>
    exact ⟨'-', digits, by simp [Literal.chars], isspace_minus,
      fun x hx => isdigit_not_space (hdig x hx)⟩
  | false =>
    cases digits with
    | nil => exact absurd rfl hne
    | cons d0 ds =>
      exact ⟨d0, ds, by simp [Literal.chars], isdigit_not_space (hdig d0 (by simp)),
        fun x hx => isdigit_not_space (hdig x (by simp [hx]))⟩

theorem safe_lhs {o : BinOp} {lhs rhs : Expr} (h : (Expr.bin o lhs rhs).Safe) : lhs.Safe := by
  cases o <;> exact h.1

theorem safe_rhs {o : BinOp} {lhs rhs : Expr} (h : (Expr.bin o lhs rhs).Safe) : rhs.Safe := by
  cases o <;> exact h.2.1

/-- The evaluation loop on the post-order rendering of a tree pushes the value of the tree
and stops before the space that follows the last token. -/
theorem evalLoop_rpn (e : Expr) (hsafe : e.Safe) :
    ∀ (cons ws more : List Char) (st : List Int) (k : Nat), (∀ x ∈ ws, isspace x = true) →
      ∃ cons1, evalLoop (listStack Int) (k + e.size) st
          ⟨cons, ws ++ (e.rpn ++ more), false, false⟩ =
        evalLoop (listStack Int) k (e.value :: st) ⟨cons1, ' ' :: more, false, false⟩ := by
  induction e with
  | lit l =>
    intro cons ws more st k hws
    obtain ⟨hl, hfit⟩ := hsafe
    obtain ⟨c, cs, hchars, hc, hcs⟩ := literal_chars_word hl
    have hstep := evalStep_literal l hl hfit st
    obtain ⟨cons1, hget⟩ := getWord_word cons ws c cs ' ' more hws hc hcs (by decide)
    refine ⟨cons1, ?_⟩
    rw [hchars] at hstep
    simp only [Expr.rpn, hchars, Expr.size, List.append_assoc, List.singleton_append,
      evalLoop, hget, hstep, bind, Except.bind, Expr.value]
  | bin o lhs rhs ih1 ih2 =>
    intro cons ws more st k hws
    obtain ⟨cons1, h1⟩ := ih1 (safe_lhs hsafe) cons ws (rhs.rpn ++ ([o.char, ' '] ++ more)) st
      (k + 1 + rhs.size) hws
    obtain ⟨cons2, h2⟩ := ih2 (safe_rhs hsafe) cons1 [' '] ([o.char, ' '] ++ more)
      (lhs.value :: st) (k + 1) (by decide)
    have hsp : isspace o.char = false := by cases o <;> decide
    obtain ⟨cons3, hget⟩ := getWord_word cons2 [' '] o.char [] ' ' more (by decide) hsp
      (by simp) (by decide)
    have hstep := evalStep_op o lhs rhs hsafe st
    refine ⟨cons3, ?_⟩
    have hfuel : k + (Expr.bin o lhs rhs).size = k + 1 + rhs.size + lhs.size := by
      simp only [Expr.size]; omega
    have hsrc : ws ++ ((Expr.bin o lhs rhs).rpn ++ more) =
        ws ++ (lhs.rpn ++ (rhs.rpn ++ ([o.char, ' '] ++ more))) := by
      simp [Expr.rpn]
    rw [hfuel, hsrc, h1]
    have h2a : [' '] ++ (rhs.rpn ++ ([o.char, ' '] ++ more)) =
        ' ' :: (rhs.rpn ++ ([o.char, ' '] ++ more)) := rfl
    rw [← h2a, h2]
    have h3 : ' ' :: ([o.char, ' '] ++ more) = [' '] ++ (o.char :: [] ++ ' ' :: more) := rfl
    rw [h3]
    simp only [evalLoop, hget, hstep, bind, Except.bind]

theorem size_le_rpn (e : Expr) : e.size ≤ e.rpn.length := by
  induction e with
  | lit l => simp [Expr.size, Expr.rpn]
  | bin o lhs rhs ih1 ih2 =>
    simp only [Expr.size, Expr.rpn, List.length_append, List.length_cons, List.length_nil]
    omega

/-- The sequence model of `eval_postfix` maps the post-order rendering of a tree that can be
evaluated on `int` to the value of the tree. -/
theorem eval_postfix_model_correct (e : Expr) (hsafe : e.Safe) :
    eval_postfixOn (listStack Int) [] e.rpn = .ok e.value := by
  have hsize := size_le_rpn e
  obtain ⟨k, hk⟩ : ∃ k, e.rpn.length + 1 = (k + 1) + e.size :=
    ⟨e.rpn.length - e.size, by omega⟩
  obtain ⟨cons1, hloop⟩ := evalLoop_rpn e hsafe [] [] [] [] (k + 1) (by simp)
  simp only [List.nil_append, List.append_nil] at hloop
  have hend : (⟨cons1, [' '], false, false⟩ : IStream).getWord =
      (⟨' ' :: cons1, [], true, true⟩, none) := by
    simp [IStream.getWord, IStream.good, IStream.skipws, show isspace ' ' = true by decide]
  unfold eval_postfixOn IStream.ofString
  rw [hk, hloop]
  simp only [evalLoop, hend, bind, Except.bind, pure, Except.pure]
  rfl

end Evaluation

/-! ## Erasure at a position, insertion at the ends -/

section EraseInsert

variable {T : Type}

theorem eraseIdx_split {α : Type} (pre : List α) (x : α) (post : List α) :
    (pre ++ x :: post).eraseIdx pre.length = pre ++ post := by
  induction pre with
  | nil => rfl
  | cons y pre ih => simp [List.eraseIdx, ih]

theorem split_at_index {α : Type} (ns : List α) (i : Nat) (hi : i < ns.length) :
    ns = ns.take i ++ ns[i] :: ns.drop (i + 1) := by
  conv_lhs => rw [← List.take_append_drop i ns]
  rw [List.drop_eq_getElem_cons hi]

/-- Two consecutive nodes of a segment point at each other. -/
theorem seg_adjacent {h : Heap T} {p q : Ptr} {pre post : List (Nat × T)} {a b : Nat} {x y : T}
    (hseg : Seg h p (pre ++ (a, x) :: (b, y) :: post) q) :
    ∃ na nb, h.get a = some na ∧ na.next = some b ∧ h.get b = some nb ∧ nb.prev = some a := by
  obtain ⟨-, hrest⟩ := seg_append.mp hseg
  obtain ⟨hga, hrest2⟩ := seg_cons.mp hrest
  obtain ⟨hgb, -⟩ := seg_cons.mp hrest2
  exact ⟨_, _, hga, rfl, hgb, rfl⟩

/-- The element of a node of a segment is the data of the node. -/
theorem seg_mem_data {h : Heap T} {p q : Ptr} {ns : List (Nat × T)} (hseg : Seg h p ns q)
    {a : Nat} {x : T} (hm : (a, x) ∈ ns) : ∃ n, h.get a = some n ∧ n.data = x := by
  induction ns generalizing p with
  | nil => cases hm
  | cons m rest ih =>
    obtain ⟨b, y⟩ := m
    obtain ⟨hgb, hrest⟩ := seg_cons.mp hseg
    rcases List.mem_cons.mp hm with heq | hm
    · cases heq
      exact ⟨_, hgb, rfl⟩
    · exact ih hrest hm

/-- Erasure at the node of index `i`, on the chain of the list. -/
theorem erase_index_spec {h : Heap T} {l : LList T} {ns : List (Nat × T)}
    (hrep : ListRep h l ns) (hs : h.Sized) (i : Nat) (hi : i < ns.length)
    (pos : BiDirectionalIterator) (hpos : pos.current = (ns.map Prod.fst)[i]?) :
    ∃ h1 l1, LList.erase h l pos = .ok (h1, l1, ⟨nextPtr (ns.drop (i + 1)) none⟩) ∧
      ListRep h1 l1 (ns.eraseIdx i) ∧
      (∀ b, b ∉ ns.map Prod.fst → h1.get b = h.get b) ∧ h1.Sized ∧
      h1.room = h.room + 1 ∧ h1.get (ns[i]).1 = none := by
  have hsplit := split_at_index ns i hi
  have hlen : (ns.take i).length = i := by simp; omega
  obtain ⟨c, y, hn⟩ : ∃ c y, ns[i] = (c, y) := ⟨_, _, rfl⟩
  rw [hn] at hsplit ⊢
  have hpc : pos = ⟨some c⟩ := by
    obtain ⟨cur⟩ := pos
    simp only at hpos
    rw [hpos, List.getElem?_map, List.getElem?_eq_getElem hi, hn]
    rfl
  have hrep1 := hrep
  rw [hsplit] at hrep1
  obtain ⟨h1, l1, hop, hr1, hfr, hs1, hroom, hfree⟩ := erase_spec hrep1 hs
  refine ⟨h1, l1, by rw [hpc]; exact hop, ?_, ?_, hs1, hroom, hfree⟩
  · have he : ns.eraseIdx i = ns.take i ++ ns.drop (i + 1) := by
      have hsp := eraseIdx_split (ns.take i) (c, y) (ns.drop (i + 1))
      rw [hlen, ← hsplit] at hsp
      exact hsp
    rw [he]; exact hr1
  · intro b hb
    rw [hsplit] at hb
    exact hfr b hb

theorem map_eraseIdx {α β : Type} (f : α → β) (l : List α) (i : Nat) :
    (l.eraseIdx i).map f = (l.map f).eraseIdx i := by
  induction l generalizing i with
  | nil => rfl
  | cons x l ih =>
    cases i with
    | zero => rfl
    | succ i => simp [List.eraseIdx, ih]

/-- The nodes of ranks `k` and `k + 1` of a segment point at each other. -/
theorem seg_index_adjacent {h : Heap T} {p q : Ptr} {ns : List (Nat × T)}
    (hseg : Seg h p ns q) {k a b : Nat} (ha : (ns.map Prod.fst)[k]? = some a)
    (hb : (ns.map Prod.fst)[k + 1]? = some b) :
    ∃ na nb, h.get a = some na ∧ na.next = some b ∧ h.get b = some nb ∧ nb.prev = some a := by
  induction ns generalizing p k with
  | nil => simp at ha
  | cons n rest ih =>
    obtain ⟨c, x⟩ := n
    obtain ⟨hgc, hrest⟩ := seg_cons.mp hseg
    cases k with
    | zero =>
      simp only [List.map_cons, List.getElem?_cons_zero, Option.some.injEq] at ha
      subst ha
      cases rest with
      | nil => simp at hb
      | cons m rest2 =>
        obtain ⟨d, y⟩ := m
        simp only [List.map_cons, zero_add, List.getElem?_cons_succ, List.getElem?_cons_zero,
          Option.some.injEq] at hb
        subst hb
        obtain ⟨hgd, -⟩ := seg_cons.mp hrest
        exact ⟨_, _, hgc, rfl, hgd, rfl⟩
    | succ k =>
      simp only [List.map_cons, List.getElem?_cons_succ] at ha hb
      exact ih hrest ha hb

/-- The store left by `insert(end(), v)` is the store left by `push_back(v)`. -/
theorem insert_end_eq (h : Heap T) (l : LList T) (v : T) :
    (LList.insert h l l.end_ v).map (fun r => (r.1, r.2.1)) = LList.push_back h l v := by
  unfold LList.insert
  rw [if_pos rfl]
  cases LList.push_back h l v with
  | error e => rfl
  | ok r => rfl

/-- On an empty list `push_back(v)` and `push_front(v)` leave the same store. -/
theorem push_back_eq_push_front_of_empty {h : Heap T} {l : LList T} (hhead : l.head = none)
    (htail : l.tail = none) (v : T) : LList.push_back h l v = LList.push_front h l v := by
  have hemp : l.empty = true := by simp [LList.empty, LList.begin_, LList.end_, hhead]
  unfold LList.push_back LList.push_front
  rw [hhead, htail]
  cases h.alloc ⟨v, none, none⟩ with
  | error e => rfl
  | ok r =>
    simp only [bind, Except.bind, hemp, if_true]

/-- The store left by `insert(begin(), v)` is the store left by `push_front(v)`. -/
theorem insert_begin_eq {h : Heap T} {l : LList T} (hinv : l.Invariant h) (v : T) :
    (LList.insert h l l.begin_ v).map (fun r => (r.1, r.2.1)) = LList.push_front h l v := by
  cases hhead : l.head with
  | none =>
    have htail : l.tail = none := hinv.head_tail.mp hhead
    have hb : l.begin_ = l.end_ := by simp [LList.begin_, LList.end_, hhead]
    rw [hb, insert_end_eq, push_back_eq_push_front_of_empty hhead htail]
  | some c =>
    have hcount : 0 < l.count := by
      rcases Nat.eq_zero_or_pos l.count with h0 | h0
      · rw [hinv.count_head.mp h0] at hhead; cases hhead
      · exact h0
    obtain ⟨c1, n, hc1, hgc, hprev⟩ := hinv.head_prev hcount
    rw [hhead] at hc1
    cases hc1
    have hemp : l.empty = false := by simp [LList.empty, LList.begin_, LList.end_, hhead]
    have hne : ¬ (l.begin_ = l.end_) := by simp [LList.begin_, LList.end_, hhead]
    unfold LList.insert LList.push_front
    rw [if_neg hne]
    simp only [LList.begin_, hhead, Heap.read_some hgc, bind, Except.bind, hprev, hemp]
    cases hal : h.alloc ⟨v, none, some c⟩ with
    | error e => rfl
    | ok r =>
      obtain ⟨h1, a⟩ := r
      obtain ⟨hfree, hget, -, -⟩ := Heap.alloc_spec hal
      have hac : c ≠ a := by
        intro hca; rw [hca, hfree] at hgc; cases hgc
      have hgc1 : h1.get c = some n := by rw [hget c, if_neg hac]; exact hgc
      have hga1 : h1.get a = some ⟨v, none, some c⟩ := by rw [hget a, if_pos rfl]
      have hga3 : (h1.write c { n with prev := some a }).get a = some ⟨v, none, some c⟩ := by
        rw [Heap.get_write hgc1, if_neg (Ne.symm hac)]; exact hga1
      simp only [Heap.read_some hgc1, hprev, Heap.setPrev_some hgc1, Heap.read_some hga3, pure,
        Except.pure, Except.map, ne_eq, not_true_eq_false, if_false, Bool.false_eq_true]
      by_cases ht : some c = l.tail
      · simp [ht]
      · simp [ht]

end EraseInsert

/-! ## `clear` as repeated head removal, move construction -/

section ClearMove

variable {T : Type}

namespace Heap

theorem setPrev_length {h h1 : Heap T} {p v : Ptr} (hop : h.setPrev p v = .ok h1) :
    h1.cells.length = h.cells.length := by
  unfold setPrev at hop
  cases p with
  | none => cases hop
  | some a =>
    cases hg : h.get a with
    | none => simp [hg] at hop
    | some n =>
      simp only [hg, Except.ok.injEq] at hop
      subst hop
      simp [write]

theorem delete_length {h h1 : Heap T} {p : Ptr} (hop : h.delete p = .ok h1) :
    h1.cells.length = h.cells.length := by
  unfold delete at hop
  cases p with
  | none =>
    simp only [Except.ok.injEq] at hop
    subst hop; rfl
  | some a =>
    cases hg : h.get a with
    | none => simp [hg] at hop
    | some n =>
      simp only [hg, Except.ok.injEq] at hop
      subst hop
      simp

/-- A free cell inside the table leaves room for an allocation. -/
theorem room_pos_of_free {h : Heap T} {a : Nat} (hlt : a < h.cells.length)
    (hfree : h.get a = none) : 0 < h.room := by
  have hcell : h.cells[a]? = some none := by
    unfold get at hfree
    rw [List.getElem?_eq_getElem hlt] at hfree ⊢
    cases hc : h.cells[a] with
    | none => rfl
    | some n => simp [hc] at hfree
  have hmem : (none : Option (Node T)) ∈ h.cells.filter Option.isNone := by
    rw [List.mem_filter]
    exact ⟨List.mem_iff_getElem?.mpr ⟨a, hcell⟩, rfl⟩
  have := List.length_pos_of_mem hmem
  unfold room
  omega

end Heap

theorem pop_front_length {h h1 : Heap T} {l l1 : LList T}
    (hop : LList.pop_front h l = .ok (h1, l1)) : h1.cells.length = h.cells.length := by
  unfold LList.pop_front at hop
  split at hop
  · cases hr : h.read l.head with
    | error e => simp [hr, bind, Except.bind] at hop
    | ok n =>
      simp only [hr, bind, Except.bind] at hop
      split at hop
      · cases hsp : h.setPrev n.next none with
        | error e => simp [hsp] at hop
        | ok h2 =>
          simp only [hsp] at hop
          cases hd : h2.delete l.head with
          | error e => simp [hd] at hop
          | ok h3 =>
            simp only [hd, pure, Except.pure, Except.ok.injEq, Prod.mk.injEq] at hop
            obtain ⟨rfl, -⟩ := hop
            rw [Heap.delete_length hd, Heap.setPrev_length hsp]
      · cases hd : h.delete l.head with
        | error e => simp [hd] at hop
        | ok h3 =>
          simp only [hd, pure, Except.pure, Except.ok.injEq, Prod.mk.injEq] at hop
          obtain ⟨rfl, -⟩ := hop
          exact Heap.delete_length hd
  · simp only [pure, Except.pure, Except.ok.injEq, Prod.mk.injEq] at hop
    obtain ⟨rfl, -⟩ := hop
    rfl

/-- The first `k` head removals of a list of at least `k` elements. -/
theorem popFrontN_spec {h : Heap T} {l : LList T} {ns : List (Nat × T)} (hrep : ListRep h l ns)
    (hs : h.Sized) {k : Nat} (hk : k ≤ ns.length) :
    ∃ hk lk, LList.popFrontN k h l = .ok (hk, lk) ∧ ListRep hk lk (ns.drop k) ∧ hk.Sized := by
  induction k generalizing h l ns with
  | zero => exact ⟨h, l, rfl, hrep, hs⟩
  | succ k ih =>
    cases ns with
    | nil => simp at hk
    | cons n rest =>
      simp only [List.length_cons, Nat.add_le_add_iff_right] at hk
      obtain ⟨h1, l1, hpop, hrep1, -, hs1, -, -⟩ := pop_front_spec hrep hs
      rw [List.tail_cons] at hrep1
      obtain ⟨h2, l2, hrun, hrep2, hs2⟩ := ih hrep1 hs1 hk
      refine ⟨h2, l2, ?_, by simpa using hrep2, hs2⟩
      simp [LList.popFrontN, hpop, bind, Except.bind, hrun]

/-- The loop of `clear()` makes as many head removals as the list has elements. -/
theorem clearLoop_eq_popFrontN {h : Heap T} {l : LList T} {ns : List (Nat × T)}
    (hrep : ListRep h l ns) (hs : h.Sized) {k : Nat} (hk : ns.length ≤ k) :
    LList.clearLoop k h l = LList.popFrontN ns.length h l := by
  induction ns generalizing h l k with
  | nil =>
    have hemp : l.empty = true := hrep.empty_iff.mpr rfl
    cases k <;> simp [LList.clearLoop, LList.popFrontN, hemp]
  | cons n rest ih =>
    have hemp : l.empty = false := by
      rw [Bool.eq_false_iff]; intro hc; simpa using hrep.empty_iff.mp hc
    obtain ⟨k1, rfl⟩ : ∃ k1, k = k1 + 1 := ⟨k - 1, by simp at hk; omega⟩
    simp only [List.length_cons, Nat.add_le_add_iff_right] at hk
    obtain ⟨h1, l1, hpop, hrep1, -, hs1, -, -⟩ := pop_front_spec hrep hs
    rw [List.tail_cons] at hrep1
    simp [LList.clearLoop, LList.popFrontN, hemp, hpop, bind, Except.bind, ih hrep1 hs1 hk]

/-- After `clear()` of a non-empty list the heap has room. -/
theorem clear_room_pos {h h1 : Heap T} {l : LList T} {ns : List (Nat × T)}
    (hrep : ListRep h l ns) (hs : h.Sized) (hne : ns ≠ [])
    (hclear : LList.clear h l = .ok (h1, LList.mk0)) : 0 < h1.room := by
  cases ns with
  | nil => exact absurd rfl hne
  | cons n rest =>
    obtain ⟨h2, l2, hpop, hrep2, -, hs2, -, hdead⟩ := pop_front_spec hrep hs
    rw [List.tail_cons] at hrep2
    have hlt : n.1 < h2.cells.length := by
      rw [pop_front_length hpop]
      exact seg_lt hrep.seg (by simp)
    have hpos : 0 < h2.room := Heap.room_pos_of_free hlt (hdead n (by simp))
    obtain ⟨h3, hloop, -, -, -, hroom, -⟩ :=
      clearLoop_spec hrep2 hs2 (Nat.le_refl rest.length)
    have e1 : LList.clear h l = LList.popFrontN (n :: rest).length h l :=
      clearLoop_eq_popFrontN hrep hs (seg_length_le hrep.seg hrep.nodup)
    have e2 : LList.clearLoop rest.length h2 l2 = LList.popFrontN rest.length h2 l2 :=
      clearLoop_eq_popFrontN hrep2 hs2 (Nat.le_refl _)
    have e3 : LList.popFrontN (n :: rest).length h l = LList.popFrontN rest.length h2 l2 := by
      simp [LList.popFrontN, hpop, bind, Except.bind]
    rw [e1, e3, ← e2, hloop] at hclear
    simp only [Except.ok.injEq, Prod.mk.injEq, and_true] at hclear
    subst hclear
    omega

theorem elements_mk0 (h : Heap T) : (LList.mk0 : LList T).elements h = [] := by
  simp [LList.elements, LList.mk0, walkNext_none]

theorem clear_mk0 (h : Heap T) : LList.clear h (LList.mk0 : LList T) = .ok (h, LList.mk0) := by
  unfold LList.clear
  cases h.cells.length <;> rfl

end ClearMove

/-! ## The copy constructor and the destructor -/

section CopyDestroy

variable {T : Type}

/-- The loop of the copy constructor appends the elements still to be read to the receiver,
in fresh nodes, and leaves every other live node as it was. -/
theorem copyLoop_spec {h : Heap T} {p : Ptr} {post : List (Nat × T)} {l : LList T}
    {ms : List (Nat × T)} (hsrc : Seg h p post none) (hdst : ListRep h l ms)
    (hdisj : ∀ a ∈ post.map Prod.fst, a ∉ ms.map Prod.fst) (hs : h.Sized)
    {k : Nat} (hk : post.length ≤ k) (hroom : post.length ≤ h.room) :
    ∃ h1 l1 ms1, LList.copyLoop ⟨none⟩ k h ⟨nextPtr post none⟩ l = .ok (h1, l1) ∧
      ListRep h1 l1 (ms ++ ms1) ∧ ms1.map Prod.snd = post.map Prod.snd ∧
      (∀ a ∈ ms1.map Prod.fst, h.get a = none) ∧ Frame h h1 (ms.map Prod.fst) ∧
      h1.Sized ∧ h1.room + post.length = h.room := by
  induction post generalizing h p l ms k with
  | nil =>
    refine ⟨h, l, [], ?_, by simpa using hdst, rfl, by simp, frame_refl _ _, hs, rfl⟩
    cases k <;> simp [LList.copyLoop, nextPtr, pure, Except.pure]
  | cons n rest ih =>
    obtain ⟨c, y⟩ := n
    obtain ⟨hgc, hrest⟩ := seg_cons.mp hsrc
    obtain ⟨k1, rfl⟩ : ∃ k1, k = k1 + 1 := ⟨k - 1, by simp at hk; omega⟩
    simp only [List.length_cons, Nat.add_le_add_iff_right] at hk
    simp only [List.length_cons] at hroom
    obtain ⟨h1, l1, a, hpush, hrep1, hfree, hfr1, hs1, hroom1⟩ :=
      push_back_spec hdst hs (by omega) y
    have hcms : c ∉ ms.map Prod.fst := hdisj c (by simp)
    have hgc1 : h1.get c = some ⟨y, p, nextPtr rest none⟩ := by
      rw [hfr1 c hcms (by rw [hgc]; simp), hgc]
    have hrest1 : Seg h1 (some c) rest none := by
      refine seg_frame ?_ hrest
      intro b hb
      exact hfr1 b (hdisj b (by simp [hb])) (seg_live hrest hb)
    have hdisj1 : ∀ b ∈ rest.map Prod.fst, b ∉ (ms ++ [(a, y)]).map Prod.fst := by
      intro b hb hmem
      simp only [List.map_append, List.map_cons, List.map_nil, List.mem_append,
        List.mem_singleton] at hmem
      rcases hmem with hmem | rfl
      · exact hdisj b (by simp [hb]) hmem
      · exact seg_live hrest hb hfree
    obtain ⟨h2, l2, ms1, hloop, hrep2, hvals, hfresh, hfr2, hs2, hroom2⟩ :=
      ih hrest1 hrep1 hdisj1 hs1 hk (by omega)
    refine ⟨h2, l2, (a, y) :: ms1, ?_, by simpa using hrep2, by simp [hvals], ?_, ?_, hs2,
      by simp only [List.length_cons]; omega⟩
    · have hne : (⟨some c⟩ : BiDirectionalIterator) ≠ ⟨none⟩ := by
        intro hc; cases hc
      simp only [LList.copyLoop, nextPtr_cons, ne_eq, hne, not_false_eq_true, if_true,
        BiDirectionalIterator.deref, Heap.read_some hgc, bind, Except.bind, pure, Except.pure,
        hpush, BiDirectionalIterator.incr, Heap.read_some hgc1]
      exact hloop
    · intro b hb
      simp only [List.map_cons, List.mem_cons] at hb
      rcases hb with rfl | hb
      · exact hfree
      · by_contra hlive
        have hnd := hrep2.nodup
        simp only [List.map_append, List.map_cons, List.map_nil, List.append_assoc,
          List.singleton_append] at hnd
        have hbms : b ∉ ms.map Prod.fst := by
          intro hbm
          exact (List.nodup_append.mp hnd).2.2 hbm (by simp [hb])
        have hb1 : h1.get b = h.get b := hfr1 b hbms hlive
        have hfb := hfresh b hb
        rw [hb1] at hfb
        exact hlive hfb
    · intro b hb hlive
      have e1 := hfr1 b hb hlive
      have hba : b ≠ a := by
        rintro rfl; exact hlive hfree
      have hb2 : b ∉ (ms ++ [(a, y)]).map Prod.fst := by
        simp only [List.map_append, List.map_cons, List.map_nil, List.mem_append,
          List.mem_singleton, not_or]
        exact ⟨hb, hba⟩
      rw [hfr2 b hb2 (by rw [e1]; exact hlive), e1]

/-- The copy constructor builds a chain of fresh nodes with the elements of the source, and
leaves every live node as it was. -/
theorem copy_spec {h : Heap T} {other : LList T} {ns : List (Nat × T)}
    (hrep : ListRep h other ns) (hs : h.Sized) (hroom : ns.length ≤ h.room) :
    ∃ h1 c ms, LList.copy h other = .ok (h1, c) ∧ ListRep h1 c ms ∧
      ms.map Prod.snd = ns.map Prod.snd ∧ (∀ a ∈ ms.map Prod.fst, h.get a = none) ∧
      (∀ b, h.get b ≠ none → h1.get b = h.get b) ∧ h1.Sized ∧
      h1.room + ns.length = h.room := by
  obtain ⟨h1, c, ms, hloop, hrep1, hvals, hfresh, hfr, hs1, hroom1⟩ :=
    copyLoop_spec hrep.seg (ListRep.mk0 h) (by simp) hs (seg_length_le hrep.seg hrep.nodup)
      hroom
  refine ⟨h1, c, ms, ?_, by simpa using hrep1, hvals, hfresh, ?_, hs1, hroom1⟩
  · unfold LList.copy
    simp only [LList.end_, LList.begin_, hrep.head_eq]
    exact hloop
  · intro b hlive
    exact hfr b (by simp) hlive

/-- The destructor releases every node of the chain and touches no other cell. -/
theorem destroyLoop_spec {h : Heap T} {p : Ptr} {ns : List (Nat × T)} (hseg : Seg h p ns none)
    (hnd : (ns.map Prod.fst).Nodup) (hs : h.Sized) {k : Nat} (hk : ns.length ≤ k) :
    ∃ h1, LList.destroyLoop k h (nextPtr ns none) = .ok h1 ∧
      (∀ b, b ∉ ns.map Prod.fst → h1.get b = h.get b) ∧
      (∀ a ∈ ns.map Prod.fst, h1.get a = none) ∧ h1.Sized := by
  induction ns generalizing h p k with
  | nil =>
    refine ⟨h, ?_, fun _ _ => rfl, by simp, hs⟩
    cases k <;> simp [LList.destroyLoop, nextPtr, pure, Except.pure]
  | cons n rest ih =>
    obtain ⟨c, y⟩ := n
    obtain ⟨hgc, hrest⟩ := seg_cons.mp hseg
    obtain ⟨k1, rfl⟩ : ∃ k1, k = k1 + 1 := ⟨k - 1, by simp at hk; omega⟩
    simp only [List.length_cons, Nat.add_le_add_iff_right] at hk
    simp only [List.map_cons, List.nodup_cons] at hnd
    obtain ⟨hcr, hndr⟩ := hnd
    have hgetd := Heap.get_set_none h c
    have hrest1 : Seg (Heap.mk (h.cells.set c none)) (some c) rest none := by
      refine seg_frame ?_ hrest
      intro b hb
      have hbc : b ≠ c := by rintro rfl; exact hcr hb
      rw [hgetd, if_neg hbc]
    obtain ⟨h2, hloop, hfr2, hdead2, hs2⟩ := ih hrest1 hndr (Heap.set_none_sized c hs) hk
    refine ⟨h2, ?_, ?_, ?_, hs2⟩
    · simp only [LList.destroyLoop, nextPtr_cons, ne_eq, reduceCtorEq, not_false_eq_true,
        if_true, Heap.read_some hgc, bind, Except.bind, Heap.delete_some hgc]
      exact hloop
    · intro b hb
      simp only [List.map_cons, List.mem_cons, not_or] at hb
      rw [hfr2 b hb.2, hgetd, if_neg hb.1]
    · intro a ha
      simp only [List.map_cons, List.mem_cons] at ha
      by_cases har : a ∈ rest.map Prod.fst
      · exact hdead2 a har
      · rcases ha with rfl | ha
        · rw [hfr2 _ har, hgetd, if_pos rfl]
        · exact absurd ha har

theorem destroy_spec {h : Heap T} {l : LList T} {ns : List (Nat × T)} (hrep : ListRep h l ns)
    (hs : h.Sized) :
    ∃ h1, LList.destroy h l = .ok h1 ∧ (∀ b, b ∉ ns.map Prod.fst → h1.get b = h.get b) ∧
      (∀ a ∈ ns.map Prod.fst, h1.get a = none) ∧ h1.Sized := by
  unfold LList.destroy
  rw [hrep.head_eq]
  exact destroyLoop_spec hrep.seg hrep.nodup hs (seg_length_le hrep.seg hrep.nodup)

end CopyDestroy

/-! ## Stores with several lists: independence of the chains -/

section WorldFrame

variable {T : Type}

theorem set_eq_self_of_getElem? {α : Type} (l : List α) (i : Nat) (x : α)
    (h : l[i]? = some x) : l.set i x = l := by
  apply List.ext_getElem?
  intro k
  by_cases hk : i = k
  · subst hk
    have hi : i < l.length := by
      by_contra hlt
      rw [List.getElem?_eq_none (by omega)] at h
      cases h
    rw [List.getElem?_set_self hi, h]
  · rw [List.getElem?_set_ne hk]

namespace World

/-- In a consistent store the elements of a list are those of its chain. -/
theorem GoodWith.elements {w : World T} {g : Nat → List (Nat × T)} (hg : w.GoodWith g)
    {j : Nat} {l : LList T} (hl : w.lists[j]? = some l) :
    l.elements w.heap = (g j).map Prod.snd :=
  (hg.rep j l hl).elements_eq

/-- In a consistent store the nodes of a list are those of its chain. -/
theorem GoodWith.nodes {w : World T} {g : Nat → List (Nat × T)} (hg : w.GoodWith g)
    {j : Nat} {l : LList T} (hl : w.lists[j]? = some l) :
    l.nodes w.heap = (g j).map Prod.fst :=
  (hg.rep j l hl).nodes_eq

/-- Installing a new chain for the rank `i`, in a heap that kept every live node outside
the old chain of that rank, keeps the store consistent. -/
theorem GoodWith.install {w : World T} {g : Nat → List (Nat × T)} (hg : w.GoodWith g)
    {i : Nat} {h1 : Heap T} {ls : List (LList T)} {ns1 : List (Nat × T)}
    (hrep : ∀ l1, ls[i]? = some l1 → ListRep h1 l1 ns1)
    (hold : ∀ j lj, j ≠ i → ls[j]? = some lj → w.lists[j]? = some lj)
    (hlive : ∀ b ∈ ns1.map Prod.fst, h1.get b ≠ none)
    (hfr : Frame w.heap h1 ((g i).map Prod.fst)) (hs : h1.Sized)
    (hnew : ∀ b ∈ ns1.map Prod.fst, b ∈ (g i).map Prod.fst ∨ w.heap.get b = none) :
    (World.mk h1 ls).GoodWith (Function.update g i ns1) := by
  have hkeep : ∀ j, j ≠ i → ∀ b ∈ (g j).map Prod.fst, h1.get b = w.heap.get b :=
    fun j hji b hb => hfr b (hg.disjoint j i hji b hb) (hg.live j b hb)
  refine ⟨hs, ?_, ?_, ?_⟩
  · intro j lj hj
    by_cases hji : j = i
    · subst hji
      rw [Function.update_same]
      exact hrep lj hj
    · rw [Function.update_noteq hji]
      exact (hg.rep j lj (hold j lj hji hj)).frame (hkeep j hji)
  · intro j b hb
    by_cases hji : j = i
    · subst hji
      rw [Function.update_same] at hb
      exact hlive b hb
    · rw [Function.update_noteq hji] at hb
      rw [hkeep j hji b hb]
      exact hg.live j b hb
  · intro j k hjk b hb
    by_cases hji : j = i
    · subst hji
      have hkj : k ≠ j := Ne.symm hjk
      rw [Function.update_same] at hb
      rw [Function.update_noteq hkj]
      rcases hnew b hb with hold1 | hfree
      · exact hg.disjoint j k hjk b hold1
      · exact fun hbk => hg.live k b hbk hfree
    · rw [Function.update_noteq hji] at hb
      by_cases hki : k = i
      · subst hki
        rw [Function.update_same]
        intro hb1
        rcases hnew b hb1 with hold1 | hfree
        · exact hg.disjoint j k hjk b hb hold1
        · exact hg.live j b hb hfree
      · rw [Function.update_noteq hki]
        exact hg.disjoint j k hjk b hb

/-- Copy construction adds a list with the elements of its source, on fresh nodes. -/
theorem copy_construct_goodWith {w : World T} {g : Nat → List (Nat × T)} (hg : w.GoodWith g)
    {i : Nat} {l : LList T} (hl : w.lists[i]? = some l) (hroom : l.size ≤ w.heap.room) :
    ∃ h1 c ms, LList.copy w.heap l = .ok (h1, c) ∧
      w.copy_construct i = .ok ⟨h1, w.lists ++ [c]⟩ ∧
      (World.mk h1 (w.lists ++ [c])).GoodWith (Function.update g w.lists.length ms) ∧
      ms.map Prod.snd = (g i).map Prod.snd ∧ c.size = l.size ∧
      (∀ a ∈ ms.map Prod.fst, w.heap.get a = none) := by
  have hrep := hg.rep i l hl
  have hsz : l.size = (g i).length := hrep.count_eq
  obtain ⟨h1, c, ms, hcopy, hrep1, hvals, hfresh, hfr, hs1, -⟩ :=
    copy_spec hrep hg.sized (by rw [← hsz]; exact hroom)
  have hlen : ms.length = (g i).length := by
    have := congrArg List.length hvals
    simpa using this
  refine ⟨h1, c, ms, hcopy, ?_, ?_, hvals, ?_, hfresh⟩
  · simp [copy_construct, hl, hcopy, bind, Except.bind, pure, Except.pure]
  · refine hg.install ?_ ?_ (fun b hb => seg_live hrep1.seg hb) (fun b _ hlive => hfr b hlive)
      hs1 (fun b hb => Or.inr (hfresh b hb))
    · intro l1 hl1
      simp only [List.getElem?_concat_length, Option.some.injEq] at hl1
      subst hl1
      exact hrep1
    · intro j lj hji hj
      by_cases hjlt : j < w.lists.length
      · rw [List.getElem?_append_left hjlt] at hj
        exact hj
      · rw [List.getElem?_eq_none (by simp; omega)] at hj
        cases hj
  · rw [LList.size, LList.size, hrep1.count_eq, hrep.count_eq, hlen]

/-- Copy assignment between two different lists gives the receiver a chain of fresh nodes
with the elements of the source and releases its former chain. -/
theorem assign_goodWith {w : World T} {g : Nat → List (Nat × T)} (hg : w.GoodWith g)
    {i j : Nat} {a b : LList T} (ha : w.lists[i]? = some a) (hb : w.lists[j]? = some b)
    (hij : i ≠ j) (hroom : b.size ≤ w.heap.room) :
    ∃ h2 a1 ms, w.assign i j = .ok ⟨h2, w.lists.set i a1⟩ ∧
      (World.mk h2 (w.lists.set i a1)).GoodWith (Function.update g i ms) ∧
      ms.map Prod.snd = (g j).map Prod.snd ∧ a1.size = b.size := by
  have hrepa := hg.rep i a ha
  have hrepb := hg.rep j b hb
  have hsz : b.size = (g j).length := hrepb.count_eq
  obtain ⟨h1, c, ms, hcopy, hrep1, hvals, hfresh, hfr, hs1, -⟩ :=
    copy_spec hrepb hg.sized (by rw [← hsz]; exact hroom)
  have hlen : ms.length = (g j).length := by
    have := congrArg List.length hvals
    simpa using this
  have hrepa1 : ListRep h1 a (g i) :=
    hrepa.frame (fun x hx => hfr x (hg.live i x hx))
  obtain ⟨h2, hdes, hfr2, hdead, hs2⟩ := destroy_spec hrepa1 hs1
  have hdisj : ∀ x ∈ ms.map Prod.fst, x ∉ (g i).map Prod.fst :=
    fun x hx hxi => hg.live i x hxi (hfresh x hx)
  have hilt : i < w.lists.length := by
    by_contra hlt
    rw [List.getElem?_eq_none (by omega)] at ha
    cases ha
  have hrep2 : ListRep h2 c ms := hrep1.frame (fun x hx => hfr2 x (hdisj x hx))
  refine ⟨h2, c, ms, ?_, ?_, hvals, ?_⟩
  · have hdec : decide (i = j) = false := by simp [hij]
    have hsw : (LList.swap a c).2 = a := rfl
    have hsw1 : (LList.swap a c).1 = c := rfl
    simp only [assign, ha, hb, LList.assign, hdec, Bool.not_false, if_true, hcopy, bind,
      Except.bind, hsw, hdes, hsw1, pure, Except.pure]
  · refine hg.install ?_ ?_ (fun x hx => seg_live hrep2.seg hx) ?_ hs2
      (fun x hx => Or.inr (hfresh x hx))
    · intro l1 hl1
      rw [List.getElem?_set_self hilt] at hl1
      simp only [Option.some.injEq] at hl1
      subst hl1
      exact hrep2
    · intro k lk hki hk
      rw [List.getElem?_set_ne (Ne.symm hki)] at hk
      exact hk
    · intro x hx hlive
      rw [hfr2 x hx, hfr x hlive]
  · rw [LList.size, LList.size, hrep2.count_eq, hrepb.count_eq, hlen]

end World

end WorldFrame

/-! ## What one statement does to the chains of a consistent store -/

section WorldSteps

variable {T : Type}

namespace World

/-- A modifier applied to the list of rank `i` replaces the chain of that rank only. -/
theorem onList_goodWith {w w1 : World T} {i : Nat}
    {f : Heap T → LList T → Except Err (Heap T × LList T)} {g : Nat → List (Nat × T)}
    (hgw : w.GoodWith g) (hstep : w.onList i f = .ok w1)
    (P : List (Nat × T) → List (Nat × T) → Prop)
    (hf : ∀ l ns h1 l1, w.lists[i]? = some l → ListRep w.heap l ns →
      f w.heap l = .ok (h1, l1) →
      ∃ ns1, ListRep h1 l1 ns1 ∧ Frame w.heap h1 (ns.map Prod.fst) ∧ h1.Sized ∧
        (∀ b ∈ ns1.map Prod.fst, b ∈ ns.map Prod.fst ∨ w.heap.get b = none) ∧ P ns ns1) :
    ∃ ns1 l1, w1.lists = w.lists.set i l1 ∧ i < w.lists.length ∧
      w1.GoodWith (Function.update g i ns1) ∧ P (g i) ns1 := by
  unfold onList at hstep
  cases hl : w.lists[i]? with
  | none => simp [hl] at hstep
  | some l =>
    cases hr : f w.heap l with
    | error e => simp [hl, hr, bind, Except.bind] at hstep
    | ok r =>
      obtain ⟨h1, l1⟩ := r
      simp only [hl, hr, bind, Except.bind, pure, Except.pure, Except.ok.injEq] at hstep
      subst hstep
      obtain ⟨ns1, hrep1, hfr, hs1, hnew, hP⟩ := hf l (g i) h1 l1 hl (hgw.rep i l hl) hr
      have hi : i < w.lists.length := by
        by_contra hlt
        rw [List.getElem?_eq_none (by omega)] at hl
        cases hl
      exact ⟨ns1, l1, rfl, hi, hgw.update hl hrep1 hfr hs1 hnew, hP⟩

/-- The lists and chains of the other ranks after a modifier on the list of rank `i`. -/
theorem onList_frame {w w1 : World T} {i : Nat} {g : Nat → List (Nat × T)}
    {ns1 : List (Nat × T)} {l1 : LList T} (keep : Prop) (rem : Ptr)
    (hlists : w1.lists = w.lists.set i l1) (hi : i < w.lists.length)
    (hP : keep → ∀ a x, (a, x) ∈ g i → rem ≠ some a → (a, x) ∈ ns1) :
    (∀ j lj, w.lists[j]? = some lj → decide (i = j) = false →
      Function.update g i ns1 j = g j ∧ w1.lists[j]? = some lj) ∧
    (keep → ∀ j lj, w.lists[j]? = some lj → ∀ a x, (a, x) ∈ g j → rem ≠ some a →
      ∃ k lk, w1.lists[k]? = some lk ∧ (a, x) ∈ Function.update g i ns1 k) := by
  constructor
  · intro j lj hj hij
    have hne : j ≠ i := by
      intro h; subst h; simp at hij
    refine ⟨Function.update_noteq hne _ _, ?_⟩
    rw [hlists, List.getElem?_set_ne (Ne.symm hne)]
    exact hj
  · intro hk j lj hj a x hax hrem
    by_cases hji : j = i
    · subst hji
      refine ⟨j, l1, ?_, ?_⟩
      · rw [hlists, List.getElem?_set_self hi]
      · rw [Function.update_same]
        exact hP hk a x hax hrem
    · refine ⟨j, lj, ?_, ?_⟩
      · rw [hlists, List.getElem?_set_ne (Ne.symm hji)]
        exact hj
      · rw [Function.update_noteq hji]
        exact hax

theorem mem_of_mem_cons_ne {ns : List (Nat × T)} {c a : Nat} {y x : T}
    (hm : (a, x) ∈ (c, y) :: ns) (hne : a ≠ c) : (a, x) ∈ ns := by
  rcases List.mem_cons.mp hm with heq | hm
  · cases heq
    exact absurd rfl hne
  · exact hm

/-- One statement on a consistent store: the store stays consistent, the lists that the
statement does not modify keep their record and their chain, and unless the statement is a
`clear()` every node of a chain other than the removed one stays in a chain, with its
element. -/
theorem step_goodWith {w w1 : World T} {op : Op T} {g : Nat → List (Nat × T)}
    (hgw : w.GoodWith g) (hstep : w.step op = .ok w1) :
    ∃ g1, w1.GoodWith g1 ∧
      (∀ j lj, w.lists[j]? = some lj → op.mutates j = false →
        g1 j = g j ∧ w1.lists[j]? = some lj) ∧
      (op.isClear = false → ∀ j lj, w.lists[j]? = some lj → ∀ a x, (a, x) ∈ g j →
        w.removed op ≠ some a → ∃ k lk, w1.lists[k]? = some lk ∧ (a, x) ∈ g1 k) := by
  have hsz : w.heap.Sized := hgw.sized
  cases op with
  | create =>
    simp only [step, pure, Except.pure, Except.ok.injEq] at hstep
    subst hstep
    have hold : ∀ j lj, j ≠ w.lists.length → (w.lists ++ [LList.mk0])[j]? = some lj →
        w.lists[j]? = some lj := by
      intro j lj hji hj
      by_cases hjlt : j < w.lists.length
      · rw [List.getElem?_append_left hjlt] at hj
        exact hj
      · rw [List.getElem?_eq_none (by simp; omega)] at hj
        cases hj
    have hgw1 : (World.mk w.heap (w.lists ++ [LList.mk0])).GoodWith
        (Function.update g w.lists.length []) := by
      refine hgw.install ?_ hold (by simp) (frame_refl _ _) hsz (by simp)
      intro l1 hl1
      simp only [List.getElem?_concat_length, Option.some.injEq] at hl1
      subst hl1
      exact ListRep.mk0 _
    have hin : ∀ j lj, w.lists[j]? = some lj → j ≠ w.lists.length ∧
        (w.lists ++ [LList.mk0])[j]? = some lj := by
      intro j lj hj
      have hjlt : j < w.lists.length := by
        by_contra hlt
        rw [List.getElem?_eq_none (by omega)] at hj
        cases hj
      exact ⟨by omega, by rw [List.getElem?_append_left hjlt]; exact hj⟩
    refine ⟨_, hgw1, ?_, ?_⟩
    · intro j lj hj _
      exact ⟨Function.update_noteq (hin j lj hj).1 _ _, (hin j lj hj).2⟩
    · intro _ j lj hj a x hax _
      refine ⟨j, lj, (hin j lj hj).2, ?_⟩
      rw [Function.update_noteq (hin j lj hj).1]
      exact hax
  | push_front i v =>
    simp only [step] at hstep
    obtain ⟨ns1, l1, hlists, hi, hgw1, hP⟩ := onList_goodWith hgw hstep
      (fun ns ns1 => ∀ a x, (a, x) ∈ ns → (none : Ptr) ≠ some a → (a, x) ∈ ns1) (by
        intro l ns h1 l1 _ hrep hop
        obtain ⟨h2, l2, a, hop2, hrep2, hfree, hfr, hs2, -⟩ :=
          push_front_spec hrep hsz (push_front_room hop) v
        rw [hop2] at hop
        simp only [Except.ok.injEq, Prod.mk.injEq] at hop
        obtain ⟨rfl, rfl⟩ := hop
        refine ⟨_, hrep2, hfr, hs2, ?_, fun b x hb _ => List.mem_cons_of_mem _ hb⟩
        intro b hb
        simp only [List.map_cons, List.mem_cons] at hb
        rcases hb with rfl | hb
        · exact Or.inr hfree
        · exact Or.inl hb)
    exact ⟨_, hgw1, onList_frame True none hlists hi (fun _ => hP)
      |>.imp (fun h1 => h1) (fun h2 _ => h2 trivial)⟩
  | push_back i v =>
    simp only [step] at hstep
    obtain ⟨ns1, l1, hlists, hi, hgw1, hP⟩ := onList_goodWith hgw hstep
      (fun ns ns1 => ∀ a x, (a, x) ∈ ns → (none : Ptr) ≠ some a → (a, x) ∈ ns1) (by
        intro l ns h1 l1 _ hrep hop
        obtain ⟨h2, l2, a, hop2, hrep2, hfree, hfr, hs2, -⟩ :=
          push_back_spec hrep hsz (push_back_room hop) v
        rw [hop2] at hop
        simp only [Except.ok.injEq, Prod.mk.injEq] at hop
        obtain ⟨rfl, rfl⟩ := hop
        refine ⟨_, hrep2, hfr, hs2, ?_,
          fun b x hb _ => List.mem_append_left _ hb⟩
        intro b hb
        simp only [List.map_append, List.map_cons, List.map_nil, List.mem_append,
          List.mem_singleton] at hb
        rcases hb with hb | rfl
        · exact Or.inl hb
        · exact Or.inr hfree)
    exact ⟨_, hgw1, onList_frame True none hlists hi (fun _ => hP)
      |>.imp (fun h1 => h1) (fun h2 _ => h2 trivial)⟩
  | pop_front i =>
    simp only [step] at hstep
    obtain ⟨ns1, l1, hlists, hi, hgw1, hP⟩ := onList_goodWith hgw hstep
      (fun ns ns1 => ∀ a x, (a, x) ∈ ns → w.removed (.pop_front i) ≠ some a →
        (a, x) ∈ ns1) (by
        intro l ns h1 l1 hl hrep hop
        obtain ⟨h2, l2, hop2, hrep2, hfr, hs2, -, -⟩ := pop_front_spec hrep hsz
        rw [hop2] at hop
        simp only [Except.ok.injEq, Prod.mk.injEq] at hop
        obtain ⟨rfl, rfl⟩ := hop
        refine ⟨_, hrep2, frame_of_strong hfr, hs2, ?_, ?_⟩
        · intro b hb
          obtain ⟨n, hn, rfl⟩ := List.mem_map.mp hb
          exact Or.inl (List.mem_map.mpr ⟨n, List.mem_of_mem_tail hn, rfl⟩)
        · intro a x hax hrem
          have hr : w.removed (.pop_front i) = nextPtr ns none := by
            simp only [removed, hl, hrep.head_eq]
          rw [hr] at hrem
          cases ns with
          | nil => cases hax
          | cons n rest =>
            obtain ⟨c, y⟩ := n
            rw [nextPtr_cons] at hrem
            exact mem_of_mem_cons_ne hax (fun hac => hrem (by rw [hac])))
    exact ⟨_, hgw1, onList_frame True _ hlists hi (fun _ => hP)
      |>.imp (fun h1 => h1) (fun h2 _ => h2 trivial)⟩
  | pop_back i =>
    simp only [step] at hstep
    obtain ⟨ns1, l1, hlists, hi, hgw1, hP⟩ := onList_goodWith hgw hstep
      (fun ns ns1 => ∀ a x, (a, x) ∈ ns → w.removed (.pop_back i) ≠ some a →
        (a, x) ∈ ns1) (by
        intro l ns h1 l1 hl hrep hop
        obtain ⟨h2, l2, hop2, hrep2, hfr, hs2, -, -⟩ := pop_back_spec hrep hsz
        rw [hop2] at hop
        simp only [Except.ok.injEq, Prod.mk.injEq] at hop
        obtain ⟨rfl, rfl⟩ := hop
        refine ⟨_, hrep2, frame_of_strong hfr, hs2, ?_, ?_⟩
        · intro b hb
          obtain ⟨n, hn, rfl⟩ := List.mem_map.mp hb
          exact Or.inl (List.mem_map.mpr ⟨n, List.mem_of_mem_dropLast hn, rfl⟩)
        · intro a x hax hrem
          have hr : w.removed (.pop_back i) = lastPtr none ns := by
            simp only [removed, hl, hrep.tail_eq]
          rw [hr] at hrem
          rcases eq_nil_or_snoc ns with rfl | ⟨ns0, ⟨t, y⟩, rfl⟩
          · cases hax
          · rw [lastPtr_snoc] at hrem
            rw [List.dropLast_concat]
            rcases List.mem_append.mp hax with hm | hm
            · exact hm
            · simp only [List.mem_singleton, Prod.mk.injEq] at hm
              exact absurd (by rw [hm.1]) hrem)
    exact ⟨_, hgw1, onList_frame True _ hlists hi (fun _ => hP)
      |>.imp (fun h1 => h1) (fun h2 _ => h2 trivial)⟩
  | insert i k v =>
    simp only [step] at hstep
    obtain ⟨ns1, l1, hlists, hi, hgw1, hP⟩ := onList_goodWith hgw hstep
      (fun ns ns1 => ∀ a x, (a, x) ∈ ns → (none : Ptr) ≠ some a → (a, x) ∈ ns1) (by
        intro l ns h1 l1 _ hrep hop
        cases hadv : BiDirectionalIterator.advance w.heap k l.begin_ with
        | error e => simp [hadv, bind, Except.bind] at hop
        | ok pos =>
          cases hins : LList.insert w.heap l pos v with
          | error e => simp [hadv, hins, bind, Except.bind] at hop
          | ok r =>
            obtain ⟨h2, l2, it⟩ := r
            simp only [hadv, hins, bind, Except.bind, pure, Except.pure, Except.ok.injEq,
              Prod.mk.injEq] at hop
            obtain ⟨rfl, rfl⟩ := hop
            have hb0 : l.begin_ = ⟨nextPtr ns none⟩ := by simp [LList.begin_, hrep.head_eq]
            rw [hb0] at hadv
            obtain ⟨hk, hpos⟩ := advance_inv hrep.seg hadv
            have hsplit : ns.take k ++ ns.drop k = ns := List.take_append_drop k ns
            rw [← hsplit] at hrep
            obtain ⟨h3, l3, a, hop3, hrep3, hfree, hfr, hs3, -⟩ :=
              insert_spec hrep hsz (insert_room hins) v pos (by rw [hpos])
            rw [hop3] at hins
            simp only [Except.ok.injEq, Prod.mk.injEq] at hins
            obtain ⟨rfl, rfl, -⟩ := hins
            rw [hsplit] at hfr
            refine ⟨_, hrep3, hfr, hs3, ?_, ?_⟩
            · intro b hb
              simp only [List.map_append, List.map_cons, List.mem_append, List.mem_cons] at hb
              rw [← hsplit, List.map_append, List.mem_append]
              rcases hb with hb | rfl | hb
              · exact Or.inl (Or.inl hb)
              · exact Or.inr hfree
              · exact Or.inl (Or.inr hb)
            · intro b x hb _
              rw [← hsplit] at hb
              rcases List.mem_append.mp hb with hb | hb
              · exact List.mem_append_left _ hb
              · exact List.mem_append_right _ (List.mem_cons_of_mem _ hb))
    exact ⟨_, hgw1, onList_frame True none hlists hi (fun _ => hP)
      |>.imp (fun h1 => h1) (fun h2 _ => h2 trivial)⟩
  | erase i k =>
    simp only [step] at hstep
    obtain ⟨ns1, l1, hlists, hi, hgw1, hP⟩ := onList_goodWith hgw hstep
      (fun ns ns1 => ∀ a x, (a, x) ∈ ns → w.removed (.erase i k) ≠ some a →
        (a, x) ∈ ns1) (by
        intro l ns h1 l1 hl hrep hop
        cases hadv : BiDirectionalIterator.advance w.heap k l.begin_ with
        | error e => simp [hadv, bind, Except.bind] at hop
        | ok pos =>
          have hr : w.removed (.erase i k) = pos.current := by
            simp only [removed, hl, hadv]
          cases hers : LList.erase w.heap l pos with
          | error e => simp [hadv, hers, bind, Except.bind] at hop
          | ok r =>
            obtain ⟨h2, l2, it⟩ := r
            simp only [hadv, hers, bind, Except.bind, pure, Except.pure, Except.ok.injEq,
              Prod.mk.injEq] at hop
            obtain ⟨rfl, rfl⟩ := hop
            have hb0 : l.begin_ = ⟨nextPtr ns none⟩ := by simp [LList.begin_, hrep.head_eq]
            rw [hb0] at hadv
            obtain ⟨hk, hpos⟩ := advance_inv hrep.seg hadv
            have hsplit : ns.take k ++ ns.drop k = ns := List.take_append_drop k ns
            cases hdrop : ns.drop k with
            | nil =>
              rw [hdrop] at hpos
              subst hpos
              simp [LList.erase, LList.end_, nextPtr] at hers
            | cons n post =>
              obtain ⟨c, y⟩ := n
              rw [hdrop] at hpos hsplit
              subst hpos
              rw [← hsplit] at hrep
              obtain ⟨h3, l3, hop3, hrep3, hfr, hs3, -, -⟩ := erase_spec hrep hsz
              rw [nextPtr_cons, hop3] at hers
              simp only [Except.ok.injEq, Prod.mk.injEq] at hers
              obtain ⟨rfl, rfl, -⟩ := hers
              rw [hsplit] at hfr
              refine ⟨_, hrep3, frame_of_strong hfr, hs3, ?_, ?_⟩
              · intro b hb
                simp only [List.map_append, List.mem_append] at hb
                rw [← hsplit, List.map_append, List.mem_append, List.map_cons, List.mem_cons]
                rcases hb with hb | hb
                · exact Or.inl (Or.inl hb)
                · exact Or.inl (Or.inr (Or.inr hb))
              · intro b x hb hrem
                rw [hr, nextPtr_cons] at hrem
                rw [← hsplit] at hb
                rcases List.mem_append.mp hb with hb | hb
                · exact List.mem_append_left _ hb
                · exact List.mem_append_right _
                    (mem_of_mem_cons_ne hb (fun hbc => hrem (by rw [hbc]))))
    exact ⟨_, hgw1, onList_frame True _ hlists hi (fun _ => hP)
      |>.imp (fun h1 => h1) (fun h2 _ => h2 trivial)⟩
  | clear i =>
    simp only [step] at hstep
    obtain ⟨ns1, l1, hlists, hi, hgw1, -⟩ := onList_goodWith hgw hstep
      (fun _ _ => True) (by
        intro l ns h1 l1 _ hrep hop
        obtain ⟨h2, hop2, hrep2, hfr, hs2, -, -⟩ := clear_spec hrep hsz
        rw [hop2] at hop
        simp only [Except.ok.injEq, Prod.mk.injEq] at hop
        obtain ⟨rfl, rfl⟩ := hop
        exact ⟨[], hrep2, frame_of_strong hfr, hs2, by simp, trivial⟩)
    refine ⟨_, hgw1, (onList_frame False none hlists hi (fun hk => hk.elim)).1, ?_⟩
    intro hc
    simp [Op.isClear] at hc
  | swap i j =>
    simp only [step] at hstep
    cases hi : w.lists[i]? with
    | none => simp [hi] at hstep
    | some a =>
      cases hj : w.lists[j]? with
      | none => simp [hi, hj] at hstep
      | some b =>
        simp only [hi, hj, pure, Except.pure, Except.ok.injEq, LList.swap] at hstep
        subst hstep
        have hilt : i < w.lists.length := by
          by_contra hlt
          rw [List.getElem?_eq_none (by omega)] at hi
          cases hi
        have hjlt : j < w.lists.length := by
          by_contra hlt
          rw [List.getElem?_eq_none (by omega)] at hj
          cases hj
        let σ : Nat → Nat := fun k => if k = j then i else if k = i then j else k
        have hσ : ∀ k m, k ≠ m → σ k ≠ σ m := by
          intro k m hkm
          simp only [σ]
          split_ifs <;> omega
        have hσσ : ∀ k, σ (σ k) = k := by
          intro k
          simp only [σ]
          split_ifs <;> omega
        have hσlt : ∀ k, k < w.lists.length → σ k < w.lists.length := by
          intro k hk
          simp only [σ]
          split_ifs <;> omega
        have hgw1 : (World.mk w.heap
            ((w.lists.set i ⟨b.head, b.tail, b.count⟩).set j ⟨a.head, a.tail, a.count⟩)).GoodWith
            (fun k => g (σ k)) := by
          refine ⟨hgw.sized, ?_, fun k b hb => hgw.live (σ k) b hb,
            fun k m hkm b hb => hgw.disjoint (σ k) (σ m) (hσ k m hkm) b hb⟩
          intro k lk hk
          simp only [σ]
          by_cases hkj : k = j
          · subst hkj
            rw [List.getElem?_set_self (by simpa using hjlt)] at hk
            simp only [Option.some.injEq] at hk
            subst hk
            simpa using hgw.rep i a hi
          · rw [List.getElem?_set_ne (Ne.symm hkj)] at hk
            by_cases hki : k = i
            · subst hki
              rw [List.getElem?_set_self hilt] at hk
              simp only [Option.some.injEq] at hk
              subst hk
              simpa [hkj] using hgw.rep j b hj
            · rw [List.getElem?_set_ne (Ne.symm hki)] at hk
              simpa [hkj, hki] using hgw.rep k lk hk
        refine ⟨_, hgw1, ?_, ?_⟩
        · intro k lk hk hmut
          simp only [Op.mutates, Bool.or_eq_false_iff, decide_eq_false_iff_not] at hmut
          obtain ⟨hik, hjk⟩ := hmut
          have hki : k ≠ i := fun h => hik h.symm
          have hkj : k ≠ j := fun h => hjk h.symm
          refine ⟨by simp only [σ, hkj, hki, if_false], ?_⟩
          rw [List.getElem?_set_ne (Ne.symm hkj), List.getElem?_set_ne (Ne.symm hki)]
          exact hk
        · intro _ k lk hk c x hcx _
          have hklt : k < w.lists.length := by
            by_contra hlt
            rw [List.getElem?_eq_none (by omega)] at hk
            cases hk
          have hlt1 : σ k < ((w.lists.set i ⟨b.head, b.tail, b.count⟩).set j
              ⟨a.head, a.tail, a.count⟩).length := by
            simpa using hσlt k hklt
          refine ⟨σ k, _, List.getElem?_eq_getElem hlt1, ?_⟩
          show (c, x) ∈ g (σ (σ k))
          rw [hσσ]
          exact hcx

/-- The statement `lists[i].swap(lists[j])`: the two records change places, the heap and the
other lists stay, and the same statement once more restores the store. -/
theorem swap_step_spec {w : World T} {i j : Nat} {a b : LList T}
    (hi : w.lists[i]? = some a) (hj : w.lists[j]? = some b) :
    w.step (.swap i j) = .ok ⟨w.heap, (w.lists.set i b).set j a⟩ ∧
    ((w.lists.set i b).set j a)[i]? = some b ∧ ((w.lists.set i b).set j a)[j]? = some a ∧
    (World.mk w.heap ((w.lists.set i b).set j a)).step (.swap i j) = .ok w := by
  have hilt : i < w.lists.length := by
    by_contra hlt
    rw [List.getElem?_eq_none (by omega)] at hi
    cases hi
  have hjlt : j < w.lists.length := by
    by_contra hlt
    rw [List.getElem?_eq_none (by omega)] at hj
    cases hj
  have h1 : w.step (.swap i j) = .ok ⟨w.heap, (w.lists.set i b).set j a⟩ := by
    simp only [step, hi, hj, pure, Except.pure]
    rfl
  have hgj : ((w.lists.set i b).set j a)[j]? = some a :=
    List.getElem?_set_self (by simpa using hjlt)
  have hgi : ((w.lists.set i b).set j a)[i]? = some b := by
    by_cases hij : i = j
    · subst hij
      rw [hi] at hj
      simp only [Option.some.injEq] at hj
      rw [hgj, hj]
    · rw [List.getElem?_set_ne (Ne.symm hij), List.getElem?_set_self hilt]
  refine ⟨h1, hgi, hgj, ?_⟩
  have hback : ((((w.lists.set i b).set j a).set i a).set j b) = w.lists := by
    apply List.ext_getElem?
    intro k
    by_cases hkj : k = j
    · subst hkj
      rw [List.getElem?_set_self (by simpa using hjlt), hj]
    · rw [List.getElem?_set_ne (Ne.symm hkj)]
      by_cases hki : k = i
      · subst hki
        rw [List.getElem?_set_self (by simpa using hilt), hi]
      · rw [List.getElem?_set_ne (Ne.symm hki), List.getElem?_set_ne (Ne.symm hkj),
          List.getElem?_set_ne (Ne.symm hki)]
  have h2 : (World.mk w.heap ((w.lists.set i b).set j a)).step (.swap i j) =
      .ok ⟨w.heap, ((((w.lists.set i b).set j a).set i a).set j b)⟩ := by
    simp only [step, hgi, hgj, pure, Except.pure]
    rfl
  rw [h2, hback]

/-- A program on a consistent store leaves the record and the chain of every list that no
statement of it modifies. -/
theorem run_frame {w w1 : World T} {ops : List (Op T)} {g : Nat → List (Nat × T)}
    (hgw : w.GoodWith g) (hrun : w.run ops = .ok w1) {j : Nat} {lj : LList T}
    (hj : w.lists[j]? = some lj) (hno : ∀ op ∈ ops, op.mutates j = false) :
    ∃ g1, w1.GoodWith g1 ∧ g1 j = g j ∧ w1.lists[j]? = some lj := by
  induction ops generalizing w g with
  | nil =>
    simp only [run, pure, Except.pure, Except.ok.injEq] at hrun
    subst hrun
    exact ⟨g, hgw, rfl, hj⟩
  | cons op ops ih =>
    cases hstep : w.step op with
    | error e => simp [run, hstep, bind, Except.bind] at hrun
    | ok w2 =>
      simp only [run, hstep, bind, Except.bind] at hrun
      obtain ⟨g2, hgw2, hkeep, -⟩ := step_goodWith hgw hstep
      obtain ⟨hg2, hj2⟩ := hkeep j lj hj (hno op (List.mem_cons_self _ _))
      obtain ⟨g1, hgw1, hg1, hj1⟩ :=
        ih hgw2 hrun hj2 (fun op1 h1 => hno op1 (List.mem_cons_of_mem _ h1))
      exact ⟨g1, hgw1, by rw [hg1, hg2], hj1⟩

/-- The elements of a list that no statement of a program modifies are unchanged. -/
theorem run_frame_elements {w w1 : World T} {ops : List (Op T)} {g : Nat → List (Nat × T)}
    (hgw : w.GoodWith g) (hrun : w.run ops = .ok w1) {j : Nat} {lj : LList T}
    (hj : w.lists[j]? = some lj) (hno : ∀ op ∈ ops, op.mutates j = false) :
    w1.lists[j]? = some lj ∧ lj.elements w1.heap = lj.elements w.heap := by
  obtain ⟨g1, hgw1, hg1, hj1⟩ := run_frame hgw hrun hj hno
  exact ⟨hj1, by rw [hgw1.elements hj1, hgw.elements hj, hg1]⟩

end World

end WorldSteps

/-! ## A push followed by the matching pop -/

section Undo

variable {T : Type}

/-- Two list objects that own the same chain are equal. -/
theorem ListRep.unique {h h1 : Heap T} {l l1 : LList T} {ns : List (Nat × T)}
    (hr : ListRep h l ns) (hr1 : ListRep h1 l1 ns) : l1 = l := by
  obtain ⟨hd, tl, ct⟩ := l
  obtain ⟨hd1, tl1, ct1⟩ := l1
  have e1 := hr.head_eq
  have e2 := hr.tail_eq
  have e3 := hr.count_eq
  have f1 := hr1.head_eq
  have f2 := hr1.tail_eq
  have f3 := hr1.count_eq
  simp only at e1 e2 e3 f1 f2 f3
  rw [e1, e2, e3, f1, f2, f3]

/-- What is observed on a list is determined by its chain. -/
theorem ListRep.same_view {h h1 : Heap T} {l l1 : LList T} {ns : List (Nat × T)}
    (hr : ListRep h l ns) (hr1 : ListRep h1 l1 ns) :
    l1 = l ∧ l1.Invariant h1 ∧ l1.elements h1 = l.elements h ∧ l1.size = l.size ∧
      LList.front h1 l1 = LList.front h l ∧ LList.back h1 l1 = LList.back h l := by
  refine ⟨hr.unique hr1, hr1.invariant, ?_, ?_, ?_, ?_⟩
  · rw [hr1.elements_eq, hr.elements_eq]
  · rw [LList.size, LList.size, hr1.count_eq, hr.count_eq]
  · rw [front_spec hr1, front_spec hr]
  · rw [back_spec hr1, back_spec hr]

theorem push_back_pop_back {h : Heap T} {l : LList T} {ns : List (Nat × T)}
    (hrep : ListRep h l ns) (hs : h.Sized) (hroom : 0 < h.room) (v : T) :
    ∃ h1 l1 h2 l2, LList.push_back h l v = .ok (h1, l1) ∧
      LList.pop_back h1 l1 = .ok (h2, l2) ∧ ListRep h2 l2 ns := by
  obtain ⟨h1, l1, a, hpush, hrep1, -, -, hs1, -⟩ := push_back_spec hrep hs hroom v
  obtain ⟨h2, l2, hpop, hrep2, -⟩ := pop_back_spec hrep1 hs1
  rw [List.dropLast_concat] at hrep2
  exact ⟨h1, l1, h2, l2, hpush, hpop, hrep2⟩

theorem push_front_pop_front {h : Heap T} {l : LList T} {ns : List (Nat × T)}
    (hrep : ListRep h l ns) (hs : h.Sized) (hroom : 0 < h.room) (v : T) :
    ∃ h1 l1 h2 l2, LList.push_front h l v = .ok (h1, l1) ∧
      LList.pop_front h1 l1 = .ok (h2, l2) ∧ ListRep h2 l2 ns := by
  obtain ⟨h1, l1, a, hpush, hrep1, -, -, hs1, -⟩ := push_front_spec hrep hs hroom v
  obtain ⟨h2, l2, hpop, hrep2, -⟩ := pop_front_spec hrep1 hs1
  rw [List.tail_cons] at hrep2
  exact ⟨h1, l1, h2, l2, hpush, hpop, hrep2⟩

end Undo

/-! ## Blank input lines -/

section Blank

theorem skipws_all (cons s : List Char) (hs : ∀ c ∈ s, isspace c = true) :
    IStream.skipws cons s = (s.reverse ++ cons, []) := by
  have := skipws_spaces cons s [] hs (by simp)
  simpa using this

/-- On a string of whitespace the main loop of `infix2postfix` ends at once. -/
theorem infixLoop_blank {S : Type} (I : StackOps S Char) (s : List Char)
    (hs : ∀ c ∈ s, isspace c = true) (k : Nat) (st : S) (out : List Char) :
    infixLoop I (k + 1) st (IStream.ofString s) out = .ok (st, out) := by
  simp [infixLoop, IStream.getChar, IStream.ofString, IStream.good, skipws_all [] s hs, pure,
    Except.pure]

/-- The final loop of `infix2postfix` on the empty heap stack. -/
theorem popWhile_heap_empty (h : Heap Char) (cond : Char → Bool) (k : Nat) (out : List Char) :
    popWhile (heapStack Char) cond k (h, Stack.mk0) out = .ok ((h, Stack.mk0), out) := by
  cases k <;> rfl

/-- The function `infix2postfix` maps a string of whitespace to the empty string. -/
theorem infix2postfix_blank (h : Heap Char) (s : List Char)
    (hs : ∀ c ∈ s, isspace c = true) : infix2postfix h s = .ok [] := by
  unfold infix2postfix infix2postfixOn
  rw [infixLoop_blank (heapStack Char) s hs]
  simp only [bind, Except.bind]
  rw [popWhile_heap_empty]
  rfl

/-- The function `eval_postfix` fails on the empty string: `top()` of the empty stack. -/
theorem eval_postfix_empty (h : Heap Int) : eval_postfix h [] = .error .out_of_range := rfl

theorem isspace_space : isspace ' ' = true := by decide

theorem valid_of_spaces (s : List Char) (hs : ∀ c ∈ s, c = ' ') :
    containsOnlyValidChars s = true := by
  unfold containsOnlyValidChars
  rw [List.all_eq_true]
  intro c hc
  rw [hs c hc]
  decide

theorem spaces_ne_word (s : List Char) (hs : ∀ c ∈ s, c = ' ') (w : List Char)
    (hw : ∃ c ∈ w, c ≠ ' ') : s ≠ w := by
  rintro rfl
  obtain ⟨c, hc, hne⟩ := hw
  exact hne (hs c hc)

end Blank

/-! ## Division and remainder in `eval_postfix` -/

section Division

/-- The truncated quotient of two `int` values is an `int`, but for `INT_MIN / -1`. -/
theorem fits_tdiv {a b : Int} (ha : FitsInt a) (hb : b ≠ 0)
    (hmin : ¬ (a = INT_MIN ∧ b = -1)) : FitsInt (Int.tdiv a b) := by
  unfold FitsInt INT_MIN INT_MAX at *
  have hq : (Int.tdiv a b).natAbs = a.natAbs / b.natAbs := Int.natAbs_tdiv a b
  have hbpos : 0 < b.natAbs := Int.natAbs_pos.mpr hb
  have hle : a.natAbs / b.natAbs ≤ a.natAbs := Nat.div_le_self _ _
  by_cases hb1 : b.natAbs = 1
  · rw [hb1, Nat.div_one] at hq
    rcases Int.natAbs_eq b with hbe | hbe
    · rw [hb1] at hbe
      have : Int.tdiv a b = a := by rw [hbe]; exact Int.tdiv_one a
      omega
    · rw [hb1] at hbe
      have hq2 : Int.tdiv a b = -a := by
        rw [hbe]
        have : Int.tdiv a (-1) = -(Int.tdiv a 1) := Int.tdiv_neg a 1
        rw [show (-((1 : Nat) : Int)) = -1 from rfl, this, Int.tdiv_one]
      have hb2 : b = -1 := by rw [hbe]; rfl
      have ha2 : a ≠ -2147483648 := fun h => hmin ⟨h, hb2⟩
      omega
  · have hb2 : 2 ≤ b.natAbs := by omega
    have hhalf : a.natAbs / b.natAbs ≤ a.natAbs / 2 :=
      Nat.div_le_div_left hb2 (by decide)
    omega

/-- The remainder of the truncated division: it completes the quotient, is smaller than the
divisor in absolute value, and has the sign of the dividend. -/
theorem tmod_spec (a b : Int) (hb : b ≠ 0) :
    Int.tmod a b = a - b * Int.tdiv a b ∧ (Int.tmod a b).natAbs < b.natAbs ∧
      (0 ≤ a → 0 ≤ Int.tmod a b) ∧ (a ≤ 0 → Int.tmod a b ≤ 0) := by
  have hbpos : 0 < b.natAbs := Int.natAbs_pos.mpr hb
  refine ⟨Int.tmod_def a b, ?_, ?_, ?_⟩
  · cases a with
    | ofNat m =>
      cases b with
      | ofNat n =>
        have hn : 0 < n := by simpa using hbpos
        have := Nat.mod_lt m hn
        simp only [Int.tmod, Int.ofNat_eq_coe, Int.natAbs_ofNat]
        omega
      | negSucc n =>
        have := Nat.mod_lt m (Nat.succ_pos n)
        simp only [Int.tmod, Int.ofNat_eq_coe, Int.natAbs_ofNat, Int.natAbs_negSucc]
        omega
    | negSucc m =>
      cases b with
      | ofNat n =>
        have hn : 0 < n := by simpa using hbpos
        have := Nat.mod_lt m.succ hn
        simp only [Int.tmod, Int.ofNat_eq_coe, Int.natAbs_neg, Int.natAbs_ofNat]
        omega
      | negSucc n =>
        have := Nat.mod_lt m.succ (Nat.succ_pos n)
        simp only [Int.tmod, Int.ofNat_eq_coe, Int.natAbs_neg, Int.natAbs_ofNat,
          Int.natAbs_negSucc]
        omega
  · intro ha
    exact Int.tmod_nonneg b ha
  · intro ha
    have hneg : Int.tmod (-a) b = -Int.tmod a b := by
      rw [Int.tmod_def, Int.tmod_def, Int.neg_tdiv]
      ring
    have := Int.tmod_nonneg b (show 0 ≤ -a by omega)
    omega

/-- The last word of a string, read when nothing follows it. -/
theorem getWord_last (cons ws : List Char) (c : Char) (hws : ∀ x ∈ ws, isspace x = true)
    (hc : isspace c = false) :
    (⟨cons, ws ++ [c], false, false⟩ : IStream).getWord =
      (⟨c :: (ws.reverse ++ cons), [], false, true⟩, some [c]) := by
  have hsk := skipws_spaces cons ws [c] hws (by simp [hc])
  simp [IStream.getWord, IStream.good, hsk]

/-- The sequence model of `eval_postfix` on two operands and an operator, nothing after the
operator. -/
theorem eval_postfix_model_binary (o : BinOp) (lhs rhs : Expr)
    (hsafe : (Expr.bin o lhs rhs).Safe) :
    eval_postfixOn (listStack Int) [] (lhs.rpn ++ (rhs.rpn ++ [o.char])) =
      .ok (Expr.bin o lhs rhs).value := by
  have h1len := size_le_rpn lhs
  have h2len := size_le_rpn rhs
  obtain ⟨k, hk⟩ : ∃ k, (lhs.rpn ++ (rhs.rpn ++ [o.char])).length + 1 =
      ((k + 2) + rhs.size) + lhs.size := by
    refine ⟨(lhs.rpn ++ (rhs.rpn ++ [o.char])).length + 1 - (2 + rhs.size + lhs.size), ?_⟩
    simp only [List.length_append, List.length_singleton]
    omega
  obtain ⟨cons1, hl⟩ := evalLoop_rpn lhs (safe_lhs hsafe) [] [] (rhs.rpn ++ [o.char]) []
    ((k + 2) + rhs.size) (by simp)
  obtain ⟨cons2, hr⟩ := evalLoop_rpn rhs (safe_rhs hsafe) cons1 [' '] [o.char] [lhs.value]
    (k + 2) (by decide)
  have hsp : isspace o.char = false := by cases o <;> decide
  have hget := getWord_last cons2 [' '] o.char (by decide) hsp
  have hstep := evalStep_op o lhs rhs hsafe []
  have hend : (⟨o.char :: ([' '].reverse ++ cons2), [], false, true⟩ : IStream).getWord =
      (⟨o.char :: ([' '].reverse ++ cons2), [], true, true⟩, none) := by
    simp [IStream.getWord, IStream.good]
  unfold eval_postfixOn IStream.ofString
  rw [hk]
  simp only [List.nil_append] at hl
  rw [hl]
  have e1 : ' ' :: (rhs.rpn ++ [o.char]) = [' '] ++ (rhs.rpn ++ [o.char]) := rfl
  rw [e1, hr]
  have e2 : ' ' :: [o.char] = [' '] ++ [o.char] := rfl
  rw [e2]
  simp only [evalLoop, hget, hstep, hend, bind, Except.bind, pure, Except.pure]
  rfl

theorem digit_char (d : Nat) (hd : d < 10) :
    isdigit (Char.ofNat (d + 48)) = true ∧ (Char.ofNat (d + 48)).toNat - 48 = d := by
  interval_cases d <;> exact ⟨by decide, by decide⟩

/-- Every natural number is the value of a non-empty run of decimal digits. -/
theorem digits_of_nat (n : Nat) :
    ∃ ds : List Char, ds ≠ [] ∧ (∀ c ∈ ds, isdigit c = true) ∧ digitsValue ds = n := by
  induction n using Nat.strong_induction_on with
  | _ n ih =>
    obtain ⟨hdig, hval⟩ := digit_char (n % 10) (Nat.mod_lt n (by decide))
    by_cases hn : n < 10
    · refine ⟨[Char.ofNat (n % 10 + 48)], by simp, ?_, ?_⟩
      · intro c hc
        rw [List.mem_singleton.mp hc]
        exact hdig
      · have e := digitsValue_snoc [] (Char.ofNat (n % 10 + 48))
        simp only [List.nil_append] at e
        rw [e, hval]
        have h0 : digitsValue [] = 0 := rfl
        rw [h0, Nat.mod_eq_of_lt hn]
        omega
    · obtain ⟨ds, -, hds, hv⟩ := ih (n / 10) (by omega)
      refine ⟨ds ++ [Char.ofNat (n % 10 + 48)], by simp, ?_, ?_⟩
      · intro c hc
        rcases List.mem_append.mp hc with h | h
        · exact hds c h
        · rw [List.mem_singleton.mp h]
          exact hdig
      · rw [digitsValue_snoc, hv, hval]
        omega

/-- Every integer is the value of a well written literal. -/
theorem literal_of_int (v : Int) : ∃ l : Literal, l.WF ∧ l.value = v := by
  obtain ⟨ds, hne, hds, hv⟩ := digits_of_nat v.natAbs
  have hval : ∀ neg, (⟨neg, ds⟩ : Literal).value =
      if neg then -(v.natAbs : Int) else (v.natAbs : Int) := by
    intro neg
    simp only [Literal.value, ← digitsValue_eq, hv]
  by_cases h0 : 0 ≤ v
  · refine ⟨⟨false, ds⟩, ⟨hne, hds⟩, ?_⟩
    rw [hval]
    simp only [Bool.false_eq_true, if_false]
    omega
  · refine ⟨⟨true, ds⟩, ⟨hne, hds⟩, ?_⟩
    rw [hval]
    simp only [if_true]
    omega

end Division

/-! ## Digit runs separated by whitespace, and signs after an operand -/

section Merge

theorem filter_digits_spaces (ws : List Char) (hws : ∀ x ∈ ws, isspace x = true) :
    ws.filter isdigit = [] := by
  rw [List.filter_eq_nil_iff]
  intro x hx
  rw [isspace_not_digit (hws x hx)]
  simp

theorem filter_digits_self (ds : List Char) (hds : ∀ x ∈ ds, isdigit x = true) :
    ds.filter isdigit = ds :=
  List.filter_eq_self.mpr hds

/-- The digit loop on an input made of digits and whitespace up to its end: every digit is
taken, the whitespace is skipped, and the stream fails at the end of the input. -/
theorem readDigits_mixed :
    ∀ (fuel : Nat) (body cons : List Char) (d0 : Char) (number : List Char),
      (∀ c ∈ body, isdigit c = true ∨ isspace c = true) → isdigit d0 = true →
      body.length + 1 ≤ fuel →
      (readDigits fuel ⟨cons, body, false, false⟩ d0 number).2.2 =
        number ++ d0 :: body.filter isdigit ∧
      (readDigits fuel ⟨cons, body, false, false⟩ d0 number).1.failbit = true := by
  intro fuel
  induction fuel with
  | zero => intro body cons d0 number _ _ hfuel; omega
  | succ k ih =>
    intro body cons d0 number hbody hd0 hfuel
    have hreads : (⟨cons, body, false, false⟩ : IStream).Reads body :=
      Or.inl ⟨rfl, rfl, [], by simp, rfl⟩
    rcases spaces_or_split body with hall | ⟨ws, c, r, hs, hws, hc⟩
    · obtain ⟨iss1, hget, hfail⟩ := getChar_none hreads hall
      simp only [readDigits, hd0, if_true, hget, filter_digits_spaces body hall]
      exact ⟨by simp, hfail⟩
    · obtain ⟨cons1, hget⟩ := getChar_reads hreads hs hws hc
      have hcd : isdigit c = true := by
        rcases hbody c (by rw [hs]; simp) with h | h
        · exact h
        · rw [hc] at h; cases h
      have hlen : r.length + 1 ≤ k := by
        have := congrArg List.length hs
        simp only [List.length_append, List.length_cons] at this
        omega
      obtain ⟨h1, h2⟩ := ih r (c :: cons1) c (number ++ [d0])
        (fun x hx => hbody x (by rw [hs]; simp [hx])) hcd hlen
      simp only [readDigits, hd0, if_true, hget]
      refine ⟨?_, h2⟩
      rw [h1, hs, List.filter_append, filter_digits_spaces ws hws, List.filter_cons, hcd]
      simp

/-- The main loop of `infix2postfix` stops on a failed stream. -/
theorem infixLoop_failed {S : Type} (I : StackOps S Char) (iss : IStream)
    (hf : iss.failbit = true) (k : Nat) (st : S) (out : List Char) :
    infixLoop I (k + 1) st iss out = .ok (st, out) := by
  simp [infixLoop, IStream.getChar, IStream.good, hf, pure, Except.pure]

theorem putback_failed (iss : IStream) (c : Char) (hf : iss.failbit = true) :
    (iss.putback c).failbit = true := by
  simp [IStream.putback, hf]

/-- One iteration of the main loop of `infix2postfix`. -/
theorem infixLoop_step {S : Type} (I : StackOps S Char) {iss iss1 : IStream} {token : Char}
    (hget : iss.getChar = (iss1, some token)) (k : Nat) (st : S) (out : List Char) :
    infixLoop I (k + 1) st iss out =
      (infixStep I st iss1 token out >>= fun r => infixLoop I k r.1 r.2.1 r.2.2) := by
  simp only [infixLoop, hget]

/-- On a digit followed by digits and whitespace only, `infix2postfix` returns one number:
the digits of the input, and a space. -/
theorem infix2postfix_digits_spaces (h : Heap Char) (d0 : Char) (body : List Char)
    (hd0 : isdigit d0 = true) (hbody : ∀ c ∈ body, isdigit c = true ∨ isspace c = true) :
    infix2postfix h (d0 :: body) = .ok (d0 :: body.filter isdigit ++ [' ']) := by
  have hget : (IStream.ofString (d0 :: body)).getChar =
      (⟨[d0], body, false, false⟩, some d0) := by
    simp [IStream.getChar, IStream.ofString, IStream.good, IStream.skipws,
      isdigit_not_space hd0]
  have hstart : startsNumber ⟨[d0], body, false, false⟩ d0 =
      (⟨[d0], body, false, false⟩, true) := by
    simp [startsNumber, hd0]
  obtain ⟨hnum, hfail⟩ := readDigits_mixed (body.length + 1) body [d0] d0 [] hbody hd0
    (Nat.le_refl _)
  have hstep : infixStep (heapStack Char) (h, Stack.mk0) ⟨[d0], body, false, false⟩ d0 [] =
      .ok ((h, Stack.mk0),
        (readDigits (body.length + 1) ⟨[d0], body, false, false⟩ d0 []).1.putback
          (readDigits (body.length + 1) ⟨[d0], body, false, false⟩ d0 []).2.1,
        d0 :: body.filter isdigit ++ [' ']) := by
    simp only [infixStep, hstart, digit_ne_minus hd0, if_false, hnum, List.nil_append, pure,
      Except.pure]
  unfold infix2postfix infix2postfixOn
  rw [show (d0 :: body).length + 1 = (body.length + 1) + 1 from rfl,
    infixLoop_step (heapStack Char) hget (body.length + 1), hstep]
  simp only [bind, Except.bind]
  rw [infixLoop_failed (heapStack Char) _ (putback_failed _ _ hfail)]
  simp only []
  rw [popWhile_heap_empty]
  rfl

/-- A stream that reads like the empty string ends the main loop. -/
theorem infixLoop_end {S : Type} (I : StackOps S Char) {iss : IStream} (hr : iss.Reads [])
    (k : Nat) (st : S) (out : List Char) : infixLoop I (k + 1) st iss out = .ok (st, out) := by
  obtain ⟨iss1, hget, -⟩ := getChar_none hr (by simp)
  simp [infixLoop, hget, pure, Except.pure]

/-- On an operand directly followed by `-` and digits, `infix2postfix` returns two numbers,
the second one negative. -/
theorem infix2postfix_operand_sign (h : Heap Char) (la lb : Literal) (hla : la.WF)
    (hlb : lb.WF) (hneg : lb.neg = true) :
    infix2postfix h (la.chars ++ lb.chars) = .ok (la.chars ++ ' ' :: (lb.chars ++ [' '])) := by
  obtain ⟨k, hk⟩ : ∃ k, (la.chars ++ lb.chars).length + 1 = k + 1 + 1 + 1 := by
    obtain ⟨c1, cs1, e1, -⟩ := literal_chars_word hla
    obtain ⟨c2, cs2, e2, -⟩ := literal_chars_word hlb
    refine ⟨cs1.length + cs2.length, ?_⟩
    rw [e1, e2]
    simp only [List.length_append, List.length_cons]
    omega
  have hminus : ∀ c ∈ (lb.chars.dropWhile isspace).head?, isdigit c = false := by
    intro c hc
    simp only [Literal.chars, hneg, if_true, List.singleton_append, List.dropWhile,
      isspace_minus, List.head?_cons, Option.mem_def, Option.some.injEq] at hc
    rw [← hc]
    exact isdigit_minus
  obtain ⟨iss1, hr1, h1⟩ := infixLoop_lit (heapStack Char) la hla
    (IStream.reads_ofString (la.chars ++ lb.chars))
    (show la.chars ++ lb.chars = [] ++ (la.chars ++ lb.chars) from rfl) (by simp) hminus
    (k + 1 + 1)
    (h, Stack.mk0) []
  obtain ⟨iss2, hr2, h2⟩ := infixLoop_lit (heapStack Char) lb hlb hr1
    (show lb.chars = [] ++ (lb.chars ++ []) by simp) (by simp) (by simp) (k + 1)
    (h, Stack.mk0) ([] ++ (la.chars ++ [' ']))
  unfold infix2postfix infix2postfixOn
  rw [hk, h1, h2, infixLoop_end (heapStack Char) hr2]
  simp only [bind, Except.bind]
  rw [popWhile_heap_empty]
  simp [pure, Except.pure]

/-- The sequence model of `eval_postfix` on two operands without operator: the second
operand is on top at the end. -/
theorem eval_postfix_model_two (e1 e2 : Expr) (h1 : e1.Safe) (h2 : e2.Safe) :
    eval_postfixOn (listStack Int) [] (e1.rpn ++ e2.rpn) = .ok e2.value := by
  have h1len := size_le_rpn e1
  have h2len := size_le_rpn e2
  obtain ⟨k, hk⟩ : ∃ k, (e1.rpn ++ e2.rpn).length + 1 = ((k + 1) + e2.size) + e1.size := by
    refine ⟨(e1.rpn ++ e2.rpn).length + 1 - (1 + e2.size + e1.size), ?_⟩
    simp only [List.length_append]
    omega
  obtain ⟨cons1, hl⟩ := evalLoop_rpn e1 h1 [] [] (e2.rpn ++ []) [] ((k + 1) + e2.size)
    (by simp)
  obtain ⟨cons2, hr⟩ := evalLoop_rpn e2 h2 cons1 [' '] [] [e1.value] (k + 1) (by decide)
  have hend : (⟨cons2, [' '], false, false⟩ : IStream).getWord =
      (⟨' ' :: cons2, [], true, true⟩, none) := by
    simp [IStream.getWord, IStream.good, IStream.skipws, show isspace ' ' = true by decide]
  unfold eval_postfixOn IStream.ofString
  rw [hk]
  simp only [List.nil_append, List.append_nil] at hl hr
  rw [hl]
  have e : ' ' :: e2.rpn = [' '] ++ e2.rpn := rfl
  rw [e, hr]
  simp only [evalLoop, hend, bind, Except.bind, pure, Except.pure]
  rfl

end Merge

/-! ## The main loop of `infix2postfix` on an arbitrary input -/

section AnyInput

/-- The loop that pops while a condition holds, on the sequence model, in closed form. -/
theorem popWhile_closed (cond : Char → Bool) (st out : List Char) (fuel : Nat)
    (hfuel : st.length ≤ fuel) :
    popWhile (listStack Char) cond fuel st out =
      .ok (st.dropWhile cond, out ++ emitOps (st.takeWhile cond)) := by
  have hsplit : st.takeWhile cond ++ st.dropWhile cond = st := List.takeWhile_append_dropWhile _ _
  have hp : ∀ c ∈ st.takeWhile cond, cond c = true := fun c hc => List.mem_takeWhile_imp hc
  have hst : ∀ c ∈ (st.dropWhile cond).head?, cond c = false := by
    intro c hc
    cases hd : st.dropWhile cond with
    | nil => rw [hd] at hc; cases hc
    | cons x xs =>
      rw [hd] at hc
      simp only [List.head?_cons, Option.mem_def, Option.some.injEq] at hc
      subst hc
      have := List.head_dropWhile_not cond st (by rw [hd]; simp)
      simp only [hd, List.head_cons] at this
      simpa using this
  have := popWhile_list cond (st.takeWhile cond) (st.dropWhile cond) hp hst out fuel
    (by rw [hsplit]; exact hfuel)
  rw [hsplit] at this
  exact this

/-- A successful extraction of a character: whitespace is skipped, the character is not
whitespace, and the stream is in good state afterwards. -/
theorem getChar_some {iss issA : IStream} {token : Char}
    (hget : iss.getChar = (issA, some token)) :
    ∃ ws cs, issA = ⟨token :: (ws.reverse ++ iss.consumed), cs, false, false⟩ ∧
      iss.rest = ws ++ token :: cs ∧ (∀ x ∈ ws, isspace x = true) ∧ isspace token = false := by
  unfold IStream.getChar at hget
  by_cases hgood : iss.good = true
  · simp only [hgood, Bool.not_true, Bool.false_eq_true, if_false] at hget
    rcases spaces_or_split iss.rest with hall | ⟨ws, c, r, hs, hws, hc⟩
    · rw [skipws_all iss.consumed iss.rest hall] at hget
      simp at hget
    · have hsk := skipws_spaces iss.consumed ws (c :: r) hws (by simp [hc])
      rw [hs, hsk] at hget
      simp only [Prod.mk.injEq, Option.some.injEq] at hget
      obtain ⟨h1, h2⟩ := hget
      subst h2
      exact ⟨ws, r, h1.symm, hs, hws, hc⟩
  · simp [hgood] at hget

/-- A failed extraction of a character: the stream was not in good state, or only whitespace
was left. -/
theorem getChar_none_inv {iss iss1 : IStream} (hget : iss.getChar = (iss1, none)) :
    iss.good = false ∨ ∀ c ∈ iss.rest, isspace c = true := by
  by_cases hgood : iss.good = true
  · right
    unfold IStream.getChar at hget
    simp only [hgood, Bool.not_true, Bool.false_eq_true, if_false] at hget
    rcases spaces_or_split iss.rest with hall | ⟨ws, c, r, hs, hws, hc⟩
    · exact hall
    · have hsk := skipws_spaces iss.consumed ws (c :: r) hws (by simp [hc])
      rw [hs, hsk] at hget
      simp at hget
  · left
    simpa using hgood

/-- Every character that the digit loop adds to the number is a digit. -/
theorem readDigits_chars :
    ∀ (fuel : Nat) (iss : IStream) (token : Char) (number : List Char),
      ∀ c ∈ (readDigits fuel iss token number).2.2, c ∈ number ∨ isdigit c = true := by
  intro fuel
  induction fuel with
  | zero => intro iss token number c hc; exact Or.inl hc
  | succ k ih =>
    intro iss token number c hc
    unfold readDigits at hc
    by_cases hd : isdigit token = true
    · simp only [hd, if_true] at hc
      cases hg : iss.getChar with
      | mk iss1 o =>
        cases o with
        | none =>
          simp only [hg, List.mem_append, List.mem_singleton] at hc
          rcases hc with hc | rfl
          · exact Or.inl hc
          · exact Or.inr hd
        | some t =>
          simp only [hg] at hc
          rcases ih iss1 t (number ++ [token]) c hc with h1 | h1
          · simp only [List.mem_append, List.mem_singleton] at h1
            rcases h1 with h1 | rfl
            · exact Or.inl h1
            · exact Or.inr hd
          · exact Or.inr h1
    · simp only [hd, Bool.false_eq_true, if_false] at hc
      exact Or.inl hc

/-- The digit loop and the `putback` after it, on a stream that has just delivered the
digit `t`: the stream moves over digits and whitespace, `t` included, and ends in good state
or at the end of the input. -/
theorem readDigits_stream :
    ∀ (fuel : Nat) (cons cs : List Char) (t : Char) (number : List Char),
      isdigit t = true → cs.length + 1 ≤ fuel →
      ∃ extra, (∀ x ∈ extra, isdigit x = true ∨ isspace x = true) ∧ t ∈ extra ∧
        ((readDigits fuel ⟨t :: cons, cs, false, false⟩ t number).1.putback
          (readDigits fuel ⟨t :: cons, cs, false, false⟩ t number).2.1).consumed =
          extra ++ cons ∧
        t :: cs = extra.reverse ++
          ((readDigits fuel ⟨t :: cons, cs, false, false⟩ t number).1.putback
            (readDigits fuel ⟨t :: cons, cs, false, false⟩ t number).2.1).rest ∧
        (((readDigits fuel ⟨t :: cons, cs, false, false⟩ t number).1.putback
            (readDigits fuel ⟨t :: cons, cs, false, false⟩ t number).2.1).good = false →
          ((readDigits fuel ⟨t :: cons, cs, false, false⟩ t number).1.putback
            (readDigits fuel ⟨t :: cons, cs, false, false⟩ t number).2.1).rest = []) := by
  intro fuel
  induction fuel with
  | zero => intro cons cs t number _ hfuel; omega
  | succ k ih =>
    intro cons cs t number ht hfuel
    have hreads : (⟨t :: cons, cs, false, false⟩ : IStream).Reads cs :=
      Or.inl ⟨rfl, rfl, [], by simp, rfl⟩
    rcases spaces_or_split cs with hall | ⟨ws, c, r, hs, hws, hc⟩
    · have hget : (⟨t :: cons, cs, false, false⟩ : IStream).getChar =
          (⟨cs.reverse ++ t :: cons, [], true, true⟩, none) := by
        simp [IStream.getChar, IStream.good, skipws_all (t :: cons) cs hall]
      simp only [readDigits, ht, if_true, hget]
      refine ⟨cs.reverse ++ [t], ?_, by simp, by simp [IStream.putback], by
        simp [IStream.putback], by simp [IStream.putback]⟩
      intro x hx
      simp only [List.mem_append, List.mem_reverse, List.mem_singleton] at hx
      rcases hx with hx | rfl
      · exact Or.inr (hall x hx)
      · exact Or.inl ht
    · obtain ⟨cons1, hget⟩ := getChar_reads hreads hs hws hc
      have hcons1 : cons1 = ws.reverse ++ t :: cons := by
        have hsk := skipws_spaces (t :: cons) ws (c :: r) hws (by simp [hc])
        have h2 : (⟨t :: cons, cs, false, false⟩ : IStream).getChar =
            (⟨c :: (ws.reverse ++ t :: cons), r, false, false⟩, some c) := by
          simp [IStream.getChar, IStream.good, hs, hsk]
        rw [h2] at hget
        simp only [Prod.mk.injEq, IStream.mk.injEq, List.cons.injEq, true_and, and_true]
          at hget
        exact hget.symm
      subst hcons1
      have hlen : r.length + 1 ≤ k := by
        have := congrArg List.length hs
        simp only [List.length_append, List.length_cons] at this
        omega
      have hwst : ∀ x ∈ ws.reverse ++ [t], isdigit x = true ∨ isspace x = true := by
        intro x hx
        simp only [List.mem_append, List.mem_reverse, List.mem_singleton] at hx
        rcases hx with hx | rfl
        · exact Or.inr (hws x hx)
        · exact Or.inl ht
      simp only [readDigits, ht, if_true, hget]
      by_cases hcd : isdigit c = true
      · obtain ⟨extra, hex, hmem, h1, h2, h3⟩ :=
          ih (ws.reverse ++ t :: cons) r c (number ++ [t]) hcd hlen
        refine ⟨extra ++ (ws.reverse ++ [t]), ?_, by simp, ?_, ?_, h3⟩
        · intro x hx
          rcases List.mem_append.mp hx with hx | hx
          · exact hex x hx
          · exact hwst x hx
        · rw [h1]; simp
        · rw [hs]
          simp only [List.reverse_append, List.reverse_cons, List.reverse_nil, List.nil_append,
            List.reverse_reverse, List.singleton_append, List.cons_append, List.append_assoc]
          rw [← h2]
      · have hcd2 : isdigit c = false := by simpa using hcd
        have hrd : readDigits k ⟨c :: (ws.reverse ++ t :: cons), r, false, false⟩ c
            (number ++ [t]) =
            (⟨c :: (ws.reverse ++ t :: cons), r, false, false⟩, c, number ++ [t]) := by
          cases k with
          | zero => rfl
          | succ k => simp [readDigits, hcd2]
        rw [hrd]
        refine ⟨ws.reverse ++ [t], hwst, by simp, by simp [IStream.putback], ?_, by
          simp [IStream.putback, IStream.good]⟩
        simp [IStream.putback, hs]

/-- The number branch of the main loop: the stack is left alone, the output receives a
number made of digits and `-` and a space, and the stream moves over digits, whitespace and
`-` only, the token included. -/
theorem infixStep_number {S : Type} (I : StackOps S Char) (st : S) (token : Char)
    (cons cs : List Char) (out : List Char) (iss1 : IStream)
    (hstart : startsNumber ⟨token :: cons, cs, false, false⟩ token = (iss1, true)) :
    ∃ iss3 num extra,
      infixStep I st ⟨token :: cons, cs, false, false⟩ token out =
        .ok (st, iss3, out ++ (num ++ [' '])) ∧
      (∀ x ∈ num, isdigit x = true ∨ x = '-') ∧
      (∀ x ∈ extra, isdigit x = true ∨ isspace x = true ∨ x = '-') ∧ token ∈ extra ∧
      iss3.consumed = extra ++ cons ∧ token :: cs = extra.reverse ++ iss3.rest ∧
      (iss3.good = false → iss3.rest = []) := by
  by_cases hd : isdigit token = true
  · have hne : token ≠ '-' := digit_ne_minus hd
    have hst : startsNumber ⟨token :: cons, cs, false, false⟩ token =
        (⟨token :: cons, cs, false, false⟩, true) := by simp [startsNumber, hd]
    obtain ⟨extra, hex, hmem, h1, h2, h3⟩ :=
      readDigits_stream (cs.length + 1) cons cs token [] hd (Nat.le_refl _)
    refine ⟨_, (readDigits (cs.length + 1) ⟨token :: cons, cs, false, false⟩ token []).2.2,
      extra, ?_, ?_, ?_, hmem, h1, h2, h3⟩
    · simp only [infixStep, hst, hne, if_false, pure, Except.pure]
    · intro x hx
      rcases readDigits_chars _ _ _ _ x hx with h | h
      · cases h
      · exact Or.inl h
    · intro x hx
      rcases hex x hx with h | h
      · exact Or.inl h
      · exact Or.inr (Or.inl h)
  · have hd2 : isdigit token = false := by simpa using hd
    by_cases hm : token = '-'
    · subst hm
      cases cs with
      | nil => simp [startsNumber, isdigit_minus, IStream.peek, IStream.good] at hstart
      | cons c cs1 =>
        have hcd : isdigit c = true := by
          simp only [startsNumber, isdigit_minus, Bool.false_eq_true, if_false, if_true,
            IStream.peek, IStream.good, Bool.not_false, Bool.and_self, Bool.not_true,
            Prod.mk.injEq] at hstart
          exact hstart.2
        have hst : startsNumber ⟨'-' :: cons, c :: cs1, false, false⟩ '-' =
            (⟨'-' :: cons, c :: cs1, false, false⟩, true) := by
          simp [startsNumber, isdigit_minus, IStream.peek, IStream.good, hcd]
        have hget2 : (⟨'-' :: cons, c :: cs1, false, false⟩ : IStream).getChar =
            (⟨c :: '-' :: cons, cs1, false, false⟩, some c) := by
          simp [IStream.getChar, IStream.good, IStream.skipws, isdigit_not_space hcd]
        obtain ⟨extra, hex, hmem, h1, h2, h3⟩ :=
          readDigits_stream (cs1.length + 1) ('-' :: cons) cs1 c ['-'] hcd (Nat.le_refl _)
        refine ⟨_,
          (readDigits (cs1.length + 1) ⟨c :: '-' :: cons, cs1, false, false⟩ c ['-']).2.2,
          extra ++ ['-'], ?_, ?_, ?_, by simp, by rw [h1]; simp, ?_, h3⟩
        · simp only [infixStep, hst, if_true, hget2, pure, Except.pure]
        · intro x hx
          rcases readDigits_chars _ _ _ _ x hx with h | h
          · simp only [List.mem_singleton] at h
            exact Or.inr h
          · exact Or.inl h
        · intro x hx
          simp only [List.mem_append, List.mem_singleton] at hx
          rcases hx with hx | rfl
          · rcases hex x hx with h | h
            · exact Or.inl h
            · exact Or.inr (Or.inl h)
          · exact Or.inr (Or.inr rfl)
        · simp only [List.reverse_append, List.reverse_cons, List.reverse_nil,
            List.nil_append, List.singleton_append, List.cons_append]
          rw [← h2]
    · simp [startsNumber, hd2, hm] at hstart

/-- The number test that fails leaves the stream where it was. -/
theorem startsNumber_false (token : Char) (cons cs : List Char) (iss1 : IStream)
    (hstart : startsNumber ⟨token :: cons, cs, false, false⟩ token = (iss1, false)) :
    isdigit token = false ∧ iss1.consumed = token :: cons ∧ iss1.rest = cs ∧
      (iss1.good = false → iss1.rest = []) := by
  by_cases hd : isdigit token = true
  · simp [startsNumber, hd] at hstart
  · have hd2 : isdigit token = false := by simpa using hd
    refine ⟨hd2, ?_⟩
    by_cases hm : token = '-'
    · subst hm
      cases cs with
      | nil =>
        simp only [startsNumber, isdigit_minus, Bool.false_eq_true, if_false, if_true,
          IStream.peek, IStream.good, Bool.not_false, Bool.and_self, Bool.not_true,
          Prod.mk.injEq, and_true] at hstart
        subst hstart
        simp
      | cons c cs1 =>
        simp only [startsNumber, isdigit_minus, Bool.false_eq_true, if_false, if_true,
          IStream.peek, IStream.good, Bool.not_false, Bool.and_self, Bool.not_true,
          Prod.mk.injEq] at hstart
        obtain ⟨h1, -⟩ := hstart
        subst h1
        simp [IStream.good]
    · simp only [startsNumber, hd2, Bool.false_eq_true, if_false, hm, Prod.mk.injEq,
        and_true] at hstart
      subst hstart
      simp [IStream.good]

/-- One iteration of the main loop on the sequence model, for any input: it succeeds, the
stream moves forward over the token, and the stack and the output change as the branch of
the token says. -/
theorem infixStep_list (st : List Char) (iss issA : IStream) (token : Char) (out : List Char)
    (hget : iss.getChar = (issA, some token)) :
    ∃ st1 iss2 out1 extra,
      infixStep (listStack Char) st issA token out = .ok (st1, iss2, out1) ∧
      iss2.consumed = extra ++ iss.consumed ∧ iss.rest = extra.reverse ++ iss2.rest ∧
      token ∈ extra ∧ isspace token = false ∧ (iss2.good = false → iss2.rest = []) ∧
      (((∀ x ∈ extra, x ≠ '(' ∧ x ≠ ')') ∧ st1 = st ∧
          ∃ num, out1 = out ++ (num ++ [' ']) ∧ ∀ x ∈ num, isdigit x = true ∨ x = '-') ∨
        (token = '(' ∧ extra.count '(' = 1 ∧ extra.count ')' = 0 ∧ st1 = '(' :: st ∧
          out1 = out) ∨
        (token = ')' ∧ extra.count '(' = 0 ∧ extra.count ')' = 1 ∧
          st1 = (st.dropWhile (fun t => decide (t ≠ '('))).tail ∧
          out1 = out ++ emitOps (st.takeWhile (fun t => decide (t ≠ '(')))) ∨
        (isdigit token = false ∧ token ≠ '(' ∧ token ≠ ')' ∧
          (∀ x ∈ extra, x ≠ '(' ∧ x ≠ ')') ∧
          st1 = token :: st.dropWhile (fun t => decide (precedence token ≤ precedence t)) ∧
          out1 = out ++
            emitOps (st.takeWhile (fun t => decide (precedence token ≤ precedence t))))) := by
  obtain ⟨ws, cs, hA, hrest, hws, hsp⟩ := getChar_some hget
  subst hA
  have hwsp : ∀ x ∈ ws, x ≠ '(' ∧ x ≠ ')' := by
    intro x hx
    have := hws x hx
    constructor <;> (rintro rfl; revert this; decide)
  have hcount : ∀ c : Char, (c = '(' ∨ c = ')') → ws.reverse.count c = 0 := by
    intro c hc
    rw [List.count_eq_zero]
    intro hmem
    have := hwsp c (List.mem_reverse.mp hmem)
    rcases hc with rfl | rfl
    · exact this.1 rfl
    · exact this.2 rfl
  cases hstart : startsNumber ⟨token :: (ws.reverse ++ iss.consumed), cs, false, false⟩ token with
  | mk iss1 b =>
    cases b with
    | true =>
      obtain ⟨iss3, num, extra, hstep, hnum, hex, hmem, h1, h2, h3⟩ :=
        infixStep_number (listStack Char) st token (ws.reverse ++ iss.consumed) cs out iss1
          hstart
      refine ⟨st, iss3, out ++ (num ++ [' ']), extra ++ ws.reverse, hstep, by rw [h1]; simp,
        ?_, by simp [hmem], hsp, h3, Or.inl ⟨?_, rfl, num, rfl, hnum⟩⟩
      · rw [hrest]
        simp only [List.reverse_append, List.reverse_reverse, List.append_assoc]
        rw [← h2]
      · intro x hx
        rcases List.mem_append.mp hx with hx | hx
        · rcases hex x hx with h | h | h
          · constructor <;> (rintro rfl; revert h; decide)
          · constructor <;> (rintro rfl; revert h; decide)
          · constructor <;> (rintro rfl; revert h; decide)
        · exact hwsp x (List.mem_reverse.mp hx)
    | false =>
      obtain ⟨hd, hc1, hr1, hg1⟩ :=
        startsNumber_false token (ws.reverse ++ iss.consumed) cs iss1 hstart
      have hcons : iss1.consumed = (token :: ws.reverse) ++ iss.consumed := by
        rw [hc1]; rfl
      have hrest1 : iss.rest = (token :: ws.reverse).reverse ++ iss1.rest := by
        rw [hrest, hr1]; simp
      have hmem : token ∈ token :: ws.reverse := List.mem_cons_self _ _
      by_cases hl : token = '('
      · subst hl
        refine ⟨'(' :: st, iss1, out, '(' :: ws.reverse, ?_, hcons, hrest1, hmem, hsp, hg1,
          Or.inr (Or.inl ⟨rfl, ?_, ?_, rfl, rfl⟩)⟩
        · simp [infixStep, hstart, listStack, bind, Except.bind, pure, Except.pure]
        · rw [List.count_cons_self, hcount '(' (Or.inl rfl)]
        · rw [List.count_cons_of_ne (by decide), hcount ')' (Or.inr rfl)]
      · by_cases hr : token = ')'
        · subst hr
          refine ⟨(st.dropWhile (fun t => decide (t ≠ '('))).tail, iss1,
            out ++ emitOps (st.takeWhile (fun t => decide (t ≠ '('))), ')' :: ws.reverse, ?_,
            hcons, hrest1, hmem, hsp, hg1, Or.inr (Or.inr (Or.inl ⟨rfl, ?_, ?_, rfl, rfl⟩))⟩
          · have hp := popWhile_closed (fun t => decide (t ≠ '(')) st out st.length
              (Nat.le_refl _)
            simp only [infixStep, hstart, hl, if_false, if_true, bind, Except.bind]
            simp only [listStack] at hp ⊢
            rw [hp]
            rfl
          · rw [List.count_cons_of_ne (by decide), hcount '(' (Or.inl rfl)]
          · rw [List.count_cons_self, hcount ')' (Or.inr rfl)]
        · refine ⟨token :: st.dropWhile (fun t => decide (precedence token ≤ precedence t)),
            iss1,
            out ++ emitOps (st.takeWhile (fun t => decide (precedence token ≤ precedence t))),
            token :: ws.reverse, ?_, hcons, hrest1, hmem, hsp, hg1,
            Or.inr (Or.inr (Or.inr ⟨hd, hl, hr, ?_, rfl, rfl⟩))⟩
          · have hp := popWhile_closed (fun t => decide (precedence token ≤ precedence t)) st
              out st.length (Nat.le_refl _)
            simp only [infixStep, hstart, hl, hr, if_false, bind, Except.bind]
            simp only [listStack] at hp ⊢
            rw [hp]
            rfl
          · intro x hx
            rcases List.mem_cons.mp hx with rfl | hx
            · exact ⟨hl, hr⟩
            · exact hwsp x (List.mem_reverse.mp hx)

end AnyInput

/-! ## Parentheses in the output of `infix2postfix` -/

section Parens

theorem mem_emitOps {c : Char} {p : List Char} (h : c ∈ emitOps p) : c ∈ p ∨ c = ' ' := by
  induction p with
  | nil => cases h
  | cons x p ih =>
    simp only [emitOps, List.mem_cons] at h
    rcases h with rfl | rfl | h
    · exact Or.inl (List.mem_cons_self _ _)
    · exact Or.inr rfl
    · rcases ih h with h1 | h1
      · exact Or.inl (List.mem_cons_of_mem _ h1)
      · exact Or.inr h1

theorem count_takeWhile_dropWhile (cond : Char → Bool) (c : Char) (st : List Char) :
    st.count c = (st.takeWhile cond).count c + (st.dropWhile cond).count c := by
  conv_lhs => rw [← List.takeWhile_append_dropWhile cond st]
  rw [List.count_append]

/-- The stack after the `)` branch has one `(` less, when it had one. -/
theorem count_after_rparen (st : List Char) (hpos : 0 < st.count '(') :
    ((st.dropWhile (fun t => decide (t ≠ '('))).tail).count '(' + 1 = st.count '(' := by
  induction st with
  | nil => simp at hpos
  | cons x st ih =>
    by_cases hx : x = '('
    · subst hx
      simp [List.dropWhile]
    · have hxc : decide (x ≠ '(') = true := by simpa using hx
      rw [List.count_cons_of_ne (fun h => hx h.symm)] at hpos ⊢
      simp only [List.dropWhile, hxc]
      exact ih hpos

/-- A character of a valid input that is neither a digit, nor whitespace, nor a parenthesis is
one of the five operators. -/
theorem precedence_valid {src : List Char} (hv : containsOnlyValidChars src = true)
    {c : Char} (hc : c ∈ src) (hd : isdigit c = false) (hs : isspace c = false)
    (hl : c ≠ '(') (hr : c ≠ ')') : 1 ≤ precedence c := by
  unfold containsOnlyValidChars at hv
  rw [List.all_eq_true] at hv
  have hmem := hv c hc
  simp only [List.contains_eq_any_beq, List.any_eq_true, beq_iff_eq] at hmem
  obtain ⟨x, hx, hxc⟩ := hmem
  subst hxc
  have hx2 : c ∈ [' ', '1', '2', '3', '4', '5', '6', '7', '8', '9', '0', '(', ')', '+', '-',
      '/', '*', '%'] := hx
  simp only [List.mem_cons, List.mem_singleton, List.mem_nil_iff, or_false] at hx2
  rcases hx2 with h | h | h | h | h | h | h | h | h | h | h | h | h | h | h | h | h | h <;>
    subst h <;> first | exact absurd hd (by decide) | exact absurd hs (by decide) |
      exact absurd rfl hl | exact absurd rfl hr | decide

theorem precedence_pos_ne_lparen {c : Char} (h : 1 ≤ precedence c) : c ≠ '(' := by
  rintro rfl
  revert h
  decide

theorem digit_or_minus_ne_paren {x : Char} (h : isdigit x = true ∨ x = '-') :
    x ≠ '(' ∧ x ≠ ')' := by
  rcases h with h | h
  · constructor <;> (rintro rfl; revert h; decide)
  · subst h
    constructor <;> decide

/-- What the stream has consumed is a prefix of the input. -/
theorem take_consumed {src consumed rest : List Char} (h : consumed.reverse ++ rest = src) :
    src.take consumed.length = consumed.reverse := by
  rw [← h, ← List.length_reverse consumed, List.take_left']
  rfl

/-- The main loop on the sequence model returns for every input, and a property of stack,
stream and output that every iteration keeps holds when the loop ends; the stream then has no
further token. -/
theorem infixLoop_list_induct (P : List Char → IStream → List Char → Prop)
    (hstep : ∀ (st : List Char) (iss issA : IStream) (token : Char) (out st1 : List Char)
      (iss2 : IStream) (out1 : List Char), P st iss out →
      iss.getChar = (issA, some token) →
      infixStep (listStack Char) st issA token out = .ok (st1, iss2, out1) → P st1 iss2 out1) :
    ∀ (fuel : Nat) (st : List Char) (iss : IStream) (out : List Char),
      iss.rest.length < fuel → P st iss out →
      ∃ (st1 : List Char) (iss1 issE : IStream) (out1 : List Char),
        infixLoop (listStack Char) fuel st iss out = .ok (st1, out1) ∧
        P st1 iss1 out1 ∧ iss1.getChar = (issE, none) := by
  intro fuel
  induction fuel with
  | zero => intro st iss out hlt; exact absurd hlt (Nat.not_lt_zero _)
  | succ k ih =>
    intro st iss out hlt hP
    rcases hget : iss.getChar with ⟨issA, _ | token⟩
    · refine ⟨st, iss, issA, out, ?_, hP, hget⟩
      simp only [infixLoop, hget]
      rfl
    · obtain ⟨st1, iss2, out1, extra, hstepeq, -, hrest, hmem, -, -, -⟩ :=
        infixStep_list st iss issA token out hget
      have hlen : iss2.rest.length < k := by
        have h1 : iss.rest.length = extra.length + iss2.rest.length := by
          rw [hrest, List.length_append, List.length_reverse]
        have h2 : 0 < extra.length := List.length_pos_of_mem hmem
        omega
      obtain ⟨st2, iss3, issE, out2, hloop, hP2, hend⟩ :=
        ih st1 iss2 out1 hlen (hstep st iss issA token out st1 iss2 out1 hP hget hstepeq)
      refine ⟨st2, iss3, issE, out2, ?_, hP2, hend⟩
      rw [infixLoop_step (listStack Char) hget k st out, hstepeq]
      exact hloop

/-- No iteration of the main loop brings a `)` onto the stack or into the output. -/
theorem infixStep_no_rparen (st : List Char) (iss issA : IStream) (token : Char)
    (out st1 : List Char) (iss2 : IStream) (out1 : List Char)
    (hJ : ')' ∉ st ∧ ')' ∉ out) (hget : iss.getChar = (issA, some token))
    (hstep : infixStep (listStack Char) st issA token out = .ok (st1, iss2, out1)) :
    ')' ∉ st1 ∧ ')' ∉ out1 := by
  obtain ⟨hst, hout⟩ := hJ
  obtain ⟨st1', iss2', out1', extra, hstepeq, -, -, -, -, -, hcases⟩ :=
    infixStep_list st iss issA token out hget
  rw [hstepeq] at hstep
  injection hstep with hstep
  injection hstep with h1 hstep
  injection hstep with h2 h3
  have e1 := h1.symm
  have e2 := h2.symm
  have e3 := h3.symm
  subst e1 e2 e3
  have hemit : ∀ cond : Char → Bool, ')' ∉ emitOps (st.takeWhile cond) := by
    intro cond hm
    rcases mem_emitOps hm with h | h
    · exact hst ((List.takeWhile_sublist _).subset h)
    · exact absurd h (by decide)
  rcases hcases with ⟨-, hs1, num, ho1, hnum⟩ | ⟨-, -, -, hs1, ho1⟩ | ⟨-, -, -, hs1, ho1⟩ |
      ⟨-, -, htr, -, hs1, ho1⟩
  · refine ⟨hs1 ▸ hst, ?_⟩
    rw [ho1]
    simp only [List.mem_append, List.mem_singleton, not_or]
    exact ⟨hout, fun h => (digit_or_minus_ne_paren (hnum _ h)).2 rfl, by decide⟩
  · refine ⟨?_, ho1 ▸ hout⟩
    rw [hs1]
    simp only [List.mem_cons, not_or]
    exact ⟨by decide, hst⟩
  · constructor
    · rw [hs1]
      exact fun h => hst ((List.dropWhile_sublist _).subset (List.mem_of_mem_tail h))
    · rw [ho1]
      simp only [List.mem_append, not_or]
      exact ⟨hout, hemit _⟩
  · constructor
    · rw [hs1]
      simp only [List.mem_cons, not_or]
      exact ⟨fun h => htr h.symm, fun h => hst ((List.dropWhile_sublist _).subset h)⟩
    · rw [ho1]
      simp only [List.mem_append, not_or]
      exact ⟨hout, hemit _⟩

/-- On a line of valid characters whose every prefix has at least as many `(` as `)`, an
iteration of the main loop keeps: the stream is a split of the line, the stack holds as many
`(` as are read and not yet closed, everything else on the stack is an operator, and the
output has no `(`. -/
theorem infixStep_no_lparen (src : List Char) (hv : containsOnlyValidChars src = true)
    (hpre : ∀ k, (src.take k).count ')' ≤ (src.take k).count '(')
    (st : List Char) (iss issA : IStream) (token : Char)
    (out st1 : List Char) (iss2 : IStream) (out1 : List Char)
    (hK : (iss.good = false → iss.rest = []) ∧ iss.consumed.reverse ++ iss.rest = src ∧
      st.count '(' + iss.consumed.count ')' = iss.consumed.count '(' ∧
      (∀ c ∈ st, c = '(' ∨ 1 ≤ precedence c) ∧ '(' ∉ out)
    (hget : iss.getChar = (issA, some token))
    (hstep : infixStep (listStack Char) st issA token out = .ok (st1, iss2, out1)) :
    (iss2.good = false → iss2.rest = []) ∧ iss2.consumed.reverse ++ iss2.rest = src ∧
      st1.count '(' + iss2.consumed.count ')' = iss2.consumed.count '(' ∧
      (∀ c ∈ st1, c = '(' ∨ 1 ≤ precedence c) ∧ '(' ∉ out1 := by
  obtain ⟨-, hsplit, hcount, hops, hout⟩ := hK
  obtain ⟨st1', iss2', out1', extra, hstepeq, hcons, hrest, hmem, hsp, hgood, hcases⟩ :=
    infixStep_list st iss issA token out hget
  rw [hstepeq] at hstep
  injection hstep with hstep
  injection hstep with h1 hstep
  injection hstep with h2 h3
  have e1 := h1.symm
  have e2 := h2.symm
  have e3 := h3.symm
  subst e1 e2 e3
  have hsplit2 : iss2.consumed.reverse ++ iss2.rest = src := by
    rw [hcons, List.reverse_append, List.append_assoc, ← hrest, hsplit]
  have hcl : iss2.consumed.count '(' = extra.count '(' + iss.consumed.count '(' := by
    rw [hcons, List.count_append]
  have hcr : iss2.consumed.count ')' = extra.count ')' + iss.consumed.count ')' := by
    rw [hcons, List.count_append]
  have hnone : (∀ x ∈ extra, x ≠ '(' ∧ x ≠ ')') →
      extra.count '(' = 0 ∧ extra.count ')' = 0 := by
    intro hx
    exact ⟨List.count_eq_zero.mpr fun h => (hx _ h).1 rfl,
      List.count_eq_zero.mpr fun h => (hx _ h).2 rfl⟩
  have htoken : token ∈ src := by
    rw [← hsplit, hrest]
    simp only [List.mem_append, List.mem_reverse]
    exact Or.inr (Or.inl hmem)
  refine ⟨hgood, hsplit2, ?_⟩
  rcases hcases with ⟨hex, hs1, num, ho1, hnum⟩ | ⟨-, hel, her, hs1, ho1⟩ |
      ⟨-, hel, her, hs1, ho1⟩ | ⟨hdig, htl, htr, hex, hs1, ho1⟩
  · obtain ⟨h0l, h0r⟩ := hnone hex
    refine ⟨?_, hs1 ▸ hops, ?_⟩
    · rw [hs1, hcl, hcr, h0l, h0r]
      omega
    · rw [ho1]
      simp only [List.mem_append, List.mem_singleton, not_or]
      exact ⟨hout, fun h => (digit_or_minus_ne_paren (hnum _ h)).1 rfl, by decide⟩
  · refine ⟨?_, ?_, ho1 ▸ hout⟩
    · rw [hs1, hcl, hcr, hel, her, List.count_cons_self]
      omega
    · rw [hs1]
      intro c hc
      rcases List.mem_cons.mp hc with h | h
      · exact Or.inl h
      · exact hops c h
  · have hp := hpre iss2.consumed.length
    rw [take_consumed hsplit2, List.count_reverse, List.count_reverse, hcl, hcr, hel, her] at hp
    have hpos : 0 < st.count '(' := by omega
    have hc := count_after_rparen st hpos
    refine ⟨?_, ?_, ?_⟩
    · rw [hs1, hcl, hcr, hel, her]
      omega
    · rw [hs1]
      exact fun c hc => hops c ((List.dropWhile_sublist _).subset (List.mem_of_mem_tail hc))
    · rw [ho1]
      simp only [List.mem_append, not_or]
      refine ⟨hout, fun hm => ?_⟩
      rcases mem_emitOps hm with h | h
      · have := (List.mem_takeWhile_imp h)
        simp at this
      · exact absurd h (by decide)
  · obtain ⟨h0l, h0r⟩ := hnone hex
    have hprec : 1 ≤ precedence token := precedence_valid hv htoken hdig hsp htl htr
    have htake : (st.takeWhile (fun t => decide (precedence token ≤ precedence t))).count '('
        = 0 := by
      refine List.count_eq_zero.mpr fun hm => ?_
      have := List.mem_takeWhile_imp hm
      simp only [decide_eq_true_eq] at this
      exact precedence_pos_ne_lparen (le_trans hprec this) rfl
    have hsum := count_takeWhile_dropWhile
      (fun t => decide (precedence token ≤ precedence t)) '(' st
    refine ⟨?_, ?_, ?_⟩
    · rw [hs1, hcl, hcr, h0l, h0r, List.count_cons_of_ne (fun h => htl h.symm)]
      omega
    · rw [hs1]
      intro c hc
      rcases List.mem_cons.mp hc with h | h
      · exact Or.inr (h ▸ hprec)
      · exact hops c ((List.dropWhile_sublist _).subset h)
    · rw [ho1]
      simp only [List.mem_append, not_or]
      refine ⟨hout, fun hm => ?_⟩
      rcases mem_emitOps hm with h | h
      · exact List.count_eq_zero.mp htake h
      · exact absurd h (by decide)

/-- The function `infix2postfix` on the sequence model returns for every line, never emits
a `)`, and emits no `(` when the line has only valid characters and balanced parentheses. -/
theorem infix2postfix_list_parens (src : List Char) :
    ∃ out, infix2postfixOn (listStack Char) [] src = .ok out ∧ ')' ∉ out ∧
      (containsOnlyValidChars src = true → BalancedParens src → '(' ∉ out) := by
  have hlt : (IStream.ofString src).rest.length < src.length + 1 := Nat.lt_succ_self _
  obtain ⟨st1, iss1, issE, out1, hloop, ⟨hJs, hJo⟩, -⟩ :=
    infixLoop_list_induct (fun st _ out => ')' ∉ st ∧ ')' ∉ out) infixStep_no_rparen
      (src.length + 1) [] (IStream.ofString src) [] hlt ⟨by simp, by simp⟩
  have hflush := popWhile_closed (fun _ => true) st1 out1 st1.length (le_refl _)
  have htk : st1.takeWhile (fun _ => true) = st1 := by
    rw [List.takeWhile_eq_self_iff]
    intros
    rfl
  rw [htk] at hflush
  refine ⟨out1 ++ emitOps st1, ?_, ?_, ?_⟩
  · unfold infix2postfixOn
    rw [hloop]
    simp only [bind, Except.bind]
    have hb : (listStack Char).bound st1 = st1.length := rfl
    rw [hb, hflush]
    rfl
  · simp only [List.mem_append, not_or]
    refine ⟨hJo, fun hm => ?_⟩
    rcases mem_emitOps hm with h | h
    · exact hJs h
    · exact absurd h (by decide)
  · intro hv ⟨hpre, hbal⟩
    obtain ⟨st2, iss2, issE2, out2, hloop2, ⟨hg, hsplit, hcount, -, hout⟩, hend⟩ :=
      infixLoop_list_induct
        (fun st iss out => (iss.good = false → iss.rest = []) ∧
          iss.consumed.reverse ++ iss.rest = src ∧
          st.count '(' + iss.consumed.count ')' = iss.consumed.count '(' ∧
          (∀ c ∈ st, c = '(' ∨ 1 ≤ precedence c) ∧ '(' ∉ out)
        (infixStep_no_lparen src hv hpre)
        (src.length + 1) [] (IStream.ofString src) [] hlt
        ⟨fun h => absurd h (show ¬ (true = false) by decide), rfl, rfl, by simp, by simp⟩
    rw [hloop] at hloop2
    injection hloop2 with hloop2
    injection hloop2 with h1 h2
    subst h1 h2
    have hrestp : iss2.rest.count '(' = 0 ∧ iss2.rest.count ')' = 0 := by
      rcases getChar_none_inv hend with h | h
      · rw [hg h]
        exact ⟨rfl, rfl⟩
      · exact ⟨List.count_eq_zero.mpr fun hm => absurd (h _ hm) (by decide),
          List.count_eq_zero.mpr fun hm => absurd (h _ hm) (by decide)⟩
    have hl : src.count '(' = iss2.consumed.count '(' := by
      rw [← hsplit, List.count_append, List.count_reverse, hrestp.1, Nat.add_zero]
    have hr : src.count ')' = iss2.consumed.count ')' := by
      rw [← hsplit, List.count_append, List.count_reverse, hrestp.2, Nat.add_zero]
    have hzero : st1.count '(' = 0 := by omega
    simp only [List.mem_append, not_or]
    refine ⟨hout, fun hm => ?_⟩
    rcases mem_emitOps hm with h | h
    · exact List.count_eq_zero.mp hzero h
    · exact absurd h (by decide)

end Parens

/-! ## Lines that are not well-formed expressions -/

section Malformed

end Malformed

/-! ## Malformed lines on which the evaluation runs out of operands -/

section Shapes

end Shapes

/-! # Part III : the claims -/

section Claims

/-- C1: every list of a store reached from program start by any sequence of list creations,
`push_front`, `push_back`, `pop_front`, `pop_back`, `insert` and `erase` at positions of the
list, `clear` and `swap` satisfies the structural invariant: `count = 0` iff `head` is null iff
`tail` is null, `empty()` iff `size() = 0`, the `prev` of the head and the `next` of the tail
are null, the walk along `next` from `head` meets exactly `count` distinct live nodes and ends
at `tail`, and the walk along `prev` from `tail` meets the same nodes in reverse order and
ends at `head`. -/
theorem C1_reachable_lists_invariant {T : Type} (ops : List (Op T)) (w : World T)
    (hrun : World.init.run ops = .ok w) (l : LList T) (hl : l ∈ w.lists) :
    l.Invariant w.heap := by
  obtain ⟨g, hg⟩ := World.run_good World.init_good hrun
  obtain ⟨i, hi, hget⟩ := List.getElem_of_mem hl
  exact (hg.rep i l (by rw [List.getElem?_eq_getElem hi, hget])).invariant

/-- Witness of C1: the sample program over two lists, and the invariant of its first list. -/
theorem C1_reachable_lists_invariant_witness :
    World.init.run sampleProgram = .ok sampleWorld ∧
      (⟨some 3, some 0, 2⟩ : LList Nat).Invariant sampleWorld.heap :=
  ⟨rfl, C1_reachable_lists_invariant sampleProgram sampleWorld rfl _ (List.mem_cons_self _ _)⟩

/-- C2: the list refines the sequence model.  For every list that satisfies the structural
invariant, with elements `xs` in `begin()`-to-`end()` order, `push_front(v)` yields `v`
followed by `xs`, `push_back(v)` yields `xs` followed by `v`, `pop_front()` yields `xs` without
its first element and `pop_back()` yields `xs` without its last; each result satisfies the
invariant again, and on it, as on the list itself, `front()` returns the first element and
`back()` the last whenever there is one. -/
theorem C2_list_refines_sequence {T : Type} {h : Heap T} {l : LList T}
    (hinv : l.Invariant h) (hs : h.Sized) (hroom : 0 < h.room) (v : T) :
    l.AccessAgrees h ∧
    (∃ h1 l1, LList.push_front h l v = .ok (h1, l1) ∧ l1.Invariant h1 ∧
      l1.elements h1 = v :: l.elements h ∧ l1.AccessAgrees h1) ∧
    (∃ h1 l1, LList.push_back h l v = .ok (h1, l1) ∧ l1.Invariant h1 ∧
      l1.elements h1 = l.elements h ++ [v] ∧ l1.AccessAgrees h1) ∧
    (∃ h1 l1, LList.pop_front h l = .ok (h1, l1) ∧ l1.Invariant h1 ∧
      l1.elements h1 = (l.elements h).tail ∧ l1.AccessAgrees h1) ∧
    (∃ h1 l1, LList.pop_back h l = .ok (h1, l1) ∧ l1.Invariant h1 ∧
      l1.elements h1 = (l.elements h).dropLast ∧ l1.AccessAgrees h1) := by
  obtain ⟨ns, -, hrep⟩ := hinv.rep
  refine ⟨hrep.accessAgrees, ?_, ?_, ?_, ?_⟩
  · obtain ⟨h1, l1, a, hop, hrep1, -⟩ := push_front_spec hrep hs hroom v
    exact ⟨h1, l1, hop, hrep1.invariant, by rw [hrep1.elements_eq, hrep.elements_eq]; rfl,
      hrep1.accessAgrees⟩
  · obtain ⟨h1, l1, a, hop, hrep1, -⟩ := push_back_spec hrep hs hroom v
    exact ⟨h1, l1, hop, hrep1.invariant, by rw [hrep1.elements_eq, hrep.elements_eq]; simp,
      hrep1.accessAgrees⟩
  · obtain ⟨h1, l1, hop, hrep1, -⟩ := pop_front_spec hrep hs
    exact ⟨h1, l1, hop, hrep1.invariant, by rw [hrep1.elements_eq, hrep.elements_eq]; simp,
      hrep1.accessAgrees⟩
  · obtain ⟨h1, l1, hop, hrep1, -⟩ := pop_back_spec hrep hs
    refine ⟨h1, l1, hop, hrep1.invariant, ?_, hrep1.accessAgrees⟩
    rw [hrep1.elements_eq, hrep.elements_eq]
    simp [List.dropLast_eq_take]

/-- Witness of C2: the one-element list `[5]` and the value `7`. -/
theorem C2_list_refines_sequence_witness :
    sampleList.Invariant sampleHeap ∧ sampleHeap.Sized ∧ 0 < sampleHeap.room ∧
    ∃ h1 l1, LList.push_front sampleHeap sampleList 7 = .ok (h1, l1) ∧ l1.Invariant h1 ∧
      l1.elements h1 = 7 :: sampleList.elements sampleHeap ∧ l1.AccessAgrees h1 :=
  have hrep : ListRep sampleHeap sampleList [(0, 5)] :=
    ⟨⟨rfl, trivial⟩, by simp, rfl, rfl, rfl⟩
  have hs : sampleHeap.Sized := by simp [Heap.Sized, maxNodes, sampleHeap]
  have hroom : 0 < sampleHeap.room := by simp [Heap.room, maxNodes, sampleHeap]
  ⟨hrep.invariant, hs, hroom, (C2_list_refines_sequence hrep.invariant hs hroom 7).2.1⟩

/-- C3: the LIFO law of the stack.  When the values `v1, ..., vn` are pushed on an empty stack,
`n` rounds of `top()` followed by `pop()` observe `vn, ..., v1` in that order, and the stack is
empty afterwards (`empty()` holds and `size()` is `0`). -/
theorem C3_stack_lifo {T : Type} (h : Heap T) (hs : h.Sized) (vs : List T)
    (hroom : vs.length ≤ h.room) :
    ∃ h1 s1 h2 s2, Stack.pushAll h Stack.mk0 vs = .ok (h1, s1) ∧ Stack.size s1 = vs.length ∧
      Stack.drain h1 s1 vs.length = .ok (vs.reverse, h2, s2) ∧
      Stack.empty s2 = true ∧ Stack.size s2 = 0 := by
  obtain ⟨h1, s1, ns1, hpush, hrep1, hvals, hs1⟩ :=
    pushAll_spec (ListRep.mk0 h) hs vs hroom
  simp only [List.map_nil, List.nil_append] at hvals
  have hlen : ns1.length = vs.length := by rw [← hvals, List.length_map]
  obtain ⟨h2, s2, hdrain, hrep2⟩ := drain_spec hrep1 hs1
  rw [hvals, hlen] at hdrain
  refine ⟨h1, s1, h2, s2, hpush, ?_, hdrain, ?_, ?_⟩
  · rw [Stack.size, LList.size, hrep1.count_eq, hlen]
  · exact hrep2.empty_iff.mpr rfl
  · rw [Stack.size, LList.size, hrep2.count_eq]; rfl

/-- Witness of C3: the values `1, 2, 3` pushed on an empty stack of the empty heap. -/
theorem C3_stack_lifo_witness :
    (Heap.init : Heap Nat).Sized ∧ [1, 2, 3].length ≤ (Heap.init : Heap Nat).room ∧
    ∃ h1 s1 h2 s2, Stack.pushAll (Heap.init : Heap Nat) Stack.mk0 [1, 2, 3] = .ok (h1, s1) ∧
      Stack.size s1 = [1, 2, 3].length ∧
      Stack.drain h1 s1 [1, 2, 3].length = .ok ([1, 2, 3].reverse, h2, s2) ∧
      Stack.empty s2 = true ∧ Stack.size s2 = 0 :=
  have hs : (Heap.init : Heap Nat).Sized := by simp [Heap.Sized, Heap.init]
  have hroom : [1, 2, 3].length ≤ (Heap.init : Heap Nat).room := by
    simp [Heap.room, Heap.init, maxNodes]
  ⟨hs, hroom, C3_stack_lifo Heap.init hs [1, 2, 3] hroom⟩

/-- C4: for every well-formed infix expression (a whitespace-separated token sequence parsed
with `* / %` binding tighter than `+ -` and equal precedences associating to the left),
`infix2postfix` returns exactly the post-order rendering of the expression tree, every token
followed by one space and no parenthesis; in particular `2 + 3 * 4` gives `2 3 4 * + ` and
`( 2 + 3 ) * 4` gives `2 3 + 4 * `. -/
theorem C4_infix2postfix_is_postorder :
    (∀ (toks : List Token) (e : Expr), Parse 0 toks e → ∀ (src : List Char), Spaced toks src →
      ∀ (h : Heap Char), h.Sized → src.length + 1 ≤ h.room →
        infix2postfix h src = .ok e.rpn) ∧
    infix2postfix Heap.init "2 + 3 * 4".toList = .ok "2 3 4 * + ".toList ∧
    infix2postfix Heap.init "( 2 + 3 ) * 4".toList = .ok "2 3 + 4 * ".toList := by
  refine ⟨?_, rfl, rfl⟩
  intro toks e hp src hsp h hs hroom
  rw [infix2postfix_eq_model h hs src hroom]
  exact infix2postfix_model_correct hp hsp

/-- Witness of C4: the expression `2 + 3 * 4`, its tokens and its tree. -/
theorem C4_infix2postfix_is_postorder_witness :
    Parse 0 sampleTokens sampleExpr ∧ Spaced sampleTokens "2 + 3 * 4".toList ∧
    (Heap.init : Heap Char).Sized ∧
    "2 + 3 * 4".toList.length + 1 ≤ (Heap.init : Heap Char).room ∧
    infix2postfix Heap.init "2 + 3 * 4".toList = .ok sampleExpr.rpn ∧
    sampleExpr.rpn = "2 3 4 * + ".toList :=
  have hwf : ∀ c : Char, isdigit c = true → (⟨false, [c]⟩ : Literal).WF :=
    fun c hc => ⟨by simp, by simpa using hc⟩
  have hp : Parse 0 sampleTokens sampleExpr :=
    Parse.add [.lit lit2] [.lit lit3, .op .mul, .lit lit4] _ _ .add rfl
      (Parse.term _ _ (Parse.factor _ _ (Parse.lit lit2 (hwf '2' (by decide)))))
      (Parse.mul [.lit lit3] [.lit lit4] _ _ .mul rfl
        (Parse.factor _ _ (Parse.lit lit3 (hwf '3' (by decide))))
        (Parse.lit lit4 (hwf '4' (by decide))))
  have hsp : Spaced sampleTokens "2 + 3 * 4".toList :=
    ⟨[], " + 3 * 4".toList, by simp, rfl, by simp; decide,
      [' '], " 3 * 4".toList, by simp; decide, rfl, by simp; decide,
      [' '], " * 4".toList, by simp; decide, rfl, by simp; decide,
      [' '], " 4".toList, by simp; decide, rfl, by simp; decide,
      [' '], [], by simp; decide, rfl, by simp, fun c hc => by cases hc⟩
  have hs : (Heap.init : Heap Char).Sized := by simp [Heap.Sized, Heap.init]
  have hroom : "2 + 3 * 4".toList.length + 1 ≤ (Heap.init : Heap Char).room := by
    simp [Heap.room, Heap.init, maxNodes]
  ⟨hp, hsp, hs, hroom,
    C4_infix2postfix_is_postorder.1 sampleTokens sampleExpr hp _ hsp Heap.init hs hroom, rfl⟩

/-- C5: for every expression tree over integer literals that fit a 32-bit `int`, in which no
division or remainder has a zero right operand and no intermediate result overflows,
`eval_postfix` applied to the post-order rendering of the tree returns the value of the tree,
every operator node computing left operand, operator, right operand with the operand pushed
earlier on the left.  In particular the postfix form of `-500 + 400` evaluates to `-100`. -/
theorem C5_eval_postfix_is_value :
    (∀ (e : Expr), e.Safe → ∀ (h : Heap Int), h.Sized → e.rpn.length + 1 ≤ h.room →
      eval_postfix h e.rpn = .ok e.value) ∧
    ∃ p, infix2postfix Heap.init "-500 + 400".toList = .ok p ∧
      eval_postfix Heap.init p = .ok (-100) := by
  refine ⟨?_, "-500 400 + ".toList, rfl, rfl⟩
  intro e hsafe h hs hroom
  rw [eval_postfix_eq_model h hs e.rpn hroom]
  exact eval_postfix_model_correct e hsafe

/-- Witness of C5: the tree of `-500 + 400`. -/
theorem C5_eval_postfix_is_value_witness :
    sampleSum.Safe ∧ (Heap.init : Heap Int).Sized ∧
    sampleSum.rpn.length + 1 ≤ (Heap.init : Heap Int).room ∧
    eval_postfix Heap.init sampleSum.rpn = .ok sampleSum.value ∧
    sampleSum.rpn = "-500 400 + ".toList ∧ sampleSum.value = -100 :=
  have hsafe : sampleSum.Safe := by
    refine ⟨⟨⟨by simp, ?_⟩, ?_⟩, ⟨⟨by simp, ?_⟩, ?_⟩, ?_⟩
    · intro c hc
      simp only [List.mem_cons, List.mem_singleton, List.not_mem_nil, or_false] at hc
      rcases hc with rfl | rfl | rfl <;> decide
    · simp [FitsInt, Literal.value, INT_MIN, INT_MAX, Nat.ofDigits]
    · intro c hc
      simp only [List.mem_cons, List.mem_singleton, List.not_mem_nil, or_false] at hc
      rcases hc with rfl | rfl | rfl <;> decide
    · simp [FitsInt, Literal.value, INT_MIN, INT_MAX, Nat.ofDigits]
    · simp [FitsInt, Expr.value, Literal.value, INT_MIN, INT_MAX, Nat.ofDigits]
  have hs : (Heap.init : Heap Int).Sized := by simp [Heap.Sized, Heap.init]
  have hroom : sampleSum.rpn.length + 1 ≤ (Heap.init : Heap Int).room := by
    simp [Heap.room, Heap.init, maxNodes, sampleSum, Expr.rpn, Literal.chars]
  ⟨hsafe, hs, hroom, C5_eval_postfix_is_value.1 sampleSum hsafe Heap.init hs hroom, rfl,
    by simp [sampleSum, Expr.value, Literal.value, Nat.ofDigits]⟩

/-- C6, as stated, fails: the example formula converts and evaluates, but not to `-500`. -/
theorem C6_example_formula_counterexample :
    ¬ ∃ p, infix2postfix Heap.init exampleFormula = .ok p ∧
      eval_postfix Heap.init p = .ok (-500) := by
  rintro ⟨p, hp, hv⟩
  have h1 : infix2postfix Heap.init exampleFormula = .ok examplePostfix := rfl
  rw [h1] at hp
  simp only [Except.ok.injEq] at hp
  subst hp
  have h2 : eval_postfix Heap.init examplePostfix = .ok (-50000) := rfl
  rw [h2] at hv
  simp at hv

/-- C6, amended: converting the example formula with `infix2postfix` gives
`-500 400 + -300 200 - * -100 0 100 + / / `, and evaluating that with `eval_postfix` returns
`-50000`: the product `( -500 + 400 ) * ( -300 - 200 )` is `50000` and the divisor
`-100 / ( 0 + 100 )` is `-1`. -/
theorem C6_example_formula_value (h1 : Heap Char) (hs1 : h1.Sized)
    (hroom1 : exampleFormula.length + 1 ≤ h1.room) (h2 : Heap Int) (hs2 : h2.Sized)
    (hroom2 : examplePostfix.length + 1 ≤ h2.room) :
    infix2postfix h1 exampleFormula = .ok examplePostfix ∧
      eval_postfix h2 examplePostfix = .ok (-50000) := by
  rw [infix2postfix_eq_model h1 hs1 _ hroom1, eval_postfix_eq_model h2 hs2 _ hroom2]
  exact ⟨rfl, rfl⟩

/-- Witness of C6 (amended): both stacks on empty heaps. -/
theorem C6_example_formula_value_witness :
    (Heap.init : Heap Char).Sized ∧ exampleFormula.length + 1 ≤ (Heap.init : Heap Char).room ∧
    (Heap.init : Heap Int).Sized ∧ examplePostfix.length + 1 ≤ (Heap.init : Heap Int).room ∧
    infix2postfix Heap.init exampleFormula = .ok examplePostfix ∧
      eval_postfix Heap.init examplePostfix = .ok (-50000) :=
  have hs1 : (Heap.init : Heap Char).Sized := by simp [Heap.Sized, Heap.init]
  have hs2 : (Heap.init : Heap Int).Sized := by simp [Heap.Sized, Heap.init]
  have hroom1 : exampleFormula.length + 1 ≤ (Heap.init : Heap Char).room := by
    simp [Heap.room, Heap.init, maxNodes, exampleFormula]
  have hroom2 : examplePostfix.length + 1 ≤ (Heap.init : Heap Int).room := by
    simp [Heap.room, Heap.init, maxNodes, examplePostfix]
  ⟨hs1, hroom1, hs2, hroom2,
    C6_example_formula_value Heap.init hs1 hroom1 Heap.init hs2 hroom2⟩

/-- C7, as stated, fails: after `pop_back()` then `push_back(1)` on an empty list there was one
push and one pop, yet `size()` is `1`. -/
theorem C7_size_is_pushes_minus_pops_counterexample :
    ¬ ∀ (ops : List (EndOp Nat)) (h1 : Heap Nat) (l1 : LList Nat),
      EndOp.run Heap.init LList.mk0 ops = .ok (h1, l1) →
        (l1.size : Int) = (EndOp.pushes ops : Int) - (EndOp.pops ops : Int) := by
  intro hall
  have h1 := hall [.pop_back, .push_back 1] ⟨[some ⟨1, none, none⟩]⟩ ⟨some 0, some 0, 1⟩ rfl
  simp [LList.size, EndOp.pushes, EndOp.pops, EndOp.isPush] at h1

/-- C7, amended: for every sequence of `push_front`, `push_back`, `pop_front` and `pop_back`
applied to an initially empty list, the sequence runs to its end and `size()` afterwards is the
number of pushes minus the number of pops that met a non-empty list; a pop that meets an empty
list removes nothing and is not counted. -/
theorem C7_size_is_pushes_minus_effective_pops {T : Type} (h : Heap T) (hs : h.Sized)
    (ops : List (EndOp T)) (hroom : EndOp.pushes ops ≤ h.room) :
    ∃ h1 l1, EndOp.run h LList.mk0 ops = .ok (h1, l1) ∧
      l1.size + EndOp.effectivePops 0 ops = EndOp.pushes ops ∧
      EndOp.effectivePops 0 ops ≤ EndOp.pops ops := by
  obtain ⟨h1, l1, ns1, hrun, hrep1, hcnt⟩ := endOp_run_spec (ListRep.mk0 h) hs ops hroom
  refine ⟨h1, l1, hrun, ?_, effectivePops_le ops⟩
  rw [LList.size, hrep1.count_eq]
  simpa using hcnt

/-- Witness of C7 (amended): a sequence whose first pop meets the empty list. -/
theorem C7_size_is_pushes_minus_effective_pops_witness :
    (Heap.init : Heap Nat).Sized ∧
    EndOp.pushes [EndOp.pop_back, .push_back 1, .push_front 2, .pop_front] ≤
      (Heap.init : Heap Nat).room ∧
    ∃ h1 l1, EndOp.run (Heap.init : Heap Nat) LList.mk0
        [.pop_back, .push_back 1, .push_front 2, .pop_front] = .ok (h1, l1) ∧
      l1.size + EndOp.effectivePops 0 [EndOp.pop_back, .push_back 1, .push_front 2, .pop_front] =
        EndOp.pushes [EndOp.pop_back, .push_back 1, .push_front 2, .pop_front] ∧
      EndOp.effectivePops 0 [EndOp.pop_back, .push_back 1, .push_front 2, .pop_front] ≤
        EndOp.pops [EndOp.pop_back, .push_back 1, .push_front 2, .pop_front] :=
  have hs : (Heap.init : Heap Nat).Sized := by simp [Heap.Sized, Heap.init]
  have hroom : EndOp.pushes [EndOp.pop_back, .push_back 1, .push_front 2, .pop_front] ≤
      (Heap.init : Heap Nat).room := by
    simp [Heap.room, Heap.init, maxNodes, EndOp.pushes, EndOp.isPush]
  ⟨hs, hroom, C7_size_is_pushes_minus_effective_pops Heap.init hs _ hroom⟩

/-- C8: on a list that satisfies the structural invariant, `front()`, `back()` and
`Stack::top()` fail with the out-of-range condition exactly when the container is empty; on a
non-empty container they succeed and return the element of the head node (`front`) or of the
tail node (`back`, `top`).  The accessors are functions of the store: they have no access to
change it. -/
theorem C8_access_fails_iff_empty {T : Type} {h : Heap T} {l : LList T}
    (hinv : l.Invariant h) :
    (LList.front h l = .error .out_of_range ↔ l.empty = true) ∧
    (LList.back h l = .error .out_of_range ↔ l.empty = true) ∧
    (Stack.top h l = .error .out_of_range ↔ Stack.empty l = true) ∧
    (l.empty = false → ∃ a n t m, l.head = some a ∧ h.get a = some n ∧ l.tail = some t ∧
      h.get t = some m ∧ LList.front h l = .ok n.data ∧ LList.back h l = .ok m.data ∧
      Stack.top h l = .ok m.data) := by
  obtain ⟨ns, -, hrep⟩ := hinv.rep
  have hfront : LList.front h l = .error .out_of_range ↔ l.empty = true := by
    rw [front_spec hrep, hrep.empty_iff]
    cases ns with
    | nil => simp
    | cons n rest => simp
  have hback : LList.back h l = .error .out_of_range ↔ l.empty = true := by
    rw [back_spec hrep, hrep.empty_iff]
    rcases eq_nil_or_snoc ns with rfl | ⟨ns0, n, rfl⟩
    · simp
    · simp
  refine ⟨hfront, hback, hback, ?_⟩
  intro hne
  have hnil : ns ≠ [] := by
    intro hc
    rw [hrep.empty_iff.mpr hc] at hne
    cases hne
  obtain ⟨a, n, hhead, hga, -⟩ := hinv.head_prev (by
    rw [hrep.count_eq]; exact List.length_pos.mpr hnil)
  obtain ⟨t, m, htail, hgt, -⟩ := hinv.tail_next (by
    rw [hrep.count_eq]; exact List.length_pos.mpr hnil)
  have hb : LList.back h l = .ok m.data := by
    simp [LList.back, hne, htail, Heap.read_some hgt, bind, Except.bind, pure, Except.pure]
  refine ⟨a, n, t, m, hhead, hga, htail, hgt, ?_, hb, hb⟩
  simp [LList.front, hhead, Heap.read_some hga, bind, Except.bind, pure, Except.pure]

/-- Witness of C8: the one-element list `[5]`. -/
theorem C8_access_fails_iff_empty_witness :
    sampleList.Invariant sampleHeap ∧
    (LList.front sampleHeap sampleList = .error .out_of_range ↔ sampleList.empty = true) ∧
    (LList.back sampleHeap sampleList = .error .out_of_range ↔ sampleList.empty = true) ∧
    (Stack.top sampleHeap sampleList = .error .out_of_range ↔
      Stack.empty sampleList = true) ∧
    (sampleList.empty = false → ∃ a n t m, sampleList.head = some a ∧
      sampleHeap.get a = some n ∧ sampleList.tail = some t ∧ sampleHeap.get t = some m ∧
      LList.front sampleHeap sampleList = .ok n.data ∧
      LList.back sampleHeap sampleList = .ok m.data ∧
      Stack.top sampleHeap sampleList = .ok m.data) :=
  have hrep : ListRep sampleHeap sampleList [(0, 5)] :=
    ⟨⟨rfl, trivial⟩, by simp, rfl, rfl, rfl⟩
  ⟨hrep.invariant, C8_access_fails_iff_empty hrep.invariant⟩

/-- C9: `pop_front()`, `pop_back()` and `Stack::pop()` applied to an empty container succeed
and return the store as it was: `head` and `tail` stay null, `size()` stays `0` and `empty()`
stays true. -/
theorem C9_pop_on_empty_is_noop {T : Type} (h : Heap T) (l : LList T) (hinv : l.Invariant h)
    (hemp : l.empty = true) :
    LList.pop_front h l = .ok (h, l) ∧ LList.pop_back h l = .ok (h, l) ∧
    Stack.pop h l = .ok (h, l) ∧ l.head = none ∧ l.tail = none ∧ l.size = 0 := by
  have hsize : l.size = 0 := hinv.empty_size.mp hemp
  have hhead : l.head = none := hinv.count_head.mp hsize
  have htail : l.tail = none := hinv.head_tail.mp hhead
  have hpb : LList.pop_back h l = .ok (h, l) := by
    simp [LList.pop_back, hemp, pure, Except.pure]
  refine ⟨?_, hpb, hpb, hhead, htail, hsize⟩
  simp [LList.pop_front, hemp, pure, Except.pure]

/-- Witness of C9: the default-constructed list in the sample heap. -/
theorem C9_pop_on_empty_is_noop_witness :
    (LList.mk0 : LList Nat).Invariant sampleHeap ∧ (LList.mk0 : LList Nat).empty = true ∧
    LList.pop_front sampleHeap LList.mk0 = .ok (sampleHeap, LList.mk0) ∧
    LList.pop_back sampleHeap LList.mk0 = .ok (sampleHeap, LList.mk0) ∧
    Stack.pop sampleHeap LList.mk0 = .ok (sampleHeap, LList.mk0) ∧
    (LList.mk0 : LList Nat).head = none ∧ (LList.mk0 : LList Nat).tail = none ∧
    (LList.mk0 : LList Nat).size = 0 :=
  have hinv : (LList.mk0 : LList Nat).Invariant sampleHeap := (ListRep.mk0 sampleHeap).invariant
  ⟨hinv, rfl, C9_pop_on_empty_is_noop sampleHeap LList.mk0 hinv rfl⟩

/-- C10: for a list that satisfies the structural invariant, with elements
`x0, ..., x(n-1)`, and a position referring to the node of `xi` (`i < n`) or equal to `end()`
(`i = n`), `insert(position, v)` yields `x0, ..., x(i-1), v, xi, ..., x(n-1)`, increases
`size()` by exactly one and returns an iterator that dereferences to `v` and whose successor
is `position`; with `end()` the value is appended and the returned iterator refers to the new
tail. -/
theorem C10_insert_before_position {T : Type} {h : Heap T} {l : LList T}
    (hinv : l.Invariant h) (hs : h.Sized) (hroom : 0 < h.room) (i : Nat) (hi : i ≤ l.size)
    (pos : BiDirectionalIterator) (hpos : pos.current = (l.nodes h)[i]?) (v : T) :
    ∃ h1 l1 it, LList.insert h l pos v = .ok (h1, l1, it) ∧ l1.Invariant h1 ∧
      l1.elements h1 = (l.elements h).take i ++ v :: (l.elements h).drop i ∧
      l1.size = l.size + 1 ∧ it.deref h1 = .ok v ∧ it.incr h1 = .ok pos ∧
      (i = l.size → pos = l.end_ ∧ it.current = l1.tail ∧
        l1.elements h1 = l.elements h ++ [v]) := by
  obtain ⟨ns, -, hrep⟩ := hinv.rep
  have hsize : l.size = ns.length := hrep.count_eq
  rw [hsize] at hi ⊢
  have hsplit : ns.take i ++ ns.drop i = ns := List.take_append_drop i ns
  have hpos1 : pos.current = nextPtr (ns.drop i) none := by
    rw [hpos, hrep.nodes_eq, nextPtr_drop]
  have hrep0 := hrep
  rw [← hsplit] at hrep
  obtain ⟨h1, l1, a, hop, hrep1, -, -, -, -⟩ := insert_spec hrep hs hroom v pos hpos1
  obtain ⟨-, hsegpost⟩ := seg_append.mp hrep1.seg
  obtain ⟨hga, -⟩ := seg_cons.mp hsegpost
  have helts : l1.elements h1 = (l.elements h).take i ++ v :: (l.elements h).drop i := by
    rw [hrep1.elements_eq, hrep0.elements_eq]
    simp [List.map_take, List.map_drop]
  refine ⟨h1, l1, ⟨some a⟩, hop, hrep1.invariant, helts, ?_, ?_, ?_, ?_⟩
  · rw [LList.size, hrep1.count_eq]
    simp only [List.length_append, List.length_cons, List.length_take, List.length_drop]
    omega
  · simp [BiDirectionalIterator.deref, Heap.read_some hga, bind, Except.bind, pure,
      Except.pure]
  · obtain ⟨cur⟩ := pos
    simp only at hpos1
    simp [BiDirectionalIterator.incr, Heap.read_some hga, bind, Except.bind, pure,
      Except.pure, hpos1]
  · intro hin
    have hdrop : ns.drop i = [] := by rw [hin]; simp
    refine ⟨?_, ?_, ?_⟩
    · obtain ⟨cur⟩ := pos
      simp only at hpos1
      simp [LList.end_, hpos1, hdrop, nextPtr]
    · rw [hrep1.tail_eq, hdrop, lastPtr_snoc]
    · rw [helts, hrep0.elements_eq, hin]
      have e1 : List.take ns.length (List.map Prod.snd ns) = List.map Prod.snd ns :=
        List.take_of_length_le (by simp)
      have e2 : List.drop ns.length (List.map Prod.snd ns) = [] :=
        List.drop_of_length_le (by simp)
      rw [e1, e2]

/-- Witness of C10: inserting `7` before the only node of the list `[5]`. -/
theorem C10_insert_before_position_witness :
    sampleList.Invariant sampleHeap ∧ sampleHeap.Sized ∧ 0 < sampleHeap.room ∧
    0 ≤ sampleList.size ∧
    (⟨some 0⟩ : BiDirectionalIterator).current = (sampleList.nodes sampleHeap)[0]? ∧
    ∃ h1 l1 it, LList.insert sampleHeap sampleList ⟨some 0⟩ 7 = .ok (h1, l1, it) ∧
      l1.Invariant h1 ∧
      l1.elements h1 =
        (sampleList.elements sampleHeap).take 0 ++ 7 :: (sampleList.elements sampleHeap).drop 0 ∧
      l1.size = sampleList.size + 1 ∧ it.deref h1 = .ok 7 ∧ it.incr h1 = .ok ⟨some 0⟩ ∧
      (0 = sampleList.size → (⟨some 0⟩ : BiDirectionalIterator) = sampleList.end_ ∧
        it.current = l1.tail ∧ l1.elements h1 = sampleList.elements sampleHeap ++ [7]) :=
  have hrep : ListRep sampleHeap sampleList [(0, 5)] :=
    ⟨⟨rfl, trivial⟩, by simp, rfl, rfl, rfl⟩
  have hs : sampleHeap.Sized := by simp [Heap.Sized, maxNodes, sampleHeap]
  have hroom : 0 < sampleHeap.room := by simp [Heap.room, maxNodes, sampleHeap]
  ⟨hrep.invariant, hs, hroom, Nat.zero_le _, rfl,
    C10_insert_before_position hrep.invariant hs hroom 0 (Nat.zero_le _) ⟨some 0⟩ rfl 7⟩

end Claims

section ClaimsB

/-- C11: for a list that satisfies the structural invariant, with elements
`x0, ..., x(n-1)`, and a position referring to the node of `xi` (`i < n`), `erase(position)`
succeeds and yields `x0, ..., x(i-1), x(i+1), ..., x(n-1)`: the walk along `next` from `head`
meets the former nodes without the erased one, the walk along `prev` from `tail` meets them
in reverse order, the former neighbours of the erased node point at each other, `size()` is
decremented by exactly one, and the returned iterator refers to the node of `x(i+1)`, or is
`end()` when `xi` was the tail. -/
theorem C11_erase_at_position {T : Type} {h : Heap T} {l : LList T}
    (hinv : l.Invariant h) (hs : h.Sized) (i : Nat) (hi : i < l.size)
    (pos : BiDirectionalIterator) (hpos : pos.current = (l.nodes h)[i]?) :
    ∃ h1 l1 it, LList.erase h l pos = .ok (h1, l1, it) ∧ l1.Invariant h1 ∧
      l1.elements h1 = (l.elements h).eraseIdx i ∧
      l1.nodes h1 = (l.nodes h).eraseIdx i ∧
      l1.nodesRev h1 = ((l.nodes h).eraseIdx i).reverse ∧
      (∀ p q, 0 < i → (l.nodes h)[i - 1]? = some p → (l.nodes h)[i + 1]? = some q →
        ∃ np nq, h1.get p = some np ∧ np.next = some q ∧
          h1.get q = some nq ∧ nq.prev = some p) ∧
      l1.size + 1 = l.size ∧ it.current = (l.nodes h)[i + 1]? ∧
      (∀ x, (l.elements h)[i + 1]? = some x → it.deref h1 = .ok x) ∧
      (i + 1 = l.size → it = l1.end_) := by
  obtain ⟨ns, hns, hrep⟩ := hinv.rep
  have hsize : l.size = ns.length := hrep.count_eq
  rw [hsize] at hi ⊢
  rw [← hns] at hpos ⊢
  obtain ⟨h1, l1, hop, hrep1, -, -, -, -⟩ := erase_index_spec hrep hs i hi pos hpos
  have hcur : nextPtr (ns.drop (i + 1)) none = (ns.map Prod.fst)[i + 1]? := nextPtr_drop ns _
  refine ⟨h1, l1, _, hop, hrep1.invariant, ?_, ?_, ?_, ?_, ?_, hcur, ?_, ?_⟩
  · rw [hrep1.elements_eq, hrep.elements_eq, map_eraseIdx]
  · rw [hrep1.nodes_eq, map_eraseIdx]
  · rw [hrep1.nodesRev_eq, map_eraseIdx]
  · intro p q hpos0 hp hq
    refine seg_index_adjacent hrep1.seg ?_ ?_ (k := i - 1)
    · rw [map_eraseIdx, List.getElem?_eraseIdx_of_lt _ _ _ (by omega)]
      exact hp
    · rw [map_eraseIdx, List.getElem?_eraseIdx_of_ge _ _ _ (by omega)]
      have e : i - 1 + 1 + 1 = i + 1 := by omega
      rw [e]; exact hq
  · rw [LList.size, hrep1.count_eq, List.length_eraseIdx_of_lt hi]
    omega
  · intro x hx
    rw [hrep.elements_eq, List.getElem?_map] at hx
    cases hd : ns[i + 1]? with
    | none => simp [hd] at hx
    | some m =>
      obtain ⟨b, y⟩ := m
      simp only [hd, Option.map_some', Option.some.injEq] at hx
      subst hx
      have hmem : (b, y) ∈ ns.eraseIdx i := by
        have hidx : (ns.eraseIdx i)[i]? = some (b, y) := by
          rw [List.getElem?_eraseIdx_of_ge _ _ _ (Nat.le_refl i)]; exact hd
        exact List.mem_iff_getElem?.mpr ⟨i, hidx⟩
      obtain ⟨n, hgn, hdata⟩ := seg_mem_data hrep1.seg hmem
      have hc : nextPtr (ns.drop (i + 1)) none = some b := by
        rw [hcur, List.getElem?_map, hd]; rfl
      simp [BiDirectionalIterator.deref, hc, Heap.read_some hgn, bind, Except.bind, pure,
        Except.pure, hdata]
  · intro hin
    have hdrop : ns.drop (i + 1) = [] := by rw [hin]; simp
    simp [LList.end_, hdrop, nextPtr]

/-- Witness of C11: erasing the first node of the two-element list of the sample store. -/
theorem C11_erase_at_position_witness :
    (⟨some 3, some 0, 2⟩ : LList Nat).Invariant sampleWorld.heap ∧ sampleWorld.heap.Sized ∧
    0 < (⟨some 3, some 0, 2⟩ : LList Nat).size ∧
    ∃ h1 l1 it, LList.erase sampleWorld.heap ⟨some 3, some 0, 2⟩ ⟨some 3⟩ = .ok (h1, l1, it) ∧
      l1.elements h1 = ((⟨some 3, some 0, 2⟩ : LList Nat).elements sampleWorld.heap).eraseIdx 0 ∧
      l1.size + 1 = (⟨some 3, some 0, 2⟩ : LList Nat).size :=
  have hrep : ListRep sampleWorld.heap (⟨some 3, some 0, 2⟩ : LList Nat) [(3, 7), (0, 9)] :=
    ⟨⟨rfl, rfl, trivial⟩, by simp, rfl, rfl, rfl⟩
  have hs : sampleWorld.heap.Sized := by simp [Heap.Sized, maxNodes, sampleWorld]
  have hc := C11_erase_at_position hrep.invariant hs 0 (by decide) ⟨some 3⟩ rfl
  ⟨hrep.invariant, hs, by decide, by
    obtain ⟨h1, l1, it, hop, -, hel, -, -, -, hsz, -⟩ := hc
    exact ⟨h1, l1, it, hop, hel, hsz⟩⟩

/-- C12: on every list, empty or not, `erase(end())` fails with the invalid-argument
condition, which is not the out-of-range condition of `front()` and `back()`; the failure is
raised before any update, so that no store results from the call and `head`, `tail`, `count`
and the nodes are those of before.  On a list that satisfies the structural invariant,
`erase` succeeds at every position that refers to a node of the list. -/
theorem C12_erase_end_invalid_argument {T : Type} (h : Heap T) (l : LList T) :
    LList.erase h l l.end_ = .error .invalid_argument ∧
    LList.erase h l l.end_ ≠ .error .out_of_range ∧
    (l.Invariant h → h.Sized → ∀ a ∈ l.nodes h, ∃ r, LList.erase h l ⟨some a⟩ = .ok r) := by
  have hend : LList.erase h l l.end_ = .error .invalid_argument := by
    unfold LList.erase
    rw [if_pos rfl]
  refine ⟨hend, ?_, ?_⟩
  · rw [hend]
    intro hc
    cases hc
  · intro hinv hs a ha
    obtain ⟨ns, hns, hrep⟩ := hinv.rep
    rw [← hns] at ha
    obtain ⟨i, hi, hget⟩ := List.getElem_of_mem ha
    have hi1 : i < ns.length := by simpa using hi
    obtain ⟨h1, l1, hop, -⟩ := erase_index_spec hrep hs i hi1 ⟨some a⟩ (by
      rw [List.getElem?_eq_getElem hi, hget])
    exact ⟨_, hop⟩

/-- Witness of C12: the one-element list `[5]` and its only node. -/
theorem C12_erase_end_invalid_argument_witness :
    sampleList.Invariant sampleHeap ∧ sampleHeap.Sized ∧ 0 ∈ sampleList.nodes sampleHeap ∧
    LList.erase sampleHeap sampleList sampleList.end_ = .error .invalid_argument ∧
    ∃ r, LList.erase sampleHeap sampleList ⟨some 0⟩ = .ok r :=
  have hrep : ListRep sampleHeap sampleList [(0, 5)] :=
    ⟨⟨rfl, trivial⟩, by simp, rfl, rfl, rfl⟩
  have hs : sampleHeap.Sized := by simp [Heap.Sized, maxNodes, sampleHeap]
  have hmem : 0 ∈ sampleList.nodes sampleHeap := by rw [hrep.nodes_eq]; simp
  ⟨hrep.invariant, hs, hmem, (C12_erase_end_invalid_argument sampleHeap sampleList).1,
    (C12_erase_end_invalid_argument sampleHeap sampleList).2.2 hrep.invariant hs 0 hmem⟩

/-- C13: on every list that satisfies the structural invariant, `insert(end(), v)` leaves
the store that `push_back(v)` leaves and `insert(begin(), v)` the store that `push_front(v)`
leaves (the same heap and the same `head`, `tail` and `count`, hence the same sequence and
size), also on the empty list, where `begin() == end()`; when the heap has room the calls
succeed, with `v` appended, respectively put in front. -/
theorem C13_insert_at_ends_is_push {T : Type} {h : Heap T} {l : LList T}
    (hinv : l.Invariant h) (v : T) :
    (LList.insert h l l.end_ v).map (fun r => (r.1, r.2.1)) = LList.push_back h l v ∧
    (LList.insert h l l.begin_ v).map (fun r => (r.1, r.2.1)) = LList.push_front h l v ∧
    (l.empty = true → l.begin_ = l.end_) ∧
    (h.Sized → 0 < h.room →
      (∃ h1 l1 it, LList.insert h l l.end_ v = .ok (h1, l1, it) ∧
        LList.push_back h l v = .ok (h1, l1) ∧ l1.elements h1 = l.elements h ++ [v] ∧
        l1.size = l.size + 1) ∧
      (∃ h1 l1 it, LList.insert h l l.begin_ v = .ok (h1, l1, it) ∧
        LList.push_front h l v = .ok (h1, l1) ∧ l1.elements h1 = v :: l.elements h ∧
        l1.size = l.size + 1)) := by
  have hback := insert_end_eq h l v
  have hfront := insert_begin_eq hinv v
  refine ⟨hback, hfront, ?_, ?_⟩
  · intro hemp
    have hcur : l.begin_.current = l.end_.current := by simpa [LList.empty] using hemp
    cases hb : l.begin_ with
    | mk c =>
      cases he : l.end_ with
      | mk d =>
        rw [hb, he] at hcur
        simp only at hcur
        rw [hcur]
  · intro hs hroom
    obtain ⟨ns, -, hrep⟩ := hinv.rep
    constructor
    · obtain ⟨h1, l1, a, hop, hrep1, -⟩ := push_back_spec hrep hs hroom v
      rw [hop] at hback
      cases hins : LList.insert h l l.end_ v with
      | error e => rw [hins] at hback; cases hback
      | ok r =>
        obtain ⟨h2, l2, it⟩ := r
        rw [hins] at hback
        simp only [Except.map, Except.ok.injEq, Prod.mk.injEq] at hback
        obtain ⟨rfl, rfl⟩ := hback
        refine ⟨h2, l2, it, rfl, hop, ?_, ?_⟩
        · rw [hrep1.elements_eq, hrep.elements_eq]; simp
        · rw [LList.size, LList.size, hrep1.count_eq, hrep.count_eq]; simp
    · obtain ⟨h1, l1, a, hop, hrep1, -⟩ := push_front_spec hrep hs hroom v
      rw [hop] at hfront
      cases hins : LList.insert h l l.begin_ v with
      | error e => rw [hins] at hfront; cases hfront
      | ok r =>
        obtain ⟨h2, l2, it⟩ := r
        rw [hins] at hfront
        simp only [Except.map, Except.ok.injEq, Prod.mk.injEq] at hfront
        obtain ⟨rfl, rfl⟩ := hfront
        refine ⟨h2, l2, it, rfl, hop, ?_, ?_⟩
        · rw [hrep1.elements_eq, hrep.elements_eq]; rfl
        · rw [LList.size, LList.size, hrep1.count_eq, hrep.count_eq]; simp

/-- Witness of C13: the one-element list `[5]` and the value `7`. -/
theorem C13_insert_at_ends_is_push_witness :
    sampleList.Invariant sampleHeap ∧
    (LList.insert sampleHeap sampleList sampleList.end_ 7).map (fun r => (r.1, r.2.1)) =
      LList.push_back sampleHeap sampleList 7 ∧
    (LList.insert sampleHeap sampleList sampleList.begin_ 7).map (fun r => (r.1, r.2.1)) =
      LList.push_front sampleHeap sampleList 7 ∧
    LList.push_front sampleHeap sampleList 7 =
      .ok (⟨[some ⟨5, some 1, none⟩, some ⟨7, none, some 0⟩]⟩, ⟨some 1, some 0, 2⟩) :=
  have hrep : ListRep sampleHeap sampleList [(0, 5)] :=
    ⟨⟨rfl, trivial⟩, by simp, rfl, rfl, rfl⟩
  ⟨hrep.invariant, (C13_insert_at_ends_is_push hrep.invariant 7).1,
    (C13_insert_at_ends_is_push hrep.invariant 7).2.1, rfl⟩

/-- C15: move-constructing a list or a stack from a source that satisfies the structural
invariant, with elements `xs`, leaves the source in the valid empty state (`head` and `tail`
null, `size()` zero, `empty()` true, no element) and gives the destination exactly `xs` in
the same order, with `size()` equal to the length of `xs`; the heap is not touched. -/
theorem C15_move_leaves_source_empty {T : Type} {h : Heap T} {l : LList T}
    (hinv : l.Invariant h) :
    (LList.move l).2.head = none ∧ (LList.move l).2.tail = none ∧
    (LList.move l).2.size = 0 ∧ (LList.move l).2.empty = true ∧
    (LList.move l).2.elements h = [] ∧ (LList.move l).2.Invariant h ∧
    (LList.move l).1.elements h = l.elements h ∧
    (LList.move l).1.size = (l.elements h).length ∧ (LList.move l).1.Invariant h ∧
    Stack.move h l = .ok (h, (LList.move l).1, (LList.move l).2) := by
  obtain ⟨ns, -, hrep⟩ := hinv.rep
  have hsrc : (LList.move l).2 = LList.mk0 := rfl
  have hdst : (LList.move l).1 = l := rfl
  rw [hsrc, hdst]
  refine ⟨rfl, rfl, rfl, rfl, elements_mk0 h, (ListRep.mk0 h).invariant, rfl, ?_, hinv, ?_⟩
  · rw [LList.size, hrep.count_eq, hrep.elements_eq, List.length_map]
  · have hclear : LList.clear h (LList.move l).2 = .ok (h, LList.mk0) := clear_mk0 h
    simp only [Stack.move, hclear, bind, Except.bind, pure, Except.pure]
    rfl

/-- Witness of C15: moving the one-element list `[5]`. -/
theorem C15_move_leaves_source_empty_witness :
    sampleList.Invariant sampleHeap ∧
    (LList.move sampleList).2.size = 0 ∧ (LList.move sampleList).2.empty = true ∧
    (LList.move sampleList).1.elements sampleHeap = [5] ∧
    Stack.move sampleHeap sampleList = .ok (sampleHeap, sampleList, LList.mk0) :=
  have hrep : ListRep sampleHeap sampleList [(0, 5)] :=
    ⟨⟨rfl, trivial⟩, by simp, rfl, rfl, rfl⟩
  have hc := C15_move_leaves_source_empty hrep.invariant
  ⟨hrep.invariant, hc.2.2.1, hc.2.2.2.1, rfl, rfl⟩

/-- C16: for all lists or stacks `a` and `b`, `a.swap(b)` exchanges their contents: `a`
holds the former sequence and size of `b`, and `b` those of `a`, whatever their sizes;
swapping twice restores both, and each keeps the structural invariant of the other.  In a
store with several lists the statement exchanges the two records, keeps the heap, restores
the store when made twice, and keeps the store consistent. -/
theorem C16_swap_exchanges_contents {T : Type} (h : Heap T) (a b : LList T) :
    LList.swap a b = (b, a) ∧ Stack.swap a b = (b, a) ∧
    (LList.swap a b).1.elements h = b.elements h ∧ (LList.swap a b).1.size = b.size ∧
    (LList.swap a b).2.elements h = a.elements h ∧ (LList.swap a b).2.size = a.size ∧
    LList.swap (LList.swap a b).1 (LList.swap a b).2 = (a, b) ∧
    (a.Invariant h → (LList.swap a b).2.Invariant h) ∧
    (b.Invariant h → (LList.swap a b).1.Invariant h) ∧
    (∀ (w : World T) (i j : Nat), w.lists[i]? = some a → w.lists[j]? = some b →
      ∃ w1, w.step (.swap i j) = .ok w1 ∧ w1.heap = w.heap ∧ w1.lists[i]? = some b ∧
        w1.lists[j]? = some a ∧ w1.step (.swap i j) = .ok w ∧ (w.Good → w1.Good)) := by
  refine ⟨rfl, rfl, rfl, rfl, rfl, rfl, rfl, fun ha => ha, fun hb => hb, ?_⟩
  intro w i j hi hj
  obtain ⟨h1, h2, h3, h4⟩ := World.swap_step_spec hi hj
  exact ⟨_, h1, rfl, h2, h3, h4, fun hg => World.step_good hg h1⟩

/-- Witness of C16: swapping the one-element list `[5]` with the empty list, and the two
lists of the store with the lists `[1]` and `[2]`. -/
theorem C16_swap_exchanges_contents_witness :
    sampleList.Invariant sampleHeap ∧
    LList.swap sampleList (LList.mk0 : LList Nat) = (LList.mk0, sampleList) ∧
    (LList.swap sampleList (LList.mk0 : LList Nat)).1.elements sampleHeap = [] ∧
    (LList.swap sampleList (LList.mk0 : LList Nat)).2.elements sampleHeap = [5] ∧
    (LList.swap sampleList (LList.mk0 : LList Nat)).2.Invariant sampleHeap ∧
    twoLists.lists[0]? = some ⟨some 0, some 0, 1⟩ ∧
    twoLists.lists[1]? = some ⟨some 1, some 1, 1⟩ ∧
    ∃ w1, twoLists.step (.swap 0 1) = .ok w1 ∧ w1.heap = twoLists.heap ∧
      w1.lists[0]? = some ⟨some 1, some 1, 1⟩ ∧ w1.lists[1]? = some ⟨some 0, some 0, 1⟩ ∧
      w1.step (.swap 0 1) = .ok twoLists ∧ (twoLists.Good → w1.Good) :=
  have hrep : ListRep sampleHeap sampleList [(0, 5)] :=
    ⟨⟨rfl, trivial⟩, by simp, rfl, rfl, rfl⟩
  have hc := C16_swap_exchanges_contents sampleHeap sampleList (LList.mk0 : LList Nat)
  ⟨hrep.invariant, hc.1, rfl, rfl, hc.2.2.2.2.2.2.2.1 hrep.invariant, rfl, rfl,
    (C16_swap_exchanges_contents twoLists.heap ⟨some 0, some 0, 1⟩
      ⟨some 1, some 1, 1⟩).2.2.2.2.2.2.2.2.2 twoLists 0 1 rfl rfl⟩

/-- C18: on every list that satisfies the structural invariant, `clear()` returns: it makes
exactly `size()` head removals, each on a list that is not empty, and leaves the empty state
(`head` and `tail` null, `size()` zero, `empty()` true) with every former node released.
The list can be used again: a following `push_back(v)` gives the one-element list `[v]`
(the heap has room for it as soon as it had before, or a node was released). -/
theorem C18_clear_terminates_empty {T : Type} {h : Heap T} {l : LList T}
    (hinv : l.Invariant h) (hs : h.Sized) :
    ∃ h1 l1, LList.clear h l = .ok (h1, l1) ∧
      LList.popFrontN l.size h l = .ok (h1, l1) ∧
      (∀ k, k < l.size → ∃ hk lk, LList.popFrontN k h l = .ok (hk, lk) ∧
        lk.empty = false ∧ lk.size = l.size - k) ∧
      l1.head = none ∧ l1.tail = none ∧ l1.size = 0 ∧ l1.empty = true ∧
      l1.elements h1 = [] ∧ l1.Invariant h1 ∧
      (∀ a ∈ l.nodes h, h1.get a = none) ∧
      (∀ v, 0 < h.room + l.size → ∃ h2 l2, LList.push_back h1 l1 v = .ok (h2, l2) ∧
        l2.elements h2 = [v] ∧ l2.size = 1 ∧ l2.Invariant h2) := by
  obtain ⟨ns, hns, hrep⟩ := hinv.rep
  have hsize : l.size = ns.length := hrep.count_eq
  obtain ⟨h1, hclear, hrep1, -, hs1, hroom1, hdead⟩ := clear_spec hrep hs
  have heq : LList.clear h l = LList.popFrontN ns.length h l :=
    clearLoop_eq_popFrontN hrep hs (seg_length_le hrep.seg hrep.nodup)
  refine ⟨h1, LList.mk0, hclear, ?_, ?_, rfl, rfl, rfl, rfl, elements_mk0 h1,
    hrep1.invariant, ?_, ?_⟩
  · rw [hsize, ← heq, hclear]
  · intro k hk
    rw [hsize] at hk ⊢
    obtain ⟨hk1, lk, hrun, hrepk, -⟩ := popFrontN_spec hrep hs (Nat.le_of_lt hk)
    refine ⟨hk1, lk, hrun, ?_, ?_⟩
    · rw [Bool.eq_false_iff]
      intro hc
      have hnil := hrepk.empty_iff.mp hc
      have hlen := congrArg List.length hnil
      simp only [List.length_drop, List.length_nil] at hlen
      omega
    · rw [LList.size, hrepk.count_eq, List.length_drop]
  · intro a ha
    rw [← hns] at ha
    exact hdead a ha
  · intro v hpos
    have hroom : 0 < h1.room := by
      cases hnil : ns with
      | nil =>
        rw [hsize, hnil] at hpos
        simp only [List.length_nil, Nat.add_zero] at hpos
        omega
      | cons n rest =>
        exact clear_room_pos hrep hs (by rw [hnil]; simp) hclear
    obtain ⟨h2, l2, a, hop, hrep2, -⟩ := push_back_spec hrep1 hs1 hroom v
    refine ⟨h2, l2, hop, ?_, ?_, hrep2.invariant⟩
    · rw [hrep2.elements_eq]; rfl
    · rw [LList.size, hrep2.count_eq]; rfl

/-- Witness of C18: clearing the two-element list of the sample store. -/
theorem C18_clear_terminates_empty_witness :
    (⟨some 3, some 0, 2⟩ : LList Nat).Invariant sampleWorld.heap ∧ sampleWorld.heap.Sized ∧
    ∃ h1 l1, LList.clear sampleWorld.heap ⟨some 3, some 0, 2⟩ = .ok (h1, l1) ∧
      LList.popFrontN 2 sampleWorld.heap ⟨some 3, some 0, 2⟩ = .ok (h1, l1) ∧
      l1.size = 0 ∧ l1.empty = true :=
  have hrep : ListRep sampleWorld.heap (⟨some 3, some 0, 2⟩ : LList Nat) [(3, 7), (0, 9)] :=
    ⟨⟨rfl, rfl, trivial⟩, by simp, rfl, rfl, rfl⟩
  have hs : sampleWorld.heap.Sized := by simp [Heap.Sized, maxNodes, sampleWorld]
  ⟨hrep.invariant, hs, by
    obtain ⟨h1, l1, hc, hp, -, -, -, hsz, hemp, -⟩ :=
      C18_clear_terminates_empty hrep.invariant hs
    exact ⟨h1, l1, hc, hp, hsz, hemp⟩⟩

/-- C14: in a consistent store, copy-constructing a list or a stack from the list `L` (when
the heap has room for `size()` nodes) yields a new container with the same elements in the
same order and the same size, on nodes of its own: no node is shared with `L`, any later
program that does not modify `L` (pushes, pops, `clear`, insertions and erasures at positions
of the copy itself) leaves the record and the sequence of `L` unchanged, and any later
program that does not modify the copy leaves the record and the sequence of the copy
unchanged. -/
theorem C14_copy_is_independent {T : Type} (w : World T) (hw : w.Good) (i : Nat)
    (l : LList T) (hl : w.lists[i]? = some l) (hroom : l.size ≤ w.heap.room) :
    ∃ w1 c, w.copy_construct i = .ok w1 ∧ w1.lists = w.lists ++ [c] ∧ w1.Good ∧
      Stack.copy w.heap l = .ok (w1.heap, c) ∧
      c.elements w1.heap = l.elements w.heap ∧ c.size = l.size ∧
      l.elements w1.heap = l.elements w.heap ∧
      (∀ a, a ∈ c.nodes w1.heap → a ∉ l.nodes w1.heap) ∧
      (∀ ops w2, (∀ op ∈ ops, op.mutates i = false) → w1.run ops = .ok w2 →
        w2.lists[i]? = some l ∧ l.elements w2.heap = l.elements w.heap) ∧
      (∀ ops w2, (∀ op ∈ ops, op.mutates w.lists.length = false) → w1.run ops = .ok w2 →
        w2.lists[w.lists.length]? = some c ∧ c.elements w2.heap = c.elements w1.heap) := by
  obtain ⟨g, hgw⟩ := hw
  obtain ⟨h1, c, ms, hcopy, hcc, hgw1, hvals, hsize, -⟩ :=
    World.copy_construct_goodWith hgw hl hroom
  have hilt : i < w.lists.length := by
    by_contra hlt
    rw [List.getElem?_eq_none (by omega)] at hl
    cases hl
  have hne : i ≠ w.lists.length := by omega
  have hlc : (World.mk h1 (w.lists ++ [c])).lists[w.lists.length]? = some c := by simp
  have hli : (World.mk h1 (w.lists ++ [c])).lists[i]? = some l := by
    simp only [List.getElem?_append_left hilt]
    exact hl
  have hec : c.elements h1 = l.elements w.heap := by
    have e1 := hgw1.elements hlc
    rw [Function.update_same] at e1
    exact e1.trans (hvals.trans (hgw.elements hl).symm)
  have hel : l.elements h1 = l.elements w.heap := by
    have e1 := hgw1.elements hli
    rw [Function.update_noteq hne] at e1
    exact e1.trans (hgw.elements hl).symm
  refine ⟨⟨h1, w.lists ++ [c]⟩, c, hcc, rfl, ⟨_, hgw1⟩, hcopy, hec, hsize, hel, ?_, ?_, ?_⟩
  · intro a hac hal
    have e1 := hgw1.nodes hlc
    have e2 := hgw1.nodes hli
    rw [Function.update_same] at e1
    rw [e1] at hac
    rw [e2] at hal
    exact hgw1.disjoint w.lists.length i (Ne.symm hne) a
      (by rw [Function.update_same]; exact hac) hal
  · intro ops w2 hno hrun
    obtain ⟨h2, he2⟩ := World.run_frame_elements hgw1 hrun hli hno
    exact ⟨h2, he2.trans hel⟩
  · intro ops w2 hno hrun
    exact World.run_frame_elements hgw1 hrun hlc hno

/-- Witness of C14: copy-constructing the list `[1]` of the store with the lists `[1]` and
`[2]`. -/
theorem C14_copy_is_independent_witness :
    twoLists.Good ∧ twoLists.lists[0]? = some ⟨some 0, some 0, 1⟩ ∧
    (⟨some 0, some 0, 1⟩ : LList Nat).size ≤ twoLists.heap.room ∧
    twoLists.copy_construct 0 = .ok twoListsCopied ∧
    ∃ w1 c, twoLists.copy_construct 0 = .ok w1 ∧ w1.lists = twoLists.lists ++ [c] ∧
      c.elements w1.heap = (⟨some 0, some 0, 1⟩ : LList Nat).elements twoLists.heap :=
  have hgood : twoLists.Good :=
    World.run_good World.init_good (rfl : World.init.run twoListsProgram = .ok twoLists)
  have hroom : (⟨some 0, some 0, 1⟩ : LList Nat).size ≤ twoLists.heap.room := by
    simp [LList.size, Heap.room, maxNodes, twoLists]
  ⟨hgood, rfl, hroom, rfl, by
    obtain ⟨w1, c, h1, h2, -, -, h3, -⟩ :=
      C14_copy_is_independent twoLists hgood 0 ⟨some 0, some 0, 1⟩ rfl hroom
    exact ⟨w1, c, h1, h2, h3⟩⟩

/-- C17: in a consistent store, the copy assignment `a = b` between two different lists
(when the heap has room for `b.size()` nodes) makes the sequence and the size of `a` those
of `b`, leaves `b` unchanged, and leaves the two lists independent: they share no node, a
later program that does not modify `b` leaves `b` unchanged and one that does not modify `a`
leaves `a` unchanged.  The self-assignment `a = a` leaves the whole store, hence `head`,
`tail`, `count` and the elements of `a`, unchanged. -/
theorem C17_copy_assignment {T : Type} (w : World T) (hw : w.Good) (i j : Nat)
    (a b : LList T) (ha : w.lists[i]? = some a) (hb : w.lists[j]? = some b)
    (hroom : b.size ≤ w.heap.room) :
    (i = j → w.assign i j = .ok w) ∧
    (i ≠ j → ∃ w1 a1, w.assign i j = .ok w1 ∧ w1.lists = w.lists.set i a1 ∧ w1.Good ∧
      a1.elements w1.heap = b.elements w.heap ∧ a1.size = b.size ∧
      w1.lists[j]? = some b ∧ b.elements w1.heap = b.elements w.heap ∧
      (∀ x, x ∈ a1.nodes w1.heap → x ∉ b.nodes w1.heap) ∧
      (∀ ops w2, (∀ op ∈ ops, op.mutates j = false) → w1.run ops = .ok w2 →
        w2.lists[j]? = some b ∧ b.elements w2.heap = b.elements w.heap) ∧
      (∀ ops w2, (∀ op ∈ ops, op.mutates i = false) → w1.run ops = .ok w2 →
        w2.lists[i]? = some a1 ∧ a1.elements w2.heap = b.elements w.heap)) := by
  constructor
  · intro hij
    subst hij
    have hilt : i < w.lists.length := by
      by_contra hlt
      rw [List.getElem?_eq_none (by omega)] at ha
      cases ha
    have hset : w.lists.set i a = w.lists := set_eq_self_of_getElem? _ _ _ ha
    simp only [World.assign, ha, LList.assign, decide_True, Bool.not_true, Bool.false_eq_true,
      if_false, bind, Except.bind, pure, Except.pure, hset]
  · intro hij
    obtain ⟨g, hgw⟩ := hw
    obtain ⟨h2, a1, ms, hasg, hgw1, hvals, hsize⟩ := World.assign_goodWith hgw ha hb hij hroom
    have hilt : i < w.lists.length := by
      by_contra hlt
      rw [List.getElem?_eq_none (by omega)] at ha
      cases ha
    have hla : (World.mk h2 (w.lists.set i a1)).lists[i]? = some a1 := by
      simp only [List.getElem?_set_self hilt]
    have hlb : (World.mk h2 (w.lists.set i a1)).lists[j]? = some b := by
      simp only [List.getElem?_set_ne hij]
      exact hb
    have hea : a1.elements h2 = b.elements w.heap := by
      have e1 := hgw1.elements hla
      rw [Function.update_same] at e1
      exact e1.trans (hvals.trans (hgw.elements hb).symm)
    have heb : b.elements h2 = b.elements w.heap := by
      have e1 := hgw1.elements hlb
      rw [Function.update_noteq (Ne.symm hij)] at e1
      exact e1.trans (hgw.elements hb).symm
    refine ⟨⟨h2, w.lists.set i a1⟩, a1, hasg, rfl, ⟨_, hgw1⟩, hea, hsize, hlb, heb, ?_, ?_, ?_⟩
    · intro x hxa hxb
      rw [hgw1.nodes hla] at hxa
      rw [hgw1.nodes hlb] at hxb
      exact hgw1.disjoint i j hij x hxa hxb
    · intro ops w2 hno hrun
      obtain ⟨h3, he3⟩ := World.run_frame_elements hgw1 hrun hlb hno
      exact ⟨h3, he3.trans heb⟩
    · intro ops w2 hno hrun
      obtain ⟨h3, he3⟩ := World.run_frame_elements hgw1 hrun hla hno
      exact ⟨h3, he3.trans hea⟩

/-- Witness of C17: in the store with the lists `[1]` and `[2]`, the second list assigned to
the first, and the first assigned to itself. -/
theorem C17_copy_assignment_witness :
    twoLists.Good ∧ twoLists.lists[0]? = some ⟨some 0, some 0, 1⟩ ∧
    twoLists.lists[1]? = some ⟨some 1, some 1, 1⟩ ∧
    (⟨some 1, some 1, 1⟩ : LList Nat).size ≤ twoLists.heap.room ∧
    twoLists.assign 0 1 = .ok twoListsAssigned ∧ twoLists.assign 0 0 = .ok twoLists ∧
    ∃ w1 a1, twoLists.assign 0 1 = .ok w1 ∧ w1.lists = twoLists.lists.set 0 a1 ∧
      a1.elements w1.heap = (⟨some 1, some 1, 1⟩ : LList Nat).elements twoLists.heap :=
  have hgood : twoLists.Good :=
    World.run_good World.init_good (rfl : World.init.run twoListsProgram = .ok twoLists)
  have hroom : (⟨some 1, some 1, 1⟩ : LList Nat).size ≤ twoLists.heap.room := by
    simp [LList.size, Heap.room, maxNodes, twoLists]
  ⟨hgood, rfl, rfl, hroom, rfl, rfl, by
    obtain ⟨w1, a1, h1, h2, -, h3, -⟩ :=
      (C17_copy_assignment twoLists hgood 0 1 ⟨some 0, some 0, 1⟩ ⟨some 1, some 1, 1⟩ rfl rfl
        hroom).2 (by decide)
    exact ⟨w1, a1, h1, h2, h3⟩⟩

/-- C19: iterator and reference stability.  In a consistent store, a statement among
list creation, `push_front`, `push_back`, `pop_front`, `pop_back`, `insert` and `erase` at
a position of the list itself, and `swap` changes neither the address nor the stored value
of any node other than the one it removes: every node of a list that is not the popped or erased node is, after the
statement, a node of one of the lists, and an iterator to it dereferences to the same
element as before. -/
theorem C19_nodes_stable {T : Type} (w : World T) (hw : w.Good) (op : Op T)
    (hop : op.isClear = false) (w1 : World T) (hstep : w.step op = .ok w1) (j : Nat)
    (l : LList T) (hl : w.lists[j]? = some l) (a : Nat) (ha : a ∈ l.nodes w.heap)
    (hne : w.removed op ≠ some a) :
    ∃ x, BiDirectionalIterator.deref w.heap ⟨some a⟩ = .ok x ∧
      BiDirectionalIterator.deref w1.heap ⟨some a⟩ = .ok x ∧
      ∃ (k : Nat) (lk : LList T), w1.lists[k]? = some lk ∧ a ∈ lk.nodes w1.heap := by
  obtain ⟨g, hgw⟩ := hw
  obtain ⟨g1, hgw1, -, hkeep⟩ := World.step_goodWith hgw hstep
  rw [hgw.nodes hl] at ha
  obtain ⟨⟨a0, x⟩, hmem, ha0⟩ := List.mem_map.mp ha
  simp only at ha0
  subst ha0
  obtain ⟨n, hgn, hdata⟩ := seg_mem_data (hgw.rep j l hl).seg hmem
  obtain ⟨k, lk, hlk, hmem1⟩ := hkeep hop j l hl a0 x hmem hne
  obtain ⟨n1, hgn1, hdata1⟩ := seg_mem_data (hgw1.rep k lk hlk).seg hmem1
  refine ⟨x, ?_, ?_, k, lk, hlk, ?_⟩
  · simp [BiDirectionalIterator.deref, Heap.read_some hgn, bind, Except.bind, pure,
      Except.pure, hdata]
  · simp [BiDirectionalIterator.deref, Heap.read_some hgn1, bind, Except.bind, pure,
      Except.pure, hdata1]
  · rw [hgw1.nodes hlk]
    exact List.mem_map.mpr ⟨(a0, x), hmem1, rfl⟩

/-- Witness of C19: `pop_back()` on the list `[2]` leaves the node of the list `[1]`. -/
theorem C19_nodes_stable_witness :
    twoLists.Good ∧ twoLists.step (.pop_back 1) = .ok twoListsPopped ∧
    twoLists.lists[0]? = some ⟨some 0, some 0, 1⟩ ∧
    0 ∈ (⟨some 0, some 0, 1⟩ : LList Nat).nodes twoLists.heap ∧
    twoLists.removed (.pop_back 1) ≠ some 0 ∧
    ∃ x, BiDirectionalIterator.deref twoLists.heap ⟨some 0⟩ = .ok x ∧
      BiDirectionalIterator.deref twoListsPopped.heap ⟨some 0⟩ = .ok x ∧
      ∃ (k : Nat) (lk : LList Nat), twoListsPopped.lists[k]? = some lk ∧
        0 ∈ lk.nodes twoListsPopped.heap :=
  have hgood : twoLists.Good :=
    World.run_good World.init_good (rfl : World.init.run twoListsProgram = .ok twoLists)
  have hmem : 0 ∈ (⟨some 0, some 0, 1⟩ : LList Nat).nodes twoLists.heap := by
    have e : (⟨some 0, some 0, 1⟩ : LList Nat).nodes twoLists.heap = [0] := rfl
    rw [e]; simp
  have hne : twoLists.removed (.pop_back 1) ≠ some 0 := by
    have e : twoLists.removed (.pop_back 1) = some 1 := rfl
    rw [e]; simp
  ⟨hgood, rfl, rfl, hmem, hne,
    C19_nodes_stable twoLists hgood (.pop_back 1) rfl twoListsPopped rfl 0 _ rfl 0 hmem hne⟩

/-- C20, evaluation of the code: in the store with the lists `[1]` (node `0`) and `[2]`
(node `1`), `insert` on the first list at the position of the node of the second list does
not fail.  It returns normally, links the new node in front of the foreign node, makes it
the `head` of the first list and counts it, so that the first list no longer satisfies the
structural invariant. -/
theorem C20_insert_foreign_position_accepted :
    1 ∉ (⟨some 0, some 0, 1⟩ : LList Nat).nodes twoLists.heap ∧
    1 ∈ (⟨some 1, some 1, 1⟩ : LList Nat).nodes twoLists.heap ∧
    LList.insert twoLists.heap ⟨some 0, some 0, 1⟩ ⟨some 1⟩ 9 =
      .ok (⟨[some ⟨1, none, none⟩, some ⟨2, some 2, none⟩, some ⟨9, none, some 1⟩]⟩,
        ⟨some 2, some 0, 2⟩, ⟨some 2⟩) ∧
    ¬ (⟨some 2, some 0, 2⟩ : LList Nat).Invariant
      ⟨[some ⟨1, none, none⟩, some ⟨2, some 2, none⟩, some ⟨9, none, some 1⟩]⟩ := by
  have e0 : (⟨some 0, some 0, 1⟩ : LList Nat).nodes twoLists.heap = [0] := rfl
  have e1 : (⟨some 1, some 1, 1⟩ : LList Nat).nodes twoLists.heap = [1] := rfl
  refine ⟨by rw [e0]; simp, by rw [e1]; simp, rfl, ?_⟩
  intro hinv
  have hl := hinv.fwd_last
  have e2 : (⟨some 2, some 0, 2⟩ : LList Nat).nodes
      ⟨[some ⟨1, none, none⟩, some ⟨2, some 2, none⟩, some ⟨9, none, some 1⟩]⟩ = [2, 1] := rfl
  rw [e2] at hl
  simp at hl

end ClaimsB

section ClaimsC

/-- C27: a push is undone by the matching pop.  On a list that satisfies the structural
invariant (the heap having room for one node), `push_back(v)` followed by `pop_back()`, and
`push_front(v)` followed by `pop_front()`, succeed and leave the list object (`head`, `tail`,
`count`), its element sequence, `size()`, `front()` and `back()` as they were, and the
invariant holds again; likewise `Stack::push` followed by `Stack::pop`, with `top()`. -/
theorem C27_push_pop_undo {T : Type} {h : Heap T} {l : LList T} (hinv : l.Invariant h)
    (hs : h.Sized) (hroom : 0 < h.room) (v : T) :
    (∃ h1 l1 h2 l2, LList.push_back h l v = .ok (h1, l1) ∧
      LList.pop_back h1 l1 = .ok (h2, l2) ∧ l2 = l ∧ l2.Invariant h2 ∧
      l2.elements h2 = l.elements h ∧ l2.size = l.size ∧
      LList.front h2 l2 = LList.front h l ∧ LList.back h2 l2 = LList.back h l) ∧
    (∃ h1 l1 h2 l2, LList.push_front h l v = .ok (h1, l1) ∧
      LList.pop_front h1 l1 = .ok (h2, l2) ∧ l2 = l ∧ l2.Invariant h2 ∧
      l2.elements h2 = l.elements h ∧ l2.size = l.size ∧
      LList.front h2 l2 = LList.front h l ∧ LList.back h2 l2 = LList.back h l) ∧
    (∃ h1 s1 h2 s2, Stack.push h l v = .ok (h1, s1) ∧ Stack.pop h1 s1 = .ok (h2, s2) ∧
      s2 = l ∧ Stack.size s2 = Stack.size l ∧ Stack.empty s2 = Stack.empty l ∧
      Stack.top h2 s2 = Stack.top h l) := by
  obtain ⟨ns, -, hrep⟩ := hinv.rep
  obtain ⟨h1, l1, h2, l2, hpush, hpop, hrep2⟩ := push_back_pop_back hrep hs hroom v
  obtain ⟨g1, m1, g2, m2, hpushf, hpopf, hrepf⟩ := push_front_pop_front hrep hs hroom v
  obtain ⟨e1, e2, e3, e4, e5, e6⟩ := hrep.same_view hrep2
  refine ⟨⟨h1, l1, h2, l2, hpush, hpop, e1, e2, e3, e4, e5, e6⟩,
    ⟨g1, m1, g2, m2, hpushf, hpopf, hrep.same_view hrepf⟩,
    ⟨h1, l1, h2, l2, hpush, hpop, e1, e4, by rw [e1], e6⟩⟩

/-- Witness of C27: the one-element list `[5]` and the value `7`. -/
theorem C27_push_pop_undo_witness :
    sampleList.Invariant sampleHeap ∧ sampleHeap.Sized ∧ 0 < sampleHeap.room ∧
    ∃ h1 l1 h2 l2, LList.push_back sampleHeap sampleList 7 = .ok (h1, l1) ∧
      LList.pop_back h1 l1 = .ok (h2, l2) ∧ l2 = sampleList ∧
      l2.elements h2 = sampleList.elements sampleHeap :=
  have hrep : ListRep sampleHeap sampleList [(0, 5)] :=
    ⟨⟨rfl, trivial⟩, by simp, rfl, rfl, rfl⟩
  have hs : sampleHeap.Sized := by simp [Heap.Sized, maxNodes, sampleHeap]
  have hroom : 0 < sampleHeap.room := by simp [Heap.room, maxNodes, sampleHeap]
  ⟨hrep.invariant, hs, hroom, by
    obtain ⟨h1, l1, h2, l2, hp, hq, he, -, hel, -⟩ :=
      (C27_push_pop_undo hrep.invariant hs hroom 7).1
    exact ⟨h1, l1, h2, l2, hp, hq, he, hel⟩⟩

/-- C24, counterexample: the line made of one tab is a whitespace-only string, and it does
not pass `containsOnlyValidChars`; the interactive round rejects it as invalid and the
evaluator is not reached. -/
theorem C24_whitespace_line_counterexample :
    (∀ c ∈ ['\t'], isspace c = true) ∧ containsOnlyValidChars ['\t'] = false ∧
    interactiveRound Heap.init Heap.init ['\t'] = .ok .invalid ∧
    ¬ (∀ s : List Char, (∀ c ∈ s, isspace c = true) → containsOnlyValidChars s = true) := by
  refine ⟨by decide, by decide, rfl, ?_⟩
  intro hall
  have := hall ['\t'] (by decide)
  revert this
  decide

/-- C24, amended: the empty string and every string of space characters pass
`containsOnlyValidChars`; `infix2postfix` maps every whitespace-only string to the empty
string; `eval_postfix` of the empty string fails with the out-of-range condition of the
empty stack; so in interactive mode an empty line or a line of spaces is not rejected as
invalid: it reaches the evaluator, and the round ends with that failure. -/
theorem C24_blank_line_reaches_evaluator (hc : Heap Char) (hi : Heap Int) :
    (∀ s : List Char, (∀ c ∈ s, c = ' ') → containsOnlyValidChars s = true) ∧
    (∀ s : List Char, (∀ c ∈ s, isspace c = true) → infix2postfix hc s = .ok []) ∧
    eval_postfix hi [] = .error .out_of_range ∧
    (∀ s : List Char, (∀ c ∈ s, c = ' ') →
      evaluate hc hi s = .error .out_of_range ∧
      interactiveRound hc hi s = .error .out_of_range) := by
  refine ⟨valid_of_spaces, infix2postfix_blank hc, eval_postfix_empty hi, ?_⟩
  intro s hs
  have hsp : ∀ c ∈ s, isspace c = true := fun c hc => by rw [hs c hc]; exact isspace_space
  have hev : evaluate hc hi s = .error .out_of_range := by
    unfold evaluate
    rw [infix2postfix_blank hc s hsp]
    exact eval_postfix_empty hi
  refine ⟨hev, ?_⟩
  have h1 : s ≠ "HELP".toList := spaces_ne_word s hs _ ⟨'H', by decide, by decide⟩
  have h2 : s ≠ "help".toList := spaces_ne_word s hs _ ⟨'h', by decide, by decide⟩
  unfold interactiveRound
  rw [if_neg (not_or.mpr ⟨h1, h2⟩), if_pos (valid_of_spaces s hs), hev]
  rfl

/-- Witness of C24: the empty line and the line of two spaces. -/
theorem C24_blank_line_reaches_evaluator_witness :
    (∀ c ∈ [' ', ' '], c = ' ') ∧ containsOnlyValidChars [' ', ' '] = true ∧
    infix2postfix Heap.init [' ', ' '] = .ok [] ∧
    interactiveRound Heap.init Heap.init [] = .error .out_of_range ∧
    interactiveRound Heap.init Heap.init [' ', ' '] = .error .out_of_range :=
  have hs : ∀ c ∈ [' ', ' '], c = ' ' := by decide
  have hc := C24_blank_line_reaches_evaluator Heap.init Heap.init
  ⟨hs, hc.1 _ hs, hc.2.1 _ (by decide), (hc.2.2.2 [] (by simp)).2, (hc.2.2.2 _ hs).2⟩

/-- C26: division and remainder in `eval_postfix` truncate.  For all `int` values `a` and
`b` with `b` not zero, `INT_MIN` with `-1` excluded: `a` and `b` can be written as literals,
and for every way of writing them `eval_postfix` of `a b /` returns the quotient `q` and
`eval_postfix` of `a b %` returns the remainder `r`, where `r = a - b * q`, `r` is smaller
than `b` in absolute value and has the sign of the dividend `a` (so that `q` is the quotient
rounded toward zero); in particular `-7 2 /` gives `-3` and `-7 2 %` gives `-1`. -/
theorem C26_division_truncates (h : Heap Int) (hs : h.Sized) (a b : Int)
    (hfa : FitsInt a) (hfb : FitsInt b) (hb : b ≠ 0) (hmin : ¬ (a = INT_MIN ∧ b = -1)) :
    (∃ la lb : Literal, la.WF ∧ lb.WF ∧ la.value = a ∧ lb.value = b) ∧
    (∀ la lb : Literal, la.WF → lb.WF → la.value = a → lb.value = b →
      (la.chars ++ ' ' :: (lb.chars ++ [' ', '/'])).length + 1 ≤ h.room →
      ∃ q r, eval_postfix h (la.chars ++ ' ' :: (lb.chars ++ [' ', '/'])) = .ok q ∧
        eval_postfix h (la.chars ++ ' ' :: (lb.chars ++ [' ', '%'])) = .ok r ∧
        q = Int.tdiv a b ∧ r = a - b * q ∧
        r.natAbs < b.natAbs ∧ (0 ≤ a → 0 ≤ r) ∧ (a ≤ 0 → r ≤ 0)) ∧
    eval_postfix Heap.init "-7 2 /".toList = .ok (-3) ∧
    eval_postfix Heap.init "-7 2 %".toList = .ok (-1) := by
  refine ⟨?_, ?_, rfl, rfl⟩
  · obtain ⟨la, hla, hva⟩ := literal_of_int a
    obtain ⟨lb, hlb, hvb⟩ := literal_of_int b
    exact ⟨la, lb, hla, hlb, hva, hvb⟩
  intro la lb hla hlb hva hvb hroom
  subst hva hvb
  have hfq : FitsInt (Int.tdiv la.value lb.value) := fits_tdiv hfa hb hmin
  have hsd : (Expr.bin .div (.lit la) (.lit lb)).Safe := ⟨⟨hla, hfa⟩, ⟨hlb, hfb⟩, hb, hfq⟩
  have hsm : (Expr.bin .mod (.lit la) (.lit lb)).Safe := ⟨⟨hla, hfa⟩, ⟨hlb, hfb⟩, hb, hfq⟩
  have hd := eval_postfix_model_binary .div (.lit la) (.lit lb) hsd
  have hm := eval_postfix_model_binary .mod (.lit la) (.lit lb) hsm
  have ed : (Expr.lit la).rpn ++ ((Expr.lit lb).rpn ++ [BinOp.div.char]) =
      la.chars ++ ' ' :: (lb.chars ++ [' ', '/']) := by
    simp [Expr.rpn, BinOp.char]
  have em : (Expr.lit la).rpn ++ ((Expr.lit lb).rpn ++ [BinOp.mod.char]) =
      la.chars ++ ' ' :: (lb.chars ++ [' ', '%']) := by
    simp [Expr.rpn, BinOp.char]
  rw [ed] at hd
  rw [em] at hm
  have hroom2 : (la.chars ++ ' ' :: (lb.chars ++ [' ', '%'])).length + 1 ≤ h.room := by
    simpa using hroom
  obtain ⟨t1, t2, t3, t4⟩ := tmod_spec la.value lb.value hb
  refine ⟨Int.tdiv la.value lb.value, Int.tmod la.value lb.value, ?_, ?_, rfl, t1, t2, t3, t4⟩
  · rw [eval_postfix_eq_model h hs _ hroom, hd]
    rfl
  · rw [eval_postfix_eq_model h hs _ hroom2, hm]
    rfl

/-- Witness of C26: the values `-7` and `2`, written `-7` and `2`. -/
theorem C26_division_truncates_witness :
    (Heap.init : Heap Int).Sized ∧ FitsInt (-7) ∧ FitsInt 2 ∧ (2 : Int) ≠ 0 ∧
    ¬ ((-7 : Int) = INT_MIN ∧ (2 : Int) = -1) ∧
    (⟨true, ['7']⟩ : Literal).WF ∧ (⟨false, ['2']⟩ : Literal).WF ∧
    (⟨true, ['7']⟩ : Literal).value = -7 ∧ (⟨false, ['2']⟩ : Literal).value = 2 ∧
    ∃ q r, eval_postfix Heap.init ((⟨true, ['7']⟩ : Literal).chars ++
        ' ' :: ((⟨false, ['2']⟩ : Literal).chars ++ [' ', '/'])) = .ok q ∧
      eval_postfix Heap.init ((⟨true, ['7']⟩ : Literal).chars ++
        ' ' :: ((⟨false, ['2']⟩ : Literal).chars ++ [' ', '%'])) = .ok r ∧
      q = Int.tdiv (-7) 2 ∧ r = -7 - 2 * q ∧ r.natAbs < (2 : Int).natAbs ∧
      (0 ≤ (-7 : Int) → 0 ≤ r) ∧ ((-7 : Int) ≤ 0 → r ≤ 0) :=
  have hs : (Heap.init : Heap Int).Sized := by simp [Heap.Sized, Heap.init]
  have hf7 : FitsInt (-7) := by simp [FitsInt, INT_MIN, INT_MAX]
  have hf2 : FitsInt 2 := by simp [FitsInt, INT_MIN, INT_MAX]
  have hmin : ¬ ((-7 : Int) = INT_MIN ∧ (2 : Int) = -1) := by simp [INT_MIN]
  have hw7 : (⟨true, ['7']⟩ : Literal).WF := ⟨by simp, by decide⟩
  have hw2 : (⟨false, ['2']⟩ : Literal).WF := ⟨by simp, by decide⟩
  have hv7 : (⟨true, ['7']⟩ : Literal).value = -7 := by
    simp [Literal.value, Nat.ofDigits]
  have hv2 : (⟨false, ['2']⟩ : Literal).value = 2 := by
    simp [Literal.value, Nat.ofDigits]
  ⟨hs, hf7, hf2, by decide, hmin, hw7, hw2, hv7, hv2,
    (C26_division_truncates Heap.init hs (-7) 2 hf7 hf2 (by decide) hmin).2.1
      ⟨true, ['7']⟩ ⟨false, ['2']⟩ hw7 hw2 hv7 hv2
      (by simp [Literal.chars, Heap.room, Heap.init, maxNodes])⟩

/-- C22: in `infix2postfix` whitespace between two runs of digits does not separate
operands.  For all digit strings `d1` and `d2`, `d1` not empty, and every whitespace string
`w` (in particular for non-empty `d2` and `w`), `infix2postfix (d1 ++ w ++ d2)` is
`d1 ++ d2` followed by one space, a single literal; in particular `1 2` converts to `12 `. -/
theorem C22_whitespace_merges_digits (h : Heap Char) (d1 w d2 : List Char)
    (h1 : d1 ≠ []) (hd1 : ∀ c ∈ d1, isdigit c = true)
    (hws : ∀ c ∈ w, isspace c = true) (hd2 : ∀ c ∈ d2, isdigit c = true) :
    infix2postfix h (d1 ++ w ++ d2) = .ok (d1 ++ d2 ++ [' ']) ∧
    infix2postfix Heap.init "1 2".toList = .ok "12 ".toList := by
  refine ⟨?_, rfl⟩
  cases d1 with
  | nil => exact absurd rfl h1
  | cons d0 ds =>
    have hd0 : isdigit d0 = true := hd1 d0 (by simp)
    have hds : ∀ c ∈ ds, isdigit c = true := fun c hc => hd1 c (by simp [hc])
    have hbody : ∀ c ∈ ds ++ w ++ d2, isdigit c = true ∨ isspace c = true := by
      intro c hc
      simp only [List.mem_append] at hc
      rcases hc with (hc | hc) | hc
      · exact Or.inl (hds c hc)
      · exact Or.inr (hws c hc)
      · exact Or.inl (hd2 c hc)
    have hrun := infix2postfix_digits_spaces h d0 (ds ++ w ++ d2) hd0 hbody
    have hfil : (ds ++ w ++ d2).filter isdigit = ds ++ d2 := by
      rw [List.filter_append, List.filter_append, filter_digits_self ds hds,
        filter_digits_spaces w hws, filter_digits_self d2 hd2, List.append_nil]
    rw [hfil] at hrun
    simpa using hrun

/-- Witness of C22: the digit strings `1` and `2` separated by a tab and a space. -/
theorem C22_whitespace_merges_digits_witness :
    ['1'] ≠ [] ∧ (∀ c ∈ ['1'], isdigit c = true) ∧ ['\t', ' '] ≠ [] ∧
    (∀ c ∈ ['\t', ' '], isspace c = true) ∧ ['2'] ≠ [] ∧ (∀ c ∈ ['2'], isdigit c = true) ∧
    infix2postfix Heap.init (['1'] ++ ['\t', ' '] ++ ['2']) = .ok (['1'] ++ ['2'] ++ [' ']) :=
  ⟨by simp, by decide, by simp, by decide, by simp, by decide,
    (C22_whitespace_merges_digits Heap.init ['1'] ['\t', ' '] ['2'] (by simp) (by decide)
      (by decide) (by decide)).1⟩

/-- C23: a `-` immediately followed by a digit is read as the sign of a literal, also
directly after an operand.  For all non-empty digit strings `a` and `b` whose values fit an
`int`, `infix2postfix (a ++ "-" ++ b)` is `a`, a space, `-`, `b`, a space, with no operator,
and `eval_postfix` of that result returns the negated value of `b` (not `a` minus `b`); in
particular `2-3` and `2 -3` evaluate to `-3`. -/
theorem C23_minus_before_digit_is_sign (hc : Heap Char) (hi : Heap Int) (hs : hi.Sized)
    (a b : List Char) (ha : a ≠ []) (hda : ∀ c ∈ a, isdigit c = true) (hb : b ≠ [])
    (hdb : ∀ c ∈ b, isdigit c = true) (hfa : (digitsValue a : Int) ≤ INT_MAX)
    (hfb : (digitsValue b : Int) ≤ INT_MAX)
    (hroom : (a ++ ' ' :: '-' :: (b ++ [' '])).length + 1 ≤ hi.room) :
    infix2postfix hc (a ++ '-' :: b) = .ok (a ++ ' ' :: '-' :: (b ++ [' '])) ∧
    eval_postfix hi (a ++ ' ' :: '-' :: (b ++ [' '])) = .ok (-(digitsValue b : Int)) ∧
    evaluate hc hi (a ++ '-' :: b) = .ok (-(digitsValue b : Int)) ∧
    evaluate Heap.init Heap.init "2-3".toList = .ok (-3) ∧
    evaluate Heap.init Heap.init "2 -3".toList = .ok (-3) := by
  have hla : (⟨false, a⟩ : Literal).WF := ⟨ha, hda⟩
  have hlb : (⟨true, b⟩ : Literal).WF := ⟨hb, hdb⟩
  have hva : (⟨false, a⟩ : Literal).value = (digitsValue a : Int) := by
    simp [Literal.value, digitsValue_eq]
  have hvb : (⟨true, b⟩ : Literal).value = -(digitsValue b : Int) := by
    simp [Literal.value, digitsValue_eq]
  have hfita : FitsInt (⟨false, a⟩ : Literal).value := by
    rw [hva]
    simp only [FitsInt, INT_MIN, INT_MAX] at hfa ⊢
    omega
  have hfitb : FitsInt (⟨true, b⟩ : Literal).value := by
    rw [hvb]
    simp only [FitsInt, INT_MIN, INT_MAX] at hfb ⊢
    omega
  have hconv := infix2postfix_operand_sign hc ⟨false, a⟩ ⟨true, b⟩ hla hlb rfl
  have hca : (⟨false, a⟩ : Literal).chars = a := by simp [Literal.chars]
  have hcb : (⟨true, b⟩ : Literal).chars = '-' :: b := by simp [Literal.chars]
  rw [hca, hcb] at hconv
  have hev := eval_postfix_model_two (.lit ⟨false, a⟩) (.lit ⟨true, b⟩) ⟨hla, hfita⟩
    ⟨hlb, hfitb⟩
  have hstr : (Expr.lit ⟨false, a⟩).rpn ++ (Expr.lit ⟨true, b⟩).rpn =
      a ++ ' ' :: '-' :: (b ++ [' ']) := by
    simp [Expr.rpn, hca, hcb]
  rw [hstr] at hev
  have hval : (Expr.lit ⟨true, b⟩).value = -(digitsValue b : Int) := hvb
  rw [hval] at hev
  have heval : eval_postfix hi (a ++ ' ' :: '-' :: (b ++ [' '])) =
      .ok (-(digitsValue b : Int)) := by
    rw [eval_postfix_eq_model hi hs _ hroom, hev]
  refine ⟨hconv, heval, ?_, rfl, rfl⟩
  unfold evaluate
  rw [hconv]
  exact heval

/-- Witness of C23: the digit strings `2` and `3`. -/
theorem C23_minus_before_digit_is_sign_witness :
    (Heap.init : Heap Int).Sized ∧ ['2'] ≠ [] ∧ (∀ c ∈ ['2'], isdigit c = true) ∧
    ['3'] ≠ [] ∧ (∀ c ∈ ['3'], isdigit c = true) ∧ (digitsValue ['2'] : Int) ≤ INT_MAX ∧
    (digitsValue ['3'] : Int) ≤ INT_MAX ∧ (digitsValue ['3'] : Int) = 3 ∧
    infix2postfix Heap.init (['2'] ++ '-' :: ['3']) =
      .ok (['2'] ++ ' ' :: '-' :: (['3'] ++ [' '])) ∧
    eval_postfix Heap.init (['2'] ++ ' ' :: '-' :: (['3'] ++ [' '])) =
      .ok (-(digitsValue ['3'] : Int)) :=
  have hs : (Heap.init : Heap Int).Sized := by simp [Heap.Sized, Heap.init]
  have h2 : (digitsValue ['2'] : Int) ≤ INT_MAX := by decide
  have h3 : (digitsValue ['3'] : Int) ≤ INT_MAX := by decide
  have hc := C23_minus_before_digit_is_sign Heap.init Heap.init hs ['2'] ['3'] (by simp)
    (by decide) (by simp) (by decide) h2 h3 (by simp [Heap.room, Heap.init, maxNodes])
  ⟨hs, by simp, by decide, by simp, by decide, h2, h3, by decide, hc.1, hc.2.1⟩

/-- Claim C25: on a heap with room for the operator stack, `infix2postfix` returns for every
line and its output never holds a `)`; when the line has only valid characters and balanced
parentheses (no prefix closes more than it opens, and the totals agree), the output holds
no `(` either. -/
theorem C25_no_parenthesis_in_output (h : Heap Char) (hs : h.Sized) (src : List Char)
    (hroom : src.length + 1 ≤ h.room) :
    ∃ out, infix2postfix h src = .ok out ∧ ')' ∉ out ∧
      (containsOnlyValidChars src = true → BalancedParens src → '(' ∉ out) := by
  rw [infix2postfix_eq_model h hs src hroom]
  exact infix2postfix_list_parens src

/-- Witness of C25: the line `(1+2)*3`, valid and balanced, on the empty heap. -/
theorem C25_no_parenthesis_in_output_witness :
    (Heap.init : Heap Char).Sized ∧
    "(1+2)*3".toList.length + 1 ≤ (Heap.init : Heap Char).room ∧
    containsOnlyValidChars "(1+2)*3".toList = true ∧ BalancedParens "(1+2)*3".toList ∧
    ∃ out, infix2postfix Heap.init "(1+2)*3".toList = .ok out ∧ ')' ∉ out ∧ '(' ∉ out :=
  have hs : (Heap.init : Heap Char).Sized := by simp [Heap.Sized, Heap.init]
  have hroom : "(1+2)*3".toList.length + 1 ≤ (Heap.init : Heap Char).room := by
    simp [Heap.room, Heap.init, maxNodes]
  have hv : containsOnlyValidChars "(1+2)*3".toList = true := by decide
  have hb : BalancedParens "(1+2)*3".toList := by
    refine ⟨fun k => ?_, by decide⟩
    rcases Nat.lt_or_ge k 7 with hk | hk
    · interval_cases k <;> decide
    · rw [List.take_of_length_le (by simpa using hk)]
      decide
  have hc := C25_no_parenthesis_in_output Heap.init hs "(1+2)*3".toList hroom
  ⟨hs, hroom, hv, hb, hc.imp fun _ ho => ⟨ho.1, ho.2.1, ho.2.2 hv hb⟩⟩

end ClaimsC
